import Mathlib

/-!
# CSI control-surface integrator: zone files, zone resolution and action dispatch

A shallow embedding of the parts of `control_surface_integrator.cpp` that decide
the stated properties of the zone-file reader, of `ActionContext`, of `Zone`, of
`ZoneManager`, of `ModifierManager` and of the initialisation of a MIDI surface.

Conventions of the embedding.

* A C++ `double` is a rational number: the functions embedded here only compare
  doubles and compute `1.0 - value`, and the values that reach them are finite
  literals of zone files and controller messages.  NaN and infinities are not
  represented.
* A C++ `int` is an `Int`.  The counters of an `ActionContext` never exceed the
  tick thresholds (themselves `int`), so no arithmetic on them overflows.
* Element access past the end of a `vector` is undefined in C++; here such an
  access makes the function return `none`.
* Calls that leave the embedded classes (`Action::Do`, `ZoneManager::WidgetMoved`,
  feedback processors) are recorded, in call order, in a list of effects.
* A `std::string` is a `String`, read through its list of characters.  A regular
  expression of the source is a matcher on character lists that accepts the same
  strings, and `getline`, `istream >> quoted` and `regex_replace` are the functions
  the C++ standard library defines, written out on character lists.
* A `std::map` whose entries are only looked up is a function; an absent key is
  `none`, or the empty list where the source reads the entry through `operator[]`.
* Zone objects live in a heap indexed by their address, and a `Zone*` is an index.
  A function that recurses over the zone graph takes a fuel argument and returns
  `none` when the fuel runs out or when it dereferences a deleted zone; the
  theorems state when a result is returned.
* What the DAW answers during a call (the clock, the value of an FX parameter, the
  mute state of a track) is an argument of the embedded function.
* A member function declared in the absent header is an argument of the function
  that calls it, or a definition marked as modelled from the specification.
* A C++ exception is represented in `LoadZoneFile`, whose `try` block catches what
  the construction of a context throws (`std::out_of_range` from `std::stoi` and
  `std::stod`): the embedding carries whether building a zone threw and ends the
  call as the handler does.  The other embedded functions describe runs in which no
  library call and no constructor throws.
-/

namespace CSI

/-! ## ActionContext -/

/-- Calls an `ActionContext` makes on its collaborators: `WidgetMoved(this)` on the
zone manager of its widget and `Do(this, value)` on its action. -/
inductive Effect where
  | widgetMoved : Effect
  | actionDo (value : ℚ) : Effect
deriving DecidableEq, Repr

/-- Data members of `ActionContext` read or written by the dispatch functions. -/
structure ActionContext where
  rangeMinimum_ : ℚ
  rangeMaximum_ : ℚ
  steppedValues_ : List ℚ
  steppedValuesIndex_ : Int
  deltaValue_ : ℚ
  acceleratedDeltaValues_ : List ℚ
  acceleratedTickValues_ : List Int
  accumulatedIncTicks_ : Int
  accumulatedDecTicks_ : Int
  isValueInverted_ : Bool
  holdDelayAmount_ : ℚ
  delayStartTime_ : ℚ
  deferredValue_ : ℚ
deriving DecidableEq, Repr

/-- What `GetSteppedValues` leaves in the reference parameters it is handed by the
constructor: the delta, the accelerated deltas, a range when a range token was
present, the stepped values and the tick thresholds. -/
structure SteppedParse where
  deltaValue : ℚ
  acceleratedDeltaValues : List ℚ
  range : Option (ℚ × ℚ)
  steppedValues : List ℚ
  acceleratedTickValues : List Int
deriving DecidableEq, Repr

/-- Element `v[i]` of a vector for a C++ `int` index; `none` outside the vector. -/
def vectorAt {α : Type} (v : List α) (i : Int) : Option α :=
  if 0 ≤ i then v.get? i.toNat else none

namespace ActionContext

/-- The range the constructor chooses from the action name (lines 1871-1872,
1946-1956). -/
def rangeForAction (actionName : String) : ℚ × ℚ :=
  let r : ℚ × ℚ := (0, 1)
  let r := if actionName = "TrackVolumeDB" ∨ actionName = "TrackSendVolumeDB"
    then (-144, 24) else r
  let r := if actionName = "TrackPanPercent" ∨ actionName = "TrackPanWidthPercent"
      ∨ actionName = "TrackPanLPercent" ∨ actionName = "TrackPanRPercent"
    then (-100, 100) else r
  r

/-- `ActionContext::ActionContext`: the member initialisations, the range chosen
from the action name, the outcome of `GetSteppedValues`, and the default tick
threshold of 10 when no threshold was parsed. -/
def construct (actionName : String) (p : SteppedParse) : ActionContext :=
  let r := (p.range).getD (rangeForAction actionName)
  { rangeMinimum_ := r.1
    rangeMaximum_ := r.2
    steppedValues_ := p.steppedValues
    steppedValuesIndex_ := 0
    deltaValue_ := p.deltaValue
    acceleratedDeltaValues_ := p.acceleratedDeltaValues
    acceleratedTickValues_ :=
      if p.acceleratedTickValues.length < 1 then p.acceleratedTickValues ++ [10]
      else p.acceleratedTickValues
    accumulatedIncTicks_ := 0
    accumulatedDecTicks_ := 0
    isValueInverted_ := false
    holdDelayAmount_ := 0
    delayStartTime_ := 0
    deferredValue_ := 0 }

/-- `ActionContext::DoRangeBoundAction`: clamp from above, clamp from below, invert,
tell the zone manager, call the action. -/
def DoRangeBoundAction (c : ActionContext) (value : ℚ) : List Effect :=
  let value := if value > c.rangeMaximum_ then c.rangeMaximum_ else value
  let value := if value < c.rangeMinimum_ then c.rangeMinimum_ else value
  let value := if c.isValueInverted_ then 1 - value else value
  [Effect.widgetMoved, Effect.actionDo value]

/-- The index update shared by `DoAction` and `RunDeferredActions` (lines 2136-2142
and 2033-2039): wrap from the last index only if the first value is lower. -/
def advanceSteppedIndex (c : ActionContext) : Option ActionContext :=
  if c.steppedValuesIndex_ = (c.steppedValues_.length : Int) - 1 then do
    let first ← vectorAt c.steppedValues_ 0
    let current ← vectorAt c.steppedValues_ c.steppedValuesIndex_
    if first < current then
      some { c with steppedValuesIndex_ := 0 }
    else
      some c
  else
    some { c with steppedValuesIndex_ := c.steppedValuesIndex_ + 1 }

/-- The call `DoRangeBoundAction(steppedValues_[steppedValuesIndex_])`. -/
def doCurrentSteppedValue (c : ActionContext) : Option (ActionContext × List Effect) := do
  let v ← vectorAt c.steppedValues_ c.steppedValuesIndex_
  some (c, c.DoRangeBoundAction v)

/-- `ActionContext::DoAction(value)`; `now` is what
`DAW::GetCurrentNumberOfMilliseconds()` returns during the call. -/
def DoAction (c : ActionContext) (value : ℚ) (now : ℚ) :
    Option (ActionContext × List Effect) :=
  if c.holdDelayAmount_ ≠ 0 then
    if value = 0 then
      some ({ c with deferredValue_ := 0, delayStartTime_ := 0 }, [])
    else
      some ({ c with deferredValue_ := value, delayStartTime_ := now }, [])
  else
    if c.steppedValues_.length > 0 then
      if value ≠ 0 then do
        let c ← c.advanceSteppedIndex
        c.doCurrentSteppedValue
      else
        some (c, [])
    else
      some (c, c.DoRangeBoundAction value)

/-- `ActionContext::RunDeferredActions`; `now` is the clock value read by the call. -/
def RunDeferredActions (c : ActionContext) (now : ℚ) :
    Option (ActionContext × List Effect) :=
  if c.holdDelayAmount_ ≠ 0 ∧ c.delayStartTime_ ≠ 0
      ∧ now > c.delayStartTime_ + c.holdDelayAmount_ then do
    let (c, effects) ←
      if c.steppedValues_.length > 0 then
        if c.deferredValue_ ≠ 0 then do
          let c ← c.advanceSteppedIndex
          c.doCurrentSteppedValue
        else
          some (c, [])
      else
        some (c, c.DoRangeBoundAction c.deferredValue_)
    some ({ c with delayStartTime_ := 0, deferredValue_ := 0 }, effects)
  else
    some (c, [])

/-- `ActionContext::DoSteppedValueAction`. -/
def DoSteppedValueAction (c : ActionContext) (delta : ℚ) :
    Option (ActionContext × List Effect) :=
  if delta > 0 then
    let i := c.steppedValuesIndex_ + 1
    let i := if i > (c.steppedValues_.length : Int) - 1
      then (c.steppedValues_.length : Int) - 1 else i
    doCurrentSteppedValue { c with steppedValuesIndex_ := i }
  else
    let i := c.steppedValuesIndex_ - 1
    let i := if i < 0 then 0 else i
    doCurrentSteppedValue { c with steppedValuesIndex_ := i }

/-- `ActionContext::DoAcceleratedSteppedValueAction`. -/
def DoAcceleratedSteppedValueAction (c : ActionContext) (accelerationIndex : Int)
    (delta : ℚ) : Option (ActionContext × List Effect) := do
  let c : ActionContext :=
    if delta > 0 then
      { c with
        accumulatedIncTicks_ := c.accumulatedIncTicks_ + 1
        accumulatedDecTicks_ :=
          if c.accumulatedDecTicks_ - 1 < 0 then 0 else c.accumulatedDecTicks_ - 1 }
    else if delta < 0 then
      { c with
        accumulatedDecTicks_ := c.accumulatedDecTicks_ + 1
        accumulatedIncTicks_ :=
          if c.accumulatedIncTicks_ - 1 < 0 then 0 else c.accumulatedIncTicks_ - 1 }
    else c
  let accelerationIndex :=
    if accelerationIndex > (c.acceleratedTickValues_.length : Int) - 1
    then (c.acceleratedTickValues_.length : Int) - 1 else accelerationIndex
  let accelerationIndex := if accelerationIndex < 0 then 0 else accelerationIndex
  if delta > 0 then do
    let threshold ← vectorAt c.acceleratedTickValues_ accelerationIndex
    if c.accumulatedIncTicks_ ≥ threshold then
      let i := c.steppedValuesIndex_ + 1
      let i := if i > (c.steppedValues_.length : Int) - 1
        then (c.steppedValues_.length : Int) - 1 else i
      doCurrentSteppedValue
        { c with accumulatedIncTicks_ := 0, accumulatedDecTicks_ := 0,
                 steppedValuesIndex_ := i }
    else
      some (c, [])
  else if delta < 0 then do
    let threshold ← vectorAt c.acceleratedTickValues_ accelerationIndex
    if c.accumulatedDecTicks_ ≥ threshold then
      let i := c.steppedValuesIndex_ - 1
      let i := if i < 0 then 0 else i
      doCurrentSteppedValue
        { c with accumulatedIncTicks_ := 0, accumulatedDecTicks_ := 0,
                 steppedValuesIndex_ := i }
    else
      some (c, [])
  else
    some (c, [])

/-- `ActionContext::DoAcceleratedDeltaValueAction`; `current` is what
`action_->GetCurrentNormalizedValue(this)` returns. -/
def DoAcceleratedDeltaValueAction (c : ActionContext) (accelerationIndex : Int)
    (delta : ℚ) (current : ℚ) : Option (ActionContext × List Effect) := do
  let accelerationIndex :=
    if accelerationIndex > (c.acceleratedDeltaValues_.length : Int) - 1
    then (c.acceleratedDeltaValues_.length : Int) - 1 else accelerationIndex
  let accelerationIndex := if accelerationIndex < 0 then 0 else accelerationIndex
  let d ← vectorAt c.acceleratedDeltaValues_ accelerationIndex
  if delta > 0 then
    some (c, c.DoRangeBoundAction (current + d))
  else
    some (c, c.DoRangeBoundAction (current - d))

/-- `ActionContext::DoRelativeAction(double delta)`. -/
def DoRelativeAction (c : ActionContext) (delta : ℚ) (current : ℚ) :
    Option (ActionContext × List Effect) :=
  if c.steppedValues_.length > 0 then
    c.DoSteppedValueAction delta
  else
    some (c, c.DoRangeBoundAction
      (current + (if c.deltaValue_ ≠ 0
        then (if delta > 0 then c.deltaValue_ else -c.deltaValue_) else delta)))

/-- `ActionContext::DoRelativeAction(int accelerationIndex, double delta)`. -/
def DoRelativeActionAccelerated (c : ActionContext) (accelerationIndex : Int)
    (delta : ℚ) (current : ℚ) : Option (ActionContext × List Effect) :=
  if c.steppedValues_.length > 0 then
    c.DoAcceleratedSteppedValueAction accelerationIndex delta
  else if c.acceleratedDeltaValues_.length > 0 then
    c.DoAcceleratedDeltaValueAction accelerationIndex delta current
  else
    some (c, c.DoRangeBoundAction
      (current + (if c.deltaValue_ ≠ 0
        then (if delta > 0 then c.deltaValue_ else -c.deltaValue_) else delta)))

/-- The stepped index after a press as the specification words it: one further
when the index is not the last one; from the last index back to 0 when the first
table value is less than the last one, and no move otherwise. -/
def steppedIndexAfterPress (c : ActionContext) : Int :=
  if c.steppedValuesIndex_ ≠ (c.steppedValues_.length : Int) - 1 then
    c.steppedValuesIndex_ + 1
  else if c.steppedValues_.head?.getD 0 < c.steppedValues_.getLast?.getD 0 then 0
  else c.steppedValuesIndex_

/-- The context after `n` consecutive calls `DoAction(1.0)`. -/
def pressTimes : Nat → ActionContext → Option ActionContext
  | 0, c => some c
  | n + 1, c => do
    let c ← pressTimes n c
    let r ← c.DoAction 1 0
    some r.1

/-- A context built by the constructor for the stepped values `[0.0, 0.5, 1.0]`. -/
def risingSteps : ActionContext :=
  construct "FXParam" ⟨0, [], none, [0, 1/2, 1], []⟩

/-- A context built by the constructor for the stepped values `[1.0, 0.5, 0.0]`. -/
def fallingSteps : ActionContext :=
  construct "FXParam" ⟨0, [], none, [1, 1/2, 0], []⟩

/-- A context built by the constructor for the action `TrackVolumeDB`, range
`[-144, 24]`, on which `SetIsValueInverted` has then been called. -/
def volumeDBInverted : ActionContext :=
  { construct "TrackVolumeDB" ⟨0, [], none, [], []⟩ with isValueInverted_ := true }

/-- The invariant stated for a stepped context: the stepped index lies inside the
table and neither tick counter is negative. -/
def SteppedInvariant (c : ActionContext) : Prop :=
  0 ≤ c.steppedValuesIndex_ ∧ c.steppedValuesIndex_ ≤ (c.steppedValues_.length : Int) - 1
    ∧ 0 ≤ c.accumulatedIncTicks_ ∧ 0 ≤ c.accumulatedDecTicks_

/-- An acceleration index brought into the bounds of a table of `size` entries, as
the specification words it. -/
def clampedAccelerationIndex (size : Nat) (accelerationIndex : Int) : Int :=
  max 0 (min accelerationIndex ((size : Int) - 1))

/-- A run of consecutive calls `DoRelativeAction(accelerationIndex, delta)`, one for
each entry of `deltas`: call by call, the context after the call and the effects
of the call. -/
def turnRun (accelerationIndex : Int) :
    List ℚ → ActionContext → Option (List (ActionContext × List Effect))
  | [], _ => some []
  | delta :: deltas, c => do
    let r ← c.DoRelativeActionAccelerated accelerationIndex delta 0
    let rest ← turnRun accelerationIndex deltas r.1
    some (r :: rest)

/-- A context built by the constructor for the stepped values `[0.0, 0.5, 1.0]` and
the tick thresholds `[3, 1]`. -/
def threeTickSteps : ActionContext :=
  construct "FXParam" ⟨0, [], none, [0, 1/2, 1], [3, 1]⟩

end ActionContext

/-! ## Widgets, surfaces and the bindings of a zone -/

/-- The members of `Widget` the zone code reads: its name and channel number. -/
structure Widget where
  name : String
  channelNumber : Int
deriving DecidableEq, Repr

/-- What the zone code asks the `ControlSurface` of a widget: the sorted
modifier-combination list (`GetModifiers`) and the touch and toggle state of a
channel (`GetIsChannelTouched`, `GetIsChannelToggled`). -/
structure Surface where
  modifiers : List Int
  isChannelTouched : Int → Bool
  isChannelToggled : Int → Bool

/-- An `ActionContext*`: the identity of a context object. -/
abbrev ActionContextId := Nat

/-- A `Zone*`: the address of a zone object. -/
abbrev ZoneId := Nat

/-- Calls the zone code makes on widgets, action contexts, the page and the surface,
in call order. `configureModifier w m` is `w->Configure(GetActionContexts(w, m))`,
whose two-argument overload is declared outside this source file. -/
inductive ZoneEffect where
  | configure (widget : Widget) (contexts : List ActionContextId)
  | configureModifier (widget : Widget) (modifier : Int)
  | doAction (context : ActionContextId) (value : ℚ)
  | updateWidgetValue (context : ActionContextId) (value : ℚ)
  | updateWidgetText (context : ActionContextId) (text : String)
  | pageMode (zoneName : String) (activated : Bool)
  | sendOSCMessage (zoneName : String)
deriving DecidableEq, Repr

/-- Data members of `Zone`.  A `std::map` whose entries are only looked up is a
function into `Option`; the two maps of zone groups, which are iterated, are lists
of entries in key order. -/
structure Zone where
  zoneManager_ : Nat
  name_ : String
  isActive_ : Bool
  gcState_ : Bool
  widgets_ : List Widget
  actionContextDictionary_ : Widget → Option (Int → Option (List ActionContextId))
  currentActionContextModifiers_ : Widget → Option Int
  includedZones_ : List ZoneId
  subZones_ : List (String × List ZoneId)
  associatedZones_ : List (String × List ZoneId)

/-- Modelled from the spec: the member `defaultContexts_` is declared in the absent
header and written by no function of the source; the specification calls it the
empty default binding set. -/
def defaultContexts_ : List ActionContextId := []

namespace Zone

/-- The zones visited by `for (auto [key, zones] : associatedZones_) for (i ...)`. -/
def associatedZoneList (z : Zone) : List ZoneId :=
  (z.associatedZones_.map Prod.snd).flatten

/-- The zones visited by `for (auto [key, zones] : subZones_) for (i ...)`. -/
def subZoneList (z : Zone) : List ZoneId :=
  (z.subZones_.map Prod.snd).flatten

/-- The expression `actionContextDictionary_[widget]`: `operator[]` of `std::map`
adds an empty inner map for a widget that has none. -/
def dictionaryEntry (z : Zone) (widget : Widget) :
    Zone × (Int → Option (List ActionContextId)) :=
  match z.actionContextDictionary_ widget with
  | some d => (z, d)
  | none =>
    ({ z with actionContextDictionary_ :=
        Function.update z.actionContextDictionary_ widget (some fun _ => none) },
     fun _ => none)

/-- The loop of `Zone::UpdateCurrentActionContextModifier` over the modifier list. -/
def updateModifierLoop (widget : Widget) : List Int → Zone → Zone
  | [], z => z
  | m :: mods, z =>
    let (z, d) := z.dictionaryEntry widget
    if (d m).isSome then
      { z with currentActionContextModifiers_ :=
          Function.update z.currentActionContextModifiers_ widget (some m) }
    else
      updateModifierLoop widget mods z

/-- `Zone::UpdateCurrentActionContextModifier(widget)`. -/
def UpdateCurrentActionContextModifier (z : Zone) (s : Surface) (widget : Widget) : Zone :=
  updateModifierLoop widget s.modifiers z

/-- `Zone::GetActionContexts(widget)`: the zone, whose cached modifier the call may
have set, and the list the returned reference designates. -/
def GetActionContexts (z : Zone) (s : Surface) (widget : Widget) :
    Zone × List ActionContextId :=
  let z := if (z.currentActionContextModifiers_ widget).isNone
    then z.UpdateCurrentActionContextModifier s widget else z
  let isTouched := s.isChannelTouched widget.channelNumber
  let isToggled := s.isChannelToggled widget.channelNumber
  match z.currentActionContextModifiers_ widget, z.actionContextDictionary_ widget with
  | some modifier, some d =>
    if isTouched ∧ isToggled ∧ (d (modifier + 3)).isSome then
      (z, (d (modifier + 3)).getD [])
    else if isTouched ∧ (d (modifier + 1)).isSome then
      (z, (d (modifier + 1)).getD [])
    else if isToggled ∧ (d (modifier + 2)).isSome then
      (z, (d (modifier + 2)).getD [])
    else if (d modifier).isSome then
      (z, (d modifier).getD [])
    else
      (z, defaultContexts_)
  | _, _ => (z, defaultContexts_)

/-- Whether `actionContextDictionary_` of the zone holds a binding list for the
widget under the modifier. -/
def hasBinding (z : Zone) (widget : Widget) (modifier : Int) : Bool :=
  match z.actionContextDictionary_ widget with
  | some d => (d modifier).isSome
  | none => false

/-- The binding chosen for a widget with cached modifier `m` as the specification
words it: the first of `m + 3` (channel touched and toggled), `m + 1` (touched),
`m + 2` (toggled) and `m` whose condition holds and whose key exists, and the empty
default list when there is none. -/
def preferredBinding (d : Int → Option (List ActionContextId)) (m : Int)
    (isTouched isToggled : Bool) : List ActionContextId :=
  let candidates : List (Bool × Int) :=
    [(isTouched && isToggled, m + 3), (isTouched, m + 1), (isToggled, m + 2), (true, m)]
  match candidates.find? (fun c => c.1 && (d c.2).isSome) with
  | some c => (d c.2).getD []
  | none => []

end Zone

/-! ## The zone graph -/

/-- The zone objects allocated so far, by address; a deleted zone leaves `none`. -/
abbrev ZoneHeap := List (Option Zone)

/-- The zone behind a pointer; `none` when the pointer designates no live zone (a
dereference that is undefined in C++). -/
def ZoneHeap.zoneAt (h : ZoneHeap) (id : ZoneId) : Option Zone :=
  h[id]?.join

/-- Write the members of the zone at an address. -/
def ZoneHeap.store (h : ZoneHeap) (id : ZoneId) (z : Zone) : ZoneHeap :=
  h.set id (some z)

/-- The effect of `delete zone` on the zone objects: the object at the address is
gone.  The destructor of `Zone` is declared outside this source file and is taken
to delete no other zone. -/
def ZoneHeap.free (h : ZoneHeap) (id : ZoneId) : ZoneHeap :=
  h.set id none

/-- The zone objects together with the calls made so far on collaborators. -/
structure World where
  zones : ZoneHeap
  log : List ZoneEffect

/-- A loop `for (i ...) zones.Get(i)->f()` over a list of zone pointers. -/
def forEachZone (f : ZoneId → World → Option World) : List ZoneId → World → Option World
  | [], w => some w
  | id :: ids, w => do
    let w ← f id w
    forEachZone f ids w

namespace Zone

/-- The zones a zone points to, in the order `GCTagZone` follows them. -/
def childList (z : Zone) : List ZoneId :=
  z.associatedZoneList ++ z.subZoneList ++ z.includedZones_

/-- The body of the widget loop of `Zone::UpdateCurrentActionContextModifiers`; the
expression `currentActionContextModifiers_[widget]` adds the entry 0 for a widget
that has none. -/
def updateWidgetModifier (s : Surface) (acc : Zone × List ZoneEffect) (widget : Widget) :
    Zone × List ZoneEffect :=
  let z := acc.1.UpdateCurrentActionContextModifier s widget
  let m := (z.currentActionContextModifiers_ widget).getD 0
  let cache := Function.update z.currentActionContextModifiers_ widget (some m)
  ({ z with currentActionContextModifiers_ := cache },
   acc.2 ++ [ZoneEffect.configureModifier widget m])

/-- `Zone::UpdateCurrentActionContextModifiers()` on the zone at `id`; `none` when
the recursion is deeper than `fuel` or meets a deleted zone. -/
def UpdateCurrentActionContextModifiers (s : Surface) :
    Nat → ZoneId → World → Option World
  | 0, _, _ => none
  | fuel + 1, id, w => do
    let z ← w.zones.zoneAt id
    let r := z.widgets_.foldl (updateWidgetModifier s) (z, w.log)
    let w : World := { zones := w.zones.store id r.1, log := r.2 }
    let w ← forEachZone (UpdateCurrentActionContextModifiers s fuel) z.includedZones_ w
    let w ← forEachZone (UpdateCurrentActionContextModifiers s fuel) z.subZoneList w
    forEachZone (UpdateCurrentActionContextModifiers s fuel) z.associatedZoneList w

/-- The calls `VCAModeActivated()`, `FolderModeActivated()` and
`SelectedTracksModeActivated()` on the page, and their `Deactivated` twins. -/
def pageModeEffects (name : String) (activated : Bool) : List ZoneEffect :=
  if name = "VCA" ∨ name = "Folder" ∨ name = "SelectedTracks"
  then [ZoneEffect.pageMode name activated] else []

/-- The body of the widget loop of `Zone::Deactivate`. -/
def deactivateWidget (s : Surface) (acc : Zone × List ZoneEffect) (widget : Widget) :
    Zone × List ZoneEffect :=
  let r := acc.1.GetActionContexts s widget
  (r.1, acc.2 ++ (r.2.map fun c =>
    [ZoneEffect.updateWidgetValue c 0, ZoneEffect.updateWidgetText c ""]
      ++ (if widget.name = "OnZoneDeactivation" then [ZoneEffect.doAction c 1] else [])).flatten)

/-- `Zone::Deactivate()` on the zone at `id`. -/
def Deactivate (s : Surface) : Nat → ZoneId → World → Option World
  | 0, _, _ => none
  | fuel + 1, id, w => do
    let z ← w.zones.zoneAt id
    let r := z.widgets_.foldl (deactivateWidget s) (z, w.log)
    let z' : Zone := { r.1 with isActive_ := false }
    let w : World :=
      { zones := w.zones.store id z', log := r.2 ++ pageModeEffects z.name_ false }
    let w ← forEachZone (Deactivate s fuel) z.includedZones_ w
    let w ← forEachZone (Deactivate s fuel) z.associatedZoneList w
    forEachZone (Deactivate s fuel) z.subZoneList w

/-- The body of the widget loop of `Zone::Activate`. -/
def activateWidget (s : Surface) (acc : Zone × List ZoneEffect) (widget : Widget) :
    Zone × List ZoneEffect :=
  let r := acc.1.GetActionContexts s widget
  (r.1, acc.2
    ++ (if widget.name = "OnZoneActivation"
        then r.2.map fun c => ZoneEffect.doAction c 1 else [])
    ++ [ZoneEffect.configure widget r.2])

/-- `Zone::Activate()` on the zone at `id`. -/
def Activate (s : Surface) : Nat → ZoneId → World → Option World
  | 0, _, _ => none
  | fuel + 1, id, w => do
    let w ← UpdateCurrentActionContextModifiers s (fuel + 1) id w
    let z ← w.zones.zoneAt id
    let r := z.widgets_.foldl (activateWidget s) (z, w.log)
    let z' : Zone := { r.1 with isActive_ := true }
    let w : World :=
      { zones := w.zones.store id z'
        log := r.2 ++ pageModeEffects z.name_ true ++ [ZoneEffect.sendOSCMessage z.name_] }
    let w ← forEachZone (Deactivate s fuel) z.associatedZoneList w
    let w ← forEachZone (Deactivate s fuel) z.subZoneList w
    forEachZone (Activate s fuel) z.includedZones_ w

/-- `Zone::GCTagZone(zone)`; `none` when the recursion is deeper than `fuel` or
meets a deleted zone. -/
def GCTagZone : Nat → Option ZoneId → ZoneHeap → Option ZoneHeap
  | _, none, h => some h
  | 0, some _, _ => none
  | fuel + 1, some id, h => do
    let z ← h.zoneAt id
    if z.gcState_ then
      some h
    else do
      let h := h.store id { z with gcState_ := true }
      let h ← z.associatedZoneList.foldlM (fun h c => GCTagZone fuel (some c) h) h
      let h ← z.subZoneList.foldlM (fun h c => GCTagZone fuel (some c) h) h
      z.includedZones_.foldlM (fun h c => GCTagZone fuel (some c) h) h

end Zone

/-! ## ZoneManager -/

/-- Data members of `ZoneManager` used by the garbage collector; `self` is the
identity of the manager (`this`). -/
structure ZoneManager where
  self : Nat
  needGarbageCollect_ : Bool
  allZonesNeedFree_ : List ZoneId
  noMapZone_ : Option ZoneId
  homeZone_ : Option ZoneId
  fxLayout_ : Option ZoneId
  focusedFXParamZone_ : Option ZoneId
  focusedFXZones_ : List ZoneId
  selectedTrackFXZones_ : List ZoneId
  fxSlotZones_ : List ZoneId
deriving DecidableEq, Repr

namespace ZoneManager

/-- The first loop of `GarbageCollectZones` (lines 632-643): entries owned by another
manager leave the list, the others have their mark cleared. -/
def clearMarks (self : Nat) : List ZoneId → ZoneHeap → Option (List ZoneId × ZoneHeap)
  | [], h => some ([], h)
  | id :: ids, h => do
    let z ← h.zoneAt id
    if z.zoneManager_ ≠ self then
      clearMarks self ids h
    else do
      let r ← clearMarks self ids (h.store id { z with gcState_ := false })
      some (id :: r.1, r.2)

/-- The pointers `GarbageCollectZones` tags from, in the order of lines 645-655. -/
def gcRoots (m : ZoneManager) : List (Option ZoneId) :=
  [m.noMapZone_, m.homeZone_, m.fxLayout_, m.focusedFXParamZone_]
    ++ m.focusedFXZones_.map some ++ m.selectedTrackFXZones_.map some
    ++ m.fxSlotZones_.map some

/-- The last loop of `GarbageCollectZones` (lines 657-668), which runs from the last
entry of the list to the first. -/
def sweep (self : Nat) : List ZoneId → ZoneHeap → Option (List ZoneId × ZoneHeap)
  | [], h => some ([], h)
  | id :: ids, h => do
    let r ← sweep self ids h
    let z ← r.2.zoneAt id
    if z.zoneManager_ ≠ self then
      some (r.1, r.2)
    else if z.gcState_ = false then
      some (r.1, r.2.free id)
    else
      some (id :: r.1, r.2)

/-- `ZoneManager::GarbageCollectZones()`.  The recursion of `GCTagZone` marks a zone
before it descends, so it is never deeper than the number of zone objects. -/
def GarbageCollectZones (m : ZoneManager) (h : ZoneHeap) : Option (ZoneManager × ZoneHeap) :=
  if m.needGarbageCollect_ = false then
    some (m, h)
  else do
    let r ← clearMarks m.self m.allZonesNeedFree_ h
    let h ← m.gcRoots.foldlM (fun h root => Zone.GCTagZone (h.length + 1) root h) r.2
    let r ← sweep m.self r.1 h
    some ({ m with needGarbageCollect_ := false, allZonesNeedFree_ := r.1 }, r.2)

end ZoneManager

/-! ## Reachability in the zone graph -/

/-- A zone with its mark cleared; two zones that differ in the mark only have the
same image. -/
def Zone.clearMark (z : Zone) : Zone := { z with gcState_ := false }

namespace ZoneHeap

/-- Whether the pointer designates a zone that has not been deleted. -/
def isLive (h : ZoneHeap) (id : ZoneId) : Bool := (h.zoneAt id).isSome

/-- The member `gcState_` of the zone behind the pointer. -/
def isMarked (h : ZoneHeap) (id : ZoneId) : Bool :=
  match h.zoneAt id with
  | some z => z.gcState_
  | none => false

/-- The associated, sub- and included zones of the zone behind the pointer. -/
def children (h : ZoneHeap) (id : ZoneId) : List ZoneId :=
  match h.zoneAt id with
  | some z => z.childList
  | none => []

/-- Zone `b` is zone `a` or can be reached from it through associated-zone,
sub-zone and included-zone pointers. -/
def Reaches (h : ZoneHeap) (a b : ZoneId) : Prop :=
  Relation.ReflTransGen (fun x y => y ∈ h.children x) a b

/-- The number of live zones whose mark is not set. -/
def unmarkedCount (h : ZoneHeap) : Nat :=
  ((Finset.range h.length).filter
    (fun id => h.isLive id = true ∧ h.isMarked id = false)).card

/-- Two heaps hold the same zones at the same addresses, marks apart. -/
def SameUpToMarks (h h' : ZoneHeap) : Prop :=
  h'.length = h.length ∧
    ∀ id, (h'.zoneAt id).map Zone.clearMark = (h.zoneAt id).map Zone.clearMark

end ZoneHeap

/-- Zone `id` can be reached from one of the pointers `GarbageCollectZones` tags
from. -/
def ZoneManager.Reachable (m : ZoneManager) (h : ZoneHeap) (id : ZoneId) : Prop :=
  ∃ r, some r ∈ m.gcRoots ∧ h.Reaches r id

/-- The relation between the heap before and after a run of `GCTagZone` calls
started from the zones in `src`: only marks were written, no mark was cleared,
and every zone whose mark was set by the run can be reached from a zone in `src`
and has all its children marked at the end. -/
def ZoneHeap.TaggedFrom (h h' : ZoneHeap) (src : ZoneId → Prop) : Prop :=
  ZoneHeap.SameUpToMarks h h' ∧
  (∀ n, h.isMarked n = true → h'.isMarked n = true) ∧
  (∀ n, h'.isMarked n = true → h.isMarked n = false →
    (∃ r, src r ∧ h.Reaches r n) ∧ ∀ c ∈ h.children n, h'.isMarked c = true)

/-- The pointer designates a live zone whose owning manager is `self`. -/
def ZoneHeap.ownedBy (h : ZoneHeap) (self : Nat) (id : ZoneId) : Prop :=
  ∃ z, h.zoneAt id = some z ∧ z.zoneManager_ = self

/-! ## Activation state of the zone graph -/

/-- A zone with its bindings and cached modifiers blanked; two zones that differ in
those two maps only have the same image. -/
def Zone.withoutBindings (z : Zone) : Zone :=
  { z with actionContextDictionary_ := fun _ => none
           currentActionContextModifiers_ := fun _ => none }

/-- The three zone lists of a zone. -/
def Zone.links (z : Zone) :
    List ZoneId × List (String × List ZoneId) × List (String × List ZoneId) :=
  (z.includedZones_, z.subZones_, z.associatedZones_)

namespace ZoneHeap

/-- The member `isActive_` of the zone behind the pointer. -/
def isActive (h : ZoneHeap) (id : ZoneId) : Bool :=
  match h.zoneAt id with
  | some z => z.isActive_
  | none => false

/-- Two heaps hold zones with the same zone lists at the same addresses. -/
def SameLinks (h h' : ZoneHeap) : Prop :=
  h'.length = h.length ∧ ∀ id, (h'.zoneAt id).map Zone.links = (h.zoneAt id).map Zone.links

/-- The state `Zone::Activate()` is said to establish at a zone: the zone is active,
every included zone is in that state again, and every zone of an associated-zone or
sub-zone group is inactive together with everything reachable from it. -/
inductive ActivatedTree (h : ZoneHeap) : ZoneId → Prop where
  | intro (id : ZoneId) (z : Zone) :
    h.zoneAt id = some z → z.isActive_ = true →
    (∀ c ∈ z.includedZones_, ActivatedTree h c) →
    (∀ c ∈ z.associatedZoneList ++ z.subZoneList, ∀ n, h.Reaches c n → h.isActive n = false) →
    ActivatedTree h id

/-- The zones reachable from `root` form a tree: every pointer designates a live
zone, no chain of pointers returns to its start (`rank` ranks every zone below the
zone that points to it), no zone occurs twice in the lists of one zone, and no
zone occurs in the lists of two zones. -/
def IsTreeFrom (h : ZoneHeap) (rank : ZoneId → Nat) (root : ZoneId) : Prop :=
  (∀ n, h.Reaches root n → h.isLive n = true) ∧
  (∀ a c, h.Reaches root a → c ∈ h.children a → rank c < rank a) ∧
  (∀ a, h.Reaches root a → (h.children a).Nodup) ∧
  (∀ a b c, h.Reaches root a → h.Reaches root b →
    c ∈ h.children a → c ∈ h.children b → a = b)

end ZoneHeap

/-- Below `id` every pointer designates a live zone and `rank` falls along every
pointer. -/
def ZoneHeap.Descends (h : ZoneHeap) (rank : ZoneId → Nat) (id : ZoneId) : Prop :=
  (∀ n, h.Reaches id n → h.isLive n = true) ∧
  (∀ a c, h.Reaches id a → c ∈ h.children a → rank c < rank a)

/-- Below `id` the graph descends along `rank` and the zones reachable from two
different entries of the lists of one zone are different zones. -/
def ZoneHeap.TreeBelow (h : ZoneHeap) (rank : ZoneId → Nat) (id : ZoneId) : Prop :=
  h.Descends rank id ∧
  ∀ a, h.Reaches id a →
    (h.children a).Pairwise (fun c1 c2 => ∀ n, h.Reaches c1 n → ¬ h.Reaches c2 n)

/-! ## Example objects -/

/-- The widget `Fader1` on channel 1. -/
def fader1 : Widget := ⟨"Fader1", 1⟩

/-- The context built for the binding `Fader1 TrackVolume`. -/
def trackVolumeContext : ActionContextId := 1

/-- The context built for the binding `Shift+Fader1 TrackVolumeDB`. -/
def trackVolumeDBContext : ActionContextId := 2

/-- The context built for a binding `Touch+Fader1 ...`. -/
def touchContext : ActionContextId := 3

/-- A surface with the given modifier-combination list on which every channel has
the given touch and toggle state. -/
def surfaceWith (modifiers : List Int) (touched toggled : Bool) : Surface :=
  ⟨modifiers, fun _ => touched, fun _ => toggled⟩

/-- A Home zone as `LoadZoneFile` builds it from the lines `Fader1 TrackVolume` and
`Shift+Fader1 TrackVolumeDB`, `shift` being the bit of Shift; no modifier has been
cached yet. -/
def homeZoneExample (shift : Int) : Zone :=
  { zoneManager_ := 0
    name_ := "Home"
    isActive_ := true
    gcState_ := false
    widgets_ := [fader1]
    actionContextDictionary_ := fun w =>
      if w = fader1 then
        some fun m =>
          if m = 0 then some [trackVolumeContext]
          else if m = shift then some [trackVolumeDBContext]
          else none
      else none
    currentActionContextModifiers_ := fun _ => none
    includedZones_ := []
    subZones_ := []
    associatedZones_ := [] }

/-- A zone that binds `Fader1` under the modifiers 0 and 0 + 1 (touch) and has
cached the modifier 0 for it. -/
def touchZoneExample : Zone :=
  { zoneManager_ := 0
    name_ := "Track"
    isActive_ := true
    gcState_ := false
    widgets_ := [fader1]
    actionContextDictionary_ := fun w =>
      if w = fader1 then
        some fun m =>
          if m = 0 then some [trackVolumeContext]
          else if m = 1 then some [touchContext]
          else none
      else none
    currentActionContextModifiers_ := fun w => if w = fader1 then some 0 else none
    includedZones_ := []
    subZones_ := []
    associatedZones_ := [] }

/-- A zone without widgets, owned by manager `owner`, with the given included
zones. -/
def plainZone (owner : Nat) (name : String) (included : List ZoneId) : Zone :=
  { zoneManager_ := owner
    name_ := name
    isActive_ := false
    gcState_ := false
    widgets_ := []
    actionContextDictionary_ := fun _ => none
    currentActionContextModifiers_ := fun _ => none
    includedZones_ := included
    subZones_ := []
    associatedZones_ := [] }

/-- Five zone objects: at 0 the Home zone of manager 7, which includes the zone at
1; at 2 and 3 two FX-slot zones of manager 7, the one at 2 carrying a stale mark;
at 4 a zone owned by manager 9. -/
def exampleHeap : ZoneHeap :=
  [some (plainZone 7 "Home" [1]), some (plainZone 7 "Buttons" []),
   some { plainZone 7 "ReaComp" [] with gcState_ := true },
   some (plainZone 7 "ReaEQ" []), some (plainZone 9 "Track" [])]

/-- Manager 7 after `fxSlotZones_` was replaced: the list now holds the zone at 3
only, the zone at 2 is referenced by the free list alone. -/
def exampleManager : ZoneManager :=
  { self := 7
    needGarbageCollect_ := true
    allZonesNeedFree_ := [0, 1, 2, 3, 4]
    noMapZone_ := none
    homeZone_ := some 0
    fxLayout_ := none
    focusedFXParamZone_ := none
    focusedFXZones_ := []
    selectedTrackFXZones_ := []
    fxSlotZones_ := [3] }

/-- The manager of the example when the zone at 4, owned by manager 9, is also one
of its focused-FX zones and so reachable from a root. -/
def exampleManagerForeignRoot : ZoneManager :=
  { exampleManager with focusedFXZones_ := [4] }

/-- Five zones of manager 7: at 0 a Home zone, inactive, that includes the zone at
1, has the zone at 2 in its associated-zone group `SelectedTrackFX` and the zone
at 3 in its sub-zone group `Shift`; the zone at 3 includes the zone at 4; the
zones at 2, 3 and 4 are active. -/
def activationHeap : ZoneHeap :=
  [some { plainZone 7 "Home" [1] with
            subZones_ := [("Shift", [3])], associatedZones_ := [("SelectedTrackFX", [2])] },
   some (plainZone 7 "Buttons" []),
   some { plainZone 7 "SelectedTrackFX" [] with isActive_ := true },
   some { plainZone 7 "Shift" [4] with isActive_ := true },
   some { plainZone 7 "ShiftButtons" [] with isActive_ := true }]

/-- A rank for the zones of `activationHeap`. -/
def activationRank (id : ZoneId) : Nat :=
  if id = 0 then 2 else if id = 3 then 1 else 0

namespace ActionContext

/-- A call made on a context while no press is pending: the per-frame poll
`RunDeferredActions()` at a clock value, or `DoAction(0.0)` at a clock value. -/
inductive IdleCall where
  | runDeferred (now : ℚ) : IdleCall
  | release (now : ℚ) : IdleCall
deriving DecidableEq, Repr

/-- A sequence of polls and releases in call order: the context after the last call
and everything the calls invoked. -/
def idleCalls : List IdleCall → ActionContext → Option (ActionContext × List Effect)
  | [], c => some (c, [])
  | call :: calls, c => do
    let r ← match call with
      | IdleCall.runDeferred now => c.RunDeferredActions now
      | IdleCall.release now => c.DoAction 0 now
    let rest ← idleCalls calls r.1
    some (rest.1, r.2 ++ rest.2)

/-- The context `risingSteps` after `SetHoldDelayAmount(1.0)`, which `LoadZoneFile`
calls for a binding with the `Hold` modifier. -/
def heldSteps : ActionContext :=
  { risingSteps with holdDelayAmount_ := 1 }

end ActionContext

/-! ## Dispatch of a widget event through the zone graph -/

/-- A loop `for (i ...) zones.Get(i)->DoAction(widget, isUsed, value)` over a list of
zone pointers; the state is the zone objects with the calls made so far, and the
flag `isUsed` that the calls share by reference. -/
def offerToZones (f : ZoneId → World × Bool → Option (World × Bool)) :
    List ZoneId → World × Bool → Option (World × Bool)
  | [], st => some st
  | id :: ids, st => do
    let st ← f id st
    offerToZones f ids st

namespace Zone

/-- `Zone::DoAction(widget, isUsed, value)` on the zone at `id`.  The console message
printed when `GetSurfaceInDisplay()` is set is not recorded.  `GetActionContexts` is
evaluated once for the loop over the contexts, as in `Deactivate`. -/
def DoAction (s : Surface) (widget : Widget) (value : ℚ) :
    Nat → ZoneId → World × Bool → Option (World × Bool)
  | 0, _, _ => none
  | fuel + 1, id, st => do
    let z ← st.1.zones.zoneAt id
    if z.isActive_ = false ∨ st.2 = true then
      some st
    else do
      let st ← offerToZones (DoAction s widget value fuel) z.subZoneList st
      let st ← offerToZones (DoAction s widget value fuel) z.associatedZoneList st
      if st.2 = true then
        some st
      else do
        let z ← st.1.zones.zoneAt id
        if widget ∈ z.widgets_ then
          let r := z.GetActionContexts s widget
          some ({ zones := st.1.zones.store id r.1
                  log := st.1.log ++ r.2.map fun c => ZoneEffect.doAction c value }, true)
        else
          offerToZones (DoAction s widget value fuel) z.includedZones_ st

/-- The state in which the zone `z` at `id` has taken an event for the widget:
`isUsed` is set and the action contexts the zone resolves for the widget have been
called with the value, in order. -/
def fired (s : Surface) (widget : Widget) (value : ℚ) (id : ZoneId) (z : Zone) (w : World) :
    World × Bool :=
  ({ zones := w.zones.store id (z.GetActionContexts s widget).1
     log := w.log ++ (z.GetActionContexts s widget).2.map fun c => ZoneEffect.doAction c value },
   true)

end Zone

namespace ZoneHeap

/-- The zone at `id` lets an event for the widget pass: it is inactive, or it is
active, has not registered the widget, and every zone it offers the event to lets it
pass. -/
inductive Declines (h : ZoneHeap) (widget : Widget) : ZoneId → Prop where
  | inactive (id : ZoneId) (z : Zone) :
    h.zoneAt id = some z → z.isActive_ = false → Declines h widget id
  | passed (id : ZoneId) (z : Zone) :
    h.zoneAt id = some z → z.isActive_ = true →
    (∀ c ∈ z.subZoneList ++ z.associatedZoneList, Declines h widget c) →
    widget ∉ z.widgets_ →
    (∀ c ∈ z.includedZones_, Declines h widget c) → Declines h widget id

/-- An event for the widget offered to the zone at `id` is taken by the zone at `n`,
in the order the specification gives: the sub-zones and then the associated zones
come first, each before the zones after it in its list; when all of them let the
event pass the zone itself takes it if it has registered the widget; only when it
has not, its included zones are asked, in order. -/
inductive TakenBy (h : ZoneHeap) (widget : Widget) : ZoneId → ZoneId → Prop where
  | viaGroup (id : ZoneId) (z : Zone) (before : List ZoneId) (c : ZoneId) (after : List ZoneId)
      (n : ZoneId) :
    h.zoneAt id = some z → z.isActive_ = true →
    z.subZoneList ++ z.associatedZoneList = before ++ c :: after →
    (∀ p ∈ before, Declines h widget p) → TakenBy h widget c n → TakenBy h widget id n
  | own (id : ZoneId) (z : Zone) :
    h.zoneAt id = some z → z.isActive_ = true →
    (∀ c ∈ z.subZoneList ++ z.associatedZoneList, Declines h widget c) →
    widget ∈ z.widgets_ → TakenBy h widget id id
  | viaIncluded (id : ZoneId) (z : Zone) (before : List ZoneId) (c : ZoneId)
      (after : List ZoneId) (n : ZoneId) :
    h.zoneAt id = some z → z.isActive_ = true →
    (∀ c ∈ z.subZoneList ++ z.associatedZoneList, Declines h widget c) →
    widget ∉ z.widgets_ →
    z.includedZones_ = before ++ c :: after →
    (∀ p ∈ before, Declines h widget p) → TakenBy h widget c n → TakenBy h widget id n

end ZoneHeap

/-- A zone that has registered `Fader1` and resolves it to the given context under
modifier 0. -/
def faderZone (name : String) (active : Bool) (context : ActionContextId)
    (included : List ZoneId) (subZones : List (String × List ZoneId)) : Zone :=
  { zoneManager_ := 7
    name_ := name
    isActive_ := active
    gcState_ := false
    widgets_ := [fader1]
    actionContextDictionary_ := fun w =>
      if w = fader1 then some fun m => if m = 0 then some [context] else none else none
    currentActionContextModifiers_ := fun w => if w = fader1 then some 0 else none
    includedZones_ := included
    subZones_ := subZones
    associatedZones_ := [] }

/-- Four zones: at 0 an active Home zone that binds `Fader1` to context 1, has the
zones at 1 and 2 in its sub-zone group `Shift` and includes the zone at 3; the zone
at 1 binds `Fader1` to context 2 and is inactive, the zone at 2 binds it to context
3 and is active, the zone at 3 binds it to context 4 and is active. -/
def dispatchHeap : ZoneHeap :=
  [some (faderZone "Home" true 1 [3] [("Shift", [1, 2])]),
   some (faderZone "ShiftA" false 2 [] []),
   some (faderZone "ShiftB" true 3 [] []),
   some (faderZone "Buttons" true 4 [] [])]

/-- A rank for the zones of `dispatchHeap`. -/
def dispatchRank (id : ZoneId) : Nat :=
  if id = 0 then 1 else 0

/-! ## Binding lines of a zone file -/

/-- The pieces `while (getline(stream, token, delimiter)) tokens.push_back(token)`
collects from the characters of a string; `token` holds the characters read since the
last delimiter.  At the end of the input `getline` fails when it has read nothing,
so a piece that would be empty is not collected there. -/
def getlineLoop (delimiter : Char) : List Char → List Char → List (List Char)
  | token, [] => if token = [] then [] else [token]
  | token, c :: cs =>
    if c = delimiter then token :: getlineLoop delimiter [] cs
    else getlineLoop delimiter (token ++ [c]) cs

/-- The vector of strings a `getline` loop with the given delimiter collects from a
string. -/
def getlineTokens (delimiter : Char) (line : String) : List String :=
  (getlineLoop delimiter [] line.data).map String.mk

/-- Members of `ActionTemplate`. -/
structure ActionTemplate where
  widgetName : String
  modifier : Int
  actionName : String
  params : List String
  isValueInverted : Bool
  isFeedbackInverted : Bool
  holdDelayAmount : ℚ
  isDecrease : Bool
  isIncrease : Bool
  provideFeedback : Bool
deriving DecidableEq, Repr

/-- The default constructor `ActionTemplate()`. -/
def ActionTemplate.construct : ActionTemplate :=
  { widgetName := ""
    modifier := 0
    actionName := ""
    params := []
    isValueInverted := false
    isFeedbackInverted := false
    holdDelayAmount := 0
    isDecrease := false
    isIncrease := false
    provideFeedback := false }

/-- The test `token.find("Touch") != string::npos`. -/
def containsTouch (token : String) : Bool :=
  decide ("Touch".data <:+: token.data)

/-- The body of the loop of `GetWidgetNameAndModifiers` over the tokens before the
last one (lines 355-369). -/
def modifierSegment (t : ActionTemplate) (token : String) : ActionTemplate :=
  if containsTouch token then { t with modifier := t.modifier + 1 }
  else if token = "Toggle" then { t with modifier := t.modifier + 2 }
  else if token = "Invert" then { t with isValueInverted := true }
  else if token = "InvertFB" then { t with isFeedbackInverted := true }
  else if token = "Hold" then { t with holdDelayAmount := 1 }
  else if token = "Decrease" then { t with isDecrease := true }
  else if token = "Increase" then { t with isIncrease := true }
  else t

/-- `GetWidgetNameAndModifiers(line, actionTemplate)`.  The function
`ModifierManager::GetModifierValue` is declared outside this source file and is a
parameter.  `none` stands for the access `tokens[tokens.size() - 1]` on an empty
vector, which is undefined in C++. -/
def GetWidgetNameAndModifiers (GetModifierValue : List String → Int) (line : String)
    (actionTemplate : ActionTemplate) : Option ActionTemplate :=
  let tokens := getlineTokens '+' line
  match tokens.getLast? with
  | none => none
  | some name =>
    let t := { actionTemplate with widgetName := name }
    let t := tokens.dropLast.foldl modifierSegment t
    some { t with modifier := t.modifier + GetModifierValue tokens }

/-- The type `map<string, map<int, WDL_PtrList<ActionTemplate>>>`: the templates of
each (widget name, modifier) group in the order they were added; a group the map has
no entry for is the empty list. -/
abbrev ActionTemplatesDictionary := String → Int → List ActionTemplate

/-- The first loop of `BuildActionTemplate` (lines 381-387): the last feedback
directive among `tokens[1..]`, and the other tokens in order. -/
def feedbackAndParams (tokens : List String) : String × List String :=
  (tokens.drop 1).foldl
    (fun acc token =>
      if token = "Feedback=Yes" ∨ token = "Feedback=No" then (token, acc.2)
      else (acc.1, acc.2 ++ [token]))
    ("", [])

/-- The assignment `group.Get(i)->provideFeedback = value`. -/
def setProvideFeedback (group : List ActionTemplate) (i : Nat) (value : Bool) :
    List ActionTemplate :=
  match group[i]? with
  | some t => group.set i { t with provideFeedback := value }
  | none => group

/-- The feedback flags of a group after a template was added at its end (lines
398-409): in a group of one the new template provides feedback unless its line says
`Feedback=No`; in a larger group a line that says `Feedback=Yes` clears every flag
and sets the flag of the last template. -/
def assignFeedback (feedbackIndicator : String) (group : List ActionTemplate) :
    List ActionTemplate :=
  if group.length = 1 then
    if feedbackIndicator = "" ∨ feedbackIndicator = "Feedback=Yes" then
      setProvideFeedback group (group.length - 1) true
    else group
  else if feedbackIndicator = "Feedback=Yes" then
    setProvideFeedback (group.map fun t => { t with provideFeedback := false })
      (group.length - 1) true
  else group

/-- `BuildActionTemplate(tokens, actionTemplatesDictionary)`; `none` stands for the
access `tokens[1]` past the end of the vector and for a failing
`GetWidgetNameAndModifiers`. -/
def BuildActionTemplate (GetModifierValue : List String → Int) (tokens : List String)
    (actionTemplatesDictionary : ActionTemplatesDictionary) :
    Option ActionTemplatesDictionary := do
  let (feedbackIndicator, params) := feedbackAndParams tokens
  let actionName ← tokens[1]?
  let key ← tokens[0]?
  let current ← GetWidgetNameAndModifiers GetModifierValue key
    { ActionTemplate.construct with actionName := actionName, params := params }
  some fun widgetName modifier =>
    if widgetName = current.widgetName ∧ modifier = current.modifier then
      assignFeedback feedbackIndicator
        (actionTemplatesDictionary current.widgetName current.modifier ++ [current])
    else actionTemplatesDictionary widgetName modifier

/-- The lines of a zone body handed to `BuildActionTemplate` one after the other, as
`LoadZoneFile` does for the token vectors of its binding lines. -/
def buildActionTemplates (GetModifierValue : List String → Int) :
    List (List String) → ActionTemplatesDictionary → Option ActionTemplatesDictionary
  | [], d => some d
  | tokens :: rest, d => do
    let d ← BuildActionTemplate GetModifierValue tokens d
    buildActionTemplates GetModifierValue rest d

/-- The dictionary `LoadZoneFile` starts from. -/
def emptyDictionary : ActionTemplatesDictionary := fun _ _ => []

/-- The (widget name, modifier) group a binding line falls into. -/
def groupOfLine (GetModifierValue : List String → Int) (tokens : List String) :
    Option (String × Int) := do
  let key ← tokens[0]?
  let t ← GetWidgetNameAndModifiers GetModifierValue key ActionTemplate.construct
  some (t.widgetName, t.modifier)

/-- Strings written one after the other with a separator between neighbours. -/
def joinWith (separator : Char) : List (List Char) → List Char
  | [] => []
  | [piece] => piece
  | piece :: next :: rest => piece ++ separator :: joinWith separator (next :: rest)

/-- The binding key `Seg1+...+SegN+WidgetName`. -/
def bindingKey (segments : List String) (widgetName : String) : String :=
  String.mk (joinWith '+' ((segments ++ [widgetName]).map String.data))

/-- What a modifier segment adds to the mask (lines 355-358). -/
def segmentContribution (segment : String) : Nat :=
  if containsTouch segment then 1 else if segment = "Toggle" then 2 else 0

/-- The modifier mask as the specification words it: the bitwise OR of the
contributions of the modifier segments, 1 for a segment that contains `Touch` and 2
for the segment `Toggle`, and of the bits `registered` that the modifier manager
finds for the named modifiers. -/
def maskAsOr (registered : Nat) (segments : List String) : Nat :=
  segments.foldl (fun mask segment => mask ||| segmentContribution segment) registered

/-- Modelled from the spec: `ModifierManager::GetModifierValue` is declared in the
absent header; the specification calls it a name-to-bit lookup whose bits enter the
mask.  This lookup registers `Shift` on the given bit and no other name. -/
def shiftOnlyModifierValue (shiftBit : Nat) (tokens : List String) : Int :=
  if "Shift" ∈ tokens then (shiftBit : Int) else 0
/-! ## Stepped values, deltas and ranges of an action line -/

/-- The regular expression `[0-9]+`. -/
def matchesDigits (s : List Char) : Bool :=
  s ≠ [] && s.all Char.isDigit

/-- The regular expression `-?[0-9]+`. -/
def matchesInteger (s : List Char) : Bool :=
  match s with
  | '-' :: rest => matchesDigits rest
  | _ => matchesDigits s

/-- The regular expression `-?[0-9]+[.][0-9]+`. -/
def matchesDecimal (s : List Char) : Bool :=
  matchesInteger (s.takeWhile fun c => c ≠ '.') &&
    (match s.dropWhile fun c => c ≠ '.' with
     | '.' :: fraction => matchesDigits fraction
     | _ => false)

/-- The pieces of a string between the occurrences of a separator, empty pieces
included. -/
def splitAll (separator : Char) : List Char → List (List Char)
  | [] => [[]]
  | c :: cs =>
    if c = separator then [] :: splitAll separator cs
    else
      match splitAll separator cs with
      | piece :: pieces => (c :: piece) :: pieces
      | [] => [[c]]

/-- The inside of a string of the form `(...)`: `strVal.substr(1, strVal.length() - 2)`
for a string the regular expression `[(].*[)]` matches. -/
def parenthesised (s : List Char) : Option (List Char) :=
  match s with
  | '(' :: rest => if rest.getLast? = some ')' then some rest.dropLast else none
  | _ => none

/-- The regular expressions `[(]-?[0-9]+[.][0-9]+[)]`, `[(]-?[0-9]+[)]`,
`[(](-?[0-9]+[.][0-9]+[,])+-?[0-9]+[.][0-9]+[)]` and `[(](-?[0-9]+[,])+-?[0-9]+[)]`:
a parenthesised number, or a parenthesised list of two or more numbers. -/
def matchesParenthesised (one : Bool) (number : List Char → Bool) (s : List Char) : Bool :=
  match parenthesised s with
  | some inner =>
    if one then number inner
    else 2 ≤ (splitAll ',' inner).length && (splitAll ',' inner).all number
  | none => false

/-- The regular expression `-?[0-9]+[.][0-9]+[>]-?[0-9]+[.][0-9]+`. -/
def matchesDecimalRange (s : List Char) : Bool :=
  match splitAll '>' s with
  | [first, last] => matchesDecimal first && matchesDecimal last
  | _ => false

/-- The regular expression `[0-9]+[-][0-9]+`. -/
def matchesDashRange (s : List Char) : Bool :=
  match splitAll '-' s with
  | [first, last] => matchesDigits first && matchesDigits last
  | _ => false

/-- The number a string of decimal digits denotes. -/
def digitsValue (s : List Char) : Nat :=
  s.foldl (fun n c => 10 * n + (c.toNat - '0'.toNat)) 0

/-- The value `stod` returns for a string of the form `-?[0-9]+` or
`-?[0-9]+[.][0-9]+`, as an exact rational number; the rounding to a `double` keeps the
order of two such values. -/
def stod (s : List Char) : ℚ :=
  let negative := s.head? = some '-'
  let body := if negative then s.drop 1 else s
  let whole := body.takeWhile fun c => c ≠ '.'
  let fraction := (body.dropWhile fun c => c ≠ '.').drop 1
  let value : ℚ := (digitsValue whole : ℚ) + (digitsValue fraction : ℚ) / 10 ^ fraction.length
  if negative then -value else value

/-- The value `stoi` returns for a string of the form `-?[0-9]+` that denotes an
`int`. -/
def stoi (s : List Char) : Int :=
  match s with
  | '-' :: rest => -(digitsValue rest : Int)
  | _ => (digitsValue s : Int)

/-- The parse state before `GetSteppedValues` runs: the constructor has set the delta
to 0, the vectors are empty and no range token has been seen. -/
def SteppedParse.initial : SteppedParse :=
  { deltaValue := 0, acceleratedDeltaValues := [], range := none, steppedValues := [],
    acceleratedTickValues := [] }

/-- The body of the loop of `GetSteppedValues` over the strings between `[` and `]`
(lines 912-961). -/
def steppedToken (p : SteppedParse) (strVal : String) : SteppedParse :=
  let s := strVal.data
  if matchesDecimal s ∨ matchesInteger s then
    { p with steppedValues := p.steppedValues ++ [stod s] }
  else if matchesParenthesised true matchesDecimal s then
    { p with deltaValue := stod ((parenthesised s).getD []) }
  else if matchesParenthesised true matchesInteger s then
    { p with acceleratedTickValues :=
        p.acceleratedTickValues ++ [stoi ((parenthesised s).getD [])] }
  else if matchesParenthesised false matchesDecimal s then
    { p with acceleratedDeltaValues := p.acceleratedDeltaValues
        ++ (getlineLoop ',' [] ((parenthesised s).getD [])).map stod }
  else if matchesParenthesised false matchesInteger s then
    { p with acceleratedTickValues := p.acceleratedTickValues
        ++ (getlineLoop ',' [] ((parenthesised s).getD [])).map stoi }
  else if matchesDecimalRange s ∨ matchesDashRange s then
    match getlineLoop '>' [] s with
    | [first, last] =>
      if stod last > stod first then { p with range := some (stod first, stod last) }
      else { p with range := some (stod last, stod first) }
    | _ => p
  else p

/-- The conversion `int(x)` of a `double` that an `int` can hold: the fraction is
dropped. -/
def truncateToInt (x : ℚ) : Int :=
  if 0 ≤ x then ⌊x⌋ else ⌈x⌉

/-- `GetSteppedValues`, with what it asks its collaborators as arguments: the step
size and the acceleration values of the widget and `TheManager->GetBaseTickCount`.
`none` stands for a `]` before the `[`, on which the loop runs past the end of
`params`. -/
def GetSteppedValues (widgetStepSize : ℚ) (widgetAccelerationValues : List ℚ)
    (GetBaseTickCount : Nat → Int) (params : List String) (p : SteppedParse) :
    Option SteppedParse := do
  let openSquareBrace := params.indexOf "["
  let closeSquareBrace := params.indexOf "]"
  let p ←
    if openSquareBrace < params.length ∧ closeSquareBrace < params.length then
      if openSquareBrace < closeSquareBrace then
        some (((params.take closeSquareBrace).drop (openSquareBrace + 1)).foldl steppedToken p)
      else none
    else some p
  let p := if p.deltaValue = 0 ∧ widgetStepSize ≠ 0
    then { p with deltaValue := widgetStepSize } else p
  let p := if p.acceleratedDeltaValues.length = 0 ∧ widgetAccelerationValues.length ≠ 0
    then { p with acceleratedDeltaValues := widgetAccelerationValues } else p
  if p.steppedValues.length > 0 ∧ p.acceleratedTickValues.length = 0 ∧ p.deltaValue ≠ 0 then
    some { p with acceleratedTickValues := p.acceleratedTickValues ++
      [truncateToInt ((GetBaseTickCount p.steppedValues.length : ℚ) / (p.deltaValue * 10000)
        + 1 / 2)] }
  else some p

/-! ## The tokenizer -/

/-- The double quote, the delimiter of `std::quoted`. -/
def quoteChar : Char := Char.ofNat 34

/-- The backslash, the escape character of `std::quoted`. -/
def escapeChar : Char := Char.ofNat 92

/-- Modelled from the spec: the constant `s_TabChars` is declared in the absent
header; `TrimLine` is said to replace tab characters with a single space. -/
def s_TabChars (c : Char) : Bool := c = Char.ofNat 9

/-- Modelled from the spec: the constant `s_CRLFChars` is declared in the absent
header; `TrimLine` is said to strip carriage-return characters, and the name of the
constant adds the line feed. -/
def s_CRLFChars (c : Char) : Bool := c = Char.ofNat 13 ∨ c = Char.ofNat 10

/-- The white space of the classic locale, skipped by stream extraction and matched by
`\s`: space, tab, line feed, vertical tab, form feed and carriage return. -/
def isspace (c : Char) : Bool := c = ' ' ∨ (9 ≤ c.toNat ∧ c.toNat ≤ 13)

/-- The expression `line.substr(0, line.find("//"))`. -/
def beforeComment : List Char → List Char
  | [] => []
  | [c] => [c]
  | c :: next :: rest =>
    if c = '/' ∧ next = '/' then [] else c :: beforeComment (next :: rest)

/-- `TrimLine(line)`: tabs become spaces, carriage returns and line feeds go, the line
is cut at the first `//`, and white space at both ends is removed. -/
def TrimLine (line : String) : String :=
  let chars := line.data.map fun c => if s_TabChars c then ' ' else c
  let chars := chars.filter fun c => !s_CRLFChars c
  let chars := beforeComment chars
  let chars := chars.dropWhile isspace
  let chars := (chars.reverse.dropWhile isspace).reverse
  String.mk chars

/-- The characters `iss >> quoted(token)` reads after an opening quote: an escape
character makes the next character part of the token, a quote ends the token; the
extraction fails when the input ends first. -/
def readQuoted : List Char → List Char → Option (List Char × List Char)
  | _, [] => none
  | token, [c] => if c = quoteChar then some (token, []) else none
  | token, c :: next :: rest =>
    if c = escapeChar then readQuoted (token ++ [next]) rest
    else if c = quoteChar then some (token, next :: rest)
    else readQuoted (token ++ [c]) (next :: rest)

/-- One extraction `iss >> quoted(token)`: the token and the input left, or `none`
when the extraction fails.  White space is skipped; a first character other than the
quote starts a word that ends before the next white space. -/
def extractQuoted (input : List Char) : Option (List Char × List Char) :=
  match input.dropWhile isspace with
  | [] => none
  | c :: rest =>
    if c = quoteChar then readQuoted [] rest
    else some ((c :: rest).takeWhile (fun x => !isspace x),
               (c :: rest).dropWhile (fun x => !isspace x))

/-- The loop `while (iss >> quoted(token)) tokens.push_back(token)`.  Every extraction
that succeeds reads at least one character, so a fuel above the length of the input
is never used up. -/
def getTokensLoop : Nat → List Char → List (List Char)
  | 0, _ => []
  | fuel + 1, input =>
    match extractQuoted input with
    | none => []
    | some (token, rest) => token :: getTokensLoop fuel rest

/-- `GetTokens(tokens, line)` on an empty vector `tokens`. -/
def GetTokens (line : String) : List String :=
  (getTokensLoop (line.data.length + 1) line.data).map String.mk

/-- The tokens of a line written one after the other with a single space between
neighbours. -/
def joinTokens (tokens : List String) : String :=
  String.mk (joinWith ' ' (tokens.map String.data))

/-- A token that is a plain word: not empty, free of white space and of double
quotes, and without `//`. -/
def IsPlainWord (token : String) : Prop :=
  token.data ≠ [] ∧ (∀ c ∈ token.data, isspace c = false ∧ c ≠ quoteChar) ∧
    ¬ (['/', '/'] <:+: token.data)

/-- The raw line `"a b"`, quotes included. -/
def quotedLine : String :=
  String.mk [quoteChar, 'a', ' ', 'b', quoteChar]

instance : DecidablePred IsPlainWord := fun token => by
  unfold IsPlainWord
  infer_instance

/-- The raw line `  Fader1   TrackVolume  // fader` with a tab after `Fader1`. -/
def commentedLine : String :=
  String.mk ("  Fader1".data ++ [Char.ofNat 9] ++ "  TrackVolume  // fader".data)

/-! ## Widget names of a zone instance -/

/-- The call `regex_replace(name, regex("[|]"), replacement)`: every `|` of the name
gives way to the replacement. -/
def replaceBars (name replacement : String) : String :=
  String.mk (name.data.map fun c => if c = '|' then replacement.data else [c]).flatten

/-- The function `to_string` on an `int`. -/
def to_string (n : Int) : String := toString n

/-- The name `LoadZoneFile` looks up on the surface for the widget name of a group
(lines 736-742), for the navigator at position `i` of a list of `navigatorCount`
navigators; `enclosingZoneChannelNumber` is `none` for `enclosingZone == nullptr` and
otherwise what `enclosingZone->GetChannelNumber()` returns. -/
def surfaceWidgetName (widgetName : String) (navigatorCount : Nat) (i : Nat)
    (enclosingZoneChannelNumber : Option Int) : String :=
  let name := widgetName
  let name := if navigatorCount > 1 then replaceBars name (to_string ((i : Int) + 1)) else name
  match enclosingZoneChannelNumber with
  | some channelNumber =>
    if channelNumber ≠ 0 then replaceBars name (to_string channelNumber) else name
  | none => name

/-- The context built for the stepped values `[0.0, 0.5, 1.0]` once its index has
reached the last value. -/
def ActionContext.lastStep : ActionContext :=
  { ActionContext.risingSteps with steppedValuesIndex_ := 2 }

/-- The zone binds the widget under the modifier `M` alone, to the contexts `L`, and
has cached `M` for it. -/
def Zone.BoundOnlyUnder (z : Zone) (widget : Widget) (M : Int) (L : List ActionContextId) :
    Prop :=
  z.currentActionContextModifiers_ widget = some M ∧
    ∃ d, z.actionContextDictionary_ widget = some d ∧ d M = some L ∧ ∀ k, k ≠ M → d k = none

/-- A zone that binds `Fader1` under the modifier `shift` alone, to the context
`TrackVolumeDB`, and has cached `shift` for it. -/
def shiftOnlyZone (shift : Int) : Zone :=
  { zoneManager_ := 0
    name_ := "Home"
    isActive_ := true
    gcState_ := false
    widgets_ := [fader1]
    actionContextDictionary_ := fun w =>
      if w = fader1 then some fun m => if m = shift then some [trackVolumeDBContext] else none
      else none
    currentActionContextModifiers_ := fun w => if w = fader1 then some shift else none
    includedZones_ := []
    subZones_ := []
    associatedZones_ := [] }

/-- Two zones: at 0 an active Home zone that has registered `Fader1` without binding
it and includes the zone at 1, which is active and binds `Fader1` to context 4. -/
def unboundHeap : ZoneHeap :=
  [some { faderZone "Home" true 1 [1] [] with actionContextDictionary_ := fun _ => none },
   some (faderZone "Buttons" true 4 [] [])]

/-! ## Associated-zone groups -/

namespace Zone

/-- `Zone::GoAssociatedZone(zoneName)` on the zone at `id`.  The map lookups
`associatedZones_.count(zoneName)` and `associatedZones_[zoneName]` are a search of
the entries for the key.  `GoHome` is `ZoneManager::GoHome`, which is defined
outside this source file. -/
def GoAssociatedZone (s : Surface) (GoHome : World → Option World) (fuel : Nat)
    (id : ZoneId) (zoneName : String) (w : World) : Option World := do
  let z ← w.zones.zoneAt id
  if zoneName = "Track" then
    forEachZone (Deactivate s fuel) z.associatedZoneList w
  else do
    let group := (z.associatedZones_.find? fun e => e.1 = zoneName).map Prod.snd
    let firstZone : Option Bool :=
      match group with
      | some (first :: _) => (w.zones.zoneAt first).map fun zone => zone.isActive_
      | _ => some false
    let firstIsActive ← firstZone
    if firstIsActive then do
      let w ← forEachZone (Deactivate s fuel) (group.getD []) w
      GoHome w
    else do
      let w ← forEachZone (Deactivate s fuel) z.associatedZoneList w
      forEachZone (Activate s fuel) (group.getD []) w

end Zone

/-- Three zones of manager 7: at 0 an active Home zone with the associated-zone
groups `SelectedTrack`, holding the zone at 1, and `SelectedTrackFX`, holding the
zone at 2; the zone at 1 is active, the zone at 2 is not. -/
def associatedHeap : ZoneHeap :=
  [some { plainZone 7 "Home" [] with
            isActive_ := true
            associatedZones_ := [("SelectedTrack", [1]), ("SelectedTrackFX", [2])] },
   some { plainZone 7 "SelectedTrack" [] with isActive_ := true },
   some (plainZone 7 "SelectedTrackFX" [])]

/-! ## Initialisation messages of a MIDI surface -/

/-- Why a loop of the embedding stopped without reaching its exit: the fuel of the
embedding ran out, or the loop read `sysExLines[line][index]` past the end of the
line, which is undefined in C++. -/
inductive LoopStop where
  | fuel : LoopStop
  | readPast (line index : Nat) : LoopStop
deriving DecidableEq, Repr

namespace Midi_ControlSurface

/-- The vector `sysExLines` of `InitializeMCU` (lines 5322-5332). -/
def sysExLinesMCU : List (List Int) :=
  [[0xF0, 0x7E, 0x00, 0x06, 0x01, 0xF7],
   [0xF0, 0x00, 0x00, 0x66, 0x14, 0x00, 0xF7],
   [0xF0, 0x00, 0x00, 0x66, 0x14, 0x21, 0x01, 0xF7],
   [0xF0, 0x00, 0x00, 0x66, 0x14, 0x20, 0x00, 0x01, 0xF7],
   [0xF0, 0x00, 0x00, 0x66, 0x14, 0x20, 0x01, 0x01, 0xF7],
   [0xF0, 0x00, 0x00, 0x66, 0x14, 0x20, 0x02, 0x01, 0xF7],
   [0xF0, 0x00, 0x00, 0x66, 0x14, 0x20, 0x03, 0x01, 0xF7],
   [0xF0, 0x00, 0x00, 0x66, 0x14, 0x20, 0x04, 0x01, 0xF7],
   [0xF0, 0x00, 0x00, 0x66, 0x14, 0x20, 0x05, 0x01, 0xF7],
   [0xF0, 0x00, 0x00, 0x66, 0x14, 0x20, 0x06, 0x01, 0xF7],
   [0xF0, 0x00, 0x00, 0x66, 0x14, 0x20, 0x07, 0x01, 0xF7]]

/-- The vector `sysExLines` of `InitializeMCUXT` (lines 5358-5368). -/
def sysExLinesMCUXT : List (List Int) :=
  [[0xF0, 0x7E, 0x00, 0x06, 0x01, 0xF7],
   [0xF0, 0x00, 0x00, 0x66, 0x15, 0x00, 0xF7],
   [0xF0, 0x00, 0x00, 0x66, 0x15, 0x21, 0x01, 0xF7],
   [0xF0, 0x00, 0x00, 0x66, 0x15, 0x20, 0x00, 0x01, 0xF7],
   [0xF0, 0x00, 0x00, 0x66, 0x15, 0x20, 0x01, 0x01, 0xF7],
   [0xF0, 0x00, 0x00, 0x66, 0x15, 0x20, 0x02, 0x01, 0xF7],
   [0xF0, 0x00, 0x00, 0x66, 0x15, 0x20, 0x03, 0x01, 0xF7],
   [0xF0, 0x00, 0x00, 0x66, 0x15, 0x20, 0x04, 0x01, 0xF7],
   [0xF0, 0x00, 0x00, 0x66, 0x15, 0x20, 0x05, 0x01, 0xF7],
   [0xF0, 0x00, 0x00, 0x66, 0x15, 0x20, 0x06, 0x01, 0xF7],
   [0xF0, 0x00, 0x00, 0x66, 0x15, 0x20, 0x07, 0x01, 0xF7]]

/-- The inner loop `for (int j = 0; <condition>; ++j) midi_message[size++] =
sysExLines[i][j]` from the state `j`, with the bytes copied so far; `condition j` is
the loop condition.  The result is the message of `size` bytes handed to
`SendMidiSysExMessage`. -/
def copyLine (condition : Nat → Bool) (i : Nat) (bytes : List Int) :
    Nat → Nat → List Int → Except LoopStop (List Int)
  | 0, _, _ => Except.error LoopStop.fuel
  | fuel + 1, j, message =>
    if condition j then
      match bytes[j]? with
      | some byte => copyLine condition i bytes fuel (j + 1) (message ++ [byte])
      | none => Except.error (LoopStop.readPast i j)
    else
      Except.ok message

/-- The outer loop `for (int i = 0; i < (int)sysExLines.size(); ++i)` from line `i`
on, with the messages sent so far; `copy i line` is its inner loop. -/
def sendLines (copy : Nat → List Int → Except LoopStop (List Int)) :
    Nat → List (List Int) → List (List Int) → Except LoopStop (List (List Int))
  | _, [], sent => Except.ok sent
  | i, line :: rest, sent =>
    match copy i line with
    | Except.ok message => sendLines copy (i + 1) rest (sent ++ [message])
    | Except.error stop => Except.error stop

/-- `Midi_ControlSurface::InitializeMCU()`: the messages handed to
`SendMidiSysExMessage`, in order.  The inner loop runs while
`j < (int)sysExLines[i].size()`. -/
def InitializeMCU (fuel : Nat) : Except LoopStop (List (List Int)) :=
  sendLines (fun i bytes => copyLine (fun j => decide (j < bytes.length)) i bytes fuel 0 [])
    0 sysExLinesMCU []

/-- `Midi_ControlSurface::InitializeMCUXT()`: the messages handed to
`SendMidiSysExMessage`, in order.  The inner loop runs while
`i < (int)sysExLines[i].size()` (line 5381). -/
def InitializeMCUXT (fuel : Nat) : Except LoopStop (List (List Int)) :=
  sendLines (fun i bytes => copyLine (fun _ => decide (i < bytes.length)) i bytes fuel 0 [])
    0 sysExLinesMCUXT []

end Midi_ControlSurface

/-! ## ModifierManager -/

/-- One entry of the array `modifiers_`: the engaged flag and the press time of a
modifier. -/
structure ModifierState where
  isEngaged : Bool
  pressedTime : ℚ
deriving DecidableEq, Repr

/-- Calls a `ModifierManager` makes on its collaborators, in call order:
`TheManager->Speak(text)`, and `UpdateCurrentActionContextModifiers()` on the zone
manager of its surface or on its page. -/
inductive ModifierEffect where
  | speak (text : String)
  | updateSurface (surface : Nat)
  | updatePage (page : Nat)
deriving DecidableEq, Repr

/-- Data members of `ModifierManager`: the surface or the page it is attached to (a
null pointer is `none`), the array `modifiers_` with one entry for each modifier of
the enumeration, and the list of modifier combinations. -/
structure ModifierManager where
  surface_ : Option Nat
  page_ : Option Nat
  modifiers_ : List ModifierState
  modifierCombinations_ : List Int
deriving DecidableEq, Repr

namespace ModifierManager

/-- The bitmasks of the non-empty subsets of the modifiers at the given indices, each
the bitwise OR of the masks of its members. -/
def subsetMasks (maskFromModifier : Nat → Nat) : List Nat → List Nat
  | [] => []
  | i :: rest =>
    maskFromModifier i :: (subsetMasks maskFromModifier rest
      ++ (subsetMasks maskFromModifier rest).map fun c => c ||| maskFromModifier i)

/-- Modelled from the spec: `GetCombinations` is declared in the absent header.  The
specification has the list hold the bitmask of every non-empty subset of the engaged
modifiers, plus the zero combination; the zero combination is the entry
`RecalculateModifiers` writes before the call, so the call adds the bitmasks of the
non-empty subsets.  `maskFromModifier`, also of the header, is a parameter. -/
def GetCombinations (maskFromModifier : Nat → Nat) (indices : List Nat)
    (combinations : List Int) : List Int :=
  combinations ++ (subsetMasks maskFromModifier indices).map Int.ofNat

/-- Modelled from the spec: `intcmp_rev`, the comparison `RecalculateModifiers` hands
to `qsort`, is declared in the absent header; the specification has the list sorted
descending by bitmask value, so the comparison puts the larger value first. -/
def intcmp_rev (a b : Int) : Int :=
  if a > b then -1 else if a < b then 1 else 0

/-- The call `qsort(base, count, size, compare)` of the C library on an array of
`int`: the entries in an order in which `compare` is never positive for an entry
and a later one. -/
def qsort (compare : Int → Int → Int) (entries : List Int) : List Int :=
  entries.insertionSort (fun a b => decide (compare a b ≤ 0) = true)

/-- The loop of `RecalculateModifiers` over `modifiers_` from index `i` on: the
indices of the engaged modifiers, ascending. -/
def activeModifierIndices : Nat → List ModifierState → List Nat
  | _, [] => []
  | i, state :: rest =>
    if state.isEngaged then i :: activeModifierIndices (i + 1) rest
    else activeModifierIndices (i + 1) rest

/-- `ModifierManager::RecalculateModifiers()`.  `GetCombinations` and `intcmp_rev` are
declared in the absent header and are parameters.  `ResizeOK(1, false)` is taken to
succeed, as it does unless memory is exhausted. -/
def RecalculateModifiers (GetCombinations : List Nat → List Int → List Int)
    (intcmp_rev : Int → Int → Int) (m : ModifierManager) :
    ModifierManager × List ModifierEffect :=
  if m.surface_ = none ∧ m.page_ = none then (m, [])
  else
    let combinations : List Int := [0]
    let active := activeModifierIndices 0 m.modifiers_
    let combinations :=
      if active.length > 0 then qsort intcmp_rev (GetCombinations active combinations)
      else combinations
    ({ m with modifierCombinations_ := combinations },
     match m.surface_, m.page_ with
     | some surface, _ => [ModifierEffect.updateSurface surface]
     | none, some page => [ModifierEffect.updatePage page]
     | none, none => [])

/-- `ModifierManager::SetLatchModifier(value, modifier, latchTime)`; `now` is what
`DAW::GetCurrentNumberOfMilliseconds()` returns during the call, and
`stringFromModifier` is declared in the absent header.  `none` stands for an index
outside the array `modifiers_`. -/
def SetLatchModifier (GetCombinations : List Nat → List Int → List Int)
    (intcmp_rev : Int → Int → Int) (stringFromModifier : Nat → String)
    (m : ModifierManager) (value : Bool) (modifier : Nat) (latchTime : Int) (now : ℚ) :
    Option (ModifierManager × List ModifierEffect) := do
  let state ← m.modifiers_[modifier]?
  let r : ModifierManager × List ModifierEffect :=
    if value = true ∧ state.isEngaged = false then
      ({ m with modifiers_ :=
          m.modifiers_.set modifier { isEngaged := value, pressedTime := now } }, [])
    else
      let keyReleasedTime := now
      if keyReleasedTime - state.pressedTime > latchTime then
        ({ m with modifiers_ := m.modifiers_.set modifier { state with isEngaged := value } },
         if value = false ∧ state.isEngaged = true
         then [ModifierEffect.speak (stringFromModifier modifier ++ " Unlock")] else [])
      else
        (m, [ModifierEffect.speak (stringFromModifier modifier ++ " Lock")])
  let recalculated := RecalculateModifiers GetCombinations intcmp_rev r.1
  some (recalculated.1, r.2 ++ recalculated.2)

/-- A sample assignment of bits to modifiers: the modifier at index `i` has the bit
`i + 2`, above the bits of Touch and Toggle. -/
def sampleMask (i : Nat) : Nat := 4 * 2 ^ i

/-- A manager attached to surface 1 with three modifiers, the first and the third
engaged. -/
def sampleManager : ModifierManager :=
  { surface_ := some 1
    page_ := none
    modifiers_ := [⟨true, 0⟩, ⟨false, 0⟩, ⟨true, 0⟩]
    modifierCombinations_ := [] }

/-- A manager attached to surface 1 with three modifiers, none engaged. -/
def idleManager : ModifierManager :=
  { surface_ := some 1
    page_ := none
    modifiers_ := [⟨false, 0⟩, ⟨false, 0⟩, ⟨false, 0⟩]
    modifierCombinations_ := [] }

/-- The manager `idleManager` after its first modifier was pressed at time 1000. -/
def pressedManager : ModifierManager :=
  { idleManager with modifiers_ := [⟨true, 1000⟩, ⟨false, 0⟩, ⟨false, 0⟩] }

end ModifierManager

/-! ## Stepped values of an FX parameter -/

/-- Calls `CalculateSteppedValue` makes on the DAW and on the manager, in call order:
`CSurf_SetSurfaceMute(track, CSurf_OnMuteChange(track, mute), NULL)`, the call
`TrackFX_SetParam` of round `round` of the sweep, the call `TrackFX_SetParam` that
puts the value read before the sweep back, and `SetSteppedValueCount`. -/
inductive SweepEffect where
  | setSurfaceMute (mute : Bool)
  | sweepParam (paramIndex : Int) (round : Nat)
  | restoreParam (paramIndex : Int) (value : ℚ)
  | setSteppedValueCount (fxName : String) (paramIndex : Int) (count : Int)
deriving DecidableEq, Repr

namespace ZoneManager

/-- The test `fxName.find(text) != string::npos`. -/
def containsText (text fxName : String) : Bool :=
  decide (text.data <:+: fxName.data)

/-- The body of the sweep loop (lines 4152-4163) on the pair of `stepValue` and
`stepCount`, for the value `TrackFX_GetParam` returns in the round. -/
def sweepRound (state : ℚ × Int) (fxValue : ℚ) : ℚ × Int :=
  if state.1 ≠ fxValue then (fxValue, state.2 + 1) else state

/-- The variable `stepCount` after the sweep loop, which starts from `stepValue = 0.0`
and `stepCount = 1`, for the values `TrackFX_GetParam` returns round by round. -/
def sweepStepCount (reported : List ℚ) : Int :=
  (reported.foldl sweepRound (0, 1)).2

/-- The number of rounds of the loop `for (double value = 0.0; value < 1.01; value +=
.01)`: the loop variable passes 0.00, 0.01, ..., 1.00, which is 101 values in exact
arithmetic and also in IEEE double arithmetic, where the last value below 1.01 is
1.0000000000000007. -/
def sweepRounds : Nat := 101

/-- `ZoneManager::CalculateSteppedValue(fxName, track, fxIndex, paramIndex)`.
`wasMuted` is what `GetTrackUIMute` reports, `currentValue` what `TrackFX_GetParam`
returns before the sweep, and `TrackFX_GetParam round` what it returns in the given
round of the sweep. -/
def CalculateSteppedValue (fxName : String) (paramIndex : Int) (wasMuted : Bool)
    (currentValue : ℚ) (TrackFX_GetParam : Nat → ℚ) : List SweepEffect :=
  if containsText "UAD" fxName = false ∧ containsText "Plugin Alliance" fxName = false then []
  else
    let stepCount := sweepStepCount ((List.range sweepRounds).map TrackFX_GetParam)
    (if wasMuted = false then [SweepEffect.setSurfaceMute true] else [])
      ++ (List.range sweepRounds).map (fun round => SweepEffect.sweepParam paramIndex round)
      ++ (if stepCount > 1 ∧ stepCount < 31
          then [SweepEffect.setSteppedValueCount fxName paramIndex stepCount] else [])
      ++ [SweepEffect.restoreParam paramIndex currentValue]
      ++ (if wasMuted = false then [SweepEffect.setSurfaceMute false] else [])

/-- The number of changes of value met when the values of a list are read one after
the other, starting from the value `v`. -/
def changes : ℚ → List ℚ → Nat
  | _, [] => 0
  | v, x :: rest => (if v ≠ x then 1 else 0) + changes x rest

end ZoneManager

/-! ## Reading a zone file -/

/-- The call `std::stoi(s)` on a string of the form `-?[0-9]+` throws
`std::out_of_range` when the number is not an `int` of 32 bits. -/
def stoiThrows (s : List Char) : Bool :=
  decide (stoi s < -2147483648 ∨ 2147483647 < stoi s)

/-- Whether the body of the loop of `GetSteppedValues` over the strings between `[`
and `]` (lines 912-961) throws: the calls of `stoi` (lines 919 and 934) and of `stod`
(lines 915, 917, 926, 947 and 948) are the statements that can.  The call `std::stod(s)`
throws `std::out_of_range` when `strtod` reports a range error; for which strings it
does is up to the C library and is the parameter `strtodRangeError`. -/
def steppedTokenThrows (strtodRangeError : List Char → Bool) (strVal : String) : Bool :=
  let s := strVal.data
  if matchesDecimal s ∨ matchesInteger s then strtodRangeError s
  else if matchesParenthesised true matchesDecimal s then
    strtodRangeError ((parenthesised s).getD [])
  else if matchesParenthesised true matchesInteger s then
    stoiThrows ((parenthesised s).getD [])
  else if matchesParenthesised false matchesDecimal s then
    (getlineLoop ',' [] ((parenthesised s).getD [])).any strtodRangeError
  else if matchesParenthesised false matchesInteger s then
    (getlineLoop ',' [] ((parenthesised s).getD [])).any stoiThrows
  else if matchesDecimalRange s ∨ matchesDashRange s then
    match getlineLoop '>' [] s with
    | [first, last] => strtodRangeError first || strtodRangeError last
    | _ => false
  else false

/-- Whether `GetSteppedValues` (lines 903-983) throws on the vector `params`; `none`
stands for a `]` before the `[`, on which the loop runs past the end of `params`. -/
def GetSteppedValuesThrows (strtodRangeError : List Char → Bool) (params : List String) :
    Option Bool :=
  let openSquareBrace := params.indexOf "["
  let closeSquareBrace := params.indexOf "]"
  if openSquareBrace < params.length ∧ closeSquareBrace < params.length then
    if openSquareBrace < closeSquareBrace then
      some (((params.take closeSquareBrace).drop (openSquareBrace + 1)).any
        (steppedTokenThrows strtodRangeError))
    else none
  else some false

/-- Whether `SetColor` (lines 841-901) throws on the vector `params`: the loop over
the strings between `{` and `}` passes over a string that starts with `#`, ends at
the string `Track`, and calls `stoi` (line 870) on a string of digits.  `none` stands
for a `}` before the `{`, on which the loop runs past the end of `params`. -/
def SetColorThrows (params : List String) : Option Bool :=
  let openCurlyBrace := params.indexOf "\x7b"
  let closeCurlyBrace := params.indexOf "\x7d"
  if openCurlyBrace < params.length ∧ closeCurlyBrace < params.length then
    if openCurlyBrace < closeCurlyBrace then
      some ((((params.take closeCurlyBrace).drop (openCurlyBrace + 1)).takeWhile
          fun strVal => decide (strVal ≠ "Track")).any
        fun strVal => decide (strVal.data.head? ≠ some '#') && matchesDigits strVal.data
          && stoiThrows strVal.data)
    else none
  else some false

/-- Whether the constructor `ActionContext(action, widget, zone, paramsAndProperties)`
(lines 1859-1998) throws: `params` holds the strings without a `=` (lines 1896-1913),
`SetColor` runs when `params` is not empty (lines 1991-1992) and `GetSteppedValues`
after it (line 1994); the other statements of the constructor do not throw.  `none`
stands for the undefined behaviour of either call. -/
def ActionContext.constructorThrows (strtodRangeError : List Char → Bool)
    (paramsAndProperties : List String) : Option Bool :=
  let params := paramsAndProperties.filter fun s => decide ('=' ∉ s.data)
  match (if params.length > 0 then SetColorThrows params else some false) with
  | none => none
  | some true => some true
  | some false => GetSteppedValuesThrows strtodRangeError params

/-- Modelled from the spec: `Manager::GetActionContext` is declared in the absent
header; the specification has `LoadZoneFile` construct an `ActionContext` via the
action registry, keyed by the action name, and the constructor of lines 1859-1998 is
the only constructor of `ActionContext` in this source file.  The call throws when
that constructor does, on the parameters it is handed. -/
def GetActionContextThrows (strtodRangeError : List Char → Bool) (_actionName : String)
    (memberParams : List String) : Option Bool :=
  ActionContext.constructorThrows strtodRangeError memberParams

/-- A `strtod` that reports a range error on overflow only: for a decimal string
whose value rounds to a magnitude beyond the largest finite `double`. -/
def overflowRangeError (s : List Char) : Bool :=
  decide ((2 : ℚ) ^ 1024 - 2 ^ 970 ≤ |stod s|)

/-- What `LoadZoneFile` does with a context it has built (lines 763-779): the
arguments of `AddActionContext` and of the setters called on the context,
`holdDelayAmount` and `range` being `none` when `SetHoldDelayAmount` and `SetRange`
are not called. -/
structure LoadedBinding where
  widget : Widget
  modifier : Int
  actionName : String
  memberParams : List String
  provideFeedback : Bool
  isValueInverted : Bool
  isFeedbackInverted : Bool
  holdDelayAmount : Option ℚ
  range : Option (ℚ × ℚ)
deriving DecidableEq

/-- A zone `LoadZoneFile` has added to the output list for one navigator: what it
handed to the constructor of `Zone` or `SubZone` (lines 719-724: the navigator, its
position as slot index, the name and alias of the zone, the names of its included and
associated zones and the enclosing zone), the widgets and bindings the widget loop
(lines 734-782) has added to it, the sub-zone names handed to `InitSubZones` (empty
when the call is not made) and whether the zone went into `allZonesNeedFree_`. -/
structure LoadedZone where
  navigator : Nat
  slotIndex : Nat
  name : String
  zoneAlias : String
  includedZones : List String
  associatedZones : List String
  enclosingZone : Option ZoneId
  widgets : List Widget
  bindings : List LoadedBinding
  subZones : List String
  needsFree : Bool
deriving DecidableEq

/-- The local variables of `LoadZoneFile` that live across the lines of the file.
The dictionary is a lookup function, so the keys of the `std::map` objects are kept
beside it: `templateKeys` holds the (widget name, modifier) group of every binding
line read, in file order. -/
structure ZoneFileState where
  isInIncludedZonesSection : Bool
  includedZones : List String
  isInSubZonesSection : Bool
  subZones : List String
  isInAssociatedZonesSection : Bool
  associatedZones : List String
  actionTemplatesDictionary : ActionTemplatesDictionary
  templateKeys : List (String × Int)
  zoneName : String
  zoneAlias : String

/-- What the body of the line loop does with one line: it goes on to the next line
with new local variables, it closes the zone (the `ZoneEnd` branch, which ends in
`break`), or its behaviour is undefined. -/
inductive LineStep where
  | next (st : ZoneFileState)
  | close
  | undefined

namespace ZoneManager

/-- The local variables of `LoadZoneFile` before the first line (lines 673-685). -/
def ZoneFileState.initial : ZoneFileState :=
  { isInIncludedZonesSection := false
    includedZones := []
    isInSubZonesSection := false
    subZones := []
    isInAssociatedZonesSection := false
    associatedZones := []
    actionTemplatesDictionary := emptyDictionary
    templateKeys := []
    zoneName := ""
    zoneAlias := "" }

/-- The keys of the outer map of `actionTemplatesDictionary` in the order the loop of
line 734 visits them: every widget name once, in the order of `std::less<string>`. -/
def widgetNames (st : ZoneFileState) : List String :=
  ((st.templateKeys.map Prod.fst).dedup).insertionSort fun a b => a.data ≤ b.data

/-- The keys of the inner map of a widget name in the order the loop of line 750
visits them: every modifier once, ascending. -/
def modifiersOf (st : ZoneFileState) (widgetName : String) : List Int :=
  (((st.templateKeys.filter fun key => key.1 = widgetName).map Prod.snd).dedup).insertionSort
    fun a b => a ≤ b

/-- The binding the body of the template loop adds once `GetActionContext` has
returned (lines 763-779). -/
def bindingOfTemplate (widget : Widget) (modifier : Int) (numStr : String)
    (t : ActionTemplate) : LoadedBinding :=
  { widget := widget
    modifier := modifier
    actionName := replaceBars t.actionName numStr
    memberParams := t.params.map fun p => replaceBars p numStr
    provideFeedback := t.provideFeedback
    isValueInverted := t.isValueInverted
    isFeedbackInverted := t.isFeedbackInverted
    holdDelayAmount := if t.holdDelayAmount ≠ 0 then some t.holdDelayAmount else none
    range := if t.isDecrease then some (-2, 1) else if t.isIncrease then some (0, 2) else none }

/-- The loop over the templates of one modifier of a widget (lines 752-780), with the
bindings the zone has so far.  The result holds the bindings of the zone and whether
`GetActionContext` threw, which ends the loop; `none` stands for undefined
behaviour. -/
def addTemplates (strtodRangeError : List Char → Bool) (widget : Widget) (modifier : Int)
    (numStr : String) : List ActionTemplate → List LoadedBinding →
    Option (List LoadedBinding × Bool)
  | [], bindings => some (bindings, false)
  | t :: rest, bindings =>
    match GetActionContextThrows strtodRangeError (replaceBars t.actionName numStr)
        (t.params.map fun p => replaceBars p numStr) with
    | none => none
    | some true => some (bindings, true)
    | some false =>
      addTemplates strtodRangeError widget modifier numStr rest
        (bindings ++ [bindingOfTemplate widget modifier numStr t])

/-- The loop over the modifiers of a widget name (lines 750-781). -/
def addModifiers (strtodRangeError : List Char → Bool)
    (dictionary : ActionTemplatesDictionary) (widgetName : String) (widget : Widget)
    (numStr : String) : List Int → List LoadedBinding → Option (List LoadedBinding × Bool)
  | [], bindings => some (bindings, false)
  | modifier :: rest, bindings =>
    match addTemplates strtodRangeError widget modifier numStr (dictionary widgetName modifier)
        bindings with
    | none => none
    | some (bindings, true) => some (bindings, true)
    | some (bindings, false) =>
      addModifiers strtodRangeError dictionary widgetName widget numStr rest bindings

/-- The loop over the widget names of the dictionary (lines 734-782) for the
navigator at position `i`, with the widgets and bindings the zone has so far.
`ControlSurface::GetWidgetByName` is declared in the absent header and is a
parameter; `none` is its null pointer, on which the loop goes on to the next name.
The result holds the widgets and bindings of the zone and whether a call threw. -/
def addWidgets (strtodRangeError : List Char → Bool) (GetWidgetByName : String → Option Widget)
    (st : ZoneFileState) (navigatorCount : Nat) (i : Nat)
    (enclosingZoneChannelNumber : Option Int) :
    List String → List Widget × List LoadedBinding →
    Option ((List Widget × List LoadedBinding) × Bool)
  | [], built => some (built, false)
  | widgetName :: rest, (widgets, bindings) =>
    match GetWidgetByName
        (surfaceWidgetName widgetName navigatorCount i enclosingZoneChannelNumber) with
    | none =>
      addWidgets strtodRangeError GetWidgetByName st navigatorCount i
        enclosingZoneChannelNumber rest (widgets, bindings)
    | some widget =>
      match addModifiers strtodRangeError st.actionTemplatesDictionary widgetName widget
          (to_string ((i : Int) + 1)) (modifiersOf st widgetName) bindings with
      | none => none
      | some (bindings, true) => some ((widgets ++ [widget], bindings), true)
      | some (bindings, false) =>
        addWidgets strtodRangeError GetWidgetByName st navigatorCount i
          enclosingZoneChannelNumber rest (widgets ++ [widget], bindings)

/-- The body of the loop over the navigators (lines 717-786) for the navigator at
position `i`: the zone it adds to the output list at line 732, as the body leaves
it, and whether the body threw.  When it did, the calls of `InitSubZones` and
`allZonesNeedFree_.Add` (lines 784-786) are not reached.  `GetChannelNumber` gives
what `enclosingZone->GetChannelNumber()` returns.  The calls `SetHomeZone` and
`SetFocusedFXParamZone` touch the manager only, and the nested loads of the
constructor of `Zone` and of `InitSubZones` fill other lists and catch their own
exceptions; they are not recorded. -/
def buildZone (strtodRangeError : List Char → Bool) (GetWidgetByName : String → Option Widget)
    (GetChannelNumber : ZoneId → Int) (st : ZoneFileState) (navigatorCount : Nat)
    (enclosingZone : Option ZoneId) (i : Nat) (navigator : Nat) :
    Option (LoadedZone × Bool) :=
  match addWidgets strtodRangeError GetWidgetByName st navigatorCount i
      (enclosingZone.map GetChannelNumber) (widgetNames st) ([], []) with
  | none => none
  | some ((widgets, bindings), threw) =>
    some ({ navigator := navigator
            slotIndex := i
            name := st.zoneName
            zoneAlias := st.zoneAlias
            includedZones := st.includedZones
            associatedZones := st.associatedZones
            enclosingZone := enclosingZone
            widgets := widgets
            bindings := bindings
            subZones :=
              if threw = false ∧ enclosingZone.isNone ∧ st.subZones.length > 0
              then st.subZones else []
            needsFree := !threw },
          threw)

/-- The loop over the navigators at `ZoneEnd` (lines 715-787) from position `i` on,
inside the `try` block of lines 687-828; `build` is the body of the loop.  When the
body throws, the handler of line 829 takes over and the call returns: the zone of
that navigator is in the output list, the zones of the navigators after it are not
built. -/
def addZones (build : Nat → Nat → Option (LoadedZone × Bool)) :
    Nat → List Nat → List LoadedZone → Option (List LoadedZone)
  | _, [], zones => some zones
  | i, navigator :: rest, zones =>
    match build i navigator with
    | none => none
    | some (zone, true) => some (zones ++ [zone])
    | some (zone, false) => addZones build (i + 1) rest (zones ++ [zone])

/-- The branches of the line loop after the `Zone` and `ZoneEnd` branches (lines
797-825), for the token vector of a line and its first token; `none` when
`BuildActionTemplate` fails. -/
def sectionLine (GetModifierValue : List String → Int) (st : ZoneFileState)
    (tokens : List String) (first : String) : Option ZoneFileState :=
  if first = "IncludedZones" then some { st with isInIncludedZonesSection := true }
  else if first = "IncludedZonesEnd" then some { st with isInIncludedZonesSection := false }
  else if st.isInIncludedZonesSection then
    some { st with includedZones := st.includedZones ++ [first] }
  else if first = "SubZones" then some { st with isInSubZonesSection := true }
  else if first = "SubZonesEnd" then some { st with isInSubZonesSection := false }
  else if st.isInSubZonesSection then some { st with subZones := st.subZones ++ [first] }
  else if first = "AssociatedZones" then some { st with isInAssociatedZonesSection := true }
  else if first = "AssociatedZonesEnd" then
    some { st with isInAssociatedZonesSection := false }
  else if st.isInAssociatedZonesSection then
    some { st with associatedZones := st.associatedZones ++ [first] }
  else if tokens.length > 1 then
    match BuildActionTemplate GetModifierValue tokens st.actionTemplatesDictionary,
        groupOfLine GetModifierValue tokens with
    | some d, some key =>
      some { st with actionTemplatesDictionary := d, templateKeys := st.templateKeys ++ [key] }
    | _, _ => none
  else some st

/-- The body of the line loop of `LoadZoneFile` (lines 693-826) on one line.  The
constants `s_BeginAutoSection` and `s_EndAutoSection` are declared in the absent
header and are parameters, as is `ModifierManager::GetModifierValue`. -/
def lineStep (GetModifierValue : List String → Int)
    (s_BeginAutoSection s_EndAutoSection : String) (st : ZoneFileState) (raw : String) :
    LineStep :=
  let text := TrimLine raw
  if text = "" ∨ text.data.head? = some '/' then LineStep.next st
  else if text = s_BeginAutoSection ∨ text = s_EndAutoSection then LineStep.next st
  else
    match GetTokens text with
    | [] => LineStep.next st
    | first :: more =>
      if first = "Zone" then
        LineStep.next { st with zoneName := (first :: more)[1]?.getD ""
                                zoneAlias := (first :: more)[2]?.getD "" }
      else if first = "ZoneEnd" ∧ st.zoneName ≠ "" then LineStep.close
      else
        match sectionLine GetModifierValue st (first :: more) first with
        | some st => LineStep.next st
        | none => LineStep.undefined

/-- The line loop of `LoadZoneFile` (lines 691-827) on the lines `getline` still has to
deliver, with the local variables and the output list `zones`.  A navigator and an
enclosing zone are pointers; `none` is the null pointer. -/
def loadZoneFileLines (GetModifierValue : List String → Int)
    (s_BeginAutoSection s_EndAutoSection : String) (strtodRangeError : List Char → Bool)
    (GetWidgetByName : String → Option Widget) (GetChannelNumber : ZoneId → Int)
    (navigators : List Nat) (enclosingZone : Option ZoneId) :
    List String → ZoneFileState → List LoadedZone → Option (List LoadedZone)
  | [], _, zones => some zones
  | raw :: rest, st, zones =>
    match lineStep GetModifierValue s_BeginAutoSection s_EndAutoSection st raw with
    | LineStep.next st =>
      loadZoneFileLines GetModifierValue s_BeginAutoSection s_EndAutoSection
        strtodRangeError GetWidgetByName GetChannelNumber navigators enclosingZone rest st zones
    | LineStep.close =>
      addZones (buildZone strtodRangeError GetWidgetByName GetChannelNumber st
        navigators.length enclosingZone) 0 navigators zones
    | LineStep.undefined => none

/-- `ZoneManager::LoadZoneFile(filePath, navigators, zones, enclosingZone)` on the
lines of the file: the output list `zones` after the call, be it left through the
`break` of the `ZoneEnd` branch, at the end of the file, or through the handler of
line 829 after an exception thrown while a zone was built.  `none` stands for
undefined behaviour inside `BuildActionTemplate` or the constructor of
`ActionContext`. -/
def LoadZoneFile (GetModifierValue : List String → Int)
    (s_BeginAutoSection s_EndAutoSection : String) (strtodRangeError : List Char → Bool)
    (GetWidgetByName : String → Option Widget) (GetChannelNumber : ZoneId → Int)
    (lines : List String) (navigators : List Nat) (zones : List LoadedZone)
    (enclosingZone : Option ZoneId) : Option (List LoadedZone) :=
  loadZoneFileLines GetModifierValue s_BeginAutoSection s_EndAutoSection strtodRangeError
    GetWidgetByName GetChannelNumber navigators enclosingZone lines ZoneFileState.initial zones

/-- The local variables of `LoadZoneFile` after the line loop has read the given
lines and gone on after each; `none` when one of them closes the zone or has
undefined behaviour. -/
def stateAfter (GetModifierValue : List String → Int)
    (s_BeginAutoSection s_EndAutoSection : String) :
    ZoneFileState → List String → Option ZoneFileState
  | st, [] => some st
  | st, raw :: rest =>
    match lineStep GetModifierValue s_BeginAutoSection s_EndAutoSection st raw with
    | LineStep.next st =>
      stateAfter GetModifierValue s_BeginAutoSection s_EndAutoSection st rest
    | _ => none

/-- The token vector the line loop sees for a raw line: empty for a line the loop
passes over. -/
def lineTokens (s_BeginAutoSection s_EndAutoSection : String) (raw : String) : List String :=
  if TrimLine raw = "" ∨ (TrimLine raw).data.head? = some '/'
      ∨ TrimLine raw = s_BeginAutoSection ∨ TrimLine raw = s_EndAutoSection then []
  else GetTokens (TrimLine raw)

/-- The zone name in force after the given lines, as the specification words it: the
name on the last `Zone` line read, empty when that line carries no name, and `name`
when no `Zone` line was read. -/
def zoneNameAfter (s_BeginAutoSection s_EndAutoSection : String) : String → List String → String
  | name, [] => name
  | name, raw :: rest =>
    zoneNameAfter s_BeginAutoSection s_EndAutoSection
      (match lineTokens s_BeginAutoSection s_EndAutoSection raw with
        | first :: more => if first = "Zone" then more.head?.getD "" else name
        | [] => name)
      rest

/-- The line `raw`, read after the lines `read`, is a `ZoneEnd` line that follows a
named `Zone` line. -/
def ClosesZone (s_BeginAutoSection s_EndAutoSection : String) (name : String)
    (read : List String) (raw : String) : Prop :=
  (lineTokens s_BeginAutoSection s_EndAutoSection raw).head? = some "ZoneEnd" ∧
    zoneNameAfter s_BeginAutoSection s_EndAutoSection name read ≠ ""

/-- A zone file with two zones, `Home` and `Buttons`, and a comment line. -/
def twoZoneFile : List String :=
  ["Zone Home", "  Fader1 TrackVolume", "// a comment", "ZoneEnd",
   "Zone Buttons", "  Play Play", "ZoneEnd"]

/-- A zone file whose binding carries an accelerated tick value no `int` holds. -/
def largeTickFile : List String :=
  ["Zone Home", "Fader1 FXParam 1 [ (99999999999) ]", "ZoneEnd"]

/-- A surface whose only widget is `Fader1`. -/
def fader1Surface (name : String) : Option Widget :=
  if name = "Fader1" then some fader1 else none

/-- The local variables of `LoadZoneFile` after the first two lines of `twoZoneFile`
and the comment line. -/
def homeState : ZoneFileState :=
  (stateAfter (shiftOnlyModifierValue 4) "#Begin" "#End" ZoneFileState.initial
    ["Zone Home", "  Fader1 TrackVolume", "// a comment"]).getD ZoneFileState.initial

/-- The local variables of `LoadZoneFile` after the first two lines of
`largeTickFile`. -/
def largeTickState : ZoneFileState :=
  (stateAfter (shiftOnlyModifierValue 4) "#Begin" "#End" ZoneFileState.initial
    ["Zone Home", "Fader1 FXParam 1 [ (99999999999) ]"]).getD ZoneFileState.initial

end ZoneManager

end CSI


/-! ## Theorems -/

namespace CSI

/-! ### Vector access -/

theorem vectorAt_of_lt {α : Type} (v : List α) (i : Int) (h0 : 0 ≤ i)
    (h1 : i < (v.length : Int)) : ∃ x, vectorAt v i = some x := by
  have hi : i.toNat < v.length := by omega
  exact ⟨v.get ⟨i.toNat, hi⟩, by simp [vectorAt, h0, List.get?_eq_get hi]⟩

theorem vectorAt_zero {α : Type} (v : List α) (d : α) (h : v ≠ []) :
    vectorAt v 0 = some (v.head?.getD d) := by
  cases v with
  | nil => exact absurd rfl h
  | cons a t => simp [vectorAt]

theorem vectorAt_last {α : Type} (v : List α) (d : α) (h : v ≠ []) :
    vectorAt v ((v.length : Int) - 1) = some (v.getLast?.getD d) := by
  have hpos : 0 < v.length := List.length_pos.mpr h
  have h0 : (0 : Int) ≤ (v.length : Int) - 1 := by omega
  have ht : ((v.length : Int) - 1).toNat = v.length - 1 := by omega
  simp only [vectorAt, h0, if_true, ht]
  rw [List.getLast?_eq_getElem?]
  cases hx : v[v.length - 1]? with
  | none =>
    rw [List.getElem?_eq_none_iff] at hx
    omega
  | some x => simp [hx]

namespace ActionContext

/-! ### ActionContext: presses on a stepped table, range and inversion -/

theorem DoAction_press (c : ActionContext) (v now : ℚ) (hhold : c.holdDelayAmount_ = 0)
    (hne : c.steppedValues_ ≠ []) (hlo : 0 ≤ c.steppedValuesIndex_)
    (hhi : c.steppedValuesIndex_ ≤ (c.steppedValues_.length : Int) - 1) (hv : v ≠ 0) :
    ∃ x, vectorAt c.steppedValues_ c.steppedIndexAfterPress = some x ∧
      c.DoAction v now =
        some ({ c with steppedValuesIndex_ := c.steppedIndexAfterPress },
              c.DoRangeBoundAction x) := by
  have hlen : 0 < c.steppedValues_.length := List.length_pos.mpr hne
  by_cases hlast : c.steppedValuesIndex_ = (c.steppedValues_.length : Int) - 1
  · have hfirst := vectorAt_zero c.steppedValues_ 0 hne
    have hcur := vectorAt_last c.steppedValues_ 0 hne
    by_cases hwrap : c.steppedValues_.head?.getD 0 < c.steppedValues_.getLast?.getD 0
    · refine ⟨c.steppedValues_.head?.getD 0, ?_, ?_⟩
      · simp [steppedIndexAfterPress, hlast, hwrap, hfirst]
      · simp [DoAction, hhold, hlen, hv, advanceSteppedIndex, hlast, hfirst, hcur, hwrap,
          doCurrentSteppedValue, steppedIndexAfterPress, DoRangeBoundAction]
    · refine ⟨c.steppedValues_.getLast?.getD 0, ?_, ?_⟩
      · simp [steppedIndexAfterPress, hlast, hwrap, hcur]
      · simp [DoAction, hhold, hlen, hv, advanceSteppedIndex, hlast, hfirst, hcur, hwrap,
          doCurrentSteppedValue, steppedIndexAfterPress, DoRangeBoundAction]
        cases c
        simp_all
  · obtain ⟨x, hx⟩ := vectorAt_of_lt c.steppedValues_ (c.steppedValuesIndex_ + 1)
      (by omega) (by omega)
    refine ⟨x, ?_, ?_⟩
    · simp [steppedIndexAfterPress, hlast, hx]
    · simp [DoAction, hhold, hlen, hv, advanceSteppedIndex, hlast, hx,
        doCurrentSteppedValue, steppedIndexAfterPress, DoRangeBoundAction]

theorem pressTimes_risingSteps (n : Nat) :
    pressTimes n risingSteps =
      some { risingSteps with steppedValuesIndex_ := ((n % 3 : Nat) : Int) } := by
  induction n with
  | zero => rfl
  | succ k ih =>
    have h3 : k % 3 = 0 ∨ k % 3 = 1 ∨ k % 3 = 2 := by omega
    rcases h3 with h | h | h
    · have h' : (k + 1) % 3 = 1 := by omega
      simp only [pressTimes, ih]
      simp [h, h', risingSteps, construct, DoAction, advanceSteppedIndex,
        doCurrentSteppedValue, vectorAt, DoRangeBoundAction, rangeForAction]
    · have h' : (k + 1) % 3 = 2 := by omega
      simp only [pressTimes, ih]
      simp [h, h', risingSteps, construct, DoAction, advanceSteppedIndex,
        doCurrentSteppedValue, vectorAt, DoRangeBoundAction, rangeForAction]
    · have h' : (k + 1) % 3 = 0 := by omega
      simp only [pressTimes, ih]
      simp [h, h', risingSteps, construct, DoAction, advanceSteppedIndex,
        doCurrentSteppedValue, vectorAt, DoRangeBoundAction, rangeForAction]

theorem pressTimes_fallingSteps (n : Nat) :
    pressTimes n fallingSteps =
      some { fallingSteps with steppedValuesIndex_ := ((min n 2 : Nat) : Int) } := by
  induction n with
  | zero => rfl
  | succ k ih =>
    have h3 : k = 0 ∨ k = 1 ∨ 2 ≤ k := by omega
    rcases h3 with h | h | h
    · subst h
      simp [pressTimes, fallingSteps, construct, DoAction, advanceSteppedIndex,
        doCurrentSteppedValue, vectorAt, DoRangeBoundAction, rangeForAction]
    · subst h
      simp [pressTimes, fallingSteps, construct, DoAction, advanceSteppedIndex,
        doCurrentSteppedValue, vectorAt, DoRangeBoundAction, rangeForAction]
    · have h1 : min k 2 = 2 := by omega
      have h2 : min (k + 1) 2 = 2 := by omega
      simp only [pressTimes, ih]
      simp [h1, h2, fallingSteps, construct, DoAction, advanceSteppedIndex,
        doCurrentSteppedValue, vectorAt, DoRangeBoundAction, rangeForAction]
      norm_num

/-- C1: without hold delay, on a non-empty stepped table whose index lies inside
the table, `DoAction(v)` with `v != 0` moves the index one further when it is not
the last one, from the last one to 0 when the first table value is less than the
last and nowhere otherwise, and then calls `DoRangeBoundAction` with the table
value at the new index.  With the table `[0.0, 0.5, 1.0]` the index after `n`
calls `DoAction(1.0)` is `n mod 3`; with `[1.0, 0.5, 0.0]` it is `min n 2`. -/
theorem DoAction_stepped_wrap_policy :
    (∀ (c : ActionContext) (v now : ℚ), c.holdDelayAmount_ = 0 → c.steppedValues_ ≠ [] →
      0 ≤ c.steppedValuesIndex_ →
      c.steppedValuesIndex_ ≤ (c.steppedValues_.length : Int) - 1 → v ≠ 0 →
      ∃ x, vectorAt c.steppedValues_ c.steppedIndexAfterPress = some x ∧
        c.DoAction v now =
          some ({ c with steppedValuesIndex_ := c.steppedIndexAfterPress },
                c.DoRangeBoundAction x)) ∧
    (∀ n : Nat, (pressTimes n risingSteps).map (fun c => c.steppedValuesIndex_)
      = some ((n % 3 : Nat) : Int)) ∧
    (∀ n : Nat, (pressTimes n fallingSteps).map (fun c => c.steppedValuesIndex_)
      = some ((min n 2 : Nat) : Int)) := by
  refine ⟨fun c v now h1 h2 h3 h4 h5 => DoAction_press c v now h1 h2 h3 h4 h5, ?_, ?_⟩
  · intro n
    rw [pressTimes_risingSteps]
    rfl
  · intro n
    rw [pressTimes_fallingSteps]
    rfl

/-- The first conjunct of `DoAction_stepped_wrap_policy` at the table
`[0.0, 0.5, 1.0]`, index 0 and value 1. -/
theorem DoAction_stepped_wrap_policy_witness :
    risingSteps.holdDelayAmount_ = 0 ∧ risingSteps.steppedValues_ ≠ [] ∧
    0 ≤ risingSteps.steppedValuesIndex_ ∧
    risingSteps.steppedValuesIndex_ ≤ (risingSteps.steppedValues_.length : Int) - 1 ∧
    (1 : ℚ) ≠ 0 ∧
    ∃ x, vectorAt risingSteps.steppedValues_ risingSteps.steppedIndexAfterPress = some x ∧
      risingSteps.DoAction 1 0 =
        some ({ risingSteps with steppedValuesIndex_ := risingSteps.steppedIndexAfterPress },
              risingSteps.DoRangeBoundAction x) :=
  ⟨rfl, by simp [risingSteps, construct], by simp [risingSteps, construct],
   by simp [risingSteps, construct], one_ne_zero,
   DoAction_stepped_wrap_policy.1 risingSteps 1 0 rfl (by simp [risingSteps, construct])
     (by simp [risingSteps, construct]) (by simp [risingSteps, construct]) one_ne_zero⟩

/-- C2: for `rangeMinimum <= rangeMaximum`, `DoRangeBoundAction(v)` hands the action
the value `cl` when inversion is off and `1 - cl` when it is on, where `cl` is `v`
clamped to the range: `cl` lies in the range, is `v` when `v` lies in the range, the
minimum when `v` is below and the maximum when `v` is above.  Nothing is done to
the value after the inversion. -/
theorem DoRangeBoundAction_clamp_then_invert (c : ActionContext) (v : ℚ)
    (hrange : c.rangeMinimum_ ≤ c.rangeMaximum_) :
    ∃ cl : ℚ, c.rangeMinimum_ ≤ cl ∧ cl ≤ c.rangeMaximum_ ∧
      (c.rangeMinimum_ ≤ v → v ≤ c.rangeMaximum_ → cl = v) ∧
      (v < c.rangeMinimum_ → cl = c.rangeMinimum_) ∧
      (c.rangeMaximum_ < v → cl = c.rangeMaximum_) ∧
      c.DoRangeBoundAction v =
        [Effect.widgetMoved, Effect.actionDo (if c.isValueInverted_ then 1 - cl else cl)] := by
  refine ⟨if (if v > c.rangeMaximum_ then c.rangeMaximum_ else v) < c.rangeMinimum_
    then c.rangeMinimum_ else (if v > c.rangeMaximum_ then c.rangeMaximum_ else v),
    ?_, ?_, ?_, ?_, ?_, ?_⟩
  · split_ifs <;> linarith
  · split_ifs <;> linarith
  · intro h1 h2
    split_ifs <;> linarith
  · intro h1
    split_ifs <;> linarith
  · intro h1
    split_ifs <;> linarith
  · simp [DoRangeBoundAction]

/-- The theorem `DoRangeBoundAction_clamp_then_invert` at range `[-144, 24]` with
inversion on and input 30. -/
theorem DoRangeBoundAction_clamp_then_invert_witness :
    volumeDBInverted.rangeMinimum_ ≤ volumeDBInverted.rangeMaximum_ ∧
    ∃ cl : ℚ, volumeDBInverted.rangeMinimum_ ≤ cl ∧ cl ≤ volumeDBInverted.rangeMaximum_ ∧
      (volumeDBInverted.rangeMinimum_ ≤ 30 → 30 ≤ volumeDBInverted.rangeMaximum_ → cl = 30) ∧
      (30 < volumeDBInverted.rangeMinimum_ → cl = volumeDBInverted.rangeMinimum_) ∧
      (volumeDBInverted.rangeMaximum_ < 30 → cl = volumeDBInverted.rangeMaximum_) ∧
      volumeDBInverted.DoRangeBoundAction 30 =
        [Effect.widgetMoved,
         Effect.actionDo (if volumeDBInverted.isValueInverted_ then 1 - cl else cl)] :=
  ⟨by simp [volumeDBInverted, construct, rangeForAction]; norm_num,
   DoRangeBoundAction_clamp_then_invert volumeDBInverted 30
     (by simp [volumeDBInverted, construct, rangeForAction]; norm_num)⟩

/-- C3, as stated, fails: for range `[-144, 24]` with inversion on and input 1.0 the
action is not called with -144. -/
theorem DoRangeBoundAction_volumeDB_not_minimum :
    Effect.actionDo (-144) ∉ volumeDBInverted.DoRangeBoundAction 1 := by
  simp [volumeDBInverted, construct, rangeForAction, DoRangeBoundAction]
  norm_num

/-- C3, amended: for range `[-144, 24]` with inversion on, the input 1.0 lies in the
range, is inverted to 0.0, and 0.0 is the value passed to the action. -/
theorem DoRangeBoundAction_volumeDB_inverted (c : ActionContext)
    (hmin : c.rangeMinimum_ = -144) (hmax : c.rangeMaximum_ = 24)
    (hinv : c.isValueInverted_ = true) :
    c.DoRangeBoundAction 1 = [Effect.widgetMoved, Effect.actionDo 0] := by
  norm_num [DoRangeBoundAction, hmin, hmax, hinv]

/-- The theorem `DoRangeBoundAction_volumeDB_inverted` at the context the
constructor builds for `TrackVolumeDB`, with inversion on. -/
theorem DoRangeBoundAction_volumeDB_inverted_witness :
    volumeDBInverted.rangeMinimum_ = -144 ∧ volumeDBInverted.rangeMaximum_ = 24 ∧
    volumeDBInverted.isValueInverted_ = true ∧
    volumeDBInverted.DoRangeBoundAction 1 = [Effect.widgetMoved, Effect.actionDo 0] :=
  ⟨by simp [volumeDBInverted, construct, rangeForAction],
   by simp [volumeDBInverted, construct, rangeForAction], rfl,
   DoRangeBoundAction_volumeDB_inverted volumeDBInverted
     (by simp [volumeDBInverted, construct, rangeForAction])
     (by simp [volumeDBInverted, construct, rangeForAction]) rfl⟩

/-! ### ActionContext: the invariant of a stepped context -/

theorem doCurrentSteppedValue_of_bounds (c : ActionContext)
    (hlo : 0 ≤ c.steppedValuesIndex_)
    (hhi : c.steppedValuesIndex_ ≤ (c.steppedValues_.length : Int) - 1) :
    ∃ x, vectorAt c.steppedValues_ c.steppedValuesIndex_ = some x ∧
      c.doCurrentSteppedValue = some (c, c.DoRangeBoundAction x) := by
  obtain ⟨x, hx⟩ := vectorAt_of_lt c.steppedValues_ c.steppedValuesIndex_ hlo (by omega)
  exact ⟨x, hx, by simp [doCurrentSteppedValue, hx]⟩

theorem advanceSteppedIndex_of_bounds (c : ActionContext) (hne : c.steppedValues_ ≠ [])
    (hlo : 0 ≤ c.steppedValuesIndex_)
    (hhi : c.steppedValuesIndex_ ≤ (c.steppedValues_.length : Int) - 1) :
    ∃ i : Int, 0 ≤ i ∧ i ≤ (c.steppedValues_.length : Int) - 1 ∧
      c.advanceSteppedIndex = some { c with steppedValuesIndex_ := i } := by
  have hlen : 0 < c.steppedValues_.length := List.length_pos.mpr hne
  by_cases hlast : c.steppedValuesIndex_ = (c.steppedValues_.length : Int) - 1
  · have hfirst := vectorAt_zero c.steppedValues_ 0 hne
    have hcur := vectorAt_last c.steppedValues_ 0 hne
    by_cases hwrap : c.steppedValues_.head?.getD 0 < c.steppedValues_.getLast?.getD 0
    · exact ⟨0, le_refl 0, by omega,
        by simp [advanceSteppedIndex, hlast, hfirst, hcur, hwrap]⟩
    · refine ⟨c.steppedValuesIndex_, hlo, hhi, ?_⟩
      simp [advanceSteppedIndex, hlast, hfirst, hcur, hwrap]
      cases c
      simp_all
  · exact ⟨c.steppedValuesIndex_ + 1, by omega, by omega,
      by simp [advanceSteppedIndex, hlast]⟩

/-- The press path shared by `DoAction` and `RunDeferredActions` keeps the
invariant and the tables. -/
theorem press_path_invariant (c : ActionContext) (hne : c.steppedValues_ ≠ [])
    (hinv : c.SteppedInvariant) :
    ∃ c' e, (c.advanceSteppedIndex.bind fun c => c.doCurrentSteppedValue) = some (c', e)
      ∧ c'.SteppedInvariant ∧ c'.steppedValues_ = c.steppedValues_
      ∧ c'.acceleratedTickValues_ = c.acceleratedTickValues_ := by
  obtain ⟨hlo, hhi, hinc, hdec⟩ := hinv
  obtain ⟨i, hi0, hi1, hadv⟩ := advanceSteppedIndex_of_bounds c hne hlo hhi
  obtain ⟨x, -, hx⟩ := doCurrentSteppedValue_of_bounds
    { c with steppedValuesIndex_ := i } hi0 hi1
  refine ⟨{ c with steppedValuesIndex_ := i },
    ({ c with steppedValuesIndex_ := i } : ActionContext).DoRangeBoundAction x, ?_, ?_, rfl, rfl⟩
  · rw [hadv, Option.some_bind]
    exact hx
  · exact ⟨hi0, hi1, hinc, hdec⟩

theorem DoAction_invariant (c : ActionContext) (v now : ℚ) (hne : c.steppedValues_ ≠ [])
    (hinv : c.SteppedInvariant) :
    ∃ c' e, c.DoAction v now = some (c', e) ∧ c'.SteppedInvariant
      ∧ c'.steppedValues_ = c.steppedValues_
      ∧ c'.acceleratedTickValues_ = c.acceleratedTickValues_ := by
  have hlen : 0 < c.steppedValues_.length := List.length_pos.mpr hne
  unfold DoAction
  by_cases hhold : c.holdDelayAmount_ = 0
  · by_cases hv : v = 0
    · exact ⟨c, [], by simp [hhold, hlen, hv], hinv, rfl, rfl⟩
    · obtain ⟨c', e, h, h'⟩ := press_path_invariant c hne hinv
      refine ⟨c', e, ?_, h'⟩
      simpa [hhold, hlen, hv] using h
  · by_cases hv : v = 0
    · exact ⟨{ c with deferredValue_ := 0, delayStartTime_ := 0 }, [],
        by simp [hhold, hv], hinv, rfl, rfl⟩
    · exact ⟨{ c with deferredValue_ := v, delayStartTime_ := now }, [],
        by simp [hhold, hv], hinv, rfl, rfl⟩

theorem RunDeferredActions_invariant (c : ActionContext) (now : ℚ)
    (hne : c.steppedValues_ ≠ []) (hinv : c.SteppedInvariant) :
    ∃ c' e, c.RunDeferredActions now = some (c', e) ∧ c'.SteppedInvariant
      ∧ c'.steppedValues_ = c.steppedValues_
      ∧ c'.acceleratedTickValues_ = c.acceleratedTickValues_ := by
  have hlen : 0 < c.steppedValues_.length := List.length_pos.mpr hne
  unfold RunDeferredActions
  by_cases hcond : c.holdDelayAmount_ ≠ 0 ∧ c.delayStartTime_ ≠ 0
      ∧ now > c.delayStartTime_ + c.holdDelayAmount_
  · by_cases hv : c.deferredValue_ = 0
    · exact ⟨{ c with delayStartTime_ := 0, deferredValue_ := 0 }, [],
        by simp [hcond, hlen, hv], hinv, rfl, rfl⟩
    · obtain ⟨c', e, h, hinv', ht, ha⟩ := press_path_invariant c hne hinv
      refine ⟨{ c' with delayStartTime_ := 0, deferredValue_ := 0 }, e, ?_, hinv', ht, ha⟩
      rw [if_pos hcond]
      simp only [gt_iff_lt, hlen, if_true, ne_eq, hv, not_false_eq_true]
      obtain ⟨c1, h1, h2⟩ := Option.bind_eq_some.mp h
      simp [h1, h2]
  · exact ⟨c, [], by rw [if_neg hcond], hinv, rfl, rfl⟩

theorem DoRelativeAction_invariant (c : ActionContext) (delta current : ℚ)
    (hne : c.steppedValues_ ≠ []) (hinv : c.SteppedInvariant) :
    ∃ c' e, c.DoRelativeAction delta current = some (c', e) ∧ c'.SteppedInvariant
      ∧ c'.steppedValues_ = c.steppedValues_
      ∧ c'.acceleratedTickValues_ = c.acceleratedTickValues_ := by
  have hlen : 0 < c.steppedValues_.length := List.length_pos.mpr hne
  obtain ⟨hlo, hhi, hinc, hdec⟩ := hinv
  unfold DoRelativeAction DoSteppedValueAction
  simp only [gt_iff_lt, hlen, if_true]
  by_cases hd : 0 < delta
  · simp only [hd, if_true]
    have h0 : (0 : Int) ≤ (if c.steppedValuesIndex_ + 1 > (c.steppedValues_.length : Int) - 1
        then (c.steppedValues_.length : Int) - 1 else c.steppedValuesIndex_ + 1) := by
      split_ifs <;> omega
    have h1 : (if c.steppedValuesIndex_ + 1 > (c.steppedValues_.length : Int) - 1
        then (c.steppedValues_.length : Int) - 1 else c.steppedValuesIndex_ + 1)
        ≤ (c.steppedValues_.length : Int) - 1 := by
      split_ifs <;> omega
    obtain ⟨x, -, hx⟩ := doCurrentSteppedValue_of_bounds
      { c with steppedValuesIndex_ :=
          (if c.steppedValuesIndex_ + 1 > (c.steppedValues_.length : Int) - 1
            then (c.steppedValues_.length : Int) - 1 else c.steppedValuesIndex_ + 1) } h0 h1
    exact ⟨_, _, hx, ⟨h0, h1, hinc, hdec⟩, rfl, rfl⟩
  · simp only [hd, if_false]
    have h0 : (0 : Int) ≤ (if c.steppedValuesIndex_ - 1 < 0 then 0
        else c.steppedValuesIndex_ - 1) := by
      split_ifs <;> omega
    have h1 : (if c.steppedValuesIndex_ - 1 < 0 then 0 else c.steppedValuesIndex_ - 1)
        ≤ (c.steppedValues_.length : Int) - 1 := by
      split_ifs <;> omega
    obtain ⟨x, -, hx⟩ := doCurrentSteppedValue_of_bounds
      { c with steppedValuesIndex_ :=
          (if c.steppedValuesIndex_ - 1 < 0 then 0 else c.steppedValuesIndex_ - 1) } h0 h1
    exact ⟨_, _, hx, ⟨h0, h1, hinc, hdec⟩, rfl, rfl⟩

theorem clampedAccelerationIndex_eq (size : Nat) (a : Int) :
    (if (if a > (size : Int) - 1 then (size : Int) - 1 else a) < 0 then 0
      else (if a > (size : Int) - 1 then (size : Int) - 1 else a))
      = clampedAccelerationIndex size a := by
  unfold clampedAccelerationIndex
  split_ifs <;> omega

theorem clampedAccelerationIndex_bounds (size : Nat) (a : Int) (h : 0 < size) :
    0 ≤ clampedAccelerationIndex size a ∧ clampedAccelerationIndex size a < (size : Int) := by
  unfold clampedAccelerationIndex
  omega

/-- One call with a positive delta: the increment counter goes up, the decrement
counter decays, and the index moves exactly when the threshold is reached. -/
theorem accelerated_step_pos (c : ActionContext) (a : Int) (delta current : ℚ) (T : Int)
    (hne : c.steppedValues_ ≠ []) (hlo : 0 ≤ c.steppedValuesIndex_)
    (hhi : c.steppedValuesIndex_ ≤ (c.steppedValues_.length : Int) - 1)
    (hd : 0 < delta)
    (hT : vectorAt c.acceleratedTickValues_
      (clampedAccelerationIndex c.acceleratedTickValues_.length a) = some T) :
    (T ≤ c.accumulatedIncTicks_ + 1 →
      ∃ x, vectorAt c.steppedValues_
          (min (c.steppedValuesIndex_ + 1) ((c.steppedValues_.length : Int) - 1)) = some x ∧
        c.DoRelativeActionAccelerated a delta current =
          some ({ c with accumulatedIncTicks_ := 0, accumulatedDecTicks_ := 0,
                         steppedValuesIndex_ :=
                           min (c.steppedValuesIndex_ + 1) ((c.steppedValues_.length : Int) - 1) },
                c.DoRangeBoundAction x)) ∧
    (c.accumulatedIncTicks_ + 1 < T →
      c.DoRelativeActionAccelerated a delta current =
        some ({ c with accumulatedIncTicks_ := c.accumulatedIncTicks_ + 1,
                       accumulatedDecTicks_ := max 0 (c.accumulatedDecTicks_ - 1) }, [])) := by
  have hlen : 0 < c.steppedValues_.length := List.length_pos.mpr hne
  have hmin : min (c.steppedValuesIndex_ + 1) ((c.steppedValues_.length : Int) - 1)
      = (if c.steppedValuesIndex_ + 1 > (c.steppedValues_.length : Int) - 1
          then (c.steppedValues_.length : Int) - 1 else c.steppedValuesIndex_ + 1) := by
    split_ifs <;> omega
  have hmax : max 0 (c.accumulatedDecTicks_ - 1)
      = (if c.accumulatedDecTicks_ - 1 < 0 then 0 else c.accumulatedDecTicks_ - 1) := by
    split_ifs <;> omega
  constructor
  · intro hge
    obtain ⟨x, hx⟩ := vectorAt_of_lt c.steppedValues_
      (min (c.steppedValuesIndex_ + 1) ((c.steppedValues_.length : Int) - 1))
      (by omega) (by omega)
    refine ⟨x, hx, ?_⟩
    rw [hmin] at hx ⊢
    simp only [DoRelativeActionAccelerated, DoAcceleratedSteppedValueAction, gt_iff_lt, hlen,
      if_true, hd, clampedAccelerationIndex_eq, hT, Option.pure_def, Option.bind_eq_bind,
      Option.some_bind, ge_iff_le, hge, doCurrentSteppedValue, hx]
    rfl
  · intro hlt
    have hnot : ¬ T ≤ c.accumulatedIncTicks_ + 1 := by omega
    rw [hmax]
    simp only [DoRelativeActionAccelerated, DoAcceleratedSteppedValueAction, gt_iff_lt, hlen,
      if_true, hd, clampedAccelerationIndex_eq, hT, Option.pure_def, Option.bind_eq_bind,
      Option.some_bind, ge_iff_le, hnot, if_false]

/-- One call with a negative delta: the mirror image of `accelerated_step_pos`. -/
theorem accelerated_step_neg (c : ActionContext) (a : Int) (delta current : ℚ) (T : Int)
    (hne : c.steppedValues_ ≠ []) (hlo : 0 ≤ c.steppedValuesIndex_)
    (hhi : c.steppedValuesIndex_ ≤ (c.steppedValues_.length : Int) - 1)
    (hd : delta < 0)
    (hT : vectorAt c.acceleratedTickValues_
      (clampedAccelerationIndex c.acceleratedTickValues_.length a) = some T) :
    (T ≤ c.accumulatedDecTicks_ + 1 →
      ∃ x, vectorAt c.steppedValues_ (max (c.steppedValuesIndex_ - 1) 0) = some x ∧
        c.DoRelativeActionAccelerated a delta current =
          some ({ c with accumulatedIncTicks_ := 0, accumulatedDecTicks_ := 0,
                         steppedValuesIndex_ := max (c.steppedValuesIndex_ - 1) 0 },
                c.DoRangeBoundAction x)) ∧
    (c.accumulatedDecTicks_ + 1 < T →
      c.DoRelativeActionAccelerated a delta current =
        some ({ c with accumulatedDecTicks_ := c.accumulatedDecTicks_ + 1,
                       accumulatedIncTicks_ := max 0 (c.accumulatedIncTicks_ - 1) }, [])) := by
  have hlen : 0 < c.steppedValues_.length := List.length_pos.mpr hne
  have hnd : ¬ 0 < delta := by linarith
  have hmin : max (c.steppedValuesIndex_ - 1) 0
      = (if c.steppedValuesIndex_ - 1 < 0 then 0 else c.steppedValuesIndex_ - 1) := by
    split_ifs <;> omega
  have hmax : max 0 (c.accumulatedIncTicks_ - 1)
      = (if c.accumulatedIncTicks_ - 1 < 0 then 0 else c.accumulatedIncTicks_ - 1) := by
    split_ifs <;> omega
  constructor
  · intro hge
    obtain ⟨x, hx⟩ := vectorAt_of_lt c.steppedValues_ (max (c.steppedValuesIndex_ - 1) 0)
      (by omega) (by omega)
    refine ⟨x, hx, ?_⟩
    rw [hmin] at hx ⊢
    simp only [DoRelativeActionAccelerated, DoAcceleratedSteppedValueAction, gt_iff_lt, hlen,
      if_true, hd, hnd, if_false, clampedAccelerationIndex_eq, hT, Option.pure_def,
      Option.bind_eq_bind, Option.some_bind, ge_iff_le, hge, doCurrentSteppedValue, hx]
    rfl
  · intro hlt
    have hnot : ¬ T ≤ c.accumulatedDecTicks_ + 1 := by omega
    rw [hmax]
    simp only [DoRelativeActionAccelerated, DoAcceleratedSteppedValueAction, gt_iff_lt, hlen,
      if_true, hd, hnd, if_false, clampedAccelerationIndex_eq, hT, Option.pure_def,
      Option.bind_eq_bind, Option.some_bind, ge_iff_le, hnot]

/-- One call with a zero delta changes nothing and calls nothing. -/
theorem accelerated_step_zero (c : ActionContext) (a : Int) (current : ℚ)
    (hne : c.steppedValues_ ≠ []) :
    c.DoRelativeActionAccelerated a 0 current = some (c, []) := by
  have hlen : 0 < c.steppedValues_.length := List.length_pos.mpr hne
  simp [DoRelativeActionAccelerated, DoAcceleratedSteppedValueAction, hlen]

theorem DoRelativeActionAccelerated_invariant (c : ActionContext) (a : Int)
    (delta current : ℚ) (hne : c.steppedValues_ ≠ [])
    (hticks : c.acceleratedTickValues_ ≠ []) (hinv : c.SteppedInvariant) :
    ∃ c' e, c.DoRelativeActionAccelerated a delta current = some (c', e)
      ∧ c'.SteppedInvariant ∧ c'.steppedValues_ = c.steppedValues_
      ∧ c'.acceleratedTickValues_ = c.acceleratedTickValues_ := by
  have hinv' := hinv
  obtain ⟨hlo, hhi, hinc, hdec⟩ := hinv
  have hlen : 0 < c.steppedValues_.length := List.length_pos.mpr hne
  have htl : 0 < c.acceleratedTickValues_.length := List.length_pos.mpr hticks
  obtain ⟨hb0, hb1⟩ := clampedAccelerationIndex_bounds c.acceleratedTickValues_.length a htl
  obtain ⟨T, hT⟩ := vectorAt_of_lt c.acceleratedTickValues_ _ hb0 hb1
  rcases lt_trichotomy delta 0 with hd | hd | hd
  · obtain ⟨hfire, hquiet⟩ := accelerated_step_neg c a delta current T hne hlo hhi hd hT
    by_cases hge : T ≤ c.accumulatedDecTicks_ + 1
    · obtain ⟨x, -, hx⟩ := hfire hge
      refine ⟨_, _, hx, ⟨?_, ?_, le_refl _, le_refl _⟩, rfl, rfl⟩
      · exact le_max_right _ _
      · show max (c.steppedValuesIndex_ - 1) 0 ≤ (c.steppedValues_.length : Int) - 1
        omega
    · refine ⟨_, _, hquiet (by omega), ⟨hlo, hhi, ?_, ?_⟩, rfl, rfl⟩
      · exact le_max_left _ _
      · show 0 ≤ c.accumulatedDecTicks_ + 1
        omega
  · subst hd
    exact ⟨c, [], accelerated_step_zero c a current hne, hinv', rfl, rfl⟩
  · obtain ⟨hfire, hquiet⟩ := accelerated_step_pos c a delta current T hne hlo hhi hd hT
    by_cases hge : T ≤ c.accumulatedIncTicks_ + 1
    · obtain ⟨x, -, hx⟩ := hfire hge
      refine ⟨_, _, hx, ⟨?_, ?_, le_refl _, le_refl _⟩, rfl, rfl⟩
      · show 0 ≤ min (c.steppedValuesIndex_ + 1) ((c.steppedValues_.length : Int) - 1)
        omega
      · exact min_le_right _ _
    · refine ⟨_, _, hquiet (by omega), ⟨hlo, hhi, ?_, ?_⟩, rfl, rfl⟩
      · show 0 ≤ c.accumulatedIncTicks_ + 1
        omega
      · exact le_max_left _ _

theorem vectorAt_mem {α : Type} (v : List α) (i : Int) (x : α) (h : vectorAt v i = some x) :
    x ∈ v := by
  unfold vectorAt at h
  split_ifs at h
  exact List.get?_mem h

/-- The tick counters stay below every bound `M >= 1` of the tick thresholds: an
`int` that holds the thresholds holds the counters, also during the increment. -/
theorem accumulated_ticks_bounded (c : ActionContext) (a : Int) (delta current : ℚ)
    (M : Int) (hM : 1 ≤ M) (hbound : ∀ t ∈ c.acceleratedTickValues_, t ≤ M)
    (hne : c.steppedValues_ ≠ []) (hticks : c.acceleratedTickValues_ ≠ [])
    (hinv : c.SteppedInvariant)
    (hinc : c.accumulatedIncTicks_ < M) (hdec : c.accumulatedDecTicks_ < M) :
    ∃ c' e, c.DoRelativeActionAccelerated a delta current = some (c', e)
      ∧ c'.accumulatedIncTicks_ < M ∧ c'.accumulatedDecTicks_ < M := by
  obtain ⟨hlo, hhi, hinc0, hdec0⟩ := hinv
  have htl : 0 < c.acceleratedTickValues_.length := List.length_pos.mpr hticks
  obtain ⟨hb0, hb1⟩ := clampedAccelerationIndex_bounds c.acceleratedTickValues_.length a htl
  obtain ⟨T, hT⟩ := vectorAt_of_lt c.acceleratedTickValues_ _ hb0 hb1
  have hTM : T ≤ M := hbound T (vectorAt_mem _ _ _ hT)
  rcases lt_trichotomy delta 0 with hd | hd | hd
  · obtain ⟨hfire, hquiet⟩ := accelerated_step_neg c a delta current T hne hlo hhi hd hT
    by_cases hge : T ≤ c.accumulatedDecTicks_ + 1
    · obtain ⟨x, -, hx⟩ := hfire hge
      exact ⟨_, _, hx, by show (0 : Int) < M; omega, by show (0 : Int) < M; omega⟩
    · refine ⟨_, _, hquiet (by omega), ?_, ?_⟩
      · show max 0 (c.accumulatedIncTicks_ - 1) < M
        omega
      · show c.accumulatedDecTicks_ + 1 < M
        omega
  · subst hd
    exact ⟨c, [], accelerated_step_zero c a current hne, hinc, hdec⟩
  · obtain ⟨hfire, hquiet⟩ := accelerated_step_pos c a delta current T hne hlo hhi hd hT
    by_cases hge : T ≤ c.accumulatedIncTicks_ + 1
    · obtain ⟨x, -, hx⟩ := hfire hge
      exact ⟨_, _, hx, by show (0 : Int) < M; omega, by show (0 : Int) < M; omega⟩
    · refine ⟨_, _, hquiet (by omega), ?_, ?_⟩
      · show c.accumulatedIncTicks_ + 1 < M
        omega
      · show max 0 (c.accumulatedDecTicks_ - 1) < M
        omega

theorem construct_invariant (actionName : String) (p : SteppedParse)
    (hne : p.steppedValues ≠ []) :
    (construct actionName p).SteppedInvariant
      ∧ (construct actionName p).steppedValues_ = p.steppedValues
      ∧ (construct actionName p).acceleratedTickValues_ ≠ [] := by
  have hlen : 0 < p.steppedValues.length := List.length_pos.mpr hne
  refine ⟨⟨le_refl _, ?_, le_refl _, le_refl _⟩, rfl, ?_⟩
  · show (0 : Int) ≤ (p.steppedValues.length : Int) - 1
    omega
  · show (if p.acceleratedTickValues.length < 1 then p.acceleratedTickValues ++ [10]
      else p.acceleratedTickValues) ≠ []
    split_ifs with h
    · simp
    · intro h0
      rw [h0] at h
      simp at h

/-- C4: for a non-empty stepped table the invariant (index inside the table, both
tick counters non-negative) holds for the context the constructor builds, whose
tick table is non-empty, and every one of `DoAction`, `RunDeferredActions`,
`DoRelativeAction(delta)` and `DoRelativeAction(accelerationIndex, delta)` returns,
keeps the invariant and leaves both tables as they were, for every value, clock
reading, delta and acceleration index. -/
theorem stepped_invariant_preserved :
    (∀ (actionName : String) (p : SteppedParse), p.steppedValues ≠ [] →
      (construct actionName p).SteppedInvariant
        ∧ (construct actionName p).steppedValues_ = p.steppedValues
        ∧ (construct actionName p).acceleratedTickValues_ ≠ []) ∧
    (∀ (c : ActionContext) (v now : ℚ), c.steppedValues_ ≠ [] → c.SteppedInvariant →
      ∃ c' e, c.DoAction v now = some (c', e) ∧ c'.SteppedInvariant
        ∧ c'.steppedValues_ = c.steppedValues_
        ∧ c'.acceleratedTickValues_ = c.acceleratedTickValues_) ∧
    (∀ (c : ActionContext) (now : ℚ), c.steppedValues_ ≠ [] → c.SteppedInvariant →
      ∃ c' e, c.RunDeferredActions now = some (c', e) ∧ c'.SteppedInvariant
        ∧ c'.steppedValues_ = c.steppedValues_
        ∧ c'.acceleratedTickValues_ = c.acceleratedTickValues_) ∧
    (∀ (c : ActionContext) (delta current : ℚ), c.steppedValues_ ≠ [] →
      c.SteppedInvariant →
      ∃ c' e, c.DoRelativeAction delta current = some (c', e) ∧ c'.SteppedInvariant
        ∧ c'.steppedValues_ = c.steppedValues_
        ∧ c'.acceleratedTickValues_ = c.acceleratedTickValues_) ∧
    (∀ (c : ActionContext) (a : Int) (delta current : ℚ), c.steppedValues_ ≠ [] →
      c.acceleratedTickValues_ ≠ [] → c.SteppedInvariant →
      ∃ c' e, c.DoRelativeActionAccelerated a delta current = some (c', e)
        ∧ c'.SteppedInvariant ∧ c'.steppedValues_ = c.steppedValues_
        ∧ c'.acceleratedTickValues_ = c.acceleratedTickValues_) :=
  ⟨construct_invariant, DoAction_invariant, RunDeferredActions_invariant,
   DoRelativeAction_invariant, DoRelativeActionAccelerated_invariant⟩

/-- The last conjunct of `stepped_invariant_preserved` at the context built for the
stepped values `[0.0, 0.5, 1.0]`, acceleration index 7 and delta -1. -/
theorem stepped_invariant_preserved_witness :
    risingSteps.steppedValues_ ≠ [] ∧ risingSteps.acceleratedTickValues_ ≠ [] ∧
    risingSteps.SteppedInvariant ∧
    ∃ c' e, risingSteps.DoRelativeActionAccelerated 7 (-1) 0 = some (c', e)
      ∧ c'.SteppedInvariant ∧ c'.steppedValues_ = risingSteps.steppedValues_
      ∧ c'.acceleratedTickValues_ = risingSteps.acceleratedTickValues_ :=
  ⟨by simp [risingSteps, construct], by simp [risingSteps, construct],
   by simp [SteppedInvariant, risingSteps, construct],
   stepped_invariant_preserved.2.2.2.2 risingSteps 7 (-1) 0
     (by simp [risingSteps, construct]) (by simp [risingSteps, construct])
     (by simp [SteppedInvariant, risingSteps, construct])⟩

/-! ### ActionContext: accelerated runs -/

/-- A run of positive deltas started with the increment counter at `r < T` and the
decrement counter at 0: call `k + 1` of the run fires exactly when `T` divides
`r + k + 1`, and the context after it is given in closed form. -/
theorem turnRun_positive (a : Int) (T : Int) (hT1 : 1 ≤ T) (deltas : List ℚ) :
    ∀ (c : ActionContext), c.steppedValues_ ≠ [] → 0 ≤ c.steppedValuesIndex_ →
      c.steppedValuesIndex_ ≤ (c.steppedValues_.length : Int) - 1 →
      vectorAt c.acceleratedTickValues_
        (clampedAccelerationIndex c.acceleratedTickValues_.length a) = some T →
      0 ≤ c.accumulatedIncTicks_ → c.accumulatedIncTicks_ < T →
      c.accumulatedDecTicks_ = 0 → (∀ d ∈ deltas, 0 < d) →
      ∃ steps, turnRun a deltas c = some steps ∧ steps.length = deltas.length ∧
        ∀ (k : Nat) (s : ActionContext × List Effect), steps[k]? = some s →
          (s.2 ≠ [] ↔ T ∣ c.accumulatedIncTicks_ + (k : Int) + 1) ∧
          s.1.steppedValuesIndex_ =
            min (c.steppedValuesIndex_ + (c.accumulatedIncTicks_ + (k : Int) + 1) / T)
              ((c.steppedValues_.length : Int) - 1) ∧
          s.1.accumulatedIncTicks_ = (c.accumulatedIncTicks_ + (k : Int) + 1) % T ∧
          s.1.accumulatedDecTicks_ = 0 := by
  induction deltas with
  | nil =>
    intro c _ _ _ _ _ _ _ _
    exact ⟨[], rfl, rfl, by intro k s hs; simp at hs⟩
  | cons d ds ih =>
    intro c hne hlo hhi hT hr0 hrT hdec hpos
    have hd : 0 < d := hpos d (List.mem_cons_self _ _)
    have hpos' : ∀ x ∈ ds, 0 < x := fun x hx => hpos x (List.mem_cons_of_mem _ hx)
    have hTne : T ≠ 0 := by omega
    obtain ⟨hfire, hquiet⟩ := accelerated_step_pos c a d 0 T hne hlo hhi hd hT
    by_cases hge : T ≤ c.accumulatedIncTicks_ + 1
    · -- the call reaches the threshold
      have hrT' : c.accumulatedIncTicks_ + 1 = T := by omega
      obtain ⟨x, -, hx⟩ := hfire hge
      obtain ⟨steps, hrun, hlen, hall⟩ := ih
        { c with accumulatedIncTicks_ := 0, accumulatedDecTicks_ := 0,
                 steppedValuesIndex_ :=
                   min (c.steppedValuesIndex_ + 1) ((c.steppedValues_.length : Int) - 1) }
        hne (by show 0 ≤ min (c.steppedValuesIndex_ + 1) ((c.steppedValues_.length : Int) - 1)
                omega)
        (min_le_right _ _) hT (le_refl _) (by show (0 : Int) < T; omega) rfl hpos'
      refine ⟨({ c with accumulatedIncTicks_ := 0, accumulatedDecTicks_ := 0,
                        steppedValuesIndex_ :=
                          min (c.steppedValuesIndex_ + 1) ((c.steppedValues_.length : Int) - 1) },
               c.DoRangeBoundAction x) :: steps, ?_, by simp [hlen], ?_⟩
      · simp only [turnRun, hx, Option.pure_def, Option.bind_eq_bind, Option.some_bind, hrun]
      · intro k s hs
        cases k with
        | zero =>
          simp only [List.getElem?_cons_zero, Option.some.injEq] at hs
          subst hs
          have e1 : c.accumulatedIncTicks_ + ((0 : Nat) : Int) + 1 = T := by omega
          rw [e1, Int.ediv_self hTne, Int.emod_self]
          exact ⟨by simp [DoRangeBoundAction], rfl, rfl, rfl⟩
        | succ j =>
          simp only [List.getElem?_cons_succ] at hs
          obtain ⟨h1, h2, h3, h4⟩ := hall j s hs
          have e2 : c.accumulatedIncTicks_ + ((j + 1 : Nat) : Int) + 1
              = T + (0 + (j : Int) + 1) := by push_cast; omega
          have hq : (0 : Int) ≤ (0 + (j : Int) + 1) / T := Int.ediv_nonneg (by omega) (by omega)
          rw [e2, Int.add_ediv_of_dvd_left (dvd_refl T), Int.ediv_self hTne,
            Int.add_emod_self_left, dvd_add_right (dvd_refl T)]
          refine ⟨h1, ?_, h3, h4⟩
          rw [h2]
          show min (min (c.steppedValuesIndex_ + 1) ((c.steppedValues_.length : Int) - 1)
              + (0 + (j : Int) + 1) / T) ((c.steppedValues_.length : Int) - 1) = _
          generalize (0 + (j : Int) + 1) / T = q at hq
          omega
    · -- the call stays below the threshold
      have hlt : c.accumulatedIncTicks_ + 1 < T := by omega
      have hx := hquiet hlt
      have hdec' : max 0 (c.accumulatedDecTicks_ - 1) = 0 := by omega
      obtain ⟨steps, hrun, hlen, hall⟩ := ih
        { c with accumulatedIncTicks_ := c.accumulatedIncTicks_ + 1,
                 accumulatedDecTicks_ := max 0 (c.accumulatedDecTicks_ - 1) }
        hne hlo hhi hT (by show 0 ≤ c.accumulatedIncTicks_ + 1; omega) hlt hdec' hpos'
      refine ⟨({ c with accumulatedIncTicks_ := c.accumulatedIncTicks_ + 1,
                        accumulatedDecTicks_ := max 0 (c.accumulatedDecTicks_ - 1) }, [])
               :: steps, ?_, by simp [hlen], ?_⟩
      · simp only [turnRun, hx, Option.pure_def, Option.bind_eq_bind, Option.some_bind, hrun]
      · intro k s hs
        cases k with
        | zero =>
          simp only [List.getElem?_cons_zero, Option.some.injEq] at hs
          subst hs
          have e1 : c.accumulatedIncTicks_ + ((0 : Nat) : Int) + 1
              = c.accumulatedIncTicks_ + 1 := by omega
          rw [e1, Int.ediv_eq_zero_of_lt (by omega) hlt, Int.emod_eq_of_lt (by omega) hlt]
          refine ⟨?_, ?_, rfl, hdec'⟩
          · constructor
            · intro h
              exact absurd rfl h
            · intro h
              have := Int.le_of_dvd (by omega) h
              omega
          · show c.steppedValuesIndex_ = min (c.steppedValuesIndex_ + 0) _
            omega
        | succ j =>
          simp only [List.getElem?_cons_succ] at hs
          obtain ⟨h1, h2, h3, h4⟩ := hall j s hs
          have e2 : c.accumulatedIncTicks_ + ((j + 1 : Nat) : Int) + 1
              = c.accumulatedIncTicks_ + 1 + (j : Int) + 1 := by push_cast; omega
          rw [e2]
          exact ⟨h1, h2, h3, h4⟩

theorem turnRun_threeTickSteps :
    (turnRun 0 [1, 1, 1, 1] threeTickSteps).map
        (List.map fun s => (s.1.steppedValuesIndex_, s.1.accumulatedIncTicks_,
          s.1.accumulatedDecTicks_, s.2))
      = some [(0, 1, 0, []), (0, 2, 0, []),
              (1, 0, 0, [Effect.widgetMoved, Effect.actionDo (1 / 2)]), (1, 1, 0, [])] := by
  simp [turnRun, threeTickSteps, construct, DoRelativeActionAccelerated,
    DoAcceleratedSteppedValueAction, vectorAt, doCurrentSteppedValue, DoRangeBoundAction,
    rangeForAction]
  norm_num

/-- C5: on a non-empty stepped table, with threshold `T >= 1` at the clamped
acceleration index and both tick counters at 0, a run of calls
`DoRelativeAction(accelerationIndex, delta)` with positive deltas returns, and its
call number `k + 1` invokes the action exactly when `T` divides `k + 1`; after that
call the index is `min (index + (k + 1) / T) (size - 1)`, the increment counter is
`(k + 1) mod T` (so 0 after an advancing call) and the decrement counter is 0.
With thresholds `[3, 1]`, acceleration index 0 and four calls only the third call
advances the index, from 0 to 1, and leaves both counters at 0. -/
theorem accelerated_run_advances_at_threshold :
    (∀ (c : ActionContext) (a T : Int) (deltas : List ℚ),
      c.steppedValues_ ≠ [] → 0 ≤ c.steppedValuesIndex_ →
      c.steppedValuesIndex_ ≤ (c.steppedValues_.length : Int) - 1 →
      vectorAt c.acceleratedTickValues_
        (clampedAccelerationIndex c.acceleratedTickValues_.length a) = some T →
      1 ≤ T → c.accumulatedIncTicks_ = 0 → c.accumulatedDecTicks_ = 0 →
      (∀ d ∈ deltas, 0 < d) →
      ∃ steps, turnRun a deltas c = some steps ∧ steps.length = deltas.length ∧
        ∀ (k : Nat) (s : ActionContext × List Effect), steps[k]? = some s →
          (s.2 ≠ [] ↔ T ∣ (k : Int) + 1) ∧
          s.1.steppedValuesIndex_ =
            min (c.steppedValuesIndex_ + ((k : Int) + 1) / T)
              ((c.steppedValues_.length : Int) - 1) ∧
          s.1.accumulatedIncTicks_ = ((k : Int) + 1) % T ∧
          s.1.accumulatedDecTicks_ = 0 ∧
          (T ∣ (k : Int) + 1 → s.1.accumulatedIncTicks_ = 0 ∧ s.1.accumulatedDecTicks_ = 0)) ∧
    (turnRun 0 [1, 1, 1, 1] threeTickSteps).map
        (List.map fun s => (s.1.steppedValuesIndex_, s.1.accumulatedIncTicks_,
          s.1.accumulatedDecTicks_, s.2))
      = some [(0, 1, 0, []), (0, 2, 0, []),
              (1, 0, 0, [Effect.widgetMoved, Effect.actionDo (1 / 2)]), (1, 1, 0, [])] := by
  refine ⟨?_, turnRun_threeTickSteps⟩
  intro c a T deltas hne hlo hhi hT hT1 hinc hdec hpos
  obtain ⟨steps, hrun, hlen, hall⟩ := turnRun_positive a T hT1 deltas c hne hlo hhi hT
    (by omega) (by omega) hdec hpos
  refine ⟨steps, hrun, hlen, ?_⟩
  intro k s hs
  obtain ⟨h1, h2, h3, h4⟩ := hall k s hs
  rw [hinc, zero_add] at h1 h2 h3
  refine ⟨h1, h2, h3, h4, ?_⟩
  intro hdvd
  exact ⟨by rw [h3]; exact Int.emod_eq_zero_of_dvd hdvd, h4⟩

/-- The first conjunct of `accelerated_run_advances_at_threshold` at thresholds
`[3, 1]`, acceleration index 0 and four positive deltas. -/
theorem accelerated_run_advances_at_threshold_witness :
    ∃ steps, turnRun 0 [1, 1, 1, 1] threeTickSteps = some steps ∧
      steps.length = [(1 : ℚ), 1, 1, 1].length ∧
      ∀ (k : Nat) (s : ActionContext × List Effect), steps[k]? = some s →
        (s.2 ≠ [] ↔ (3 : Int) ∣ (k : Int) + 1) ∧
        s.1.steppedValuesIndex_ =
          min (threeTickSteps.steppedValuesIndex_ + ((k : Int) + 1) / 3)
            ((threeTickSteps.steppedValues_.length : Int) - 1) ∧
        s.1.accumulatedIncTicks_ = ((k : Int) + 1) % 3 ∧
        s.1.accumulatedDecTicks_ = 0 ∧
        ((3 : Int) ∣ (k : Int) + 1 →
          s.1.accumulatedIncTicks_ = 0 ∧ s.1.accumulatedDecTicks_ = 0) :=
  accelerated_run_advances_at_threshold.1 threeTickSteps 0 3 [1, 1, 1, 1]
    (by simp [threeTickSteps, construct]) (by simp [threeTickSteps, construct])
    (by simp [threeTickSteps, construct])
    (by simp [threeTickSteps, construct, clampedAccelerationIndex, vectorAt])
    (by norm_num) rfl rfl (by simp)

end ActionContext

namespace Zone

/-! ### Zone: resolution of bindings -/

/-- C6: for a widget with cached modifier `m` and an entry `d` in the dictionary of
the zone, `GetActionContexts(widget)` leaves the zone as it is and returns the list
under `m + 3` if the channel is touched and toggled and that key exists, otherwise
the list under `m + 1` if touched and present, otherwise the list under `m + 2` if
toggled and present, otherwise the list under `m` if present, otherwise the empty
default list. -/
theorem GetActionContexts_preference (z : Zone) (s : Surface) (widget : Widget) (m : Int)
    (d : Int → Option (List ActionContextId))
    (hm : z.currentActionContextModifiers_ widget = some m)
    (hd : z.actionContextDictionary_ widget = some d) :
    z.GetActionContexts s widget =
      (z, preferredBinding d m (s.isChannelTouched widget.channelNumber)
            (s.isChannelToggled widget.channelNumber)) := by
  unfold GetActionContexts preferredBinding
  simp only [hm, hd, Option.isNone_some, Bool.false_eq_true, if_false]
  cases s.isChannelTouched widget.channelNumber <;>
  cases s.isChannelToggled widget.channelNumber <;>
  cases h3 : d (m + 3) <;> cases h1 : d (m + 1) <;> cases h2 : d (m + 2) <;>
  cases h0 : d m <;>
  simp [List.find?, h3, h1, h2, h0, defaultContexts_]

/-- The theorem `GetActionContexts_preference` at a zone that binds `Fader1` under 0
and under 0 + 1, with cached modifier 0, on a touched channel: the touch binding
is returned. -/
theorem GetActionContexts_preference_witness :
    touchZoneExample.currentActionContextModifiers_ fader1 = some 0 ∧
    (touchZoneExample.GetActionContexts (surfaceWith [0] true false) fader1).2
      = [touchContext] := by
  have hm : touchZoneExample.currentActionContextModifiers_ fader1 = some 0 := by
    simp [touchZoneExample]
  have hd : touchZoneExample.actionContextDictionary_ fader1 =
      some (fun m => if m = 0 then some [trackVolumeContext]
        else if m = 1 then some [touchContext] else none) := by
    simp [touchZoneExample]
  refine ⟨hm, ?_⟩
  rw [GetActionContexts_preference touchZoneExample (surfaceWith [0] true false) fader1 0 _
    hm hd]
  simp [preferredBinding, surfaceWith, List.find?]

theorem hasBinding_dictionaryEntry (z : Zone) (widget : Widget) :
    (∀ w m, (z.dictionaryEntry widget).1.hasBinding w m = z.hasBinding w m) ∧
    (∀ m, ((z.dictionaryEntry widget).2 m).isSome = z.hasBinding widget m) ∧
    (z.dictionaryEntry widget).1.currentActionContextModifiers_
      = z.currentActionContextModifiers_ := by
  unfold dictionaryEntry hasBinding
  cases hz : z.actionContextDictionary_ widget with
  | some d => simp [hz]
  | none =>
    refine ⟨?_, ?_, rfl⟩
    · intro w m
      by_cases hw : w = widget
      · subst hw
        simp [hz]
      · simp [Function.update, hw]
    · intro m
      simp

/-- The loop of `UpdateCurrentActionContextModifier` caches the first modifier of
the list under which the widget has a binding, and leaves the cache alone when
there is none; it never changes which bindings exist. -/
theorem updateModifierLoop_spec (widget : Widget) (mods : List Int) :
    ∀ z : Zone,
      (∀ w m, (updateModifierLoop widget mods z).hasBinding w m = z.hasBinding w m) ∧
      (∀ w, w ≠ widget → (updateModifierLoop widget mods z).currentActionContextModifiers_ w
        = z.currentActionContextModifiers_ w) ∧
      (updateModifierLoop widget mods z).currentActionContextModifiers_ widget =
        match mods.find? (fun m => z.hasBinding widget m) with
        | some m => some m
        | none => z.currentActionContextModifiers_ widget := by
  induction mods with
  | nil =>
    intro z
    exact ⟨fun _ _ => rfl, fun _ _ => rfl, rfl⟩
  | cons m mods ih =>
    intro z
    obtain ⟨h1, h2, h3⟩ := hasBinding_dictionaryEntry z widget
    obtain ⟨i1, i2, i3⟩ := ih (z.dictionaryEntry widget).1
    simp only [updateModifierLoop, List.find?]
    by_cases hb : z.hasBinding widget m = true
    · have hb' : ((z.dictionaryEntry widget).2 m).isSome = true := by rw [h2]; exact hb
      simp only [hb', if_true, hb]
      refine ⟨?_, ?_, ?_⟩
      · intro w m'
        exact h1 w m'
      · intro w hw
        simp [Function.update, hw, h3]
      · simp
    · have hb0 : z.hasBinding widget m = false := by simpa using hb
      have hb' : ((z.dictionaryEntry widget).2 m).isSome = false := by rw [h2]; exact hb0
      simp only [hb', Bool.false_eq_true, if_false, hb0]
      refine ⟨?_, ?_, ?_⟩
      · intro w m'
        rw [i1, h1]
      · intro w hw
        rw [i2 w hw, h3]
      · rw [i3, h3]
        simp only [h1]

/-- The Home zone of the example after `Fader1` has been resolved once under the
modifier list `[0]`: the modifier 0 is cached. -/
theorem homeZoneExample_first_resolution (shift : Int) (touched toggled : Bool)
    (hshift : 4 ≤ shift) :
    ((homeZoneExample shift).GetActionContexts (surfaceWith [0] touched toggled) fader1).2
        = [trackVolumeContext] ∧
    ((homeZoneExample shift).GetActionContexts (surfaceWith [0] touched toggled)
        fader1).1.currentActionContextModifiers_ fader1 = some 0 := by
  have h1 : ¬ (1 : Int) = shift := by omega
  have h2 : ¬ (2 : Int) = shift := by omega
  have h3 : ¬ (3 : Int) = shift := by omega
  cases touched <;> cases toggled <;>
    simp [homeZoneExample, GetActionContexts, UpdateCurrentActionContextModifier,
      updateModifierLoop, dictionaryEntry, surfaceWith, h1, h2, h3, Function.update]

/-- The Home zone of the example, with modifier 0 cached, after the modifier list
has become `[shift, 0]`: without recomputation `Fader1` still resolves to
`TrackVolume`; `UpdateCurrentActionContextModifiers` returns, makes one `Configure`
call, and afterwards `Fader1` resolves to `TrackVolumeDB`. -/
theorem homeZoneExample_recomputed (shift : Int) (touched toggled : Bool)
    (hshift : 4 ≤ shift) :
    (((homeZoneExample shift).GetActionContexts (surfaceWith [0] touched toggled)
        fader1).1.GetActionContexts (surfaceWith [shift, 0] touched toggled) fader1).2
      = [trackVolumeContext] ∧
    ∃ w z, UpdateCurrentActionContextModifiers (surfaceWith [shift, 0] touched toggled) 1 0
        ⟨[some ((homeZoneExample shift).GetActionContexts
          (surfaceWith [0] touched toggled) fader1).1], []⟩ = some w ∧
      w.zones.zoneAt 0 = some z ∧ w.log = [ZoneEffect.configureModifier fader1 shift] ∧
      z.isActive_ = (homeZoneExample shift).isActive_ ∧
      (z.GetActionContexts (surfaceWith [shift, 0] touched toggled) fader1).2
        = [trackVolumeDBContext] := by
  have h0 : ¬ shift = 0 := by omega
  have h1 : ¬ (1 : Int) = shift := by omega
  have h2 : ¬ (2 : Int) = shift := by omega
  have h3 : ¬ (3 : Int) = shift := by omega
  have h4 : ¬ shift + 1 = 0 := by omega
  have h5 : ¬ shift + 2 = 0 := by omega
  have h6 : ¬ shift + 3 = 0 := by omega
  constructor
  · cases touched <;> cases toggled <;>
      simp [homeZoneExample, GetActionContexts, UpdateCurrentActionContextModifier,
        updateModifierLoop, dictionaryEntry, surfaceWith, h1, h2, h3, Function.update]
  · cases touched <;> cases toggled <;>
      simp [homeZoneExample, GetActionContexts, UpdateCurrentActionContextModifier,
        UpdateCurrentActionContextModifiers, updateWidgetModifier, forEachZone,
        ZoneHeap.zoneAt, ZoneHeap.store, subZoneList, associatedZoneList,
        updateModifierLoop, dictionaryEntry, surfaceWith, h0, h1, h2, h3, h4, h5, h6,
        Function.update]

/-- C7: `UpdateCurrentActionContextModifier` caches, for the widget, the first entry
of the modifier-combination list of the surface under which the widget has a
binding, and changes no binding.  For `Fader1` bound to `TrackVolume` under 0 and
to `TrackVolumeDB` under Shift, the widget resolves to `TrackVolume` while the list
is `[0]`, still does so when the list has become `[Shift, 0]` but nothing was
recomputed, and resolves to `TrackVolumeDB` after
`UpdateCurrentActionContextModifiers` has run, which makes one `Configure` call and
leaves the active flag of the zone alone. -/
theorem UpdateCurrentActionContextModifier_first_binding :
    (∀ (z : Zone) (s : Surface) (widget : Widget) (m : Int),
      s.modifiers.find? (fun m => z.hasBinding widget m) = some m →
      (z.UpdateCurrentActionContextModifier s widget).currentActionContextModifiers_ widget
          = some m ∧
        ∀ w k, (z.UpdateCurrentActionContextModifier s widget).hasBinding w k
          = z.hasBinding w k) ∧
    (∀ (shift : Int) (touched toggled : Bool), 4 ≤ shift →
      ((homeZoneExample shift).GetActionContexts (surfaceWith [0] touched toggled) fader1).2
        = [trackVolumeContext] ∧
      (((homeZoneExample shift).GetActionContexts (surfaceWith [0] touched toggled)
          fader1).1.GetActionContexts (surfaceWith [shift, 0] touched toggled) fader1).2
        = [trackVolumeContext] ∧
      ∃ w z, UpdateCurrentActionContextModifiers (surfaceWith [shift, 0] touched toggled) 1 0
          ⟨[some ((homeZoneExample shift).GetActionContexts
            (surfaceWith [0] touched toggled) fader1).1], []⟩ = some w ∧
        w.zones.zoneAt 0 = some z ∧ w.log = [ZoneEffect.configureModifier fader1 shift] ∧
        z.isActive_ = (homeZoneExample shift).isActive_ ∧
        (z.GetActionContexts (surfaceWith [shift, 0] touched toggled) fader1).2
          = [trackVolumeDBContext]) := by
  constructor
  · intro z s widget m hfind
    obtain ⟨h1, -, h3⟩ := updateModifierLoop_spec widget s.modifiers z
    refine ⟨?_, h1⟩
    unfold UpdateCurrentActionContextModifier
    rw [h3, hfind]
  · intro shift touched toggled hshift
    exact ⟨(homeZoneExample_first_resolution shift touched toggled hshift).1,
      homeZoneExample_recomputed shift touched toggled hshift⟩

/-- The first conjunct of `UpdateCurrentActionContextModifier_first_binding` at the
Home zone of the example with Shift on bit 4 and the modifier list `[4, 0]`. -/
theorem UpdateCurrentActionContextModifier_first_binding_witness :
    (surfaceWith [4, 0] false false).modifiers.find?
        (fun m => (homeZoneExample 4).hasBinding fader1 m) = some 4 ∧
    ((homeZoneExample 4).UpdateCurrentActionContextModifier (surfaceWith [4, 0] false false)
        fader1).currentActionContextModifiers_ fader1 = some 4 :=
  ⟨by simp [surfaceWith, homeZoneExample, hasBinding, List.find?],
   (UpdateCurrentActionContextModifier_first_binding.1 (homeZoneExample 4)
     (surfaceWith [4, 0] false false) fader1 4
     (by simp [surfaceWith, homeZoneExample, hasBinding, List.find?])).1⟩

end Zone

namespace ZoneHeap

/-! ### The heap of zones and its marks -/

theorem zoneAt_lt {h : ZoneHeap} {id : ZoneId} {z : Zone} (hz : h.zoneAt id = some z) :
    id < h.length := by
  by_contra hlt
  have : h[id]? = none := List.getElem?_eq_none (Nat.le_of_not_lt hlt)
  simp [zoneAt, this] at hz

theorem zoneAt_store_self (h : ZoneHeap) (id : ZoneId) (z : Zone) (hlt : id < h.length) :
    (h.store id z).zoneAt id = some z := by
  simp [zoneAt, store, List.getElem?_set, hlt]

theorem zoneAt_store_ne (h : ZoneHeap) (id j : ZoneId) (z : Zone) (hne : j ≠ id) :
    (h.store id z).zoneAt j = h.zoneAt j := by
  simp [zoneAt, store, List.getElem?_set, Ne.symm hne]

theorem zoneAt_free_self (h : ZoneHeap) (id : ZoneId) : (h.free id).zoneAt id = none := by
  by_cases hlt : id < h.length
  · simp [zoneAt, free, List.getElem?_set, hlt]
  · simp [zoneAt, free, List.getElem?_set, hlt]

theorem zoneAt_free_ne (h : ZoneHeap) (id j : ZoneId) (hne : j ≠ id) :
    (h.free id).zoneAt j = h.zoneAt j := by
  simp [zoneAt, free, List.getElem?_set, Ne.symm hne]

theorem length_store (h : ZoneHeap) (id : ZoneId) (z : Zone) :
    (h.store id z).length = h.length := by
  simp [store]

theorem SameUpToMarks.marks_refl (h : ZoneHeap) : SameUpToMarks h h := ⟨rfl, fun _ => rfl⟩

theorem SameUpToMarks.marks_trans {h1 h2 h3 : ZoneHeap} (a : SameUpToMarks h1 h2)
    (b : SameUpToMarks h2 h3) : SameUpToMarks h1 h3 :=
  ⟨b.1.trans a.1, fun id => (b.2 id).trans (a.2 id)⟩

/-- Writing the mark of a live zone keeps the heap the same up to marks. -/
theorem SameUpToMarks.store_mark (h : ZoneHeap) (id : ZoneId) (z : Zone) (g : Bool)
    (hz : h.zoneAt id = some z) : SameUpToMarks h (h.store id { z with gcState_ := g }) := by
  refine ⟨length_store _ _ _, fun j => ?_⟩
  by_cases hj : j = id
  · subst hj
    rw [zoneAt_store_self _ _ _ (zoneAt_lt hz), hz]
    rfl
  · rw [zoneAt_store_ne _ _ _ _ hj]

theorem SameUpToMarks.marks_zoneAt {h h' : ZoneHeap} (s : SameUpToMarks h h') {id : ZoneId}
    {z : Zone} (hz : h.zoneAt id = some z) :
    ∃ z', h'.zoneAt id = some z' ∧ z'.clearMark = z.clearMark := by
  have := s.2 id
  rw [hz] at this
  cases hz' : h'.zoneAt id with
  | none => simp [hz'] at this
  | some z' =>
    rw [hz'] at this
    exact ⟨z', rfl, by simpa using this⟩

theorem SameUpToMarks.marks_symm {h h' : ZoneHeap} (s : SameUpToMarks h h') :
    SameUpToMarks h' h := ⟨s.1.symm, fun id => (s.2 id).symm⟩

theorem SameUpToMarks.marks_isLive {h h' : ZoneHeap} (s : SameUpToMarks h h') (id : ZoneId) :
    h'.isLive id = h.isLive id := by
  have := s.2 id
  unfold ZoneHeap.isLive
  cases hz : h.zoneAt id <;> cases hz' : h'.zoneAt id <;> simp [hz, hz'] at this ⊢

theorem SameUpToMarks.marks_children {h h' : ZoneHeap} (s : SameUpToMarks h h') (id : ZoneId) :
    h'.children id = h.children id := by
  have := s.2 id
  unfold ZoneHeap.children
  cases hz : h.zoneAt id <;> cases hz' : h'.zoneAt id <;> simp [hz, hz'] at this ⊢
  have e := congrArg Zone.childList this
  simpa [Zone.clearMark, Zone.childList, Zone.associatedZoneList, Zone.subZoneList] using e

theorem SameUpToMarks.marks_reaches {h h' : ZoneHeap} (s : SameUpToMarks h h') (a b : ZoneId) :
    h'.Reaches a b ↔ h.Reaches a b := by
  have e : (fun x y => y ∈ h'.children x) = (fun x y => y ∈ h.children x) := by
    funext x y
    rw [s.marks_children x]
  unfold ZoneHeap.Reaches
  rw [e]

theorem SameUpToMarks.marks_owner {h h' : ZoneHeap} (s : SameUpToMarks h h') {id : ZoneId}
    {z z' : Zone} (hz : h.zoneAt id = some z) (hz' : h'.zoneAt id = some z') :
    z'.zoneManager_ = z.zoneManager_ := by
  have := s.2 id
  rw [hz, hz'] at this
  have e := congrArg Zone.zoneManager_ (Option.some.inj this)
  simpa [Zone.clearMark] using e

theorem unmarkedCount_le {h h' : ZoneHeap} (s : SameUpToMarks h h')
    (hmono : ∀ n, h.isMarked n = true → h'.isMarked n = true) :
    h'.unmarkedCount ≤ h.unmarkedCount := by
  unfold unmarkedCount
  apply Finset.card_le_card
  intro n hn
  simp only [Finset.mem_filter, Finset.mem_range] at hn ⊢
  refine ⟨by rw [← s.1]; exact hn.1, by rw [← s.marks_isLive n]; exact hn.2.1, ?_⟩
  cases hm : h.isMarked n with
  | false => rfl
  | true =>
    have := hmono n hm
    rw [hn.2.2] at this
    exact absurd this (by simp)

theorem unmarkedCount_lt {h h' : ZoneHeap} (s : SameUpToMarks h h')
    (hmono : ∀ n, h.isMarked n = true → h'.isMarked n = true) (id : ZoneId)
    (hlive : h.isLive id = true) (h0 : h.isMarked id = false) (h1 : h'.isMarked id = true) :
    h'.unmarkedCount < h.unmarkedCount := by
  unfold unmarkedCount
  apply Finset.card_lt_card
  rw [Finset.ssubset_iff_of_subset]
  · refine ⟨id, ?_, ?_⟩
    · simp only [Finset.mem_filter, Finset.mem_range]
      refine ⟨?_, hlive, h0⟩
      unfold ZoneHeap.isLive at hlive
      cases hz : h.zoneAt id with
      | none => simp [hz] at hlive
      | some z => exact zoneAt_lt hz
    · simp only [Finset.mem_filter, Finset.mem_range, not_and]
      intro _ _
      rw [h1]
      simp
  · intro n hn
    simp only [Finset.mem_filter, Finset.mem_range] at hn ⊢
    refine ⟨by rw [← s.1]; exact hn.1, by rw [← s.marks_isLive n]; exact hn.2.1, ?_⟩
    cases hm : h.isMarked n with
    | false => rfl
    | true =>
      have := hmono n hm
      rw [hn.2.2] at this
      exact absurd this (by simp)

theorem unmarkedCount_lt_length (h : ZoneHeap) : h.unmarkedCount < h.length + 1 := by
  unfold unmarkedCount
  exact Nat.lt_succ_of_le (le_trans (Finset.card_filter_le _ _) (by simp))

theorem isMarked_store_self (h : ZoneHeap) (id : ZoneId) (z : Zone)
    (hlt : id < h.length) : (h.store id z).isMarked id = z.gcState_ := by
  simp [isMarked, zoneAt_store_self _ _ _ hlt]

theorem isMarked_store_ne (h : ZoneHeap) (id j : ZoneId) (z : Zone) (hne : j ≠ id) :
    (h.store id z).isMarked j = h.isMarked j := by
  simp [isMarked, zoneAt_store_ne _ _ _ _ hne]

theorem TaggedFrom.tagged_refl (h : ZoneHeap) (src : ZoneId → Prop) : TaggedFrom h h src :=
  ⟨SameUpToMarks.marks_refl h, fun _ hn => hn, fun n h1 h0 => by rw [h1] at h0; simp at h0⟩

/-- Two runs of tagging, one after the other. -/
theorem TaggedFrom.tagged_trans {h1 h2 h3 : ZoneHeap} {src1 src2 src : ZoneId → Prop}
    (a : TaggedFrom h1 h2 src1) (b : TaggedFrom h2 h3 src2)
    (hs1 : ∀ r, src1 r → src r) (hs2 : ∀ r, src2 r → src r) :
    TaggedFrom h1 h3 src := by
  obtain ⟨a1, a2, a3⟩ := a
  obtain ⟨b1, b2, b3⟩ := b
  refine ⟨a1.marks_trans b1, fun n hn => b2 n (a2 n hn), ?_⟩
  intro n hn3 hn1
  cases hn2 : h2.isMarked n with
  | true =>
    obtain ⟨hr, hc⟩ := a3 n hn2 hn1
    obtain ⟨r, hr1, hr2⟩ := hr
    exact ⟨⟨r, hs1 r hr1, hr2⟩, fun c hcm => b2 c (hc c hcm)⟩
  | false =>
    obtain ⟨hr, hc⟩ := b3 n hn3 hn2
    obtain ⟨r, hr1, hr2⟩ := hr
    refine ⟨⟨r, hs2 r hr1, (a1.marks_reaches r n).mp hr2⟩, fun c hcm => hc c ?_⟩
    rw [a1.marks_children n]
    exact hcm

end ZoneHeap

namespace Zone

open ZoneHeap

/-! ### The mark phase -/

/-- On an unmarked live zone `GCTagZone` sets the mark and then runs over the
associated, sub- and included zones, one loop after the other. -/
theorem GCTagZone_unmarked (fuel : Nat) (id : ZoneId) (h : ZoneHeap) (z : Zone)
    (hz : h.zoneAt id = some z) (hm : z.gcState_ = false) :
    GCTagZone (fuel + 1) (some id) h =
      z.childList.foldlM (fun h c => GCTagZone fuel (some c) h)
        (h.store id { z with gcState_ := true }) := by
  simp [GCTagZone, hz, hm, childList, List.foldlM_append]

theorem GCTagZone_marked (fuel : Nat) (id : ZoneId) (h : ZoneHeap) (z : Zone)
    (hz : h.zoneAt id = some z) (hm : z.gcState_ = true) :
    GCTagZone (fuel + 1) (some id) h = some h := by
  simp [GCTagZone, hz, hm]

/-- The loop over the children of a zone, given what one call does. -/
theorem tagChildren_spec (k : Nat)
    (ih : ∀ (h : ZoneHeap) (id : ZoneId), h.unmarkedCount < k →
      (∀ n, h.Reaches id n → h.isLive n = true) →
      ∃ h', GCTagZone k (some id) h = some h' ∧ TaggedFrom h h' (fun r => r = id)
        ∧ h'.isMarked id = true) :
    ∀ (cs : List ZoneId) (h : ZoneHeap), h.unmarkedCount < k →
      (∀ c ∈ cs, ∀ n, h.Reaches c n → h.isLive n = true) →
      ∃ h', cs.foldlM (fun h c => GCTagZone k (some c) h) h = some h'
        ∧ TaggedFrom h h' (fun r => r ∈ cs) ∧ ∀ c ∈ cs, h'.isMarked c = true := by
  intro cs
  induction cs with
  | nil =>
    intro h _ _
    exact ⟨h, rfl, TaggedFrom.tagged_refl h _, fun c hc => absurd hc (List.not_mem_nil c)⟩
  | cons c cs ihl =>
    intro h hcount hlive
    obtain ⟨h1, hrun1, htag1, hmark1⟩ := ih h c hcount (hlive c (List.mem_cons_self _ _))
    have hcount1 : h1.unmarkedCount < k :=
      lt_of_le_of_lt (unmarkedCount_le htag1.1 htag1.2.1) hcount
    have hlive1 : ∀ c' ∈ cs, ∀ n, h1.Reaches c' n → h1.isLive n = true := by
      intro c' hc' n hn
      rw [htag1.1.marks_isLive n]
      exact hlive c' (List.mem_cons_of_mem _ hc') n ((htag1.1.marks_reaches c' n).mp hn)
    obtain ⟨h2, hrun2, htag2, hmark2⟩ := ihl h1 hcount1 hlive1
    refine ⟨h2, ?_, ?_, ?_⟩
    · simp only [List.foldlM_cons, hrun1, Option.bind_eq_bind, Option.some_bind]
      exact hrun2
    · exact TaggedFrom.tagged_trans htag1 htag2
        (fun r hr => by rw [hr]; exact List.mem_cons_self _ _)
        (fun r hr => List.mem_cons_of_mem _ hr)
    · intro c' hc'
      rcases List.mem_cons.mp hc' with e | e
      · rw [e]
        exact htag2.2.1 c hmark1
      · exact hmark2 c' e

/-- `GCTagZone` returns when its fuel exceeds the number of unmarked zones and every
zone it can reach is live; it sets the mark of the zone, clears no mark, and marks
only zones reachable from the zone, each together with all its children. -/
theorem GCTagZone_spec : ∀ (fuel : Nat) (h : ZoneHeap) (id : ZoneId),
    h.unmarkedCount < fuel → (∀ n, h.Reaches id n → h.isLive n = true) →
    ∃ h', GCTagZone fuel (some id) h = some h' ∧ TaggedFrom h h' (fun r => r = id)
      ∧ h'.isMarked id = true := by
  intro fuel
  induction fuel with
  | zero =>
    intro h id hcount _
    exact absurd hcount (Nat.not_lt_zero _)
  | succ k ih =>
    intro h id hcount hlive
    have hidlive := hlive id Relation.ReflTransGen.refl
    unfold ZoneHeap.isLive at hidlive
    cases hz : h.zoneAt id with
    | none => simp [hz] at hidlive
    | some z =>
      cases hm : z.gcState_ with
      | true =>
        exact ⟨h, GCTagZone_marked k id h z hz hm, TaggedFrom.tagged_refl h _,
          by simp [ZoneHeap.isMarked, hz, hm]⟩
      | false =>
        have hlt := zoneAt_lt hz
        have hch : h.children id = z.childList := by simp [ZoneHeap.children, hz]
        have hs1 : SameUpToMarks h (h.store id { z with gcState_ := true }) :=
          SameUpToMarks.store_mark h id z true hz
        have hm0 : h.isMarked id = false := by simp [ZoneHeap.isMarked, hz, hm]
        have hm1 : (h.store id { z with gcState_ := true }).isMarked id = true := by
          rw [isMarked_store_self _ _ _ hlt]
        have hmono1 : ∀ n, h.isMarked n = true →
            (h.store id { z with gcState_ := true }).isMarked n = true := by
          intro n hn
          by_cases e : n = id
          · rw [e]; exact hm1
          · rw [isMarked_store_ne _ _ _ _ e]; exact hn
        have hcount1 : (h.store id { z with gcState_ := true }).unmarkedCount < k := by
          have := unmarkedCount_lt hs1 hmono1 id (by simp [ZoneHeap.isLive, hz]) hm0 hm1
          omega
        have hlive1 : ∀ c ∈ z.childList, ∀ n,
            (h.store id { z with gcState_ := true }).Reaches c n →
            (h.store id { z with gcState_ := true }).isLive n = true := by
          intro c hc n hn
          rw [hs1.marks_isLive n]
          refine hlive n (Relation.ReflTransGen.head ?_ ((hs1.marks_reaches c n).mp hn))
          rw [hch]
          exact hc
        obtain ⟨h2, hrun2, htag2, hmark2⟩ :=
          tagChildren_spec k ih z.childList _ hcount1 hlive1
        refine ⟨h2, ?_, ⟨hs1.marks_trans htag2.1, fun n hn => htag2.2.1 n (hmono1 n hn), ?_⟩,
          htag2.2.1 id hm1⟩
        · rw [GCTagZone_unmarked k id h z hz hm]
          exact hrun2
        · intro n hn2 hn0
          by_cases e : n = id
          · subst e
            refine ⟨⟨n, rfl, Relation.ReflTransGen.refl⟩, ?_⟩
            intro c hc
            rw [hch] at hc
            exact hmark2 c hc
          · have hn1 : (h.store id { z with gcState_ := true }).isMarked n = false := by
              rw [isMarked_store_ne _ _ _ _ e]; exact hn0
            obtain ⟨⟨r, hr, hrn⟩, hcs⟩ := htag2.2.2 n hn2 hn1
            refine ⟨⟨id, rfl, Relation.ReflTransGen.head ?_ ((hs1.marks_reaches r n).mp hrn)⟩, ?_⟩
            · rw [hch]; exact hr
            · intro c hc
              apply hcs c
              rw [hs1.marks_children n]
              exact hc

end Zone

namespace ZoneHeap

theorem SameUpToMarks.marks_ownedBy {h h' : ZoneHeap} (s : SameUpToMarks h h') (self : Nat)
    (id : ZoneId) : h'.ownedBy self id ↔ h.ownedBy self id := by
  constructor
  · rintro ⟨z', hz', ho⟩
    obtain ⟨z, hz, -⟩ := s.marks_symm.marks_zoneAt hz'
    exact ⟨z, hz, by rw [← s.marks_owner hz hz']; exact ho⟩
  · rintro ⟨z, hz, ho⟩
    obtain ⟨z', hz', -⟩ := s.marks_zoneAt hz
    exact ⟨z', hz', by rw [s.marks_owner hz hz']; exact ho⟩

theorem isLive_iff {h : ZoneHeap} {id : ZoneId} :
    h.isLive id = true ↔ ∃ z, h.zoneAt id = some z := by
  unfold ZoneHeap.isLive
  cases h.zoneAt id <;> simp

end ZoneHeap

namespace ZoneManager

open ZoneHeap

/-! ### The collector -/

/-- The loop over the roots: every root ends marked, and what the loop marks is
reachable from a root and has its children marked. -/
theorem tagRoots_spec : ∀ (roots : List (Option ZoneId)) (h : ZoneHeap),
    (∀ r, some r ∈ roots → ∀ n, h.Reaches r n → h.isLive n = true) →
    ∃ h', roots.foldlM (fun h root => Zone.GCTagZone (h.length + 1) root h) h = some h'
      ∧ TaggedFrom h h' (fun r => some r ∈ roots)
      ∧ ∀ r, some r ∈ roots → h'.isMarked r = true := by
  intro roots
  induction roots with
  | nil =>
    intro h _
    exact ⟨h, rfl, TaggedFrom.tagged_refl h _, fun r hr => absurd hr (List.not_mem_nil _)⟩
  | cons root roots ihl =>
    intro h hlive
    cases root with
    | none =>
      have hlive' : ∀ r, some r ∈ roots → ∀ n, h.Reaches r n → h.isLive n = true :=
        fun r hr => hlive r (List.mem_cons_of_mem _ hr)
      obtain ⟨h2, hrun2, htag2, hmark2⟩ := ihl h hlive'
      refine ⟨h2, ?_, ?_, ?_⟩
      · simp only [List.foldlM_cons, Zone.GCTagZone, Option.bind_eq_bind, Option.some_bind]
        exact hrun2
      · exact TaggedFrom.tagged_trans (TaggedFrom.tagged_refl h (fun _ => False)) htag2
          (fun r hr => absurd hr id) (fun r hr => List.mem_cons_of_mem _ hr)
      · intro r hr
        rcases List.mem_cons.mp hr with e | e
        · exact absurd e (by simp)
        · exact hmark2 r e
    | some c =>
      obtain ⟨h1, hrun1, htag1, hmark1⟩ := Zone.GCTagZone_spec (h.length + 1) h c
        (unmarkedCount_lt_length h) (hlive c (List.mem_cons_self _ _))
      have hlive1 : ∀ r, some r ∈ roots → ∀ n, h1.Reaches r n → h1.isLive n = true := by
        intro r hr n hn
        rw [htag1.1.marks_isLive n]
        exact hlive r (List.mem_cons_of_mem _ hr) n ((htag1.1.marks_reaches r n).mp hn)
      obtain ⟨h2, hrun2, htag2, hmark2⟩ := ihl h1 hlive1
      refine ⟨h2, ?_, ?_, ?_⟩
      · simp only [List.foldlM_cons, hrun1, Option.bind_eq_bind, Option.some_bind]
        exact hrun2
      · exact TaggedFrom.tagged_trans htag1 htag2
          (fun r hr => by rw [hr]; exact List.mem_cons_self _ _)
          (fun r hr => List.mem_cons_of_mem _ hr)
      · intro r hr
        rcases List.mem_cons.mp hr with e | e
        · have e' : r = c := Option.some.inj e
          rw [e']
          exact htag2.2.1 c hmark1
        · exact hmark2 r e

/-- The first loop of the collector: the entries owned by this manager stay, in
order, with their marks cleared; no mark is set. -/
theorem clearMarks_spec (self : Nat) : ∀ (ids : List ZoneId) (h : ZoneHeap),
    (∀ id ∈ ids, h.isLive id = true) →
    ∃ keep h1, clearMarks self ids h = some (keep, h1) ∧ SameUpToMarks h h1
      ∧ keep.Sublist ids
      ∧ (∀ id, id ∈ keep ↔ id ∈ ids ∧ h.ownedBy self id)
      ∧ (∀ n, h1.isMarked n = true → h.isMarked n = true)
      ∧ (∀ id ∈ keep, h1.isMarked id = false) := by
  intro ids
  induction ids with
  | nil =>
    intro h _
    exact ⟨[], h, rfl, SameUpToMarks.marks_refl h, List.Sublist.refl _, by simp,
      fun _ hn => hn, by simp⟩
  | cons id ids ihl =>
    intro h hlive
    obtain ⟨z, hz⟩ := isLive_iff.mp (hlive id (List.mem_cons_self _ _))
    by_cases hown : z.zoneManager_ = self
    · have hs0 := SameUpToMarks.store_mark h id z false hz
      have hlive0 : ∀ i ∈ ids, (h.store id { z with gcState_ := false }).isLive i = true :=
        fun i hi => by rw [hs0.marks_isLive i]; exact hlive i (List.mem_cons_of_mem _ hi)
      obtain ⟨keep, h1, hrun, hs1, hsub, hmem, hmono, hclear⟩ := ihl _ hlive0
      have hm0 : (h.store id { z with gcState_ := false }).isMarked id = false := by
        rw [isMarked_store_self _ _ _ (zoneAt_lt hz)]
      refine ⟨id :: keep, h1, ?_, hs0.marks_trans hs1, hsub.cons₂ id, ?_, ?_, ?_⟩
      · simp only [clearMarks, hz, Option.bind_eq_bind, Option.some_bind,
          if_neg (not_not.mpr hown), hrun]
      · intro i
        rw [List.mem_cons, List.mem_cons, hmem i, hs0.marks_ownedBy self i]
        constructor
        · rintro (e | ⟨hi, ho⟩)
          · exact ⟨Or.inl e, by rw [e]; exact ⟨z, hz, hown⟩⟩
          · exact ⟨Or.inr hi, ho⟩
        · rintro ⟨e | hi, ho⟩
          · exact Or.inl e
          · exact Or.inr ⟨hi, ho⟩
      · intro n hn
        have hn0 := hmono n hn
        by_cases e : n = id
        · rw [e, hm0] at hn0
          exact absurd hn0 (by simp)
        · rw [isMarked_store_ne _ _ _ _ e] at hn0
          exact hn0
      · intro i hi
        rcases List.mem_cons.mp hi with e | e
        · cases hmi : h1.isMarked i with
          | false => rfl
          | true =>
            have := hmono i hmi
            rw [e, hm0] at this
            exact absurd this (by simp)
        · exact hclear i e
    · have hlive0 : ∀ i ∈ ids, h.isLive i = true :=
        fun i hi => hlive i (List.mem_cons_of_mem _ hi)
      obtain ⟨keep, h1, hrun, hs1, hsub, hmem, hmono, hclear⟩ := ihl h hlive0
      refine ⟨keep, h1, ?_, hs1, hsub.cons id, ?_, hmono, hclear⟩
      · simp [clearMarks, hz, hown, hrun]
      · intro i
        rw [hmem i, List.mem_cons]
        constructor
        · rintro ⟨hi, ho⟩
          exact ⟨Or.inr hi, ho⟩
        · rintro ⟨e | hi, ho⟩
          · obtain ⟨z', hz', ho'⟩ := ho
            rw [e, hz] at hz'
            rw [← Option.some.inj hz'] at ho'
            exact absurd ho' hown
          · exact ⟨hi, ho⟩

/-- The last loop of the collector on a duplicate-free list of live zones owned by
this manager: the unmarked ones are deleted and leave the list, nothing else
changes. -/
theorem sweep_spec (self : Nat) : ∀ (keep : List ZoneId) (h : ZoneHeap),
    keep.Nodup → (∀ id ∈ keep, h.ownedBy self id) →
    ∃ keep' h', sweep self keep h = some (keep', h')
      ∧ (∀ id, id ∈ keep' ↔ id ∈ keep ∧ h.isMarked id = true)
      ∧ (∀ id ∈ keep, h.isMarked id = false → h'.zoneAt id = none)
      ∧ (∀ id, ¬ (id ∈ keep ∧ h.isMarked id = false) → h'.zoneAt id = h.zoneAt id) := by
  intro keep
  induction keep with
  | nil =>
    intro h _ _
    exact ⟨[], h, rfl, by simp, by simp, fun _ _ => rfl⟩
  | cons id ids ihl =>
    intro h hnodup hown
    obtain ⟨hnotin, hnodup'⟩ := List.nodup_cons.mp hnodup
    obtain ⟨keep', h1, hrun, hmem, hfreed, hsame⟩ :=
      ihl h hnodup' (fun i hi => hown i (List.mem_cons_of_mem _ hi))
    obtain ⟨z, hz, hzo⟩ := hown id (List.mem_cons_self _ _)
    have hz1 : h1.zoneAt id = some z := by
      rw [hsame id (fun hc => hnotin hc.1)]
      exact hz
    have hmark : h.isMarked id = z.gcState_ := by simp [ZoneHeap.isMarked, hz]
    cases hg : z.gcState_ with
    | false =>
      refine ⟨keep', h1.free id, ?_, ?_, ?_, ?_⟩
      · simp only [sweep, hrun, Option.bind_eq_bind, Option.some_bind, hz1,
          if_neg (not_not.mpr hzo), hg, if_true]
      · intro i
        rw [hmem i, List.mem_cons]
        constructor
        · rintro ⟨hi, hm⟩
          exact ⟨Or.inr hi, hm⟩
        · rintro ⟨e | hi, hm⟩
          · rw [e, hmark, hg] at hm
            exact absurd hm (by simp)
          · exact ⟨hi, hm⟩
      · intro i hi hm
        by_cases e : i = id
        · rw [e]
          exact zoneAt_free_self h1 id
        · rw [zoneAt_free_ne _ _ _ e]
          rcases List.mem_cons.mp hi with e' | hi'
          · exact absurd e' e
          · exact hfreed i hi' hm
      · intro i hi
        have e : i ≠ id := by
          intro e
          apply hi
          rw [e]
          exact ⟨List.mem_cons_self _ _, by rw [hmark, hg]⟩
        rw [zoneAt_free_ne _ _ _ e]
        exact hsame i (fun hc => hi ⟨List.mem_cons_of_mem _ hc.1, hc.2⟩)
    | true =>
      refine ⟨id :: keep', h1, ?_, ?_, ?_, ?_⟩
      · simp only [sweep, hrun, Option.bind_eq_bind, Option.some_bind, hz1,
          if_neg (not_not.mpr hzo), hg, Bool.true_eq_false, if_false]
      · intro i
        rw [List.mem_cons, List.mem_cons, hmem i]
        constructor
        · rintro (e | ⟨hi, hm⟩)
          · exact ⟨Or.inl e, by rw [e, hmark, hg]⟩
          · exact ⟨Or.inr hi, hm⟩
        · rintro ⟨e | hi, hm⟩
          · exact Or.inl e
          · exact Or.inr ⟨hi, hm⟩
      · intro i hi hm
        rcases List.mem_cons.mp hi with e | hi'
        · rw [e, hmark, hg] at hm
          exact absurd hm (by simp)
        · exact hfreed i hi' hm
      · intro i hi
        apply hsame i
        intro hc
        exact hi ⟨List.mem_cons_of_mem _ hc.1, hc.2⟩

/-- A run of the collector with the flag set, on a duplicate-free list of live
zones, when every zone reachable from a root is live: the run returns; `h2` is the
heap between the mark phase and the sweep. -/
theorem GarbageCollectZones_run (m : ZoneManager) (h : ZoneHeap)
    (hgc : m.needGarbageCollect_ = true) (hnodup : m.allZonesNeedFree_.Nodup)
    (hlive : ∀ id ∈ m.allZonesNeedFree_, h.isLive id = true)
    (hroots : ∀ id, m.Reachable h id → h.isLive id = true) :
    ∃ m' h' h2, m.GarbageCollectZones h = some (m', h') ∧ SameUpToMarks h h2
      ∧ (∀ r, some r ∈ m.gcRoots → h2.isMarked r = true)
      ∧ (∀ id ∈ m.allZonesNeedFree_, h.ownedBy m.self id → h2.isMarked id = true →
          m.Reachable h id ∧ ∀ c ∈ h.children id, h2.isMarked c = true)
      ∧ (∀ id, id ∈ m'.allZonesNeedFree_ ↔
          id ∈ m.allZonesNeedFree_ ∧ h.ownedBy m.self id ∧ h2.isMarked id = true)
      ∧ (∀ id ∈ m.allZonesNeedFree_, h.ownedBy m.self id → h2.isMarked id = false →
          h'.zoneAt id = none)
      ∧ (∀ id, ¬ (id ∈ m.allZonesNeedFree_ ∧ h.ownedBy m.self id
          ∧ h2.isMarked id = false) → h'.zoneAt id = h2.zoneAt id) := by
  obtain ⟨keep, h1, hrun1, hs1, hsub, hmem1, -, hclear⟩ :=
    clearMarks_spec m.self m.allZonesNeedFree_ h hlive
  have hlive1 : ∀ r, some r ∈ m.gcRoots → ∀ n, h1.Reaches r n → h1.isLive n = true := by
    intro r hr n hn
    rw [hs1.marks_isLive n]
    exact hroots n ⟨r, hr, (hs1.marks_reaches r n).mp hn⟩
  obtain ⟨h2, hrun2, htag, hmarked⟩ := tagRoots_spec m.gcRoots h1 hlive1
  have hs2 : SameUpToMarks h h2 := hs1.marks_trans htag.1
  have hown2 : ∀ id ∈ keep, h2.ownedBy m.self id := by
    intro id hid
    rw [hs2.marks_ownedBy m.self id]
    exact ((hmem1 id).mp hid).2
  obtain ⟨keep', h3, hrun3, hmem3, hfreed, hsame⟩ :=
    sweep_spec m.self keep h2 (hsub.nodup hnodup) hown2
  refine ⟨{ m with needGarbageCollect_ := false, allZonesNeedFree_ := keep' }, h3, h2,
    ?_, hs2, hmarked, ?_, ?_, ?_, ?_⟩
  · simp only [GarbageCollectZones, hgc, Bool.true_eq_false, if_false, hrun1,
      Option.bind_eq_bind, Option.some_bind, hrun2, hrun3]
  · intro id hid hown hm
    have hk : id ∈ keep := (hmem1 id).mpr ⟨hid, hown⟩
    obtain ⟨⟨r, hr, hrn⟩, hc⟩ := htag.2.2 id hm (hclear id hk)
    refine ⟨⟨r, hr, (hs1.marks_reaches r id).mp hrn⟩, ?_⟩
    intro c hcm
    apply hc c
    rw [hs1.marks_children id]
    exact hcm
  · intro id
    show id ∈ keep' ↔ _
    rw [hmem3 id, hmem1 id]
    exact and_assoc
  · intro id hid hown hm
    exact hfreed id ((hmem1 id).mpr ⟨hid, hown⟩) hm
  · intro id hn
    apply hsame id
    intro hc
    exact hn ⟨((hmem1 id).mp hc.1).1, ((hmem1 id).mp hc.1).2, hc.2⟩

/-- Every reachable zone lies in a set that holds the roots and is closed under
the pointers of the graph. -/
theorem reachable_subset (m : ZoneManager) (h : ZoneHeap) (S : ZoneId → Prop)
    (hroot : ∀ r, some r ∈ m.gcRoots → S r)
    (hclosed : ∀ a, S a → ∀ c ∈ h.children a, S c) :
    ∀ id, m.Reachable h id → S id := by
  rintro id ⟨r, hr, hrn⟩
  induction hrn with
  | refl => exact hroot r hr
  | tail _ hbc ih => exact hclosed _ ih _ hbc

/-- C8: on a duplicate-free free list of live zones, and assuming that every zone
reachable from a root of the collector is in the free list and owned by this
manager, `GarbageCollectZones()` with the flag set returns, and a free-list zone
owned by this manager has been deleted and has left the list exactly when it is
not reachable from a root through associated-zone, sub-zone and included-zone
pointers; a reachable one is still live and still in the list.  In particular
every zone in the included-zone list of the home zone is live afterwards. -/
theorem GarbageCollectZones_deletes_unreachable (m : ZoneManager) (h : ZoneHeap)
    (hgc : m.needGarbageCollect_ = true) (hnodup : m.allZonesNeedFree_.Nodup)
    (hlive : ∀ id ∈ m.allZonesNeedFree_, h.isLive id = true)
    (hreach : ∀ id, m.Reachable h id → id ∈ m.allZonesNeedFree_ ∧ h.ownedBy m.self id) :
    ∃ m' h', m.GarbageCollectZones h = some (m', h') ∧
      (∀ id ∈ m.allZonesNeedFree_, h.ownedBy m.self id →
        ((h'.zoneAt id = none ∧ id ∉ m'.allZonesNeedFree_) ↔ ¬ m.Reachable h id) ∧
        (m.Reachable h id → h'.isLive id = true ∧ id ∈ m'.allZonesNeedFree_)) ∧
      (∀ hid hz c, m.homeZone_ = some hid → h.zoneAt hid = some hz →
        c ∈ hz.includedZones_ → h'.isLive c = true) := by
  have hroots : ∀ id, m.Reachable h id → h.isLive id = true := by
    intro id hid
    obtain ⟨z, hz, -⟩ := (hreach id hid).2
    exact isLive_iff.mpr ⟨z, hz⟩
  obtain ⟨m', h', h2, hrun, hs2, hrootmark, hnew, hmem, hfreed, hsame⟩ :=
    GarbageCollectZones_run m h hgc hnodup hlive hroots
  have hmarked : ∀ id, m.Reachable h id → h2.isMarked id = true := by
    rintro id ⟨r, hr, hrn⟩
    induction hrn with
    | refl => exact hrootmark r hr
    | tail hab hbc ih =>
      rename_i b c
      obtain ⟨hbfree, hbown⟩ := hreach b ⟨r, hr, hab⟩
      exact (hnew b hbfree hbown ih).2 c hbc
  have hkept : ∀ id, m.Reachable h id → h'.isLive id = true ∧ id ∈ m'.allZonesNeedFree_ := by
    intro id hid
    obtain ⟨hfree, hown⟩ := hreach id hid
    have hm := hmarked id hid
    refine ⟨?_, (hmem id).mpr ⟨hfree, hown, hm⟩⟩
    unfold ZoneHeap.isLive
    rw [hsame id (fun hc => by rw [hm] at hc; exact absurd hc.2.2 (by simp))]
    exact (hs2.marks_isLive id).trans (hroots id hid)
  refine ⟨m', h', hrun, ?_, ?_⟩
  · intro id hid hown
    refine ⟨⟨?_, ?_⟩, hkept id⟩
    · rintro ⟨hnone, -⟩ hr
      have := (hkept id hr).1
      unfold ZoneHeap.isLive at this
      rw [hnone] at this
      exact absurd this (by simp)
    · intro hnr
      have hm : h2.isMarked id = false := by
        cases hm : h2.isMarked id with
        | false => rfl
        | true => exact absurd (hnew id hid hown hm).1 hnr
      refine ⟨hfreed id hid hown hm, ?_⟩
      intro hin
      have := ((hmem id).mp hin).2.2
      rw [hm] at this
      exact absurd this (by simp)
  · intro hid hz c hhome hzh hc
    apply (hkept c _).1
    refine ⟨hid, ?_, Relation.ReflTransGen.single ?_⟩
    · simp [gcRoots, hhome]
    · show c ∈ h.children hid
      simp [ZoneHeap.children, hzh, Zone.childList, hc]

/-- C9: on a duplicate-free free list of live zones, when every zone reachable from
a root is live, `GarbageCollectZones()` returns, and a free-list zone whose owning
manager is another manager is still live afterwards, with its members unchanged
up to the mark, whether or not the flag was set and whether or not the zone is
reachable from a root; when the flag was set the zone has left the free list. -/
theorem GarbageCollectZones_keeps_foreign_zone (m : ZoneManager) (h : ZoneHeap)
    (hnodup : m.allZonesNeedFree_.Nodup)
    (hlive : ∀ id ∈ m.allZonesNeedFree_, h.isLive id = true)
    (hroots : ∀ id, m.Reachable h id → h.isLive id = true) :
    ∃ m' h', m.GarbageCollectZones h = some (m', h') ∧
      ∀ id ∈ m.allZonesNeedFree_, ∀ z, h.zoneAt id = some z → z.zoneManager_ ≠ m.self →
        (∃ z', h'.zoneAt id = some z' ∧ z'.clearMark = z.clearMark) ∧
        (m.needGarbageCollect_ = true → id ∉ m'.allZonesNeedFree_) := by
  cases hgc : m.needGarbageCollect_ with
  | false =>
    refine ⟨m, h, by simp [GarbageCollectZones, hgc], ?_⟩
    intro id _ z hz _
    exact ⟨⟨z, hz, rfl⟩, fun hc => absurd hc (by simp)⟩
  | true =>
    obtain ⟨m', h', h2, hrun, hs2, -, -, hmem, -, hsame⟩ :=
      GarbageCollectZones_run m h hgc hnodup hlive hroots
    refine ⟨m', h', hrun, ?_⟩
    intro id _ z hz hforeign
    have hnotown : ¬ h.ownedBy m.self id := by
      rintro ⟨z', hz', ho⟩
      rw [hz] at hz'
      rw [← Option.some.inj hz'] at ho
      exact hforeign ho
    refine ⟨?_, fun _ hin => hnotown ((hmem id).mp hin).2.1⟩
    rw [hsame id (fun hc => hnotown hc.2.1)]
    exact hs2.marks_zoneAt hz

/-- In the example only the zones at 0, 1 and 3 are reachable from a root. -/
theorem exampleManager_reachable (id : ZoneId)
    (hid : exampleManager.Reachable exampleHeap id) : id = 0 ∨ id = 1 ∨ id = 3 := by
  refine reachable_subset exampleManager exampleHeap (fun i => i = 0 ∨ i = 1 ∨ i = 3)
    ?_ ?_ id hid
  · intro r hr
    simp [gcRoots, exampleManager] at hr
    rcases hr with e | e
    · exact Or.inl e
    · exact Or.inr (Or.inr e)
  · intro a ha c hc
    rcases ha with e | e | e <;> subst e <;>
      simp [ZoneHeap.children, ZoneHeap.zoneAt, exampleHeap, plainZone, Zone.childList,
        Zone.associatedZoneList, Zone.subZoneList] at hc
    exact Or.inr (Or.inl hc)

/-- The theorem `GarbageCollectZones_deletes_unreachable` at the example: the zone
at 2, which only a dropped `fxSlotZones_` entry held, is deleted and leaves the free
list; the zone at 3, in the current `fxSlotZones_`, and the zone at 1, included by
the home zone, stay live. -/
theorem GarbageCollectZones_deletes_unreachable_witness :
    ∃ m' h', exampleManager.GarbageCollectZones exampleHeap = some (m', h') ∧
      (h'.zoneAt 2 = none ∧ 2 ∉ m'.allZonesNeedFree_) ∧
      (h'.isLive 3 = true ∧ 3 ∈ m'.allZonesNeedFree_) ∧ h'.isLive 1 = true := by
  obtain ⟨m', h', hrun, hall, hhome⟩ :=
    GarbageCollectZones_deletes_unreachable exampleManager exampleHeap rfl
      (by decide) (by decide)
      (fun id hid => by
        rcases exampleManager_reachable id hid with e | e | e <;> subst e
        · exact ⟨by decide, plainZone 7 "Home" [1], rfl, rfl⟩
        · exact ⟨by decide, plainZone 7 "Buttons" [], rfl, rfl⟩
        · exact ⟨by decide, plainZone 7 "ReaEQ" [], rfl, rfl⟩)
  refine ⟨m', h', hrun, ?_, ?_, ?_⟩
  · refine ((hall 2 (by decide) ⟨_, rfl, rfl⟩).1).mpr ?_
    intro hr
    rcases exampleManager_reachable 2 hr with e | e | e <;> simp at e
  · exact (hall 3 (by decide) ⟨_, rfl, rfl⟩).2
      ⟨3, by simp [gcRoots, exampleManager], Relation.ReflTransGen.refl⟩
  · exact hhome 0 (plainZone 7 "Home" [1]) 1 rfl rfl (by simp [plainZone])

/-- In the second example every zone reachable from a root is live. -/
theorem exampleManagerForeignRoot_live (id : ZoneId)
    (hid : exampleManagerForeignRoot.Reachable exampleHeap id) :
    exampleHeap.isLive id = true := by
  have hS : id = 0 ∨ id = 1 ∨ id = 3 ∨ id = 4 := by
    refine reachable_subset exampleManagerForeignRoot exampleHeap
      (fun i => i = 0 ∨ i = 1 ∨ i = 3 ∨ i = 4) ?_ ?_ id hid
    · intro r hr
      simp [gcRoots, exampleManagerForeignRoot, exampleManager] at hr
      rcases hr with e | e | e
      · exact Or.inl e
      · exact Or.inr (Or.inr (Or.inr e))
      · exact Or.inr (Or.inr (Or.inl e))
    · intro a ha c hc
      rcases ha with e | e | e | e <;> subst e <;>
        simp [ZoneHeap.children, ZoneHeap.zoneAt, exampleHeap, plainZone, Zone.childList,
          Zone.associatedZoneList, Zone.subZoneList] at hc
      exact Or.inr (Or.inl hc)
  rcases hS with e | e | e | e <;> subst e <;> rfl

/-- The theorem `GarbageCollectZones_keeps_foreign_zone` at the second example: the
zone at 4, owned by manager 9 and reachable from a root of manager 7, is live after
the collection and has left the free list. -/
theorem GarbageCollectZones_keeps_foreign_zone_witness :
    ∃ m' h', exampleManagerForeignRoot.GarbageCollectZones exampleHeap = some (m', h') ∧
      (∃ z', h'.zoneAt 4 = some z' ∧ z'.clearMark = (plainZone 9 "Track" []).clearMark) ∧
      4 ∉ m'.allZonesNeedFree_ := by
  obtain ⟨m', h', hrun, hall⟩ :=
    GarbageCollectZones_keeps_foreign_zone exampleManagerForeignRoot exampleHeap
      (by decide) (by decide) exampleManagerForeignRoot_live
  have h4 := hall 4 (by decide) (plainZone 9 "Track" []) rfl (by decide)
  exact ⟨m', h', hrun, h4.1, h4.2 rfl⟩

end ZoneManager

namespace Zone

/-! ### Widget loops leave flags and zone lists alone -/

theorem withoutBindings_dictionaryEntry (z : Zone) (widget : Widget) :
    (z.dictionaryEntry widget).1.withoutBindings = z.withoutBindings := by
  unfold dictionaryEntry
  cases z.actionContextDictionary_ widget <;> rfl

theorem withoutBindings_updateModifierLoop (widget : Widget) (mods : List Int) :
    ∀ z : Zone, (updateModifierLoop widget mods z).withoutBindings = z.withoutBindings := by
  induction mods with
  | nil => intro z; rfl
  | cons m mods ih =>
    intro z
    simp only [updateModifierLoop]
    split_ifs
    · exact withoutBindings_dictionaryEntry z widget
    · rw [ih]
      exact withoutBindings_dictionaryEntry z widget

/-- The zone `GetActionContexts` leaves behind: the cached modifier is computed when
the widget has none, nothing else is written. -/
theorem GetActionContexts_fst (z : Zone) (s : Surface) (widget : Widget) :
    (z.GetActionContexts s widget).1 =
      if (z.currentActionContextModifiers_ widget).isNone
      then z.UpdateCurrentActionContextModifier s widget else z := by
  unfold GetActionContexts
  simp only
  generalize (if (z.currentActionContextModifiers_ widget).isNone = true
    then z.UpdateCurrentActionContextModifier s widget else z) = z0
  split
  · split_ifs <;> rfl
  · rfl

theorem withoutBindings_GetActionContexts (z : Zone) (s : Surface) (widget : Widget) :
    (z.GetActionContexts s widget).1.withoutBindings = z.withoutBindings := by
  rw [GetActionContexts_fst]
  split_ifs
  · exact withoutBindings_updateModifierLoop widget s.modifiers z
  · rfl

/-- A widget loop whose body keeps everything but the bindings of the zone keeps
everything but the bindings of the zone. -/
theorem withoutBindings_foldl (f : Zone × List ZoneEffect → Widget → Zone × List ZoneEffect)
    (hf : ∀ acc widget, (f acc widget).1.withoutBindings = acc.1.withoutBindings) :
    ∀ (widgets : List Widget) (acc : Zone × List ZoneEffect),
      (widgets.foldl f acc).1.withoutBindings = acc.1.withoutBindings := by
  intro widgets
  induction widgets with
  | nil => intro acc; rfl
  | cons w ws ih =>
    intro acc
    rw [List.foldl_cons, ih, hf]

theorem withoutBindings_updateWidgetModifier (s : Surface) (acc : Zone × List ZoneEffect)
    (widget : Widget) :
    (updateWidgetModifier s acc widget).1.withoutBindings = acc.1.withoutBindings := by
  unfold updateWidgetModifier
  exact withoutBindings_updateModifierLoop widget s.modifiers acc.1

theorem withoutBindings_deactivateWidget (s : Surface) (acc : Zone × List ZoneEffect)
    (widget : Widget) :
    (deactivateWidget s acc widget).1.withoutBindings = acc.1.withoutBindings := by
  unfold deactivateWidget
  exact withoutBindings_GetActionContexts acc.1 s widget

theorem withoutBindings_activateWidget (s : Surface) (acc : Zone × List ZoneEffect)
    (widget : Widget) :
    (activateWidget s acc widget).1.withoutBindings = acc.1.withoutBindings := by
  unfold activateWidget
  exact withoutBindings_GetActionContexts acc.1 s widget

theorem links_of_withoutBindings {z z' : Zone} (e : z'.withoutBindings = z.withoutBindings) :
    z'.links = z.links ∧ z'.isActive_ = z.isActive_ := by
  have e1 := congrArg Zone.links e
  have e2 := congrArg Zone.isActive_ e
  exact ⟨e1, e2⟩

end Zone

theorem forEachZone_append (f : ZoneId → World → Option World) (a b : List ZoneId) :
    ∀ w : World, forEachZone f (a ++ b) w = (forEachZone f a w).bind (forEachZone f b) := by
  induction a with
  | nil => intro w; rfl
  | cons x xs ih =>
    intro w
    simp only [List.cons_append, forEachZone, Option.bind_eq_bind]
    cases f x w with
    | none => rfl
    | some w1 => simp only [Option.some_bind]; exact ih w1

/-- Three loops, one after the other, are one loop over the concatenated lists. -/
theorem forEachZone_append3 (f : ZoneId → World → Option World) (a b c : List ZoneId)
    (w : World) :
    forEachZone f (a ++ b ++ c) w =
      (forEachZone f a w).bind fun w => (forEachZone f b w).bind fun w => forEachZone f c w := by
  rw [forEachZone_append, forEachZone_append, Option.bind_assoc]

namespace ZoneHeap

theorem SameLinks.links_refl (h : ZoneHeap) : SameLinks h h := ⟨rfl, fun _ => rfl⟩

theorem SameLinks.links_trans {h1 h2 h3 : ZoneHeap} (a : SameLinks h1 h2) (b : SameLinks h2 h3) :
    SameLinks h1 h3 :=
  ⟨b.1.trans a.1, fun id => (b.2 id).trans (a.2 id)⟩

theorem SameLinks.links_symm {h h' : ZoneHeap} (s : SameLinks h h') : SameLinks h' h :=
  ⟨s.1.symm, fun id => (s.2 id).symm⟩

theorem SameLinks.links_store (h : ZoneHeap) (id : ZoneId) (z z' : Zone)
    (hz : h.zoneAt id = some z) (hl : z'.links = z.links) : SameLinks h (h.store id z') := by
  refine ⟨length_store _ _ _, fun j => ?_⟩
  by_cases hj : j = id
  · subst hj
    rw [zoneAt_store_self _ _ _ (zoneAt_lt hz), hz]
    simp [hl]
  · rw [zoneAt_store_ne _ _ _ _ hj]

theorem SameLinks.links_isLive {h h' : ZoneHeap} (s : SameLinks h h') (id : ZoneId) :
    h'.isLive id = h.isLive id := by
  have := s.2 id
  unfold ZoneHeap.isLive
  cases hz : h.zoneAt id <;> cases hz' : h'.zoneAt id <;> simp [hz, hz'] at this ⊢

theorem SameLinks.links_zoneAt {h h' : ZoneHeap} (s : SameLinks h h') {id : ZoneId} {z : Zone}
    (hz : h.zoneAt id = some z) : ∃ z', h'.zoneAt id = some z' ∧ z'.links = z.links := by
  have := s.2 id
  rw [hz] at this
  cases hz' : h'.zoneAt id with
  | none => simp [hz'] at this
  | some z' =>
    rw [hz'] at this
    exact ⟨z', rfl, by simpa using this⟩

theorem childList_of_links {z z' : Zone} (hl : z'.links = z.links) :
    z'.childList = z.childList := by
  simp only [Zone.links, Prod.mk.injEq] at hl
  simp [Zone.childList, Zone.associatedZoneList, Zone.subZoneList, hl.1, hl.2.1, hl.2.2]

theorem SameLinks.links_children {h h' : ZoneHeap} (s : SameLinks h h') (id : ZoneId) :
    h'.children id = h.children id := by
  unfold ZoneHeap.children
  cases hz : h.zoneAt id with
  | none =>
    have := s.links_isLive id
    unfold ZoneHeap.isLive at this
    rw [hz] at this
    cases hz' : h'.zoneAt id with
    | none => rfl
    | some z' => simp [hz'] at this
  | some z =>
    obtain ⟨z', hz', hl⟩ := s.links_zoneAt hz
    simp only [hz']
    exact childList_of_links hl

theorem SameLinks.links_reaches {h h' : ZoneHeap} (s : SameLinks h h') (a b : ZoneId) :
    h'.Reaches a b ↔ h.Reaches a b := by
  have e : (fun x y => y ∈ h'.children x) = (fun x y => y ∈ h.children x) := by
    funext x y
    rw [s.links_children x]
  unfold ZoneHeap.Reaches
  rw [e]

theorem isActive_store_self (h : ZoneHeap) (id : ZoneId) (z : Zone) (hlt : id < h.length) :
    (h.store id z).isActive id = z.isActive_ := by
  simp [ZoneHeap.isActive, zoneAt_store_self _ _ _ hlt]

theorem isActive_store_ne (h : ZoneHeap) (id j : ZoneId) (z : Zone) (hne : j ≠ id) :
    (h.store id z).isActive j = h.isActive j := by
  simp [ZoneHeap.isActive, zoneAt_store_ne _ _ _ _ hne]

theorem Descends.descends_sameLinks {h h' : ZoneHeap} (s : SameLinks h h') {rank : ZoneId → Nat}
    {id : ZoneId} (d : h.Descends rank id) : h'.Descends rank id := by
  refine ⟨fun n hn => ?_, fun a c ha hc => ?_⟩
  · rw [s.links_isLive n]
    exact d.1 n ((s.links_reaches id n).mp hn)
  · rw [s.links_children a] at hc
    exact d.2 a c ((s.links_reaches id a).mp ha) hc

theorem Descends.child {h : ZoneHeap} {rank : ZoneId → Nat} {id c : ZoneId}
    (d : h.Descends rank id) (hc : c ∈ h.children id) :
    h.Descends rank c ∧ rank c < rank id := by
  have hic : h.Reaches id c := Relation.ReflTransGen.single hc
  refine ⟨⟨fun n hn => d.1 n (hic.trans hn), fun a b ha hb => d.2 a b (hic.trans ha) hb⟩, ?_⟩
  exact d.2 id c Relation.ReflTransGen.refl hc

theorem Descends.descends_zoneAt {h : ZoneHeap} {rank : ZoneId → Nat} {id : ZoneId}
    (d : h.Descends rank id) : ∃ z, h.zoneAt id = some z :=
  isLive_iff.mp (d.1 id Relation.ReflTransGen.refl)

end ZoneHeap

namespace Zone

open ZoneHeap

/-! ### Recomputation of modifiers and deactivation over the graph -/

/-- The loop of `UpdateCurrentActionContextModifiers` over a list of zones, given
what one call does. -/
theorem updateModifiers_loop (s : Surface) (rank : ZoneId → Nat) (k : Nat)
    (ih : ∀ (id : ZoneId) (w : World), w.zones.Descends rank id → rank id < k →
      ∃ w', UpdateCurrentActionContextModifiers s k id w = some w'
        ∧ SameLinks w.zones w'.zones ∧ ∀ n, w'.zones.isActive n = w.zones.isActive n) :
    ∀ (cs : List ZoneId) (w : World), (∀ c ∈ cs, w.zones.Descends rank c ∧ rank c < k) →
      ∃ w', forEachZone (UpdateCurrentActionContextModifiers s k) cs w = some w'
        ∧ SameLinks w.zones w'.zones ∧ ∀ n, w'.zones.isActive n = w.zones.isActive n := by
  intro cs
  induction cs with
  | nil =>
    intro w _
    exact ⟨w, rfl, SameLinks.links_refl _, fun _ => rfl⟩
  | cons c cs ihl =>
    intro w hpre
    obtain ⟨hd, hr⟩ := hpre c (List.mem_cons_self _ _)
    obtain ⟨w1, hrun1, hs1, ha1⟩ := ih c w hd hr
    obtain ⟨w2, hrun2, hs2, ha2⟩ := ihl w1 (fun c' hc' =>
      ⟨(hpre c' (List.mem_cons_of_mem _ hc')).1.descends_sameLinks hs1,
       (hpre c' (List.mem_cons_of_mem _ hc')).2⟩)
    refine ⟨w2, ?_, hs1.links_trans hs2, fun n => (ha2 n).trans (ha1 n)⟩
    simp only [forEachZone, hrun1, Option.bind_eq_bind, Option.some_bind]
    exact hrun2

theorem mem_children_of_included {h : ZoneHeap} {id c : ZoneId} {z : Zone}
    (hz : h.zoneAt id = some z) (hc : c ∈ z.includedZones_) : c ∈ h.children id := by
  simp [ZoneHeap.children, hz, Zone.childList, hc]

theorem mem_children_of_sub {h : ZoneHeap} {id c : ZoneId} {z : Zone}
    (hz : h.zoneAt id = some z) (hc : c ∈ z.subZoneList) : c ∈ h.children id := by
  simp [ZoneHeap.children, hz, Zone.childList, hc]

theorem mem_children_of_associated {h : ZoneHeap} {id c : ZoneId} {z : Zone}
    (hz : h.zoneAt id = some z) (hc : c ∈ z.associatedZoneList) : c ∈ h.children id := by
  simp [ZoneHeap.children, hz, Zone.childList, hc]

/-- `UpdateCurrentActionContextModifiers` returns when the fuel exceeds the rank of
the zone; it changes neither the zone lists nor the active flag of any zone. -/
theorem UpdateCurrentActionContextModifiers_spec (s : Surface) (rank : ZoneId → Nat) :
    ∀ (fuel : Nat) (id : ZoneId) (w : World), w.zones.Descends rank id → rank id < fuel →
      ∃ w', UpdateCurrentActionContextModifiers s fuel id w = some w'
        ∧ SameLinks w.zones w'.zones ∧ ∀ n, w'.zones.isActive n = w.zones.isActive n := by
  intro fuel
  induction fuel with
  | zero =>
    intro id w _ hr
    exact absurd hr (Nat.not_lt_zero _)
  | succ k ih =>
    intro id w hd hr
    obtain ⟨z, hz⟩ := hd.descends_zoneAt
    obtain ⟨hl, ha⟩ := links_of_withoutBindings
      (withoutBindings_foldl (updateWidgetModifier s) (withoutBindings_updateWidgetModifier s)
        z.widgets_ (z, w.log))
    have hs0 : SameLinks w.zones
        (w.zones.store id (z.widgets_.foldl (updateWidgetModifier s) (z, w.log)).1) :=
      SameLinks.links_store _ _ z _ hz hl
    have ha0 : ∀ n, (w.zones.store id
        (z.widgets_.foldl (updateWidgetModifier s) (z, w.log)).1).isActive n
        = w.zones.isActive n := by
      intro n
      by_cases e : n = id
      · rw [e, isActive_store_self _ _ _ (zoneAt_lt hz), ha]
        simp [ZoneHeap.isActive, hz]
      · rw [isActive_store_ne _ _ _ _ e]
    have hpre : ∀ (w' : World), SameLinks w.zones w'.zones → ∀ c ∈ w.zones.children id,
        w'.zones.Descends rank c ∧ rank c < k := by
      intro w' hs c hc
      obtain ⟨hdc, hrc⟩ := hd.child hc
      exact ⟨hdc.descends_sameLinks hs, by omega⟩
    obtain ⟨w1, hrun1, hs1, ha1⟩ := updateModifiers_loop s rank k ih z.includedZones_
      ⟨w.zones.store id (z.widgets_.foldl (updateWidgetModifier s) (z, w.log)).1,
        (z.widgets_.foldl (updateWidgetModifier s) (z, w.log)).2⟩
      (fun c hc => hpre _ hs0 c (mem_children_of_included hz hc))
    obtain ⟨w2, hrun2, hs2, ha2⟩ := updateModifiers_loop s rank k ih z.subZoneList w1
      (fun c hc => hpre _ (hs0.links_trans hs1) c (mem_children_of_sub hz hc))
    obtain ⟨w3, hrun3, hs3, ha3⟩ := updateModifiers_loop s rank k ih z.associatedZoneList w2
      (fun c hc => hpre _ ((hs0.links_trans hs1).links_trans hs2) c (mem_children_of_associated hz hc))
    refine ⟨w3, ?_, ((hs0.links_trans hs1).links_trans hs2).links_trans hs3, ?_⟩
    · simp only [UpdateCurrentActionContextModifiers, hz, Option.bind_eq_bind,
        Option.some_bind, hrun1, hrun2, hrun3]
    · intro n
      rw [ha3, ha2, ha1]
      exact ha0 n

/-- The loop `zones.Get(i)->Deactivate()` over a list of zones, given what one call
does. -/
theorem deactivate_loop (s : Surface) (rank : ZoneId → Nat) (k : Nat)
    (ih : ∀ (id : ZoneId) (w : World), w.zones.Descends rank id → rank id < k →
      ∃ w', Deactivate s k id w = some w' ∧ SameLinks w.zones w'.zones
        ∧ (∀ n, w.zones.Reaches id n → w'.zones.isActive n = false)
        ∧ (∀ n, ¬ w.zones.Reaches id n → w'.zones.isActive n = w.zones.isActive n)) :
    ∀ (cs : List ZoneId) (w : World), (∀ c ∈ cs, w.zones.Descends rank c ∧ rank c < k) →
      ∃ w', forEachZone (Deactivate s k) cs w = some w' ∧ SameLinks w.zones w'.zones
        ∧ (∀ n, (∃ c ∈ cs, w.zones.Reaches c n) → w'.zones.isActive n = false)
        ∧ (∀ n, (∀ c ∈ cs, ¬ w.zones.Reaches c n) →
            w'.zones.isActive n = w.zones.isActive n) := by
  intro cs
  induction cs with
  | nil =>
    intro w _
    refine ⟨w, rfl, SameLinks.links_refl _, ?_, fun _ _ => rfl⟩
    rintro n ⟨c, hc, -⟩
    exact absurd hc (List.not_mem_nil _)
  | cons c cs ihl =>
    intro w hpre
    obtain ⟨hd, hr⟩ := hpre c (List.mem_cons_self _ _)
    obtain ⟨w1, hrun1, hs1, hoff1, hframe1⟩ := ih c w hd hr
    obtain ⟨w2, hrun2, hs2, hoff2, hframe2⟩ := ihl w1 (fun c' hc' =>
      ⟨(hpre c' (List.mem_cons_of_mem _ hc')).1.descends_sameLinks hs1,
       (hpre c' (List.mem_cons_of_mem _ hc')).2⟩)
    refine ⟨w2, ?_, hs1.links_trans hs2, ?_, ?_⟩
    · simp only [forEachZone, hrun1, Option.bind_eq_bind, Option.some_bind]
      exact hrun2
    · rintro n ⟨c', hc', hreach⟩
      by_cases hlater : ∃ c'' ∈ cs, w1.zones.Reaches c'' n
      · exact hoff2 n hlater
      · have hnone : ∀ c'' ∈ cs, ¬ w1.zones.Reaches c'' n :=
          fun c'' hc'' hcn => hlater ⟨c'', hc'', hcn⟩
        rw [hframe2 n hnone]
        rcases List.mem_cons.mp hc' with e | e
        · rw [e] at hreach
          exact hoff1 n hreach
        · exact absurd ((hs1.links_reaches c' n).mpr hreach) (hnone c' e)
    · intro n hnone
      rw [hframe2 n (fun c' hc' hcn =>
        hnone c' (List.mem_cons_of_mem _ hc') ((hs1.links_reaches c' n).mp hcn))]
      exact hframe1 n (hnone c (List.mem_cons_self _ _))

/-- `Deactivate` returns when the fuel exceeds the rank of the zone; afterwards the
zone and every zone reachable from it are inactive, and no other active flag and
no zone list has changed. -/
theorem Deactivate_spec (s : Surface) (rank : ZoneId → Nat) :
    ∀ (fuel : Nat) (id : ZoneId) (w : World), w.zones.Descends rank id → rank id < fuel →
      ∃ w', Deactivate s fuel id w = some w' ∧ SameLinks w.zones w'.zones
        ∧ (∀ n, w.zones.Reaches id n → w'.zones.isActive n = false)
        ∧ (∀ n, ¬ w.zones.Reaches id n → w'.zones.isActive n = w.zones.isActive n) := by
  intro fuel
  induction fuel with
  | zero =>
    intro id w _ hr
    exact absurd hr (Nat.not_lt_zero _)
  | succ k ih =>
    intro id w hd hr
    obtain ⟨z, hz⟩ := hd.descends_zoneAt
    obtain ⟨hl, -⟩ := links_of_withoutBindings
      (withoutBindings_foldl (deactivateWidget s) (withoutBindings_deactivateWidget s)
        z.widgets_ (z, w.log))
    have hlt := zoneAt_lt hz
    have hs0 : SameLinks w.zones (w.zones.store id
        { (z.widgets_.foldl (deactivateWidget s) (z, w.log)).1 with isActive_ := false }) :=
      SameLinks.links_store _ _ z _ hz hl
    have hmem : ∀ c, c ∈ z.includedZones_ ++ z.associatedZoneList ++ z.subZoneList →
        c ∈ w.zones.children id := by
      intro c hc
      simp only [ZoneHeap.children, hz, Zone.childList, List.mem_append] at hc ⊢
      tauto
    obtain ⟨w1, hrun1, hs1, hoff1, hframe1⟩ := deactivate_loop s rank k ih
      (z.includedZones_ ++ z.associatedZoneList ++ z.subZoneList)
      ⟨w.zones.store id
        { (z.widgets_.foldl (deactivateWidget s) (z, w.log)).1 with isActive_ := false },
        (z.widgets_.foldl (deactivateWidget s) (z, w.log)).2 ++ pageModeEffects z.name_ false⟩
      (fun c hc => by
        obtain ⟨hdc, hrc⟩ := hd.child (hmem c hc)
        exact ⟨hdc.descends_sameLinks hs0, by omega⟩)
    refine ⟨w1, ?_, hs0.links_trans hs1, ?_, ?_⟩
    · simp only [Deactivate, hz, Option.bind_eq_bind, Option.some_bind]
      rw [forEachZone_append3] at hrun1
      exact hrun1
    · intro n hn
      by_cases hchild : ∃ c ∈ z.includedZones_ ++ z.associatedZoneList ++ z.subZoneList,
          (w.zones.store id { (z.widgets_.foldl (deactivateWidget s) (z, w.log)).1
            with isActive_ := false }).Reaches c n
      · exact hoff1 n hchild
      · rw [hframe1 n (fun c hc hcn => hchild ⟨c, hc, hcn⟩)]
        rcases Relation.ReflTransGen.cases_head hn with e | ⟨c, hc, hcn⟩
        · rw [← e]
          exact isActive_store_self _ _ _ hlt
        · exfalso
          apply hchild
          refine ⟨c, ?_, (hs0.links_reaches c n).mpr hcn⟩
          simp only [ZoneHeap.children, hz, Zone.childList, List.mem_append] at hc ⊢
          tauto
    · intro n hn
      rw [hframe1 n (fun c hc hcn => hn
        (Relation.ReflTransGen.head (hmem c hc) ((hs0.links_reaches c n).mp hcn)))]
      apply isActive_store_ne
      intro e
      exact hn (by rw [e]; exact Relation.ReflTransGen.refl)

end Zone

namespace ZoneHeap

/-! ### Trees of zones -/

theorem Descends.rank_le {h : ZoneHeap} {rank : ZoneId → Nat} {a b : ZoneId}
    (d : h.Descends rank a) (hab : h.Reaches a b) : rank b ≤ rank a := by
  induction hab with
  | refl => exact le_refl _
  | tail hap hpb ih =>
    have := d.2 _ _ hap hpb
    omega

theorem Descends.descends_of_reaches {h : ZoneHeap} {rank : ZoneId → Nat} {a b : ZoneId}
    (d : h.Descends rank a) (hab : h.Reaches a b) : h.Descends rank b :=
  ⟨fun n hn => d.1 n (hab.trans hn), fun x c hx hc => d.2 x c (hab.trans hx) hc⟩

/-- In a tree the zones below two different entries of the lists of one zone are
different zones. -/
theorem disjoint_of_unique_parent {h : ZoneHeap} {rank : ZoneId → Nat} {root : ZoneId}
    (d : h.Descends rank root)
    (hparent : ∀ a b c, h.Reaches root a → h.Reaches root b →
      c ∈ h.children a → c ∈ h.children b → a = b)
    {a c1 c2 : ZoneId} (ha : h.Reaches root a) (h1 : c1 ∈ h.children a)
    (h2 : c2 ∈ h.children a) (hne : c1 ≠ c2) :
    ∀ n, h.Reaches c1 n → ¬ h.Reaches c2 n := by
  have hr1 : h.Reaches root c1 := ha.trans (Relation.ReflTransGen.single h1)
  have hr2 : h.Reaches root c2 := ha.trans (Relation.ReflTransGen.single h2)
  have hk1 : rank c1 < rank a := d.2 a c1 ha h1
  have hk2 : rank c2 < rank a := d.2 a c2 ha h2
  intro n hn
  induction hn with
  | refl =>
    intro hc
    rcases Relation.ReflTransGen.cases_tail hc with e | ⟨q, hq, hqc⟩
    · exact hne e
    · have e : q = a := hparent q a c1 (hr2.trans hq) ha hqc h1
      rw [e] at hq
      have := (d.descends_of_reaches hr2).rank_le hq
      omega
  | tail hp hpn ih =>
    rename_i p n
    intro hc
    rcases Relation.ReflTransGen.cases_tail hc with e | ⟨q, hq, hqn⟩
    · rw [e] at hpn
      have e' : p = a := hparent p a c2 (hr1.trans hp) ha hpn h2
      rw [e'] at hp
      have := (d.descends_of_reaches hr1).rank_le hp
      omega
    · have e : p = q := hparent p q n (hr1.trans hp) (hr2.trans hq) hpn hqn
      rw [← e] at hq
      exact ih hq

theorem TreeBelow.of_isTreeFrom {h : ZoneHeap} {rank : ZoneId → Nat} {root : ZoneId}
    (t : h.IsTreeFrom rank root) : h.TreeBelow rank root := by
  obtain ⟨hlive, hrank, hnodup, hparent⟩ := t
  refine ⟨⟨hlive, hrank⟩, fun a ha => ?_⟩
  exact List.Pairwise.imp_of_mem
    (fun {c1 c2} h1 h2 hne => disjoint_of_unique_parent ⟨hlive, hrank⟩ hparent ha h1 h2 hne)
    (hnodup a ha)

theorem TreeBelow.tree_of_reaches {h : ZoneHeap} {rank : ZoneId → Nat} {a b : ZoneId}
    (t : h.TreeBelow rank a) (hab : h.Reaches a b) : h.TreeBelow rank b :=
  ⟨t.1.descends_of_reaches hab, fun x hx => t.2 x (hab.trans hx)⟩

theorem TreeBelow.tree_sameLinks {h h' : ZoneHeap} (s : SameLinks h h') {rank : ZoneId → Nat}
    {id : ZoneId} (t : h.TreeBelow rank id) : h'.TreeBelow rank id := by
  refine ⟨t.1.descends_sameLinks s, fun a ha => ?_⟩
  rw [s.links_children a]
  refine List.Pairwise.imp ?_ (t.2 a ((s.links_reaches id a).mp ha))
  intro c1 c2 hdis n hn hn2
  exact hdis n ((s.links_reaches c1 n).mp hn) ((s.links_reaches c2 n).mp hn2)

/-- The state `ActivatedTree` at a zone only depends on the zone lists and on the
active flags of the zones reachable from it. -/
theorem ActivatedTree.congr {h h' : ZoneHeap} (s : SameLinks h h') :
    ∀ id, ActivatedTree h id → (∀ n, h.Reaches id n → h'.isActive n = h.isActive n) →
      ActivatedTree h' id := by
  intro id t
  induction t with
  | intro id z hz hactive _ hoff ih =>
    intro hsame
    obtain ⟨z', hz', hl⟩ := s.links_zoneAt hz
    simp only [Zone.links, Prod.mk.injEq] at hl
    have hi : z'.includedZones_ = z.includedZones_ := hl.1
    have ha : z'.associatedZoneList = z.associatedZoneList := by
      simp [Zone.associatedZoneList, hl.2.2]
    have hsub : z'.subZoneList = z.subZoneList := by
      simp [Zone.subZoneList, hl.2.1]
    refine ActivatedTree.intro id z' hz' ?_ ?_ ?_
    · have := hsame id Relation.ReflTransGen.refl
      simp only [ZoneHeap.isActive, hz, hz'] at this
      rw [this]
      exact hactive
    · intro c hc
      rw [hi] at hc
      refine ih c hc (fun n hn => hsame n (Relation.ReflTransGen.head ?_ hn))
      simp [ZoneHeap.children, hz, Zone.childList, hc]
    · intro c hc n hn
      rw [ha, hsub] at hc
      have hn' := (s.links_reaches c n).mp hn
      rw [hsame n (Relation.ReflTransGen.head ?_ hn')]
      · exact hoff c hc n hn'
      · simp only [ZoneHeap.children, hz, Zone.childList, List.mem_append] at hc ⊢
        tauto

end ZoneHeap

namespace Zone

open ZoneHeap

/-! ### Activation -/

/-- The loop `includedZones_.Get(i)->Activate()` over zones with pairwise separate
subtrees, given what one call does. -/
theorem activate_loop (s : Surface) (rank : ZoneId → Nat) (k : Nat)
    (ih : ∀ (id : ZoneId) (w : World), w.zones.TreeBelow rank id → rank id < k →
      ∃ w', Activate s k id w = some w' ∧ SameLinks w.zones w'.zones
        ∧ ActivatedTree w'.zones id
        ∧ (∀ n, ¬ w.zones.Reaches id n → w'.zones.isActive n = w.zones.isActive n)) :
    ∀ (cs : List ZoneId) (w : World), (∀ c ∈ cs, w.zones.TreeBelow rank c ∧ rank c < k) →
      cs.Pairwise (fun c1 c2 => ∀ n, w.zones.Reaches c1 n → ¬ w.zones.Reaches c2 n) →
      ∃ w', forEachZone (Activate s k) cs w = some w' ∧ SameLinks w.zones w'.zones
        ∧ (∀ c ∈ cs, ActivatedTree w'.zones c)
        ∧ (∀ n, (∀ c ∈ cs, ¬ w.zones.Reaches c n) →
            w'.zones.isActive n = w.zones.isActive n) := by
  intro cs
  induction cs with
  | nil =>
    intro w _ _
    exact ⟨w, rfl, SameLinks.links_refl _, fun c hc => absurd hc (List.not_mem_nil _),
      fun _ _ => rfl⟩
  | cons c cs ihl =>
    intro w hpre hpair
    obtain ⟨hhead, htail⟩ := List.pairwise_cons.mp hpair
    obtain ⟨ht, hr⟩ := hpre c (List.mem_cons_self _ _)
    obtain ⟨w1, hrun1, hs1, htree1, hframe1⟩ := ih c w ht hr
    obtain ⟨w2, hrun2, hs2, htree2, hframe2⟩ := ihl w1
      (fun c' hc' => ⟨(hpre c' (List.mem_cons_of_mem _ hc')).1.tree_sameLinks hs1,
        (hpre c' (List.mem_cons_of_mem _ hc')).2⟩)
      (List.Pairwise.imp (fun {c1 c2} hdis n hn hn2 =>
        hdis n ((hs1.links_reaches c1 n).mp hn) ((hs1.links_reaches c2 n).mp hn2)) htail)
    refine ⟨w2, ?_, hs1.links_trans hs2, ?_, ?_⟩
    · simp only [forEachZone, hrun1, Option.bind_eq_bind, Option.some_bind]
      exact hrun2
    · intro c' hc'
      rcases List.mem_cons.mp hc' with e | e
      · rw [e]
        refine ActivatedTree.congr hs2 c htree1 (fun n hn => hframe2 n ?_)
        intro c'' hc'' hcn
        exact hhead c'' hc'' n ((hs1.links_reaches c n).mp hn) ((hs1.links_reaches c'' n).mp hcn)
      · exact htree2 c' e
    · intro n hnone
      rw [hframe2 n (fun c' hc' hcn =>
        hnone c' (List.mem_cons_of_mem _ hc') ((hs1.links_reaches c' n).mp hcn))]
      exact hframe1 n (hnone c (List.mem_cons_self _ _))

theorem not_reaches_parent {h : ZoneHeap} {rank : ZoneId → Nat} {id c : ZoneId}
    (d : h.Descends rank id) (hc : c ∈ h.children id) : ¬ h.Reaches c id := by
  intro hback
  obtain ⟨dc, hlt⟩ := d.child hc
  have := dc.rank_le hback
  omega

/-- `Activate` on a tree returns when the fuel exceeds the rank of the zone; it
establishes `ActivatedTree` at the zone and changes neither a zone list nor the
active flag of a zone outside the tree. -/
theorem Activate_spec (s : Surface) (rank : ZoneId → Nat) :
    ∀ (fuel : Nat) (id : ZoneId) (w : World), w.zones.TreeBelow rank id → rank id < fuel →
      ∃ w', Activate s fuel id w = some w' ∧ SameLinks w.zones w'.zones
        ∧ ActivatedTree w'.zones id
        ∧ (∀ n, ¬ w.zones.Reaches id n → w'.zones.isActive n = w.zones.isActive n) := by
  intro fuel
  induction fuel with
  | zero =>
    intro id w _ hr
    exact absurd hr (Nat.not_lt_zero _)
  | succ k ih =>
    intro id w ht hr
    obtain ⟨w1, hrunU, hsU, haU⟩ :=
      UpdateCurrentActionContextModifiers_spec s rank (k + 1) id w ht.1 hr
    have ht1 : w1.zones.TreeBelow rank id := ht.tree_sameLinks hsU
    obtain ⟨z, hz⟩ := ht1.1.descends_zoneAt
    have hlt := zoneAt_lt hz
    obtain ⟨r, hrdef⟩ : ∃ r, r = z.widgets_.foldl (activateWidget s) (z, w1.log) := ⟨_, rfl⟩
    have hl : r.1.links = z.links := by
      rw [hrdef]
      exact (links_of_withoutBindings (withoutBindings_foldl (activateWidget s)
        (withoutBindings_activateWidget s) z.widgets_ (z, w1.log))).1
    have hs2 : SameLinks w1.zones (w1.zones.store id { r.1 with isActive_ := true }) :=
      SameLinks.links_store _ _ z _ hz hl
    have hch : w1.zones.children id
        = z.associatedZoneList ++ z.subZoneList ++ z.includedZones_ := by
      simp [ZoneHeap.children, hz, Zone.childList]
    have hpair := ht1.2 id Relation.ReflTransGen.refl
    rw [hch, List.pairwise_append] at hpair
    obtain ⟨-, hpairI, hcross⟩ := hpair
    have hchild : ∀ (h' : ZoneHeap), SameLinks w1.zones h' → ∀ c ∈ w1.zones.children id,
        h'.TreeBelow rank c ∧ rank c < k := by
      intro h' hs c hc
      have hlt' := (ht1.1.child hc).2
      exact ⟨(ht1.tree_of_reaches (Relation.ReflTransGen.single hc)).tree_sameLinks hs, by omega⟩
    -- the associated-zone and sub-zone groups are deactivated
    obtain ⟨w4, hrunD, hsD, hoffD, hframeD⟩ := deactivate_loop s rank k
      (fun id w hd hr => Deactivate_spec s rank k id w hd hr)
      (z.associatedZoneList ++ z.subZoneList)
      ⟨w1.zones.store id { r.1 with isActive_ := true },
        r.2 ++ pageModeEffects z.name_ true ++ [ZoneEffect.sendOSCMessage z.name_]⟩
      (fun c hc => by
        have hc' : c ∈ w1.zones.children id := by
          rw [hch]; exact List.mem_append_left _ hc
        exact ⟨(hchild _ hs2 c hc').1.1, (hchild _ hs2 c hc').2⟩)
    have hs14 : SameLinks w1.zones w4.zones := hs2.links_trans hsD
    -- the included zones are activated
    obtain ⟨w5, hrunA, hsA, htreeA, hframeA⟩ := activate_loop s rank k ih z.includedZones_ w4
      (fun c hc => hchild _ hs14 c (by rw [hch]; exact List.mem_append_right _ hc))
      (List.Pairwise.imp (fun {c1 c2} hdis n hn hn2 =>
        hdis n ((hs14.links_reaches c1 n).mp hn) ((hs14.links_reaches c2 n).mp hn2)) hpairI)
    have hs15 : SameLinks w1.zones w5.zones := hs14.links_trans hsA
    have hnotI : ∀ n, (∀ c ∈ w1.zones.children id, ¬ w1.zones.Reaches c n) →
        w5.zones.isActive n = (w1.zones.store id { r.1 with isActive_ := true }).isActive n := by
      intro n hnone
      rw [hframeA n (fun c hc hcn => hnone c (by rw [hch]; exact List.mem_append_right _ hc)
        ((hs14.links_reaches c n).mp hcn))]
      exact hframeD n (fun c hc hcn => hnone c (by rw [hch]; exact List.mem_append_left _ hc)
        ((hs2.links_reaches c n).mp hcn))
    refine ⟨w5, ?_, hsU.links_trans hs15, ?_, ?_⟩
    · rw [forEachZone_append] at hrunD
      obtain ⟨w3, hrun3, hrun4⟩ := Option.bind_eq_some.mp hrunD
      simp only [Activate, hrunU, Option.bind_eq_bind, Option.some_bind, hz, ← hrdef, hrun3,
        hrun4, hrunA]
    · obtain ⟨z5, hz5, hl5⟩ := hs15.links_zoneAt hz
      simp only [Zone.links, Prod.mk.injEq] at hl5
      have ha5 : z5.associatedZoneList = z.associatedZoneList := by
        simp [Zone.associatedZoneList, hl5.2.2]
      have hsub5 : z5.subZoneList = z.subZoneList := by
        simp [Zone.subZoneList, hl5.2.1]
      refine ActivatedTree.intro id z5 hz5 ?_ ?_ ?_
      · have h5 := hnotI id (fun c hc => not_reaches_parent ht1.1 hc)
        rw [isActive_store_self _ _ _ hlt] at h5
        simpa [ZoneHeap.isActive, hz5] using h5
      · intro c hc
        rw [hl5.1] at hc
        exact htreeA c hc
      · intro c hc n hn
        rw [ha5, hsub5] at hc
        have hn1 : w1.zones.Reaches c n := (hs15.links_reaches c n).mp hn
        rw [hframeA n (fun c' hc' hcn => hcross c hc c' hc' n hn1 ((hs14.links_reaches c' n).mp hcn))]
        exact hoffD n ⟨c, hc, (hs2.links_reaches c n).mpr hn1⟩
    · intro n hn
      have hn1 : ¬ w1.zones.Reaches id n := fun hc => hn ((hsU.links_reaches id n).mp hc)
      rw [hnotI n (fun c hc hcn => hn1 (Relation.ReflTransGen.head hc hcn)),
        isActive_store_ne _ _ _ _ (fun e => hn1 (by rw [e]; exact Relation.ReflTransGen.refl))]
      exact haU n

/-- C10: when the zones reachable from a zone through included-zone, sub-zone and
associated-zone pointers form a tree, `Activate()` on the zone returns (the fuel
only has to exceed the rank of the zone), leaves every zone list as it was, and
afterwards the zone is active, every included zone is active and in the same state
again, and every zone of its associated-zone groups and sub-zone groups is
inactive together with every zone reachable from it; no active flag outside the
tree has changed. -/
theorem Activate_activates_tree (s : Surface) (rank : ZoneId → Nat) (fuel : Nat)
    (id : ZoneId) (w : World) (htree : w.zones.IsTreeFrom rank id) (hfuel : rank id < fuel) :
    ∃ w', Activate s fuel id w = some w' ∧ SameLinks w.zones w'.zones
      ∧ ActivatedTree w'.zones id
      ∧ (∀ n, ¬ w.zones.Reaches id n → w'.zones.isActive n = w.zones.isActive n) :=
  Activate_spec s rank fuel id w (TreeBelow.of_isTreeFrom htree) hfuel

theorem activationHeap_children (a : ZoneId) :
    activationHeap.children a = if a = 0 then [2, 3, 1] else if a = 3 then [4] else [] := by
  match a with
  | 0 => rfl
  | 1 => rfl
  | 2 => rfl
  | 3 => rfl
  | 4 => rfl
  | n + 5 => rfl

theorem activationHeap_reaches (n : ZoneId) (hn : activationHeap.Reaches 0 n) : n ≤ 4 := by
  induction hn with
  | refl => exact Nat.zero_le _
  | tail _ hbc _ =>
    rw [activationHeap_children] at hbc
    split_ifs at hbc <;> simp at hbc
    · rcases hbc with e | e | e <;> rw [e] <;> decide
    · exact le_of_eq hbc

theorem activationHeap_isTree : activationHeap.IsTreeFrom activationRank 0 := by
  refine ⟨?_, ?_, ?_, ?_⟩
  · intro n hn
    have := activationHeap_reaches n hn
    interval_cases n <;> rfl
  · intro a c _ hc
    rw [activationHeap_children] at hc
    split_ifs at hc with h0 h3
    · simp at hc
      rcases hc with e | e | e <;> simp [activationRank, h0, e]
    · simp at hc
      simp [activationRank, h3, hc]
    · simp at hc
  · intro a _
    rw [activationHeap_children]
    split_ifs <;> decide
  · intro a b c _ _ hca hcb
    rw [activationHeap_children] at hca hcb
    split_ifs at hca hcb <;> simp at hca hcb <;> simp_all

/-- The theorem `Activate_activates_tree` at the example heap: the Home zone at 0
and its included zone at 1 end active, the associated zone at 2, the sub-zone at
3 and the zone at 4 included by the sub-zone end inactive. -/
theorem Activate_activates_tree_witness :
    activationHeap.IsTreeFrom activationRank 0 ∧
    (∃ w', Activate (surfaceWith [0] false false) 3 0 ⟨activationHeap, []⟩ = some w'
      ∧ SameLinks activationHeap w'.zones ∧ ActivatedTree w'.zones 0) ∧
    (Activate (surfaceWith [0] false false) 3 0 ⟨activationHeap, []⟩).map
        (fun w => [0, 1, 2, 3, 4].map w.zones.isActive)
      = some [true, true, false, false, false] := by
  refine ⟨activationHeap_isTree, ?_, by decide⟩
  obtain ⟨w', hrun, hs, ht, -⟩ := Activate_activates_tree (surfaceWith [0] false false)
    activationRank 3 0 ⟨activationHeap, []⟩ activationHeap_isTree (by decide)
  exact ⟨w', hrun, hs, ht⟩

end Zone

namespace ActionContext

/-! ### ActionContext: hold delay -/

theorem idleCalls_cancelled (c : ActionContext) (hhold : c.holdDelayAmount_ ≠ 0)
    (hstart : c.delayStartTime_ = 0) (hdef : c.deferredValue_ = 0) :
    ∀ calls : List IdleCall, idleCalls calls c = some (c, []) := by
  intro calls
  induction calls with
  | nil => rfl
  | cons call calls ih =>
    have hrun : ∀ now, c.RunDeferredActions now = some (c, []) := by
      intro now
      simp [RunDeferredActions, hstart]
    have hrel : ∀ now, c.DoAction 0 now = some (c, []) := by
      intro now
      simp only [DoAction, hhold, ne_eq, not_false_eq_true, if_true]
      cases c
      simp_all
    cases call with
    | runDeferred now => simp [idleCalls, hrun, ih]
    | release now => simp [idleCalls, hrel, ih]

/-- C19: with a hold delay configured, `DoAction(v)` invokes nothing and writes only
the deferred value and the delay start: `v` and the clock reading for `v != 0`, and
0 and 0 for `v = 0`.  After `DoAction(0)` every sequence of `RunDeferredActions`
polls, at any clock readings, and of further `DoAction(0)` calls invokes nothing
and leaves the context as it is. -/
theorem DoAction_hold_defers :
    (∀ (c : ActionContext) (v now : ℚ), c.holdDelayAmount_ ≠ 0 → v ≠ 0 →
      c.DoAction v now = some ({ c with deferredValue_ := v, delayStartTime_ := now }, [])) ∧
    (∀ (c : ActionContext) (now : ℚ), c.holdDelayAmount_ ≠ 0 →
      c.DoAction 0 now = some ({ c with deferredValue_ := 0, delayStartTime_ := 0 }, [])) ∧
    (∀ (c : ActionContext) (calls : List IdleCall), c.holdDelayAmount_ ≠ 0 →
      idleCalls calls { c with deferredValue_ := 0, delayStartTime_ := 0 }
        = some ({ c with deferredValue_ := 0, delayStartTime_ := 0 }, [])) := by
  refine ⟨?_, ?_, ?_⟩
  · intro c v now hhold hv
    simp [DoAction, hhold, hv]
  · intro c now hhold
    simp [DoAction, hhold]
  · intro c calls hhold
    exact idleCalls_cancelled { c with deferredValue_ := 0, delayStartTime_ := 0 } hhold rfl rfl calls

/-- The conjuncts of `DoAction_hold_defers` at the stepped context with hold delay
1: a press at clock 5000 is recorded and invokes nothing, and after the release
two polls long after the hold time, with another release between them, invoke
nothing. -/
theorem DoAction_hold_defers_witness :
    heldSteps.holdDelayAmount_ ≠ 0 ∧ (1 : ℚ) ≠ 0 ∧
    heldSteps.DoAction 1 5000
      = some ({ heldSteps with deferredValue_ := 1, delayStartTime_ := 5000 }, []) ∧
    idleCalls [IdleCall.runDeferred 9000, IdleCall.release 9500, IdleCall.runDeferred 99000]
        { heldSteps with deferredValue_ := 0, delayStartTime_ := 0 }
      = some ({ heldSteps with deferredValue_ := 0, delayStartTime_ := 0 }, []) :=
  ⟨by simp [heldSteps], one_ne_zero,
   DoAction_hold_defers.1 heldSteps 1 5000 (by simp [heldSteps]) one_ne_zero,
   DoAction_hold_defers.2.2 heldSteps _ (by simp [heldSteps])⟩

/-! ### ActionContext: relative steps on a stepped table -/

/-- C20: on a non-empty stepped table whose index lies inside the table,
`DoRelativeAction(delta)` sets the index to `min (index + 1) (size - 1)` for
`delta > 0` and to `max (index - 1) 0` for `delta < 0`, and calls
`DoRangeBoundAction` with the table value at the new index; from the last index a
positive delta leaves the index at the last index, and from index 0 a negative
delta leaves it at 0. -/
theorem DoRelativeAction_stepped_clamps (c : ActionContext) (delta current : ℚ)
    (hne : c.steppedValues_ ≠ []) (hlo : 0 ≤ c.steppedValuesIndex_)
    (hhi : c.steppedValuesIndex_ ≤ (c.steppedValues_.length : Int) - 1) :
    (0 < delta →
      (∃ x, vectorAt c.steppedValues_
          (min (c.steppedValuesIndex_ + 1) ((c.steppedValues_.length : Int) - 1)) = some x ∧
        c.DoRelativeAction delta current =
          some ({ c with steppedValuesIndex_ := (min (c.steppedValuesIndex_ + 1)
                    ((c.steppedValues_.length : Int) - 1)) },
                c.DoRangeBoundAction x)) ∧
      (c.steppedValuesIndex_ = (c.steppedValues_.length : Int) - 1 →
        min (c.steppedValuesIndex_ + 1) ((c.steppedValues_.length : Int) - 1)
          = (c.steppedValues_.length : Int) - 1)) ∧
    (delta < 0 →
      (∃ x, vectorAt c.steppedValues_ (max (c.steppedValuesIndex_ - 1) 0) = some x ∧
        c.DoRelativeAction delta current =
          some ({ c with steppedValuesIndex_ := max (c.steppedValuesIndex_ - 1) 0 },
                c.DoRangeBoundAction x)) ∧
      (c.steppedValuesIndex_ = 0 → max (c.steppedValuesIndex_ - 1) 0 = 0)) := by
  have hlen : 0 < c.steppedValues_.length := List.length_pos.mpr hne
  constructor
  · intro hd
    refine ⟨?_, fun h => by omega⟩
    obtain ⟨x, hx⟩ := vectorAt_of_lt c.steppedValues_
      (min (c.steppedValuesIndex_ + 1) ((c.steppedValues_.length : Int) - 1))
      (by omega) (by omega)
    refine ⟨x, hx, ?_⟩
    have hidx : (if c.steppedValuesIndex_ + 1 > (c.steppedValues_.length : Int) - 1
        then (c.steppedValues_.length : Int) - 1 else c.steppedValuesIndex_ + 1)
        = min (c.steppedValuesIndex_ + 1) ((c.steppedValues_.length : Int) - 1) := by
      split_ifs <;> omega
    simp only [DoRelativeAction, DoSteppedValueAction, gt_iff_lt, hlen, if_true, hd]
    rw [hidx]
    simp [doCurrentSteppedValue, hx, DoRangeBoundAction]
  · intro hd
    refine ⟨?_, fun h => by omega⟩
    obtain ⟨x, hx⟩ := vectorAt_of_lt c.steppedValues_ (max (c.steppedValuesIndex_ - 1) 0)
      (by omega) (by omega)
    refine ⟨x, hx, ?_⟩
    have hidx : (if c.steppedValuesIndex_ - 1 < 0 then 0 else c.steppedValuesIndex_ - 1)
        = max (c.steppedValuesIndex_ - 1) 0 := by
      split_ifs <;> omega
    have hnot : ¬ 0 < delta := not_lt.mpr (le_of_lt hd)
    simp only [DoRelativeAction, DoSteppedValueAction, gt_iff_lt, hlen, if_true, hnot,
      if_false]
    rw [hidx]
    simp [doCurrentSteppedValue, hx, DoRangeBoundAction]

/-- The theorem `DoRelativeAction_stepped_clamps` at the table `[0.0, 0.5, 1.0]` and
index 0: a negative delta leaves the index at 0 and hands on the first value. -/
theorem DoRelativeAction_stepped_clamps_witness :
    risingSteps.steppedValues_ ≠ [] ∧ 0 ≤ risingSteps.steppedValuesIndex_ ∧
    risingSteps.steppedValuesIndex_ ≤ (risingSteps.steppedValues_.length : Int) - 1 ∧
    ((-1 : ℚ) < 0) ∧
    (∃ x, vectorAt risingSteps.steppedValues_ (max (risingSteps.steppedValuesIndex_ - 1) 0)
        = some x ∧
      risingSteps.DoRelativeAction (-1) 0 =
        some ({ risingSteps with
                  steppedValuesIndex_ := max (risingSteps.steppedValuesIndex_ - 1) 0 },
              risingSteps.DoRangeBoundAction x)) ∧
    max (risingSteps.steppedValuesIndex_ - 1) 0 = 0 :=
  ⟨by simp [risingSteps, construct], by simp [risingSteps, construct],
   by simp [risingSteps, construct], by norm_num,
   ((DoRelativeAction_stepped_clamps risingSteps (-1) 0 (by simp [risingSteps, construct])
      (by simp [risingSteps, construct]) (by simp [risingSteps, construct])).2
        (by norm_num)).1,
   by simp [risingSteps, construct]⟩

end ActionContext

namespace Zone

open ZoneHeap

/-! ### Deactivation of a zone and everything below it -/

/-- C11: when every pointer below a zone designates a live zone and no chain of
pointers returns to its start, `Deactivate()` on the zone returns (the fuel only
has to exceed the rank of the zone) and leaves every zone list as it was;
afterwards the zone itself and every zone reachable from it through included-zone,
associated-zone and sub-zone pointers is a live zone whose `isActive_` is false. -/
theorem Deactivate_deactivates_reachable (s : Surface) (rank : ZoneId → Nat) (fuel : Nat)
    (id : ZoneId) (w : World) (hd : w.zones.Descends rank id) (hfuel : rank id < fuel) :
    ∃ w', Deactivate s fuel id w = some w' ∧ SameLinks w.zones w'.zones
      ∧ (∃ z, w'.zones.zoneAt id = some z ∧ z.isActive_ = false)
      ∧ (∀ n, w'.zones.Reaches id n → ∃ z, w'.zones.zoneAt n = some z ∧ z.isActive_ = false) := by
  obtain ⟨w', hrun, hs, hoff, -⟩ := Deactivate_spec s rank fuel id w hd hfuel
  have hall : ∀ n, w'.zones.Reaches id n →
      ∃ z, w'.zones.zoneAt n = some z ∧ z.isActive_ = false := by
    intro n hn
    have hn0 : w.zones.Reaches id n := (hs.links_reaches id n).mp hn
    have hlive : w'.zones.isLive n = true := by
      rw [hs.links_isLive n]
      exact hd.1 n hn0
    obtain ⟨z, hz⟩ := Option.isSome_iff_exists.mp hlive
    refine ⟨z, hz, ?_⟩
    have := hoff n hn0
    simpa [ZoneHeap.isActive, hz] using this
  exact ⟨w', hrun, hs, hall id Relation.ReflTransGen.refl, hall⟩

/-- The theorem `Deactivate_deactivates_reachable` at the example heap, in which the
zones at 2, 3 and 4 are active: after `Deactivate()` on the Home zone at 0 all five
zones are inactive. -/
theorem Deactivate_deactivates_reachable_witness :
    activationHeap.Descends activationRank 0 ∧
    [0, 1, 2, 3, 4].map activationHeap.isActive = [false, false, true, true, true] ∧
    (∃ w', Deactivate (surfaceWith [0] false false) 3 0 ⟨activationHeap, []⟩ = some w'
      ∧ (∀ n, w'.zones.Reaches 0 n →
          ∃ z, w'.zones.zoneAt n = some z ∧ z.isActive_ = false)) ∧
    (Deactivate (surfaceWith [0] false false) 3 0 ⟨activationHeap, []⟩).map
        (fun w => [0, 1, 2, 3, 4].map w.zones.isActive)
      = some [false, false, false, false, false] := by
  have hd : activationHeap.Descends activationRank 0 :=
    ⟨activationHeap_isTree.1, activationHeap_isTree.2.1⟩
  refine ⟨hd, by decide, ?_, by decide⟩
  obtain ⟨w', hrun, -, -, hall⟩ := Deactivate_deactivates_reachable
    (surfaceWith [0] false false) activationRank 3 0 ⟨activationHeap, []⟩ hd (by decide)
  exact ⟨w', hrun, hall⟩

end Zone

namespace ZoneHeap

/-! ### Which zone takes a widget event -/

theorem TakenBy.taken_not_declines {h : ZoneHeap} {widget : Widget} {id n : ZoneId}
    (t : TakenBy h widget id n) : ¬ Declines h widget id := by
  induction t with
  | viaGroup id z before c after n hz hact hsplit _ _ ih =>
    intro hd
    cases hd with
    | inactive _ z' hz' hoff =>
      rw [hz] at hz'
      cases hz'
      rw [hact] at hoff
      exact Bool.noConfusion hoff
    | passed _ z' hz' _ hgroup _ _ =>
      rw [hz] at hz'
      cases hz'
      exact ih (hgroup c (by rw [hsplit]; simp))
  | own id z hz hact _ hmem =>
    intro hd
    cases hd with
    | inactive _ z' hz' hoff =>
      rw [hz] at hz'
      cases hz'
      rw [hact] at hoff
      exact Bool.noConfusion hoff
    | passed _ z' hz' _ _ hnot _ =>
      rw [hz] at hz'
      cases hz'
      exact hnot hmem
  | viaIncluded id z before c after n hz hact _ _ hsplit _ _ ih =>
    intro hd
    cases hd with
    | inactive _ z' hz' hoff =>
      rw [hz] at hz'
      cases hz'
      rw [hact] at hoff
      exact Bool.noConfusion hoff
    | passed _ z' hz' _ _ _ hincl =>
      rw [hz] at hz'
      cases hz'
      exact ih (hincl c (by rw [hsplit]; simp))

/-- A list has one first entry on which a property fails. -/
theorem first_failure_unique {α : Type} (P : α → Prop) :
    ∀ (before before' : List α) (c c' : α) (after after' : List α),
      before ++ c :: after = before' ++ c' :: after' →
      (∀ p ∈ before, P p) → ¬ P c → (∀ p ∈ before', P p) → ¬ P c' →
      c = c' := by
  intro before
  induction before with
  | nil =>
    intro before' c c' after after' e _ hc hb' _
    cases before' with
    | nil =>
      simp only [List.nil_append, List.cons.injEq] at e
      exact e.1
    | cons b bs =>
      simp only [List.nil_append, List.cons_append, List.cons.injEq] at e
      exact absurd (e.1 ▸ hb' b (List.mem_cons_self _ _)) hc
  | cons a as ih =>
    intro before' c c' after after' e hb hc hb' hc'
    cases before' with
    | nil =>
      simp only [List.nil_append, List.cons_append, List.cons.injEq] at e
      exact absurd (e.1 ▸ hb a (List.mem_cons_self _ _)) hc'
    | cons b bs =>
      simp only [List.cons_append, List.cons.injEq] at e
      exact ih bs c c' after after' e.2 (fun p hp => hb p (List.mem_cons_of_mem _ hp)) hc
        (fun p hp => hb' p (List.mem_cons_of_mem _ hp)) hc'

/-- At most one zone takes an event offered to a zone. -/
theorem TakenBy.taken_unique {h : ZoneHeap} {widget : Widget} {id n : ZoneId}
    (t : TakenBy h widget id n) : ∀ m, TakenBy h widget id m → n = m := by
  induction t with
  | viaGroup id z before c after n hz hact hsplit hbefore ht ih =>
    intro m t'
    cases t' with
    | viaGroup _ z' before' c' after' _ hz' _ hsplit' hbefore' ht' =>
      rw [hz] at hz'
      cases hz'
      have e : c = c' := first_failure_unique (Declines h widget) before before' c c' after
        after' (hsplit.symm.trans hsplit') hbefore ht.taken_not_declines hbefore' ht'.taken_not_declines
      subst e
      exact ih m ht'
    | own _ z' hz' _ hgroup _ =>
      rw [hz] at hz'
      cases hz'
      exact absurd (hgroup c (by rw [hsplit]; simp)) ht.taken_not_declines
    | viaIncluded _ z' before' c' after' _ hz' _ hgroup _ _ _ _ =>
      rw [hz] at hz'
      cases hz'
      exact absurd (hgroup c (by rw [hsplit]; simp)) ht.taken_not_declines
  | own id z hz hact hgroup hmem =>
    intro m t'
    cases t' with
    | viaGroup _ z' before' c' after' _ hz' _ hsplit' _ ht' =>
      rw [hz] at hz'
      cases hz'
      exact absurd (hgroup c' (by rw [hsplit']; simp)) ht'.taken_not_declines
    | own _ z' hz' _ _ _ => rfl
    | viaIncluded _ z' before' c' after' _ hz' _ _ hnot _ _ _ =>
      rw [hz] at hz'
      cases hz'
      exact absurd hmem hnot
  | viaIncluded id z before c after n hz hact hgroup hnot hsplit hbefore ht ih =>
    intro m t'
    cases t' with
    | viaGroup _ z' before' c' after' _ hz' _ hsplit' _ ht' =>
      rw [hz] at hz'
      cases hz'
      exact absurd (hgroup c' (by rw [hsplit']; simp)) ht'.taken_not_declines
    | own _ z' hz' _ _ hmem =>
      rw [hz] at hz'
      cases hz'
      exact absurd hmem hnot
    | viaIncluded _ z' before' c' after' _ hz' _ _ _ hsplit' hbefore' ht' =>
      rw [hz] at hz'
      cases hz'
      have e : c = c' := first_failure_unique (Declines h widget) before before' c c' after
        after' (hsplit.symm.trans hsplit') hbefore ht.taken_not_declines hbefore' ht'.taken_not_declines
      subst e
      exact ih m ht'

/-- The zone that takes an event is active, has registered the widget and can be
reached from the zone the event was offered to. -/
theorem TakenBy.taken_taker {h : ZoneHeap} {widget : Widget} {id n : ZoneId}
    (t : TakenBy h widget id n) :
    h.Reaches id n ∧ ∃ z, h.zoneAt n = some z ∧ z.isActive_ = true ∧ widget ∈ z.widgets_ := by
  induction t with
  | viaGroup id z before c after n hz _ hsplit _ _ ih =>
    refine ⟨Relation.ReflTransGen.head ?_ ih.1, ih.2⟩
    have hc : c ∈ z.subZoneList ++ z.associatedZoneList := by rw [hsplit]; simp
    simp only [ZoneHeap.children, hz, Zone.childList, List.mem_append] at hc ⊢
    tauto
  | own id z hz hact _ hmem => exact ⟨Relation.ReflTransGen.refl, z, hz, hact, hmem⟩
  | viaIncluded id z before c after n hz _ _ _ hsplit _ _ ih =>
    refine ⟨Relation.ReflTransGen.head ?_ ih.1, ih.2⟩
    have hc : c ∈ z.includedZones_ := by rw [hsplit]; simp
    simp only [ZoneHeap.children, hz, Zone.childList, List.mem_append]
    tauto

end ZoneHeap
namespace Zone

open ZoneHeap

/-! ### Dispatch of a widget event -/

theorem DoAction_used (s : Surface) (widget : Widget) (value : ℚ) (k : Nat) (id : ZoneId)
    (w : World) (hk : 0 < k) (hlive : w.zones.isLive id = true) :
    DoAction s widget value k id (w, true) = some (w, true) := by
  obtain ⟨z, hz⟩ := isLive_iff.mp hlive
  obtain ⟨j, rfl⟩ := Nat.exists_eq_succ_of_ne_zero (Nat.pos_iff_ne_zero.mp hk)
  simp [DoAction, hz]

theorem offerToZones_used (s : Surface) (widget : Widget) (value : ℚ) (k : Nat)
    (w : World) (hk : 0 < k) :
    ∀ cs : List ZoneId, (∀ c ∈ cs, w.zones.isLive c = true) →
      offerToZones (DoAction s widget value k) cs (w, true) = some (w, true) := by
  intro cs
  induction cs with
  | nil => intro _; rfl
  | cons c cs ih =>
    intro hlive
    simp only [offerToZones, DoAction_used s widget value k c w hk
      (hlive c (List.mem_cons_self _ _)), Option.bind_eq_bind, Option.some_bind]
    exact ih (fun c' hc' => hlive c' (List.mem_cons_of_mem _ hc'))

theorem isLive_fired (s : Surface) (widget : Widget) (value : ℚ) (n : ZoneId) (zn : Zone)
    (w : World) (hn : w.zones.zoneAt n = some zn) (c : ZoneId)
    (hc : w.zones.isLive c = true) : (fired s widget value n zn w).1.zones.isLive c = true := by
  simp only [fired, ZoneHeap.isLive]
  by_cases e : c = n
  · rw [e, zoneAt_store_self _ _ _ (zoneAt_lt hn)]
    rfl
  · rw [zoneAt_store_ne _ _ _ _ e]
    exact hc

/-- A loop of `DoAction` calls entered with `isUsed` unset, given what one call
does: either every zone of the list lets the event pass and nothing changes, or the
first zone that does not has it taken by a zone, which fires, and the calls on the
zones after it change nothing. -/
theorem dispatch_loop (s : Surface) (widget : Widget) (value : ℚ) (rank : ZoneId → Nat)
    (k : Nat)
    (ih : ∀ (id : ZoneId) (w : World), w.zones.Descends rank id → rank id < k →
      ∃ res, DoAction s widget value k id (w, false) = some res ∧
        ((res = (w, false) ∧ Declines w.zones widget id) ∨
         ∃ n zn, TakenBy w.zones widget id n ∧ w.zones.zoneAt n = some zn ∧
           res = fired s widget value n zn w)) :
    ∀ (cs : List ZoneId) (w : World), (∀ c ∈ cs, w.zones.Descends rank c ∧ rank c < k) →
      ∃ res, offerToZones (DoAction s widget value k) cs (w, false) = some res ∧
        ((res = (w, false) ∧ ∀ c ∈ cs, Declines w.zones widget c) ∨
         ∃ before c after n zn, cs = before ++ c :: after ∧
           (∀ p ∈ before, Declines w.zones widget p) ∧ TakenBy w.zones widget c n ∧
           w.zones.zoneAt n = some zn ∧ res = fired s widget value n zn w) := by
  intro cs
  induction cs with
  | nil =>
    intro w _
    exact ⟨(w, false), rfl, Or.inl ⟨rfl, fun c hc => absurd hc (List.not_mem_nil _)⟩⟩
  | cons c cs ihl =>
    intro w hpre
    obtain ⟨hd, hr⟩ := hpre c (List.mem_cons_self _ _)
    obtain ⟨res1, hrun1, hcase⟩ := ih c w hd hr
    rcases hcase with ⟨e, hdecl⟩ | ⟨n, zn, htaken, hn, e⟩
    · subst e
      obtain ⟨res, hrun, hcase⟩ := ihl w (fun c' hc' => hpre c' (List.mem_cons_of_mem _ hc'))
      refine ⟨res, ?_, ?_⟩
      · simp only [offerToZones, hrun1, Option.bind_eq_bind, Option.some_bind]
        exact hrun
      · rcases hcase with ⟨e, hall⟩ | ⟨before, c', after, n, zn, hsplit, hbefore, htaken, hn, e⟩
        · refine Or.inl ⟨e, fun c' hc' => ?_⟩
          rcases List.mem_cons.mp hc' with h | h
          · rw [h]; exact hdecl
          · exact hall c' h
        · refine Or.inr ⟨c :: before, c', after, n, zn, by rw [hsplit]; rfl, ?_, htaken, hn, e⟩
          intro p hp
          rcases List.mem_cons.mp hp with h | h
          · rw [h]; exact hdecl
          · exact hbefore p h
    · subst e
      refine ⟨fired s widget value n zn w, ?_, Or.inr ⟨[], c, cs, n, zn, rfl,
        fun p hp => absurd hp (List.not_mem_nil _), htaken, hn, rfl⟩⟩
      simp only [offerToZones, hrun1, Option.bind_eq_bind, Option.some_bind]
      have hk : 0 < k := Nat.lt_of_le_of_lt (Nat.zero_le _) hr
      exact offerToZones_used s widget value k (fired s widget value n zn w).1 hk cs
        (fun c' hc' => isLive_fired s widget value n zn w hn c'
          ((hpre c' (List.mem_cons_of_mem _ hc')).1.1 c' Relation.ReflTransGen.refl))

end Zone
namespace Zone

open ZoneHeap

/-- `DoAction` entered with `isUsed` unset returns when the fuel exceeds the rank of
the zone: either the zone lets the event pass and nothing changes, or one zone takes
the event and fires. -/
theorem DoAction_spec (s : Surface) (widget : Widget) (value : ℚ) (rank : ZoneId → Nat) :
    ∀ (fuel : Nat) (id : ZoneId) (w : World), w.zones.Descends rank id → rank id < fuel →
      ∃ res, DoAction s widget value fuel id (w, false) = some res ∧
        ((res = (w, false) ∧ Declines w.zones widget id) ∨
         ∃ n zn, TakenBy w.zones widget id n ∧ w.zones.zoneAt n = some zn ∧
           res = fired s widget value n zn w) := by
  intro fuel
  induction fuel with
  | zero =>
    intro id w _ hr
    exact absurd hr (Nat.not_lt_zero _)
  | succ k ih =>
    intro id w hd hr
    obtain ⟨z, hz⟩ := hd.descends_zoneAt
    by_cases hact : z.isActive_ = false
    · exact ⟨(w, false), by simp [DoAction, hz, hact], Or.inl ⟨rfl, Declines.inactive id z hz hact⟩⟩
    have hact' : z.isActive_ = true := by simpa using hact
    have hchild : ∀ c, c ∈ w.zones.children id → w.zones.Descends rank c ∧ rank c < k := by
      intro c hc
      obtain ⟨hdc, hrc⟩ := hd.child hc
      exact ⟨hdc, by omega⟩
    have hk : ∀ c, c ∈ w.zones.children id → 0 < k := fun c hc =>
      Nat.lt_of_le_of_lt (Nat.zero_le _) (hchild c hc).2
    have hstart : DoAction s widget value (k + 1) id (w, false) =
        (offerToZones (DoAction s widget value k) z.subZoneList (w, false)).bind fun st =>
          (offerToZones (DoAction s widget value k) z.associatedZoneList st).bind fun st =>
            if st.2 = true then some st
            else (st.1.zones.zoneAt id).bind fun z =>
              if widget ∈ z.widgets_ then
                some ({ zones := st.1.zones.store id (z.GetActionContexts s widget).1
                        log := st.1.log ++ (z.GetActionContexts s widget).2.map
                          fun c => ZoneEffect.doAction c value }, true)
              else offerToZones (DoAction s widget value k) z.includedZones_ st := by
      simp [DoAction, hz, hact']
    rw [hstart]
    obtain ⟨res1, hrun1, hcase1⟩ := dispatch_loop s widget value rank k ih z.subZoneList w
      (fun c hc => hchild c (mem_children_of_sub hz hc))
    rw [hrun1, Option.some_bind]
    rcases hcase1 with ⟨e1, hdecl1⟩ | ⟨before, c, after, n, zn, hsplit, hbefore, htaken, hn, e1⟩
    · subst e1
      obtain ⟨res2, hrun2, hcase2⟩ := dispatch_loop s widget value rank k ih
        z.associatedZoneList w (fun c hc => hchild c (mem_children_of_associated hz hc))
      rw [hrun2, Option.some_bind]
      rcases hcase2 with ⟨e2, hdecl2⟩ |
        ⟨before, c, after, n, zn, hsplit, hbefore, htaken, hn, e2⟩
      · subst e2
        have hgroup : ∀ c ∈ z.subZoneList ++ z.associatedZoneList, Declines w.zones widget c := by
          intro c hc
          rcases List.mem_append.mp hc with h | h
          · exact hdecl1 c h
          · exact hdecl2 c h
        simp only [hz, Option.some_bind, Bool.false_eq_true, if_false]
        by_cases hmem : widget ∈ z.widgets_
        · refine ⟨fired s widget value id z w, by rw [if_pos hmem]; rfl,
            Or.inr ⟨id, z, TakenBy.own id z hz hact' hgroup hmem, hz, rfl⟩⟩
        · rw [if_neg hmem]
          obtain ⟨res3, hrun3, hcase3⟩ := dispatch_loop s widget value rank k ih
            z.includedZones_ w (fun c hc => hchild c (mem_children_of_included hz hc))
          refine ⟨res3, hrun3, ?_⟩
          rcases hcase3 with ⟨e3, hdecl3⟩ |
            ⟨before, c, after, n, zn, hsplit, hbefore, htaken, hn, e3⟩
          · exact Or.inl ⟨e3, Declines.passed id z hz hact' hgroup hmem hdecl3⟩
          · exact Or.inr ⟨n, zn, TakenBy.viaIncluded id z before c after n hz hact' hgroup
              hmem hsplit hbefore htaken, hn, e3⟩
      · subst e2
        refine ⟨fired s widget value n zn w, by simp [fired],
          Or.inr ⟨n, zn, TakenBy.viaGroup id z (z.subZoneList ++ before) c after n hz hact'
            (by rw [hsplit, List.append_assoc]) ?_ htaken, hn, rfl⟩⟩
        intro p hp
        rcases List.mem_append.mp hp with h | h
        · exact hdecl1 p h
        · exact hbefore p h
    · subst e1
      have hc : c ∈ z.subZoneList := by rw [hsplit]; simp
      have hused := offerToZones_used s widget value k (fired s widget value n zn w).1
        (hk c (mem_children_of_sub hz hc)) z.associatedZoneList
        (fun c' hc' => isLive_fired s widget value n zn w hn c'
          ((hchild c' (mem_children_of_associated hz hc')).1.1 c' Relation.ReflTransGen.refl))
      have hfst : fired s widget value n zn w = ((fired s widget value n zn w).1, true) := rfl
      rw [hfst, hused, Option.some_bind]
      refine ⟨fired s widget value n zn w, by simp [fired],
        Or.inr ⟨n, zn, TakenBy.viaGroup id z before c (after ++ z.associatedZoneList) n hz hact'
          (by rw [hsplit]; simp) hbefore htaken, hn, rfl⟩⟩

end Zone
namespace Zone

open ZoneHeap

theorem not_declines_of_registered {h : ZoneHeap} {widget : Widget} {c : ZoneId} {zc : Zone}
    (hc : h.zoneAt c = some zc) (hact : zc.isActive_ = true) (hmem : widget ∈ zc.widgets_) :
    ¬ Declines h widget c := by
  intro hd
  cases hd with
  | inactive _ z' hz' hoff =>
    rw [hc] at hz'
    cases hz'
    rw [hact] at hoff
    exact Bool.noConfusion hoff
  | passed _ z' hz' _ _ hnot _ =>
    rw [hc] at hz'
    cases hz'
    exact hnot hmem

/-- C12: on a zone below which every pointer designates a live zone and no chain of
pointers returns to its start, `DoAction(widget, isUsed, value)` returns (the fuel
only has to exceed the rank of the zone).  It changes nothing when the zone is
inactive or `isUsed` is already set.  Entered with `isUsed` unset it either changes
nothing, every zone asked having let the event pass, or exactly one zone takes the
event, in the order sub-zones, associated zones, the zone itself if it has
registered the widget, and otherwise its included zones: that zone is active, has
registered the widget and can be reached from the zone, `isUsed` is set, and the
calls made are `DoAction(value)` on the action contexts of that zone alone.  The
zone that takes the event is unique.  When a sub-zone or associated zone of an
active zone is active and has registered the widget, the event is taken below a
zone of these groups and not by the zone itself. -/
theorem DoAction_first_taker (s : Surface) (widget : Widget) (value : ℚ)
    (rank : ZoneId → Nat) (fuel : Nat) (id : ZoneId) (w : World)
    (hd : w.zones.Descends rank id) (hfuel : rank id < fuel) :
    (∀ used : Bool, w.zones.isActive id = false ∨ used = true →
      DoAction s widget value fuel id (w, used) = some (w, used)) ∧
    (∃ res, DoAction s widget value fuel id (w, false) = some res ∧
      ((res = (w, false) ∧ Declines w.zones widget id) ∨
       ∃ n zn, TakenBy w.zones widget id n ∧ w.zones.Reaches id n ∧
         w.zones.zoneAt n = some zn ∧ zn.isActive_ = true ∧ widget ∈ zn.widgets_ ∧
         res = fired s widget value n zn w)) ∧
    (∀ n m, TakenBy w.zones widget id n → TakenBy w.zones widget id m → n = m) ∧
    (∀ n, TakenBy w.zones widget id n → ¬ Declines w.zones widget id) ∧
    (∀ z c zc, w.zones.zoneAt id = some z → z.isActive_ = true →
      c ∈ z.subZoneList ++ z.associatedZoneList →
      w.zones.zoneAt c = some zc → zc.isActive_ = true → widget ∈ zc.widgets_ →
      ∃ g n zn, g ∈ z.subZoneList ++ z.associatedZoneList ∧ w.zones.Reaches g n ∧ n ≠ id ∧
        w.zones.zoneAt n = some zn ∧
        DoAction s widget value fuel id (w, false) = some (fired s widget value n zn w)) := by
  obtain ⟨z, hz⟩ := hd.descends_zoneAt
  obtain ⟨j, rfl⟩ := Nat.exists_eq_succ_of_ne_zero
    (Nat.pos_iff_ne_zero.mp (Nat.lt_of_le_of_lt (Nat.zero_le _) hfuel))
  obtain ⟨res, hrun, hcase⟩ := DoAction_spec s widget value rank (j + 1) id w hd hfuel
  refine ⟨?_, ⟨res, hrun, ?_⟩, fun n m t t' => t.taken_unique m t',
    fun n t => t.taken_not_declines, ?_⟩
  · intro used hcond
    have hoff : z.isActive_ = false ∨ used = true := by
      simpa [ZoneHeap.isActive, hz] using hcond
    simp [DoAction, hz, hoff]
  · rcases hcase with h | ⟨n, zn, htaken, hn, e⟩
    · exact Or.inl h
    · obtain ⟨hreach, zn', hn', hact, hmem⟩ := htaken.taken_taker
      rw [hn] at hn'
      cases hn'
      exact Or.inr ⟨n, zn, htaken, hreach, hn, hact, hmem, e⟩
  · intro z' c zc hz' hact hc hzc hactc hmemc
    rw [hz] at hz'
    cases hz'
    have hnot : ¬ Declines w.zones widget c := not_declines_of_registered hzc hactc hmemc
    have hsome : ∀ g ∈ z.subZoneList ++ z.associatedZoneList, g ∈ w.zones.children id := by
      intro g hg
      simp only [ZoneHeap.children, hz, Zone.childList, List.mem_append] at hg ⊢
      tauto
    rcases hcase with ⟨-, hdecl⟩ | ⟨n, zn, htaken, hn, e⟩
    · exfalso
      cases hdecl with
      | inactive _ z' hz' hoff =>
        rw [hz] at hz'
        cases hz'
        rw [hact] at hoff
        exact Bool.noConfusion hoff
      | passed _ z' hz' _ hgroup _ _ =>
        rw [hz] at hz'
        cases hz'
        exact hnot (hgroup c hc)
    · cases htaken with
      | viaGroup _ z' before g after _ hz' _ hsplit _ ht =>
        rw [hz] at hz'
        cases hz'
        have hg : g ∈ z.subZoneList ++ z.associatedZoneList := by rw [hsplit]; simp
        obtain ⟨hdg, hrg⟩ := hd.child (hsome g hg)
        refine ⟨g, n, zn, hg, ht.taken_taker.1, ?_, hn, by rw [hrun, e]⟩
        intro e'
        have := hdg.rank_le ht.taken_taker.1
        rw [e'] at this
        omega
      | own _ z' hz' _ hgroup _ =>
        rw [hz] at hz'
        cases hz'
        exact absurd (hgroup c hc) hnot
      | viaIncluded _ z' before g after _ hz' _ hgroup _ _ _ _ =>
        rw [hz] at hz'
        cases hz'
        exact absurd (hgroup c hc) hnot

theorem dispatchHeap_children (a : ZoneId) :
    dispatchHeap.children a = if a = 0 then [1, 2, 3] else [] := by
  match a with
  | 0 => rfl
  | 1 => rfl
  | 2 => rfl
  | 3 => rfl
  | n + 4 => rfl

theorem dispatchHeap_descends : dispatchHeap.Descends dispatchRank 0 := by
  have hreach : ∀ n, dispatchHeap.Reaches 0 n → n ≤ 3 := by
    intro n hn
    induction hn with
    | refl => exact Nat.zero_le _
    | tail _ hbc _ =>
      rw [dispatchHeap_children] at hbc
      split_ifs at hbc <;> simp at hbc
      rcases hbc with e | e | e <;> rw [e] <;> decide
  refine ⟨?_, ?_⟩
  · intro n hn
    have := hreach n hn
    interval_cases n <;> rfl
  · intro a c _ hc
    rw [dispatchHeap_children] at hc
    split_ifs at hc with h0
    · simp at hc
      rcases hc with e | e | e <;> simp [dispatchRank, h0, e]
    · simp at hc

/-- The theorem `DoAction_first_taker` at the example heap: the Home zone at 0 and
its sub-zones at 1 (inactive) and 2 (active) and its included zone at 3 all bind
`Fader1`; the event is taken by the zone at 2, whose context 3 is the only one
called, and a call entered with `isUsed` set changes nothing. -/
theorem DoAction_first_taker_witness :
    dispatchHeap.Descends dispatchRank 0 ∧
    (∃ res, DoAction (surfaceWith [0] false false) fader1 1 2 0 (⟨dispatchHeap, []⟩, false)
        = some res ∧
      ((res = (⟨dispatchHeap, []⟩, false) ∧ Declines dispatchHeap fader1 0) ∨
       ∃ n zn, TakenBy dispatchHeap fader1 0 n ∧ dispatchHeap.Reaches 0 n ∧
         dispatchHeap.zoneAt n = some zn ∧ zn.isActive_ = true ∧ fader1 ∈ zn.widgets_ ∧
         res = fired (surfaceWith [0] false false) fader1 1 n zn ⟨dispatchHeap, []⟩)) ∧
    (DoAction (surfaceWith [0] false false) fader1 1 2 0 (⟨dispatchHeap, []⟩, false)).map
        (fun r => (r.1.log, r.2)) = some ([ZoneEffect.doAction 3 1], true) ∧
    (DoAction (surfaceWith [0] false false) fader1 1 2 0 (⟨dispatchHeap, []⟩, true)).map
        (fun r => (r.1.log, r.2)) = some ([], true) := by
  refine ⟨dispatchHeap_descends, ?_, by decide, by decide⟩
  exact (DoAction_first_taker (surfaceWith [0] false false) fader1 1 dispatchRank 2 0
    ⟨dispatchHeap, []⟩ dispatchHeap_descends (by decide)).2.1

end Zone

/-! ### Binding keys -/

theorem getlineLoop_append (d : Char) (piece : List Char) (hfree : d ∉ piece) :
    ∀ (token rest : List Char),
      getlineLoop d token (piece ++ rest) = getlineLoop d (token ++ piece) rest := by
  induction piece with
  | nil => intro token rest; simp
  | cons c cs ih =>
    intro token rest
    have hc : c ≠ d := fun e => hfree (e ▸ List.mem_cons_self _ _)
    have hcs : d ∉ cs := fun h => hfree (List.mem_cons_of_mem _ h)
    rw [List.cons_append]
    simp only [getlineLoop, hc, if_false]
    rw [ih hcs]
    simp

/-- A `getline` loop gives back the pieces a string was joined from, when no piece
contains the delimiter and the last piece is not empty. -/
theorem getlineLoop_joinWith (d : Char) :
    ∀ pieces : List (List Char), (∀ p ∈ pieces, d ∉ p) → pieces.getLast? ≠ some [] →
      getlineLoop d [] (joinWith d pieces) = pieces := by
  intro pieces
  induction pieces with
  | nil => intro _ _; rfl
  | cons p ps ih =>
    intro hfree hlast
    cases ps with
    | nil =>
      have hp : p ≠ [] := fun e => hlast (by simp [e])
      have := getlineLoop_append d p (hfree p (List.mem_cons_self _ _)) [] []
      simp only [List.append_nil, List.nil_append] at this
      simp [joinWith, this, getlineLoop, hp]
    | cons q qs =>
      have h1 := getlineLoop_append d p (hfree p (List.mem_cons_self _ _)) []
        (d :: joinWith d (q :: qs))
      simp only [joinWith, h1, List.nil_append, getlineLoop, if_true]
      rw [ih (fun p' hp' => hfree p' (List.mem_cons_of_mem _ hp'))
        (by simpa [List.getLast?_cons_cons] using hlast)]

theorem getlineTokens_bindingKey (segments : List String) (widgetName : String)
    (hseg : ∀ s ∈ segments, '+' ∉ s.data) (hname : '+' ∉ widgetName.data)
    (hne : widgetName ≠ "") :
    getlineTokens '+' (bindingKey segments widgetName) = segments ++ [widgetName] := by
  unfold getlineTokens bindingKey
  rw [getlineLoop_joinWith]
  · simp [Function.comp_def]
  · intro p hp
    obtain ⟨s, hs, rfl⟩ := List.mem_map.mp hp
    rcases List.mem_append.mp hs with h | h
    · exact hseg s h
    · rw [List.mem_singleton.mp h]
      exact hname
  · simp only [List.map_append, List.map_cons, List.map_nil, List.getLast?_concat, ne_eq,
      Option.some.injEq]
    intro e
    apply hne
    cases widgetName
    simp_all

theorem modifierSegment_fields (t : ActionTemplate) (token : String) :
    (modifierSegment t token).widgetName = t.widgetName ∧
    (modifierSegment t token).modifier = t.modifier + (segmentContribution token : Int) := by
  unfold modifierSegment segmentContribution
  split_ifs <;> simp

/-- The loop over the modifier segments adds their contributions to the mask. -/
theorem foldl_modifierSegment (segments : List String) :
    ∀ t : ActionTemplate,
      (segments.foldl modifierSegment t).widgetName = t.widgetName ∧
      (segments.foldl modifierSegment t).modifier
        = t.modifier + ((segments.map segmentContribution).sum : Nat) := by
  induction segments with
  | nil => intro t; simp
  | cons s ss ih =>
    intro t
    obtain ⟨h1, h2⟩ := ih (modifierSegment t s)
    obtain ⟨h3, h4⟩ := modifierSegment_fields t s
    simp only [List.foldl_cons, List.map_cons, List.sum_cons]
    refine ⟨h1.trans h3, ?_⟩
    rw [h2, h4]
    push_cast
    ring

theorem GetWidgetNameAndModifiers_bindingKey (gmv : List String → Int)
    (segments : List String) (widgetName : String) (t : ActionTemplate)
    (hseg : ∀ s ∈ segments, '+' ∉ s.data) (hname : '+' ∉ widgetName.data)
    (hne : widgetName ≠ "") :
    ∃ r, GetWidgetNameAndModifiers gmv (bindingKey segments widgetName) t = some r ∧
      r.widgetName = widgetName ∧
      r.modifier = t.modifier + ((segments.map segmentContribution).sum : Nat)
        + gmv (segments ++ [widgetName]) := by
  unfold GetWidgetNameAndModifiers
  rw [getlineTokens_bindingKey segments widgetName hseg hname hne]
  simp only [List.getLast?_concat, List.dropLast_concat]
  obtain ⟨h1, h2⟩ := foldl_modifierSegment segments { t with widgetName := widgetName }
  exact ⟨_, rfl, h1, by rw [h2]⟩
theorem foldl_or_start (f : String → Nat) (segments : List String) :
    ∀ a b : Nat, segments.foldl (fun mask s => mask ||| f s) (a ||| b)
      = a ||| segments.foldl (fun mask s => mask ||| f s) b := by
  induction segments with
  | nil => intro a b; rfl
  | cons s ss ih =>
    intro a b
    simp only [List.foldl_cons]
    rw [Nat.lor_assoc, ih]

theorem containsTouch_toggle : containsTouch "Toggle" = false := by decide

theorem maskAsOr_zero (segments : List String) :
    maskAsOr 0 segments
      = (if segments.any containsTouch then 1 else 0) ||| (if "Toggle" ∈ segments then 2 else 0) := by
  induction segments with
  | nil => rfl
  | cons s ss ih =>
    unfold maskAsOr at ih ⊢
    have key : ∀ c : Nat, ss.foldl (fun mask s => mask ||| segmentContribution s) c
        = c ||| ss.foldl (fun mask s => mask ||| segmentContribution s) 0 := by
      intro c
      have := foldl_or_start segmentContribution ss c 0
      rwa [Nat.or_zero] at this
    simp only [List.foldl_cons, Nat.zero_or]
    rw [key, ih]
    by_cases ht : containsTouch s = true
    · have hs : s ≠ "Toggle" := by
        intro e
        rw [e, containsTouch_toggle] at ht
        exact Bool.noConfusion ht
      have hiff : "Toggle" ∈ s :: ss ↔ "Toggle" ∈ ss := by simp [Ne.symm hs]
      simp only [segmentContribution, ht, if_true, List.any_cons, Bool.true_or, hiff]
      by_cases h1 : ss.any containsTouch = true <;> by_cases h2 : "Toggle" ∈ ss <;>
        simp only [h1, h2, if_true, if_false] <;> decide
    · have ht' : containsTouch s = false := by simpa using ht
      by_cases hs : s = "Toggle"
      · subst hs
        have hin : "Toggle" ∈ "Toggle" :: ss := List.mem_cons_self _ _
        simp only [segmentContribution, List.any_cons, Bool.false_or, hin,
          if_true, Bool.false_eq_true, if_false, containsTouch_toggle]
        by_cases h1 : ss.any containsTouch = true <;> by_cases h2 : "Toggle" ∈ ss <;>
          simp only [h1, h2, if_true, if_false] <;> decide
      · have hiff : "Toggle" ∈ s :: ss ↔ "Toggle" ∈ ss := by simp [Ne.symm hs]
        simp only [segmentContribution, ht', hs, List.any_cons, Bool.false_or, hiff,
          Bool.false_eq_true, if_false]
        by_cases h1 : ss.any containsTouch = true <;> by_cases h2 : "Toggle" ∈ ss <;>
          simp only [h1, h2, if_true, if_false] <;> decide

theorem sum_segmentContribution (segments : List String) :
    segments.Nodup → segments.countP containsTouch ≤ 1 →
      (segments.map segmentContribution).sum
        = (if segments.any containsTouch then 1 else 0)
          + (if "Toggle" ∈ segments then 2 else 0) := by
  induction segments with
  | nil => intro _ _; rfl
  | cons s ss ih =>
    intro hnd hcount
    obtain ⟨hs, hnd'⟩ := List.nodup_cons.mp hnd
    by_cases ht : containsTouch s = true
    · have hnot : s ≠ "Toggle" := by
        intro e
        rw [e, containsTouch_toggle] at ht
        exact Bool.noConfusion ht
      have hzero : ss.countP containsTouch = 0 := by
        rw [List.countP_cons_of_pos _ _ ht] at hcount
        omega
      have hany : ss.any containsTouch = false := by
        rw [List.countP_eq_zero] at hzero
        simpa using hzero
      have hiff : "Toggle" ∈ s :: ss ↔ "Toggle" ∈ ss := by simp [Ne.symm hnot]
      rw [List.map_cons, List.sum_cons, ih hnd' (by omega)]
      simp only [segmentContribution, ht, if_true, List.any_cons, Bool.true_or, hiff, hany,
        Bool.false_eq_true, if_false]
      omega
    · have ht' : containsTouch s = false := by simpa using ht
      have hc : ss.countP containsTouch ≤ 1 := by
        rw [List.countP_cons_of_neg _ _ ht] at hcount
        exact hcount
      rw [List.map_cons, List.sum_cons, ih hnd' hc]
      by_cases hs' : s = "Toggle"
      · subst hs'
        have hin : "Toggle" ∈ "Toggle" :: ss := List.mem_cons_self _ _
        simp only [segmentContribution, List.any_cons, Bool.false_or, hin, hs,
          if_true, Bool.false_eq_true, if_false, containsTouch_toggle]
        omega
      · have hiff : "Toggle" ∈ s :: ss ↔ "Toggle" ∈ ss := by simp [Ne.symm hs']
        simp only [segmentContribution, ht', hs', List.any_cons, Bool.false_or, hiff,
          Bool.false_eq_true, if_false]
        omega

/-- For a value with bits 1 and 2 clear and at most one segment that contains `Touch`
among pairwise distinct segments, adding the contributions is the bitwise OR. -/
theorem sum_eq_maskAsOr (g : Nat) (segments : List String) (hg : g % 4 = 0)
    (hnd : segments.Nodup) (hcount : segments.countP containsTouch ≤ 1) :
    g + (segments.map segmentContribution).sum = maskAsOr g segments := by
  have hstart : maskAsOr g segments = g ||| maskAsOr 0 segments := by
    unfold maskAsOr
    rw [← foldl_or_start, Nat.or_zero]
  rw [hstart, maskAsOr_zero, sum_segmentContribution segments hnd hcount]
  have hsmall : ∀ b : Nat, b < 2 ^ 2 → g + b = g ||| b := by
    intro b hb
    have hq : g = 2 ^ 2 * (g / 4) := by omega
    rw [hq]
    exact Nat.mul_add_lt_is_or hb _
  by_cases h1 : segments.any containsTouch = true <;> by_cases h2 : "Toggle" ∈ segments <;>
    simp only [h1, h2, if_true, if_false] <;> exact hsmall _ (by decide)
/-- C15, as stated, fails: the segments `Touch` and `FaderTouch` of the key
`Touch+FaderTouch+Fader1` are distinct and both contain `Touch`; the bitwise OR of
their contributions is 1, and the token list names no modifier, but the mask
computed is 2. -/
theorem GetWidgetNameAndModifiers_two_touch_segments :
    ["Touch", "FaderTouch"].Nodup ∧
    bindingKey ["Touch", "FaderTouch"] "Fader1" = "Touch+FaderTouch+Fader1" ∧
    shiftOnlyModifierValue 4 ["Touch", "FaderTouch", "Fader1"] = 0 ∧
    maskAsOr 0 ["Touch", "FaderTouch"] = 1 ∧
    (GetWidgetNameAndModifiers (shiftOnlyModifierValue 4) "Touch+FaderTouch+Fader1"
        ActionTemplate.construct).map (fun r => r.modifier) = some 2 ∧
    (GetWidgetNameAndModifiers (shiftOnlyModifierValue 4) "Touch+FaderTouch+Fader1"
        ActionTemplate.construct).map (fun r => r.modifier)
      ≠ some ((maskAsOr 0 ["Touch", "FaderTouch"] : Nat) : Int) := by
  refine ⟨by decide, by decide, by decide, by decide, by decide, by decide⟩

/-- C15, amended: for a binding key `Seg1+...+SegN+WidgetName` (no segment contains
`+`, the widget name is not empty) `GetWidgetNameAndModifiers` returns the widget
name and, as mask, the sum of 1 for every segment that contains `Touch`, 2 for every
segment `Toggle` and the value of `GetModifierValue` on the token list.  When the
segments are pairwise distinct, at most one of them contains `Touch` and that value
has bits 1 and 2 clear, the sum is the bitwise OR of the contributions.  Every
permutation of the modifier segments on which `GetModifierValue` agrees yields the
same mask and widget name.  For `Shift+Toggle+Fader1` the mask is the bit of Shift
OR 2. -/
theorem GetWidgetNameAndModifiers_mask (gmv : List String → Int) (segments : List String)
    (widgetName : String) (hseg : ∀ s ∈ segments, '+' ∉ s.data)
    (hname : '+' ∉ widgetName.data) (hne : widgetName ≠ "") :
    (∃ r, GetWidgetNameAndModifiers gmv (bindingKey segments widgetName)
          ActionTemplate.construct = some r ∧
        r.widgetName = widgetName ∧
        r.modifier = ((segments.map segmentContribution).sum : Nat)
          + gmv (segments ++ [widgetName]) ∧
        (∀ g : Nat, gmv (segments ++ [widgetName]) = g → g % 4 = 0 → segments.Nodup →
          segments.countP containsTouch ≤ 1 → r.modifier = (maskAsOr g segments : Nat))) ∧
    (∀ permuted : List String, permuted.Perm segments →
      gmv (permuted ++ [widgetName]) = gmv (segments ++ [widgetName]) →
      (GetWidgetNameAndModifiers gmv (bindingKey permuted widgetName)
          ActionTemplate.construct).map (fun r => (r.widgetName, r.modifier))
        = (GetWidgetNameAndModifiers gmv (bindingKey segments widgetName)
            ActionTemplate.construct).map (fun r => (r.widgetName, r.modifier))) ∧
    (∀ shiftBit : Nat, gmv ["Shift", "Toggle", "Fader1"] = shiftBit → shiftBit % 4 = 0 →
      (GetWidgetNameAndModifiers gmv "Shift+Toggle+Fader1" ActionTemplate.construct).map
          (fun r => (r.widgetName, r.modifier))
        = some ("Fader1", ((shiftBit ||| 2 : Nat) : Int))) := by
  obtain ⟨r, hrun, hw, hm⟩ := GetWidgetNameAndModifiers_bindingKey gmv segments widgetName
    ActionTemplate.construct hseg hname hne
  have hm' : r.modifier = ((segments.map segmentContribution).sum : Nat)
      + gmv (segments ++ [widgetName]) := by
    rw [hm]
    simp [ActionTemplate.construct]
  refine ⟨⟨r, hrun, hw, hm', ?_⟩, ?_, ?_⟩
  · intro g hg hbits hnd hcount
    rw [hm', hg, ← sum_eq_maskAsOr g segments hbits hnd hcount]
    push_cast
    ring
  · intro permuted hperm hgmv
    obtain ⟨r', hrun', hw', hmp⟩ := GetWidgetNameAndModifiers_bindingKey gmv permuted
      widgetName ActionTemplate.construct
      (fun s hs => hseg s (hperm.mem_iff.mp hs)) hname hne
    rw [hrun, hrun']
    simp only [Option.map_some', Option.some.injEq, Prod.mk.injEq]
    refine ⟨hw'.trans hw.symm, ?_⟩
    rw [hmp, hm, hgmv, (hperm.map segmentContribution).sum_eq]
  · intro shiftBit hg hbits
    obtain ⟨r', hrun', hw', hmp⟩ := GetWidgetNameAndModifiers_bindingKey gmv
      ["Shift", "Toggle"] "Fader1" ActionTemplate.construct (by decide) (by decide) (by decide)
    have hkey : bindingKey ["Shift", "Toggle"] "Fader1" = "Shift+Toggle+Fader1" := by decide
    rw [hkey] at hrun'
    rw [hrun']
    simp only [Option.map_some', Option.some.injEq, Prod.mk.injEq]
    refine ⟨hw', ?_⟩
    have hsum := sum_eq_maskAsOr shiftBit ["Shift", "Toggle"] hbits (by decide) (by decide)
    have hor : maskAsOr shiftBit ["Shift", "Toggle"] = shiftBit ||| 2 := by
      simp [maskAsOr, segmentContribution, containsTouch_toggle,
        show containsTouch "Shift" = false from by decide]
    rw [hmp]
    simp only [List.cons_append, List.nil_append, hg, ActionTemplate.construct]
    rw [← hor, ← hsum]
    push_cast
    ring

/-- The theorem `GetWidgetNameAndModifiers_mask` at the key `Shift+Toggle+Fader1`
with Shift registered on bit 4: widget name `Fader1`, mask 4 OR 2. -/
theorem GetWidgetNameAndModifiers_mask_witness :
    (∀ s ∈ ["Shift", "Toggle"], '+' ∉ s.data) ∧ '+' ∉ "Fader1".data ∧ "Fader1" ≠ "" ∧
    shiftOnlyModifierValue 4 ["Shift", "Toggle", "Fader1"] = (4 : Nat) ∧ 4 % 4 = 0 ∧
    (GetWidgetNameAndModifiers (shiftOnlyModifierValue 4) "Shift+Toggle+Fader1"
        ActionTemplate.construct).map (fun r => (r.widgetName, r.modifier))
      = some ("Fader1", ((4 ||| 2 : Nat) : Int)) :=
  ⟨by decide, by decide, by decide, by decide, by decide,
   (GetWidgetNameAndModifiers_mask (shiftOnlyModifierValue 4) ["Shift", "Toggle"] "Fader1"
      (by decide) (by decide) (by decide)).2.2 4 (by decide) (by decide)⟩
/-! ### Feedback providers of a group of templates -/

theorem getlineLoop_ne_nil (d : Char) :
    ∀ (cs token : List Char), token ≠ [] ∨ cs ≠ [] → getlineLoop d token cs ≠ [] := by
  intro cs
  induction cs with
  | nil =>
    intro token h
    rcases h with h | h
    · simp [getlineLoop, h]
    · exact absurd rfl h
  | cons c cs ih =>
    intro token _
    simp only [getlineLoop]
    split_ifs
    · simp
    · exact ih (token ++ [c]) (Or.inl (by simp))

theorem modifierSegment_frame (t : ActionTemplate) (token : String) :
    (modifierSegment t token).actionName = t.actionName ∧
    (modifierSegment t token).params = t.params ∧
    (modifierSegment t token).provideFeedback = t.provideFeedback := by
  unfold modifierSegment
  split_ifs <;> exact ⟨rfl, rfl, rfl⟩

theorem foldl_modifierSegment_frame (segments : List String) :
    ∀ t : ActionTemplate,
      (segments.foldl modifierSegment t).actionName = t.actionName ∧
      (segments.foldl modifierSegment t).params = t.params ∧
      (segments.foldl modifierSegment t).provideFeedback = t.provideFeedback := by
  induction segments with
  | nil => intro t; exact ⟨rfl, rfl, rfl⟩
  | cons s ss ih =>
    intro t
    obtain ⟨h1, h2, h3⟩ := ih (modifierSegment t s)
    obtain ⟨h4, h5, h6⟩ := modifierSegment_frame t s
    exact ⟨h1.trans h4, h2.trans h5, h3.trans h6⟩

/-- `GetWidgetNameAndModifiers` returns for a non-empty key; the widget name and the
mask it computes depend on the key and on the mask the template came with, and the
action name, the parameters and the feedback flag of the template are left alone. -/
theorem GetWidgetNameAndModifiers_returns (gmv : List String → Int) (key : String)
    (hkey : key ≠ "") (t : ActionTemplate) :
    ∃ r, GetWidgetNameAndModifiers gmv key t = some r ∧
      r.actionName = t.actionName ∧ r.params = t.params ∧
      r.provideFeedback = t.provideFeedback ∧
      ∀ t' : ActionTemplate, t'.modifier = t.modifier →
        ∃ r', GetWidgetNameAndModifiers gmv key t' = some r' ∧
          r'.widgetName = r.widgetName ∧ r'.modifier = r.modifier := by
  have hne : getlineTokens '+' key ≠ [] := by
    unfold getlineTokens
    intro e
    have := List.map_eq_nil_iff.mp e
    refine getlineLoop_ne_nil '+' key.data [] (Or.inr ?_) this
    intro e'
    apply hkey
    cases key
    simp_all
  obtain ⟨name, hname⟩ : ∃ name, (getlineTokens '+' key).getLast? = some name := by
    cases h : (getlineTokens '+' key).getLast? with
    | none => exact absurd (List.getLast?_eq_none_iff.mp h) hne
    | some name => exact ⟨name, rfl⟩
  unfold GetWidgetNameAndModifiers
  simp only [hname]
  obtain ⟨f1, f2, f3⟩ := foldl_modifierSegment_frame (getlineTokens '+' key).dropLast
    { t with widgetName := name }
  refine ⟨_, rfl, f1, f2, f3, ?_⟩
  intro t' ht'
  obtain ⟨a1, a2⟩ := foldl_modifierSegment (getlineTokens '+' key).dropLast
    { t with widgetName := name }
  obtain ⟨b1, b2⟩ := foldl_modifierSegment (getlineTokens '+' key).dropLast
    { t' with widgetName := name }
  refine ⟨_, rfl, ?_, ?_⟩
  · simp only [a1, b1]
  · show (List.foldl modifierSegment { t' with widgetName := name } _).modifier + _
      = (List.foldl modifierSegment { t with widgetName := name } _).modifier + _
    rw [a2, b2]
    simp only [ht']

theorem setProvideFeedback_last (old : List ActionTemplate) (t : ActionTemplate)
    (value : Bool) :
    setProvideFeedback (old ++ [t]) ((old ++ [t]).length - 1) value
      = old ++ [{ t with provideFeedback := value }] := by
  unfold setProvideFeedback
  have hlen : (old ++ [t]).length - 1 = old.length := by simp
  rw [hlen]
  simp

/-- One call of `BuildActionTemplate` on a line of at least two tokens whose key is
not empty: the template built from the line is added at the end of the group of the
line, and no other group changes. -/
theorem BuildActionTemplate_step (gmv : List String → Int) (tokens : List String)
    (d : ActionTemplatesDictionary) (hlen : 2 ≤ tokens.length)
    (hkey : tokens[0]? ≠ some "") :
    ∃ (t : ActionTemplate) (d' : ActionTemplatesDictionary),
      groupOfLine gmv tokens = some (t.widgetName, t.modifier) ∧
      t.provideFeedback = false ∧ some t.actionName = tokens[1]? ∧
      t.params = (feedbackAndParams tokens).2 ∧
      BuildActionTemplate gmv tokens d = some d' ∧
      (∀ w m, (w, m) ≠ (t.widgetName, t.modifier) → d' w m = d w m) ∧
      d' t.widgetName t.modifier =
        (if d t.widgetName t.modifier = [] then
          (if (feedbackAndParams tokens).1 = "" ∨ (feedbackAndParams tokens).1 = "Feedback=Yes"
            then [{ t with provideFeedback := true }] else [t])
        else if (feedbackAndParams tokens).1 = "Feedback=Yes" then
          (d t.widgetName t.modifier).map (fun x => { x with provideFeedback := false })
            ++ [{ t with provideFeedback := true }]
        else d t.widgetName t.modifier ++ [t]) := by
  obtain ⟨key, action, rest, rfl⟩ : ∃ key action rest, tokens = key :: action :: rest := by
    match tokens, hlen with
    | key :: action :: rest, _ => exact ⟨key, action, rest, rfl⟩
  have hk : key ≠ "" := by
    intro e
    apply hkey
    simp [e]
  obtain ⟨r, hrun, hact, hpar, hpf, hgroup⟩ := GetWidgetNameAndModifiers_returns gmv key hk
    { ActionTemplate.construct with
      actionName := action, params := (feedbackAndParams (key :: action :: rest)).2 }
  obtain ⟨r0, hrun0, hw0, hm0⟩ := hgroup ActionTemplate.construct rfl
  refine ⟨r, fun w m => if w = r.widgetName ∧ m = r.modifier then
      assignFeedback (feedbackAndParams (key :: action :: rest)).1
        (d r.widgetName r.modifier ++ [r])
    else d w m, ?_, hpf, ?_, hpar, ?_, ?_, ?_⟩
  · simp [groupOfLine, hrun0, hw0, hm0]
  · simp [hact]
  · simp only [BuildActionTemplate, List.getElem?_cons_succ, List.getElem?_cons_zero,
      Option.bind_eq_bind, Option.some_bind, hrun]
  · intro w m hne
    have : ¬ (w = r.widgetName ∧ m = r.modifier) := by
      rintro ⟨e1, e2⟩
      exact hne (by rw [e1, e2])
    simp only [this, if_false]
  · simp only [and_self, if_true, assignFeedback]
    by_cases hold : d r.widgetName r.modifier = []
    · simp only [hold, List.nil_append, List.length_singleton, if_true]
      split_ifs
      · exact setProvideFeedback_last [] r true
      · rfl
    · have hlen1 : ¬ (d r.widgetName r.modifier ++ [r]).length = 1 := by
        have := List.length_pos.mpr hold
        simp only [List.length_append, List.length_singleton]
        omega
      simp only [hlen1, hold, if_false]
      split_ifs
      · have := setProvideFeedback_last
          ((d r.widgetName r.modifier).map fun x => { x with provideFeedback := false })
          { r with provideFeedback := false } true
        simpa using this
      · rfl
theorem groupOfLine_key (gmv : List String → Int) (tokens : List String) (g : String × Int)
    (h : groupOfLine gmv tokens = some g) : tokens[0]? ≠ some "" := by
  intro e
  have : groupOfLine gmv tokens = none := by
    simp only [groupOfLine, e, Option.bind_eq_bind, Option.some_bind]
    rfl
  rw [this] at h
  exact Option.noConfusion h

/-- C13: every sequence of `BuildActionTemplate` calls on lines of at least two tokens
with a non-empty key, started from the empty dictionary, returns, and every (widget
name, modifier) group of the dictionary it leaves contains at most one template with
`provideFeedback` set. -/
theorem BuildActionTemplate_one_feedback_provider (gmv : List String → Int)
    (lines : List (List String))
    (hlines : ∀ tokens ∈ lines, 2 ≤ tokens.length ∧ tokens[0]? ≠ some "") :
    ∃ d, buildActionTemplates gmv lines emptyDictionary = some d ∧
      ∀ w m, (d w m).countP (fun t => t.provideFeedback) ≤ 1 := by
  have hgen : ∀ (lines : List (List String)) (d0 : ActionTemplatesDictionary),
      (∀ tokens ∈ lines, 2 ≤ tokens.length ∧ tokens[0]? ≠ some "") →
      (∀ w m, (d0 w m).countP (fun t => t.provideFeedback) ≤ 1) →
      ∃ d, buildActionTemplates gmv lines d0 = some d ∧
        ∀ w m, (d w m).countP (fun t => t.provideFeedback) ≤ 1 := by
    intro lines
    induction lines with
    | nil => intro d0 _ hinv; exact ⟨d0, rfl, hinv⟩
    | cons tokens rest ih =>
      intro d0 hwf hinv
      obtain ⟨hlen, hkey⟩ := hwf tokens (List.mem_cons_self _ _)
      obtain ⟨t, d1, -, hpf, -, -, hrun, hother, hgroup⟩ :=
        BuildActionTemplate_step gmv tokens d0 hlen hkey
      have hinv1 : ∀ w m, (d1 w m).countP (fun t => t.provideFeedback) ≤ 1 := by
        intro w m
        by_cases e : (w, m) = (t.widgetName, t.modifier)
        · obtain ⟨rfl, rfl⟩ := Prod.mk.inj e
          rw [hgroup]
          split_ifs with h1 h2 h3
          · simp
          · simp [hpf]
          · have hzero : List.countP (fun t => t.provideFeedback)
                ((d0 t.widgetName t.modifier).map fun x => { x with provideFeedback := false })
                = 0 := by
              rw [List.countP_eq_zero]
              intro x hx
              obtain ⟨y, -, rfl⟩ := List.mem_map.mp hx
              simp
            rw [List.countP_append, hzero]
            simp
          · rw [List.countP_append]
            have := hinv t.widgetName t.modifier
            simp [hpf]
            exact this
        · rw [hother w m e]
          exact hinv w m
      obtain ⟨d, hd, hfinal⟩ := ih d1
        (fun tokens' h' => hwf tokens' (List.mem_cons_of_mem _ h')) hinv1
      exact ⟨d, by simp [buildActionTemplates, hrun, hd], hfinal⟩
  exact hgen lines emptyDictionary hlines (fun _ _ => by simp [emptyDictionary])

/-- The theorem `BuildActionTemplate_one_feedback_provider` at three lines for
`Fader1` and one for `Shift+Fader1`, two of which say `Feedback=Yes`. -/
theorem BuildActionTemplate_one_feedback_provider_witness :
    (∀ tokens ∈ [["Fader1", "TrackVolume", "Feedback=Yes"], ["Shift+Fader1", "TrackPan"],
        ["Fader1", "TrackTouch"], ["Fader1", "TrackVolumeDisplay", "Feedback=Yes"]],
      2 ≤ tokens.length ∧ tokens[0]? ≠ some "") ∧
    ∃ d, buildActionTemplates (shiftOnlyModifierValue 4)
        [["Fader1", "TrackVolume", "Feedback=Yes"], ["Shift+Fader1", "TrackPan"],
         ["Fader1", "TrackTouch"], ["Fader1", "TrackVolumeDisplay", "Feedback=Yes"]]
        emptyDictionary = some d ∧
      ∀ w m, (d w m).countP (fun t => t.provideFeedback) ≤ 1 :=
  ⟨by decide, BuildActionTemplate_one_feedback_provider (shiftOnlyModifierValue 4) _
    (by decide)⟩
/-- Lines of one group grow the group by one template each. -/
theorem buildActionTemplates_group_length (gmv : List String → Int) (w : String) (m : Int) :
    ∀ (lines : List (List String)) (d : ActionTemplatesDictionary),
      (∀ tokens ∈ lines, 2 ≤ tokens.length ∧ groupOfLine gmv tokens = some (w, m)) →
      ∃ d', buildActionTemplates gmv lines d = some d' ∧
        (d' w m).length = (d w m).length + lines.length := by
  intro lines
  induction lines with
  | nil => intro d _; exact ⟨d, rfl, rfl⟩
  | cons tokens rest ih =>
    intro d hlines
    obtain ⟨hlen, hg⟩ := hlines tokens (List.mem_cons_self _ _)
    obtain ⟨t, d1, hgroupOf, -, -, -, hrun, -, hgroup⟩ :=
      BuildActionTemplate_step gmv tokens d hlen (groupOfLine_key gmv tokens _ hg)
    rw [hg] at hgroupOf
    obtain ⟨rfl, rfl⟩ := Prod.mk.inj (Option.some.inj hgroupOf)
    obtain ⟨d', hd', hlen'⟩ := ih d1 (fun tokens' h' => hlines tokens' (List.mem_cons_of_mem _ h'))
    refine ⟨d', by simp [buildActionTemplates, hrun, hd'], ?_⟩
    rw [hlen', hgroup]
    split_ifs with h1 h2 h3
    · simp [h1]; omega
    · simp [h1]; omega
    · simp; omega
    · simp; omega

/-- Lines of one group that do not say `Feedback=Yes`, added to a group that is not
empty, leave the templates of the group as they are and add templates that do not
provide feedback. -/
theorem buildActionTemplates_no_directive (gmv : List String → Int) (w : String) (m : Int) :
    ∀ (lines : List (List String)) (d : ActionTemplatesDictionary),
      (∀ tokens ∈ lines, 2 ≤ tokens.length ∧ groupOfLine gmv tokens = some (w, m) ∧
        (feedbackAndParams tokens).1 ≠ "Feedback=Yes") →
      d w m ≠ [] →
      ∃ d' added, buildActionTemplates gmv lines d = some d' ∧
        d' w m = d w m ++ added ∧ added.length = lines.length ∧
        ∀ t ∈ added, t.provideFeedback = false := by
  intro lines
  induction lines with
  | nil => intro d _ _; exact ⟨d, [], rfl, by simp, rfl, fun _ h => absurd h (List.not_mem_nil _)⟩
  | cons tokens rest ih =>
    intro d hlines hne
    obtain ⟨hlen, hg, hfb⟩ := hlines tokens (List.mem_cons_self _ _)
    obtain ⟨t, d1, hgroupOf, hpf, -, -, hrun, -, hgroup⟩ :=
      BuildActionTemplate_step gmv tokens d hlen (groupOfLine_key gmv tokens _ hg)
    rw [hg] at hgroupOf
    obtain ⟨rfl, rfl⟩ := Prod.mk.inj (Option.some.inj hgroupOf)
    rw [if_neg hne, if_neg hfb] at hgroup
    obtain ⟨d', added, hd', hgroup', hlen', hoff⟩ := ih d1
      (fun tokens' h' => hlines tokens' (List.mem_cons_of_mem _ h'))
      (by rw [hgroup]; simp)
    refine ⟨d', t :: added, by simp [buildActionTemplates, hrun, hd'], ?_, by simp [hlen'], ?_⟩
    · rw [hgroup', hgroup]
      simp
    · intro x hx
      rcases List.mem_cons.mp hx with e | e
      · rw [e]; exact hpf
      · exact hoff x e

/-- C14: when the lines of a sequence all fall into one (widget name, modifier) group
that is empty before, one of them has the feedback directive `Feedback=Yes` and the
lines before and after it have another directive or none, then
`BuildActionTemplate`, called on the lines in order, returns, the group holds one
template per line, the template built from the `Feedback=Yes` line has
`provideFeedback` set and no other template of the group has, wherever that line
stands.  With three lines and `Feedback=Yes` on the third, the flags of the group are
false, false, true. -/
theorem BuildActionTemplate_feedback_yes_wins (gmv : List String → Int) (w : String) (m : Int)
    (before after : List (List String)) (yes : List String) (d : ActionTemplatesDictionary)
    (hempty : d w m = [])
    (hgroup : ∀ tokens ∈ before ++ yes :: after,
      2 ≤ tokens.length ∧ groupOfLine gmv tokens = some (w, m))
    (hyes : (feedbackAndParams yes).1 = "Feedback=Yes")
    (hothers : ∀ tokens ∈ before ++ after, (feedbackAndParams tokens).1 ≠ "Feedback=Yes") :
    (∃ d' t, buildActionTemplates gmv (before ++ yes :: after) d = some d' ∧
      (d' w m).map (fun t => t.provideFeedback)
        = List.replicate before.length false ++ true :: List.replicate after.length false ∧
      (d' w m)[before.length]? = some t ∧
      some t.actionName = yes[1]? ∧ t.params = (feedbackAndParams yes).2) ∧
    (buildActionTemplates (shiftOnlyModifierValue 4)
        [["Fader1", "TrackVolume"], ["Fader1", "TrackTouch", "Feedback=No"],
         ["Fader1", "TrackVolumeDisplay", "Feedback=Yes"]] emptyDictionary).map
        (fun d => (d "Fader1" 0).map fun t => (t.actionName, t.provideFeedback))
      = some [("TrackVolume", false), ("TrackTouch", false), ("TrackVolumeDisplay", true)] := by
  refine ⟨?_, by decide⟩
  -- the lines before the `Feedback=Yes` line
  obtain ⟨d1, hrun1, hlen1⟩ := buildActionTemplates_group_length gmv w m before d
    (fun tokens h => hgroup tokens (List.mem_append_left _ h))
  rw [hempty, List.length_nil, Nat.zero_add] at hlen1
  -- the `Feedback=Yes` line
  obtain ⟨hlen, hg⟩ := hgroup yes (List.mem_append_right _ (List.mem_cons_self _ _))
  obtain ⟨t, d2, hgroupOf, hpf, hact, hpar, hrun2, -, hgroup2⟩ :=
    BuildActionTemplate_step gmv yes d1 hlen (groupOfLine_key gmv yes _ hg)
  rw [hg] at hgroupOf
  obtain ⟨rfl, rfl⟩ := Prod.mk.inj (Option.some.inj hgroupOf)
  have hgroup2' : d2 t.widgetName t.modifier
      = (d1 t.widgetName t.modifier).map (fun x => { x with provideFeedback := false })
        ++ [{ t with provideFeedback := true }] := by
    rw [hgroup2]
    by_cases h1 : d1 t.widgetName t.modifier = []
    · simp [h1, hyes]
    · simp [h1, hyes]
  -- the lines after it
  obtain ⟨d3, added, hrun3, hgroup3, hlen3, hoff⟩ := buildActionTemplates_no_directive gmv
    t.widgetName t.modifier after d2
    (fun tokens h => ⟨(hgroup tokens (List.mem_append_right _ (List.mem_cons_of_mem _ h))).1,
      (hgroup tokens (List.mem_append_right _ (List.mem_cons_of_mem _ h))).2,
      hothers tokens (List.mem_append_right _ h)⟩)
    (by rw [hgroup2']; simp)
  have hrun : buildActionTemplates gmv (before ++ yes :: after) d = some d3 := by
    have happ : ∀ (l1 l2 : List (List String)) (d0 : ActionTemplatesDictionary),
        buildActionTemplates gmv (l1 ++ l2) d0
          = (buildActionTemplates gmv l1 d0).bind (buildActionTemplates gmv l2) := by
      intro l1
      induction l1 with
      | nil => intro l2 d0; rfl
      | cons a l1 ih =>
        intro l2 d0
        simp only [List.cons_append, buildActionTemplates, Option.bind_eq_bind]
        cases BuildActionTemplate gmv a d0 with
        | none => rfl
        | some d0' => simp [ih]
    rw [happ, hrun1]
    simp [buildActionTemplates, hrun2, hrun3]
  refine ⟨d3, { t with provideFeedback := true }, hrun, ?_, ?_, hact, hpar⟩
  · rw [hgroup3, hgroup2']
    simp only [List.map_append, List.map_map, List.map_cons, List.map_nil, List.append_assoc,
      List.singleton_append]
    congr 1
    · rw [← hlen1]
      apply List.ext_getElem <;> simp
    · congr 1
      rw [← hlen3]
      apply List.ext_getElem
      · simp
      · intro i h1 h2
        simp only [List.getElem_map, List.getElem_replicate]
        exact hoff _ (List.getElem_mem _)
  · rw [hgroup3, hgroup2', List.append_assoc]
    rw [List.getElem?_append_right (by simp [hlen1])]
    simp [hlen1]

/-- The theorem `BuildActionTemplate_feedback_yes_wins` at three lines for `Fader1`
with `Feedback=Yes` on the first: only the first template provides feedback. -/
theorem BuildActionTemplate_feedback_yes_wins_witness :
    emptyDictionary "Fader1" 0 = [] ∧
    (∀ tokens ∈ [] ++ ["Fader1", "TrackVolume", "Feedback=Yes"] ::
        [["Fader1", "TrackTouch"], ["Fader1", "TrackVolumeDisplay", "Feedback=No"]],
      2 ≤ tokens.length ∧ groupOfLine (shiftOnlyModifierValue 4) tokens = some ("Fader1", 0)) ∧
    (feedbackAndParams ["Fader1", "TrackVolume", "Feedback=Yes"]).1 = "Feedback=Yes" ∧
    (∀ tokens ∈ [] ++ [["Fader1", "TrackTouch"],
        ["Fader1", "TrackVolumeDisplay", "Feedback=No"]],
      (feedbackAndParams tokens).1 ≠ "Feedback=Yes") ∧
    ∃ built t, buildActionTemplates (shiftOnlyModifierValue 4)
        ([] ++ ["Fader1", "TrackVolume", "Feedback=Yes"] ::
          [["Fader1", "TrackTouch"], ["Fader1", "TrackVolumeDisplay", "Feedback=No"]])
        emptyDictionary = some built ∧
      (built "Fader1" 0).map (fun t => t.provideFeedback)
        = List.replicate ([] : List (List String)).length false
          ++ true :: List.replicate
            [["Fader1", "TrackTouch"], ["Fader1", "TrackVolumeDisplay", "Feedback=No"]].length
            false ∧
      (built "Fader1" 0)[([] : List (List String)).length]? = some t ∧
      some t.actionName = ["Fader1", "TrackVolume", "Feedback=Yes"][1]? ∧
      t.params = (feedbackAndParams ["Fader1", "TrackVolume", "Feedback=Yes"]).2 :=
  ⟨rfl, by decide, by decide, by decide,
   (BuildActionTemplate_feedback_yes_wins (shiftOnlyModifierValue 4) "Fader1" 0 []
      [["Fader1", "TrackTouch"], ["Fader1", "TrackVolumeDisplay", "Feedback=No"]]
      ["Fader1", "TrackVolume", "Feedback=Yes"] emptyDictionary rfl (by decide) (by decide)
      (by decide)).1⟩
/-! ### Range tokens -/

theorem getlineLoop_no_delimiter (d : Char) :
    ∀ (s token : List Char), d ∉ s → (getlineLoop d token s).length ≤ 1 := by
  intro s
  induction s with
  | nil =>
    intro token _
    simp only [getlineLoop]
    split_ifs <;> simp
  | cons c cs ih =>
    intro token hfree
    have hc : c ≠ d := fun e => hfree (e ▸ List.mem_cons_self _ _)
    simp only [getlineLoop, hc, if_false]
    exact ih _ (fun h => hfree (List.mem_cons_of_mem _ h))

/-- A string without `>` never sets the range: whichever branch of the loop body it
takes, the range is left as it was. -/
theorem steppedToken_range_of_no_gt (p : SteppedParse) (strVal : String)
    (hfree : '>' ∉ strVal.data) : (steppedToken p strVal).range = p.range := by
  unfold steppedToken
  simp only
  split_ifs
  all_goals try rfl
  have hlen := getlineLoop_no_delimiter '>' strVal.data [] hfree
  split
  · rename_i first last heq
    rw [heq] at hlen
    simp at hlen
  · rfl

theorem foldl_steppedToken_range (strVals : List String) :
    ∀ p : SteppedParse, (∀ s ∈ strVals, '>' ∉ s.data) →
      (strVals.foldl steppedToken p).range = p.range := by
  induction strVals with
  | nil => intro p _; rfl
  | cons s ss ih =>
    intro p hfree
    rw [List.foldl_cons, ih _ (fun s' h' => hfree s' (List.mem_cons_of_mem _ h'))]
    exact steppedToken_range_of_no_gt p s (hfree s (List.mem_cons_self _ _))
theorem matchesDigits_chars {s : List Char} (h : matchesDigits s = true) :
    s ≠ [] ∧ ∀ c ∈ s, c.isDigit = true := by
  simpa [matchesDigits] using h

theorem matchesInteger_chars {s : List Char} (h : matchesInteger s = true) :
    s ≠ [] ∧ ∀ c ∈ s, c.isDigit = true ∨ c = '-' := by
  unfold matchesInteger at h
  split at h
  · rename_i rest
    obtain ⟨-, hd⟩ := matchesDigits_chars h
    refine ⟨by simp, fun c hc => ?_⟩
    rcases List.mem_cons.mp hc with e | e
    · exact Or.inr e
    · exact Or.inl (hd c e)
  · obtain ⟨hne, hd⟩ := matchesDigits_chars h
    exact ⟨hne, fun c hc => Or.inl (hd c hc)⟩

/-- A string the regular expression for a decimal number matches is an integer part,
a point and a string of digits. -/
theorem matchesDecimal_parts {s : List Char} (h : matchesDecimal s = true) :
    ∃ whole fraction, s = whole ++ '.' :: fraction ∧ matchesInteger whole = true ∧
      matchesDigits fraction = true ∧ ∀ c ∈ whole, c ≠ '.' := by
  unfold matchesDecimal at h
  rw [Bool.and_eq_true] at h
  obtain ⟨hwhole, hrest⟩ := h
  split at hrest
  · rename_i fraction heq
    refine ⟨s.takeWhile fun c => c ≠ '.', fraction, ?_, hwhole, hrest, ?_⟩
    · rw [← heq]
      exact (List.takeWhile_append_dropWhile _ s).symm
    · intro c hc
      have := List.mem_takeWhile_imp hc
      simpa using this
  · exact Bool.noConfusion hrest

theorem matchesDecimal_chars {s : List Char} (h : matchesDecimal s = true) :
    s ≠ [] ∧ ∀ c ∈ s, c.isDigit = true ∨ c = '-' ∨ c = '.' := by
  obtain ⟨whole, fraction, rfl, hw, hf, -⟩ := matchesDecimal_parts h
  obtain ⟨hwne, hwc⟩ := matchesInteger_chars hw
  obtain ⟨-, hfc⟩ := matchesDigits_chars hf
  refine ⟨by simp [hwne], fun c hc => ?_⟩
  rcases List.mem_append.mp hc with e | e
  · rcases hwc c e with d | d
    · exact Or.inl d
    · exact Or.inr (Or.inl d)
  · rcases List.mem_cons.mp e with e' | e'
    · exact Or.inr (Or.inr e')
    · exact Or.inl (hfc c e')

theorem splitAll_no_separator (d : Char) :
    ∀ s : List Char, d ∉ s → splitAll d s = [s] := by
  intro s
  induction s with
  | nil => intro _; rfl
  | cons c cs ih =>
    intro hfree
    have hc : c ≠ d := fun e => hfree (e ▸ List.mem_cons_self _ _)
    simp only [splitAll, hc, if_false, ih (fun h => hfree (List.mem_cons_of_mem _ h))]

theorem splitAll_append (d : Char) (rest : List Char) :
    ∀ s : List Char, d ∉ s → splitAll d (s ++ d :: rest) = s :: splitAll d rest := by
  intro s
  induction s with
  | nil => intro _; simp [splitAll]
  | cons c cs ih =>
    intro hfree
    have hc : c ≠ d := fun e => hfree (e ▸ List.mem_cons_self _ _)
    rw [List.cons_append]
    simp only [splitAll, hc, if_false]
    rw [ih (fun h => hfree (List.mem_cons_of_mem _ h))]

/-- A token `A>B` of two decimal numbers sets the range to the smaller and the larger
of the two, whichever is written first. -/
theorem steppedToken_decimal_range (p : SteppedParse) (a b : List Char)
    (ha : matchesDecimal a = true) (hb : matchesDecimal b = true) :
    (steppedToken p (String.mk (a ++ '>' :: b))).range
      = some (min (stod a) (stod b), max (stod a) (stod b)) := by
  obtain ⟨hane, hac⟩ := matchesDecimal_chars ha
  obtain ⟨hbne, hbc⟩ := matchesDecimal_chars hb
  have hgt : ∀ {s : List Char}, (∀ c ∈ s, c.isDigit = true ∨ c = '-' ∨ c = '.') → '>' ∉ s := by
    intro s hs hmem
    rcases hs _ hmem with h | h | h
    · exact absurd h (by decide)
    · exact absurd h (by decide)
    · exact absurd h (by decide)
  have hfa : '>' ∉ a := hgt hac
  have hfb : '>' ∉ b := hgt hbc
  have hmem : '>' ∈ a ++ '>' :: b := by simp
  -- the earlier branches do not take the token
  have h1 : matchesDecimal (a ++ '>' :: b) = false := by
    obtain ⟨whole, fraction, rfl, -, -, hw⟩ := matchesDecimal_parts ha
    have hp : ∀ c ∈ whole, (fun c : Char => decide (c ≠ '.')) c = true := by
      intro c hc
      simpa using hw c hc
    unfold matchesDecimal
    rw [List.append_assoc, List.takeWhile_append_of_pos hp, List.dropWhile_append_of_pos hp]
    simp only [List.cons_append, List.dropWhile_cons, ne_eq, not_true_eq_false,
      decide_False, Bool.false_eq_true, if_false]
    have : matchesDigits (fraction ++ '>' :: b) = false := by
      by_contra hcon
      have hcon' : matchesDigits (fraction ++ '>' :: b) = true := by simpa using hcon
      exact absurd ((matchesDigits_chars hcon').2 '>' (by simp)) (by decide)
    simp [this]
  have h2 : matchesInteger (a ++ '>' :: b) = false := by
    by_contra hcon
    have hcon' : matchesInteger (a ++ '>' :: b) = true := by simpa using hcon
    rcases (matchesInteger_chars hcon').2 '>' hmem with h | h
    · exact absurd h (by decide)
    · exact absurd h (by decide)
  have h3 : parenthesised (a ++ '>' :: b) = none := by
    cases a with
    | nil => exact absurd rfl hane
    | cons c cs =>
      have hc : c ≠ '(' := by
        intro e
        rcases hac c (List.mem_cons_self _ _) with h | h | h
        · rw [e] at h; exact absurd h (by decide)
        · rw [e] at h; exact absurd h (by decide)
        · rw [e] at h; exact absurd h (by decide)
      unfold parenthesised
      split
      · rename_i rest heq
        simp only [List.cons_append, List.cons.injEq] at heq
        exact absurd heq.1 hc
      · rfl
  have h4 : ∀ one number, matchesParenthesised one number (a ++ '>' :: b) = false := by
    intro one number
    simp [matchesParenthesised, h3]
  have h5 : matchesDecimalRange (a ++ '>' :: b) = true := by
    unfold matchesDecimalRange
    rw [splitAll_append '>' b a hfa, splitAll_no_separator '>' b hfb]
    simp [ha, hb]
  have h6 : getlineLoop '>' [] (a ++ '>' :: b) = [a, b] := by
    have := getlineLoop_joinWith '>' [a, b]
      (by
        intro x hx
        simp only [List.mem_cons, List.mem_singleton, List.not_mem_nil, or_false] at hx
        rcases hx with e | e
        · rw [e]; exact hfa
        · rw [e]; exact hfb)
      (by simp [hbne])
    simpa [joinWith] using this
  unfold steppedToken
  simp only [h1, h2, h4, h5, h6, Bool.false_eq_true, or_self, if_false, true_or, if_true]
  split_ifs with hlt
  · simp [min_eq_left (le_of_lt hlt), max_eq_right (le_of_lt hlt)]
  · have hle : stod b ≤ stod a := not_lt.mp hlt
    simp [min_eq_right hle, max_eq_left hle]
/-- C16: the token `1-5` is matched by the regular expression `[0-9]+[-][0-9]+` that
leads into the range branch of `GetSteppedValues`, but the branch splits the token at
`>` only: `GetSteppedValues` on `[ 1-5 ]` sets no range and the context built from it
keeps the range `[0, 1]`.  No token without `>` ever sets the range.  A token `A>B` of
two decimal numbers sets the range to the smaller and the larger of the two in either
order. -/
theorem GetSteppedValues_dash_range_ignored :
    matchesDashRange "1-5".data = true ∧
    (GetSteppedValues 0 [] (fun _ => 0) ["[", "1-5", "]"] SteppedParse.initial).map
        (fun p => p.range) = some none ∧
    (GetSteppedValues 0 [] (fun _ => 0) ["[", "1-5", "]"] SteppedParse.initial).map
        (fun p => ((ActionContext.construct "FXParam" p).rangeMinimum_,
          (ActionContext.construct "FXParam" p).rangeMaximum_)) = some (0, 1) ∧
    (∀ (p : SteppedParse) (strVal : String), '>' ∉ strVal.data →
      (steppedToken p strVal).range = p.range) ∧
    (∀ (p : SteppedParse) (a b : List Char), matchesDecimal a = true → matchesDecimal b = true →
      (steppedToken p (String.mk (a ++ '>' :: b))).range
        = some (min (stod a) (stod b), max (stod a) (stod b))) := by
  refine ⟨by decide, by decide, ?_, steppedToken_range_of_no_gt, steppedToken_decimal_range⟩
  have h : GetSteppedValues 0 [] (fun _ => 0) ["[", "1-5", "]"] SteppedParse.initial
      = some SteppedParse.initial := by decide
  rw [h]
  simp [ActionContext.construct, SteppedParse.initial, ActionContext.rangeForAction]

/-- The fourth conjunct of `GetSteppedValues_dash_range_ignored` at the token `1-5`
and the fifth at the tokens `5.0>1.0`. -/
theorem GetSteppedValues_dash_range_ignored_witness :
    '>' ∉ "1-5".data ∧
    (steppedToken SteppedParse.initial "1-5").range = SteppedParse.initial.range ∧
    matchesDecimal "5.0".data = true ∧ matchesDecimal "1.0".data = true ∧
    (steppedToken SteppedParse.initial (String.mk ("5.0".data ++ '>' :: "1.0".data))).range
      = some (min (stod "5.0".data) (stod "1.0".data), max (stod "5.0".data) (stod "1.0".data)) :=
  ⟨by decide, GetSteppedValues_dash_range_ignored.2.2.2.1 SteppedParse.initial "1-5" (by decide),
   by decide, by decide,
   GetSteppedValues_dash_range_ignored.2.2.2.2 SteppedParse.initial "5.0".data "1.0".data
     (by decide) (by decide)⟩

/-! ### The tokenizer -/

theorem mem_joinWith (sep : Char) :
    ∀ (pieces : List (List Char)) (c : Char), c ∈ joinWith sep pieces →
      c = sep ∨ ∃ p ∈ pieces, c ∈ p
  | [], c, h => by simp [joinWith] at h
  | [p], c, h => Or.inr ⟨p, List.mem_singleton.mpr rfl, by simpa [joinWith] using h⟩
  | p :: q :: rest, c, h => by
    simp only [joinWith, List.mem_append, List.mem_cons] at h
    rcases h with h | h | h
    · exact Or.inr ⟨p, List.mem_cons_self _ _, h⟩
    · exact Or.inl h
    · rcases mem_joinWith sep (q :: rest) c h with e | ⟨x, hx, hc⟩
      · exact Or.inl e
      · exact Or.inr ⟨x, List.mem_cons_of_mem _ hx, hc⟩

theorem beforeComment_append :
    ∀ (t : List Char), ¬ (['/', '/'] <:+: t) → ∀ rest : List Char,
      rest.head? ≠ some '/' → beforeComment (t ++ rest) = t ++ beforeComment rest
  | [], _, rest, _ => rfl
  | [c], _, rest, hrest => by
    cases rest with
    | nil => rfl
    | cons next r =>
      have hnext : next ≠ '/' := fun e => hrest (by simp [e])
      simp [beforeComment, hnext]
  | c :: next :: t, h, rest, hrest => by
    have hnot : ¬ (c = '/' ∧ next = '/') := by
      rintro ⟨rfl, rfl⟩
      exact h ⟨[], t, rfl⟩
    have hsuffix : ¬ (['/', '/'] <:+: next :: t) := fun hin =>
      h (hin.trans (List.suffix_cons c (next :: t)).isInfix)
    have ih := beforeComment_append (next :: t) hsuffix rest hrest
    simp only [List.cons_append] at ih ⊢
    simp only [beforeComment, hnot, if_false, ih]

theorem beforeComment_space (x : List Char) :
    beforeComment (' ' :: x) = ' ' :: beforeComment x := by
  cases x with
  | nil => rfl
  | cons c cs => simp [beforeComment]

/-- A line of plain words separated by single spaces holds no comment. -/
theorem beforeComment_joinWith :
    ∀ words : List (List Char), (∀ w ∈ words, ¬ (['/', '/'] <:+: w)) →
      beforeComment (joinWith ' ' words) = joinWith ' ' words
  | [], _ => rfl
  | [w], h => by
    have := beforeComment_append w (h w (List.mem_singleton.mpr rfl)) [] (by simp)
    simpa [joinWith, beforeComment] using this
  | w :: u :: rest, h => by
    have ih := beforeComment_joinWith (u :: rest) (fun x hx => h x (List.mem_cons_of_mem _ hx))
    have := beforeComment_append w (h w (List.mem_cons_self _ _))
      (' ' :: joinWith ' ' (u :: rest)) (by simp)
    simp only [joinWith]
    rw [this, beforeComment_space, ih]

theorem extractQuoted_space (x : List Char) : extractQuoted (' ' :: x) = extractQuoted x := by
  unfold extractQuoted
  have : isspace ' ' = true := by decide
  simp [List.dropWhile_cons, this]

/-- The extraction reads a plain word up to the space or the end of input after it. -/
theorem extractQuoted_word (w tail : List Char) (hne : w ≠ [])
    (hplain : ∀ c ∈ w, isspace c = false ∧ c ≠ quoteChar)
    (htail : tail = [] ∨ ∃ x, tail = ' ' :: x) :
    extractQuoted (w ++ tail) = some (w, tail) := by
  obtain ⟨c, cs, rfl⟩ : ∃ c cs, w = c :: cs := by
    cases w with
    | nil => exact absurd rfl hne
    | cons c cs => exact ⟨c, cs, rfl⟩
  obtain ⟨hc, hq⟩ := hplain c (List.mem_cons_self _ _)
  have hword : ∀ x ∈ c :: cs, (fun x => !isspace x) x = true := by
    intro x hx
    simp [(hplain x hx).1]
  have htake : (tail.takeWhile fun x => !isspace x) = [] ∧
      (tail.dropWhile fun x => !isspace x) = tail := by
    rcases htail with rfl | ⟨x, rfl⟩
    · exact ⟨rfl, rfl⟩
    · have : isspace ' ' = true := by decide
      simp [List.takeWhile_cons, List.dropWhile_cons, this]
  unfold extractQuoted
  have hdrop : ((c :: cs) ++ tail).dropWhile isspace = c :: (cs ++ tail) := by
    simp [List.dropWhile_cons, hc]
  rw [hdrop]
  simp only [hq, if_false]
  have h1 := @List.takeWhile_append_of_pos Char _ (c :: cs) tail hword
  have h2 := @List.dropWhile_append_of_pos Char _ (c :: cs) tail hword
  rw [List.cons_append] at h1 h2
  rw [h1, h2, htake.1, htake.2]
  simp

/-- Tokenizing plain words joined by single spaces gives the words back. -/
theorem getTokensLoop_joinWith :
    ∀ (words : List (List Char)), (∀ w ∈ words, w ≠ [] ∧ ∀ c ∈ w, isspace c = false ∧ c ≠ quoteChar) →
      ∀ fuel, (joinWith ' ' words).length < fuel →
        getTokensLoop fuel (joinWith ' ' words) = words
  | [], _, fuel, hfuel => by
    obtain ⟨f, rfl⟩ := Nat.exists_eq_succ_of_ne_zero (Nat.pos_iff_ne_zero.mp hfuel)
    rfl
  | [w], h, fuel, hfuel => by
    obtain ⟨f, rfl⟩ := Nat.exists_eq_succ_of_ne_zero
      (Nat.pos_iff_ne_zero.mp (Nat.lt_of_le_of_lt (Nat.zero_le _) hfuel))
    obtain ⟨hne, hplain⟩ := h w (List.mem_singleton.mpr rfl)
    have := extractQuoted_word w [] hne hplain (Or.inl rfl)
    rw [List.append_nil] at this
    simp only [joinWith, getTokensLoop, this]
    cases f with
    | zero => rfl
    | succ f => rfl
  | w :: u :: rest, h, fuel, hfuel => by
    obtain ⟨hne, hplain⟩ := h w (List.mem_cons_self _ _)
    have hlen : (joinWith ' ' (w :: u :: rest)).length
        = w.length + 1 + (joinWith ' ' (u :: rest)).length := by
      simp [joinWith]
      omega
    have hwlen : 0 < w.length := List.length_pos.mpr hne
    obtain ⟨f, rfl⟩ : ∃ f, fuel = f + 2 := ⟨fuel - 2, by omega⟩
    have hx := extractQuoted_word w (' ' :: joinWith ' ' (u :: rest)) hne hplain
      (Or.inr ⟨_, rfl⟩)
    have ih := getTokensLoop_joinWith (u :: rest)
      (fun x hx => h x (List.mem_cons_of_mem _ hx)) (f + 1) (by omega)
    have hskip : getTokensLoop (f + 1) (' ' :: joinWith ' ' (u :: rest))
        = getTokensLoop (f + 1) (joinWith ' ' (u :: rest)) := by
      simp only [getTokensLoop, extractQuoted_space]
    have hstep : getTokensLoop (f + 2) (w ++ ' ' :: joinWith ' ' (u :: rest))
        = w :: getTokensLoop (f + 1) (' ' :: joinWith ' ' (u :: rest)) := by
      simp only [getTokensLoop, hx]
    show getTokensLoop (f + 2) (w ++ ' ' :: joinWith ' ' (u :: rest)) = w :: u :: rest
    rw [hstep, hskip, ih]
theorem joinWith_ne_nil (sep : Char) (w : List Char) (rest : List (List Char)) (hne : w ≠ []) :
    joinWith sep (w :: rest) ≠ [] := by
  cases rest with
  | nil => simpa [joinWith] using hne
  | cons u us => simp [joinWith, hne]

theorem getLast?_joinWith :
    ∀ (words : List (List Char)),
      (∀ w ∈ words, w ≠ [] ∧ ∀ c ∈ w, isspace c = false ∧ c ≠ quoteChar) →
      ∀ c, (joinWith ' ' words).getLast? = some c → isspace c = false
  | [], _, c, hc => by simp [joinWith] at hc
  | [w], h, c, hc => by
    simp only [joinWith] at hc
    exact ((h w (List.mem_singleton.mpr rfl)).2 c (List.mem_of_getLast?_eq_some hc)).1
  | w :: u :: rest, h, c, hc => by
    have hne : joinWith ' ' (u :: rest) ≠ [] :=
      joinWith_ne_nil ' ' u rest (h u (List.mem_cons_of_mem _ (List.mem_cons_self _ _))).1
    simp only [joinWith] at hc
    rw [List.getLast?_append_of_ne_nil _ (by simp)] at hc
    have hskip : (' ' :: joinWith ' ' (u :: rest)).getLast? = (joinWith ' ' (u :: rest)).getLast? :=
      List.getLast?_append_of_ne_nil [' '] hne
    rw [hskip] at hc
    exact getLast?_joinWith (u :: rest) (fun x hx => h x (List.mem_cons_of_mem _ hx)) c hc

/-- `TrimLine` leaves a line of plain words separated by single spaces as it is. -/
theorem TrimLine_joinTokens (tokens : List String) (hplain : ∀ t ∈ tokens, IsPlainWord t) :
    TrimLine (joinTokens tokens) = joinTokens tokens := by
  have hwords : ∀ w ∈ tokens.map String.data,
      w ≠ [] ∧ ∀ c ∈ w, isspace c = false ∧ c ≠ quoteChar := by
    intro w hw
    obtain ⟨t, ht, rfl⟩ := List.mem_map.mp hw
    exact ⟨(hplain t ht).1, (hplain t ht).2.1⟩
  have hchars : ∀ c ∈ joinWith ' ' (tokens.map String.data), c = ' ' ∨ isspace c = false := by
    intro c hc
    rcases mem_joinWith ' ' _ c hc with e | ⟨w, hw, hcw⟩
    · exact Or.inl e
    · exact Or.inr ((hwords w hw).2 c hcw).1
  have htab : (joinWith ' ' (tokens.map String.data)).map
      (fun c => if s_TabChars c then ' ' else c) = joinWith ' ' (tokens.map String.data) := by
    conv_rhs => rw [← List.map_id (joinWith ' ' (tokens.map String.data))]
    apply List.map_congr_left
    intro c hc
    rcases hchars c hc with e | e
    · simp [e]
    · have : s_TabChars c = false := by
        by_contra hcon
        have hc9 : c = Char.ofNat 9 := by simpa [s_TabChars] using hcon
        rw [hc9] at e
        exact absurd e (by decide)
      simp [this]
  have hcrlf : (joinWith ' ' (tokens.map String.data)).filter (fun c => !s_CRLFChars c)
      = joinWith ' ' (tokens.map String.data) := by
    rw [List.filter_eq_self]
    intro c hc
    rcases hchars c hc with e | e
    · rw [e]; decide
    · have h13 : c ≠ Char.ofNat 13 := by
        intro h
        rw [h] at e
        exact absurd e (by decide)
      have h10 : c ≠ Char.ofNat 10 := by
        intro h
        rw [h] at e
        exact absurd e (by decide)
      simp [s_CRLFChars, h13, h10]
  have hcomment : beforeComment (joinWith ' ' (tokens.map String.data))
      = joinWith ' ' (tokens.map String.data) := by
    apply beforeComment_joinWith
    intro w hw
    obtain ⟨t, ht, rfl⟩ := List.mem_map.mp hw
    exact (hplain t ht).2.2
  have hlead : (joinWith ' ' (tokens.map String.data)).dropWhile isspace
      = joinWith ' ' (tokens.map String.data) := by
    cases htok : tokens.map String.data with
    | nil => rfl
    | cons w rest =>
      obtain ⟨hne, hw⟩ := hwords w (by rw [htok]; exact List.mem_cons_self _ _)
      obtain ⟨c, cs, rfl⟩ : ∃ c cs, w = c :: cs := by
        cases w with
        | nil => exact absurd rfl hne
        | cons c cs => exact ⟨c, cs, rfl⟩
      have hc := (hw c (List.mem_cons_self _ _)).1
      cases rest with
      | nil => simp [joinWith, List.dropWhile_cons, hc]
      | cons u us => simp [joinWith, List.dropWhile_cons, hc]
  have htrail : ((joinWith ' ' (tokens.map String.data)).reverse.dropWhile isspace).reverse
      = joinWith ' ' (tokens.map String.data) := by
    rcases List.eq_nil_or_concat (joinWith ' ' (tokens.map String.data)) with e | ⟨L, b, e⟩
    · rw [e]; rfl
    · have hb : isspace b = false := by
        apply getLast?_joinWith _ hwords b
        rw [e]
        simp
      rw [e]
      simp [List.dropWhile_cons, hb]
  unfold TrimLine joinTokens
  simp only [htab, hcrlf, hcomment, hlead, htrail]

theorem readQuoted_shorter :
    ∀ (input token : List Char) (r : List Char × List Char),
      readQuoted token input = some r → r.2.length < input.length
  | [], token, r, h => by simp [readQuoted] at h
  | [c], token, r, h => by
    simp only [readQuoted] at h
    split_ifs at h
    cases h
    simp
  | c :: next :: rest, token, r, h => by
    simp only [readQuoted] at h
    split_ifs at h
    · have := readQuoted_shorter rest _ r h
      simp only [List.length_cons]
      omega
    · cases h
      simp
    · have := readQuoted_shorter (next :: rest) _ r h
      simp only [List.length_cons] at this ⊢
      omega

/-- An extraction that succeeds reads at least one character. -/
theorem extractQuoted_shorter (input : List Char) (r : List Char × List Char)
    (h : extractQuoted input = some r) : r.2.length < input.length := by
  unfold extractQuoted at h
  have hdrop : (input.dropWhile isspace).length ≤ input.length :=
    (List.dropWhile_sublist _).length_le
  split at h
  · exact Option.noConfusion h
  · rename_i c rest heq
    rw [heq, List.length_cons] at hdrop
    split_ifs at h
    · have := readQuoted_shorter rest [] r h
      omega
    · cases h
      have hc : isspace c = false := by
        have := List.head_dropWhile_not isspace input (by simp [heq])
        simpa [heq] using this
      have : ((c :: rest).dropWhile fun x => !isspace x).length ≤ rest.length := by
        simp only [List.dropWhile_cons, hc, Bool.not_false, if_true]
        exact (List.dropWhile_sublist _).length_le
      simp only
      omega

/-- The loop ends by a failing extraction and not by want of fuel. -/
theorem getTokensLoop_fuel :
    ∀ (fuel fuel2 : Nat) (input : List Char), input.length < fuel → input.length < fuel2 →
      getTokensLoop fuel input = getTokensLoop fuel2 input := by
  intro fuel
  induction fuel with
  | zero => intro fuel2 input h _; exact absurd h (Nat.not_lt_zero _)
  | succ f ih =>
    intro fuel2 input h1 h2
    obtain ⟨g, rfl⟩ := Nat.exists_eq_succ_of_ne_zero
      (Nat.pos_iff_ne_zero.mp (Nat.lt_of_le_of_lt (Nat.zero_le _) h2))
    simp only [getTokensLoop]
    cases hx : extractQuoted input with
    | none => rfl
    | some r =>
      have := extractQuoted_shorter input r hx
      simp only
      rw [ih g r.2 (by omega) (by omega)]
/-- Tokenizing plain words joined by single spaces gives the words back. -/
theorem GetTokens_joinTokens (tokens : List String) (hplain : ∀ t ∈ tokens, IsPlainWord t) :
    GetTokens (TrimLine (joinTokens tokens)) = tokens := by
  rw [TrimLine_joinTokens tokens hplain]
  unfold GetTokens joinTokens
  rw [getTokensLoop_joinWith _ _ _ (Nat.lt_succ_self _)]
  · simp [Function.comp_def]
  · intro w hw
    obtain ⟨t, ht, rfl⟩ := List.mem_map.mp hw
    exact ⟨(hplain t ht).1, (hplain t ht).2.1⟩

/-- C17, as stated, fails: the raw line `"a b"` has the one token `a b`, which
contains no double quote; joined and tokenized again it gives the two tokens `a` and
`b`. -/
theorem GetTokens_quoted_words_split :
    GetTokens (TrimLine quotedLine) = ["a b"] ∧
    (∀ t ∈ GetTokens (TrimLine quotedLine), quoteChar ∉ t.data) ∧
    GetTokens (TrimLine (joinTokens (GetTokens (TrimLine quotedLine)))) = ["a", "b"] ∧
    GetTokens (TrimLine (joinTokens (GetTokens (TrimLine quotedLine))))
      ≠ GetTokens (TrimLine quotedLine) := by
  refine ⟨by decide, by decide, by decide, by decide⟩

/-- C17, amended: for every raw line whose tokens are plain words (not empty, without
white space, without double quote and without `//`), tokenizing the line (`TrimLine`
then `GetTokens`), joining the tokens with single spaces and tokenizing the joined
string again yields the same tokens; the tokenizing loop ends by a failing extraction
whatever fuel above the length of the line it is given. -/
theorem GetTokens_joinTokens_plain_words (line : String)
    (hplain : ∀ t ∈ GetTokens (TrimLine line), IsPlainWord t) :
    GetTokens (TrimLine (joinTokens (GetTokens (TrimLine line)))) = GetTokens (TrimLine line) ∧
    ∀ fuel, (TrimLine line).data.length < fuel →
      (getTokensLoop fuel (TrimLine line).data).map String.mk = GetTokens (TrimLine line) := by
  refine ⟨GetTokens_joinTokens _ hplain, fun fuel hfuel => ?_⟩
  unfold GetTokens
  rw [getTokensLoop_fuel fuel ((TrimLine line).data.length + 1) _ hfuel (Nat.lt_succ_self _)]

/-- The theorem `GetTokens_joinTokens_plain_words` at a line with leading spaces, a
tab and a trailing comment, whose tokens are `Fader1` and `TrackVolume`. -/
theorem GetTokens_joinTokens_plain_words_witness :
    GetTokens (TrimLine commentedLine) = ["Fader1", "TrackVolume"] ∧
    (∀ t ∈ GetTokens (TrimLine commentedLine), IsPlainWord t) ∧
    GetTokens (TrimLine (joinTokens (GetTokens (TrimLine commentedLine))))
      = GetTokens (TrimLine commentedLine) :=
  ⟨by decide, by decide, (GetTokens_joinTokens_plain_words commentedLine (by decide)).1⟩
/-! ### The placeholder of widget names -/

theorem replaceBars_data (name replacement : String) :
    (replaceBars name replacement).data
      = (name.data.map fun c => if c = '|' then replacement.data else [c]).flatten := rfl

/-- A name without `|` is left as it is. -/
theorem replaceBars_of_no_bar (name replacement : String) (h : '|' ∉ name.data) :
    replaceBars name replacement = name := by
  have hgen : ∀ l : List Char, '|' ∉ l →
      (l.map fun c => if c = '|' then replacement.data else [c]).flatten = l := by
    intro l
    induction l with
    | nil => intro _; rfl
    | cons c cs ih =>
      intro hl
      have hc : c ≠ '|' := fun e => hl (e ▸ List.mem_cons_self _ _)
      simp [hc, ih (fun h' => hl (List.mem_cons_of_mem _ h'))]
  unfold replaceBars
  rw [hgen name.data h]

/-- After the replacement a `|` can only come from the replacement. -/
theorem replaceBars_no_bar (name replacement : String) (h : '|' ∉ replacement.data) :
    '|' ∉ (replaceBars name replacement).data := by
  rw [replaceBars_data]
  intro hmem
  obtain ⟨piece, hpiece, hin⟩ := List.mem_flatten.mp hmem
  obtain ⟨c, -, rfl⟩ := List.mem_map.mp hpiece
  split_ifs at hin with hc
  · exact h hin
  · exact hc (List.mem_singleton.mp hin).symm

theorem digitChar_ne_bar (n : Nat) : Nat.digitChar (n % 10) ≠ '|' := by
  have h : n % 10 < 10 := Nat.mod_lt _ (by decide)
  generalize n % 10 = k at h
  interval_cases k <;> decide

theorem toDigitsCore_no_bar :
    ∀ (fuel n : Nat) (ds : List Char), '|' ∉ ds → '|' ∉ Nat.toDigitsCore 10 fuel n ds := by
  intro fuel
  induction fuel with
  | zero => intro n ds h; exact h
  | succ f ih =>
    intro n ds h
    have hds : '|' ∉ Nat.digitChar (n % 10) :: ds := by
      intro hmem
      rcases List.mem_cons.mp hmem with e | e
      · exact digitChar_ne_bar _ e.symm
      · exact h e
    simp only [Nat.toDigitsCore]
    split_ifs
    · exact hds
    · exact ih _ _ hds

theorem repr_no_bar (n : Nat) : '|' ∉ (Nat.repr n).data := by
  unfold Nat.repr Nat.toDigits
  exact toDigitsCore_no_bar _ _ _ (List.not_mem_nil _)

/-- The decimal numeral of an `int` contains no `|`. -/
theorem to_string_no_bar (n : Int) : '|' ∉ (to_string n).data := by
  cases n with
  | ofNat m => exact repr_no_bar m
  | negSucc m =>
    show '|' ∉ ("-" ++ Nat.repr (m + 1)).data
    rw [String.data_append]
    intro hmem
    rcases List.mem_append.mp hmem with e | e
    · exact absurd e (by decide)
    · exact repr_no_bar _ e

/-- C18, as stated, fails: for a navigator list of length 1 the name `Fader|` of a
top-level zone is looked up as it is, not as `Fader1`; and for a sub-zone whose
enclosing zone has channel number 0 it is looked up as it is, not as `Fader0`. -/
theorem surfaceWidgetName_single_navigator :
    surfaceWidgetName "Fader|" 1 0 none = "Fader|" ∧
    surfaceWidgetName "Fader|" 1 0 none ≠ replaceBars "Fader|" (to_string (0 + 1)) ∧
    replaceBars "Fader|" (to_string (0 + 1)) = "Fader1" ∧
    surfaceWidgetName "Fader|" 1 0 (some 0) = "Fader|" := by
  refine ⟨by decide, by decide, by decide, by decide⟩

/-- C18, amended: for a navigator list of more than one navigator, the name
`LoadZoneFile` looks up for the zone of the navigator at 0-based position `i` is the
widget name with every `|` replaced by the decimal numeral of `i + 1`, whether or not
there is an enclosing zone; for a list of one navigator a top-level zone looks the
name up as it is, and a sub-zone looks it up with every `|` replaced by the channel
number of the enclosing zone when that number is not 0, and as it is when it is 0. -/
theorem surfaceWidgetName_placeholder (widgetName : String) (navigatorCount i : Nat)
    (enclosing : Option Int) :
    (1 < navigatorCount →
      surfaceWidgetName widgetName navigatorCount i enclosing
        = replaceBars widgetName (to_string ((i : Int) + 1))
      ∧ '|' ∉ (surfaceWidgetName widgetName navigatorCount i enclosing).data) ∧
    (navigatorCount ≤ 1 →
      surfaceWidgetName widgetName navigatorCount i none = widgetName ∧
      (∀ channelNumber : Int, channelNumber ≠ 0 →
        surfaceWidgetName widgetName navigatorCount i (some channelNumber)
          = replaceBars widgetName (to_string channelNumber)) ∧
      surfaceWidgetName widgetName navigatorCount i (some 0) = widgetName) := by
  have hnum : ∀ n : Int, '|' ∉ (to_string n).data := to_string_no_bar
  constructor
  · intro hcount
    have hfree := replaceBars_no_bar widgetName (to_string ((i : Int) + 1)) (hnum _)
    have hsame : surfaceWidgetName widgetName navigatorCount i enclosing
        = replaceBars widgetName (to_string ((i : Int) + 1)) := by
      unfold surfaceWidgetName
      simp only [gt_iff_lt, hcount, if_true]
      cases enclosing with
      | none => rfl
      | some channelNumber =>
        simp only
        split_ifs
        · exact replaceBars_of_no_bar _ _ hfree
        · rfl
    exact ⟨hsame, by rw [hsame]; exact hfree⟩
  · intro hcount
    have hnot : ¬ navigatorCount > 1 := by omega
    refine ⟨?_, ?_, ?_⟩
    · simp [surfaceWidgetName, hnot]
    · intro channelNumber hne
      simp [surfaceWidgetName, hnot, hne]
    · simp [surfaceWidgetName, hnot]

/-- The theorem `surfaceWidgetName_placeholder` at the name `Fader|`: looked up as
`Fader3` for the third of eight navigators, and as `Fader5` for a sub-zone with one
navigator whose enclosing zone has channel number 5. -/
theorem surfaceWidgetName_placeholder_witness :
    1 < 8 ∧ surfaceWidgetName "Fader|" 8 2 none = "Fader3" ∧
    surfaceWidgetName "Fader|" 8 2 none = replaceBars "Fader|" (to_string ((2 : Nat) + 1)) ∧
    1 ≤ 1 ∧ (5 : Int) ≠ 0 ∧ surfaceWidgetName "Fader|" 1 0 (some 5) = "Fader5" ∧
    surfaceWidgetName "Fader|" 1 0 (some 5) = replaceBars "Fader|" (to_string 5) :=
  ⟨by decide, by decide,
   ((surfaceWidgetName_placeholder "Fader|" 8 2 none).1 (by decide)).1,
   by decide, by decide, by decide,
   ((surfaceWidgetName_placeholder "Fader|" 1 0 none).2 (by decide)).2.1 5 (by decide)⟩

namespace ActionContext

/-! ### ActionContext: the tick table and the acceleration index -/

/-- C24: the context the constructor builds has a non-empty tick table, which is
`[10]` when the parse left no tick value and the parsed table otherwise; and on a
stepped context with a non-empty tick table and its index inside the stepped table,
`DoRelativeAction(accelerationIndex, delta)` returns for every acceleration index
and delta, the index it looks the threshold up at is the given one brought into
`[0, size - 1]`, that lookup finds an entry `T` of the table, and the call behaves
as that threshold demands: for a positive (negative) delta it steps the index when
the incremented counter reaches `T` and only counts otherwise. -/
theorem DoRelativeAction_acceleration_index_clamped :
    (∀ (actionName : String) (p : SteppedParse),
      (construct actionName p).acceleratedTickValues_ ≠ [] ∧
      (p.acceleratedTickValues = [] →
        (construct actionName p).acceleratedTickValues_ = [10]) ∧
      (p.acceleratedTickValues ≠ [] →
        (construct actionName p).acceleratedTickValues_ = p.acceleratedTickValues)) ∧
    (∀ (c : ActionContext) (a : Int) (delta current : ℚ), c.steppedValues_ ≠ [] →
      c.acceleratedTickValues_ ≠ [] → 0 ≤ c.steppedValuesIndex_ →
      c.steppedValuesIndex_ ≤ (c.steppedValues_.length : Int) - 1 →
      0 ≤ clampedAccelerationIndex c.acceleratedTickValues_.length a ∧
      clampedAccelerationIndex c.acceleratedTickValues_.length a
        ≤ (c.acceleratedTickValues_.length : Int) - 1 ∧
      (0 ≤ a → a ≤ (c.acceleratedTickValues_.length : Int) - 1 →
        clampedAccelerationIndex c.acceleratedTickValues_.length a = a) ∧
      ∃ T, vectorAt c.acceleratedTickValues_
          (clampedAccelerationIndex c.acceleratedTickValues_.length a) = some T ∧
        (∃ r, c.DoRelativeActionAccelerated a delta current = some r) ∧
        (0 < delta → c.accumulatedIncTicks_ + 1 < T →
          c.DoRelativeActionAccelerated a delta current =
            some ({ c with accumulatedIncTicks_ := c.accumulatedIncTicks_ + 1,
                           accumulatedDecTicks_ := max 0 (c.accumulatedDecTicks_ - 1) }, [])) ∧
        (0 < delta → T ≤ c.accumulatedIncTicks_ + 1 →
          ∃ x, c.DoRelativeActionAccelerated a delta current =
            some ({ c with accumulatedIncTicks_ := 0, accumulatedDecTicks_ := 0,
                           steppedValuesIndex_ :=
                             min (c.steppedValuesIndex_ + 1)
                               ((c.steppedValues_.length : Int) - 1) },
                  c.DoRangeBoundAction x)) ∧
        (delta < 0 → c.accumulatedDecTicks_ + 1 < T →
          c.DoRelativeActionAccelerated a delta current =
            some ({ c with accumulatedDecTicks_ := c.accumulatedDecTicks_ + 1,
                           accumulatedIncTicks_ := max 0 (c.accumulatedIncTicks_ - 1) }, [])) ∧
        (delta < 0 → T ≤ c.accumulatedDecTicks_ + 1 →
          ∃ x, c.DoRelativeActionAccelerated a delta current =
            some ({ c with accumulatedIncTicks_ := 0, accumulatedDecTicks_ := 0,
                           steppedValuesIndex_ := max (c.steppedValuesIndex_ - 1) 0 },
                  c.DoRangeBoundAction x))) := by
  constructor
  · intro actionName p
    refine ⟨?_, ?_, ?_⟩
    · show (if p.acceleratedTickValues.length < 1 then p.acceleratedTickValues ++ [10]
        else p.acceleratedTickValues) ≠ []
      split_ifs with h
      · simp
      · intro h0
        rw [h0] at h
        simp at h
    · intro h0
      show (if p.acceleratedTickValues.length < 1 then p.acceleratedTickValues ++ [10]
        else p.acceleratedTickValues) = [10]
      simp [h0]
    · intro hne
      show (if p.acceleratedTickValues.length < 1 then p.acceleratedTickValues ++ [10]
        else p.acceleratedTickValues) = p.acceleratedTickValues
      have hlen : 0 < p.acceleratedTickValues.length := List.length_pos.mpr hne
      rw [if_neg (by omega)]
  · intro c a delta current hne hticks hlo hhi
    have htl : 0 < c.acceleratedTickValues_.length := List.length_pos.mpr hticks
    obtain ⟨hb0, hb1⟩ := clampedAccelerationIndex_bounds c.acceleratedTickValues_.length a htl
    obtain ⟨T, hT⟩ := vectorAt_of_lt c.acceleratedTickValues_ _ hb0 hb1
    refine ⟨hb0, by omega, ?_, T, hT, ?_, ?_, ?_, ?_, ?_⟩
    · intro h0 h1
      unfold clampedAccelerationIndex
      omega
    · rcases lt_trichotomy delta 0 with hd | hd | hd
      · obtain ⟨hfire, hquiet⟩ := accelerated_step_neg c a delta current T hne hlo hhi hd hT
        by_cases hge : T ≤ c.accumulatedDecTicks_ + 1
        · obtain ⟨x, -, hx⟩ := hfire hge
          exact ⟨_, hx⟩
        · exact ⟨_, hquiet (by omega)⟩
      · subst hd
        exact ⟨_, accelerated_step_zero c a current hne⟩
      · obtain ⟨hfire, hquiet⟩ := accelerated_step_pos c a delta current T hne hlo hhi hd hT
        by_cases hge : T ≤ c.accumulatedIncTicks_ + 1
        · obtain ⟨x, -, hx⟩ := hfire hge
          exact ⟨_, hx⟩
        · exact ⟨_, hquiet (by omega)⟩
    · intro hd hlt
      exact (accelerated_step_pos c a delta current T hne hlo hhi hd hT).2 hlt
    · intro hd hge
      obtain ⟨x, -, hx⟩ := (accelerated_step_pos c a delta current T hne hlo hhi hd hT).1 hge
      exact ⟨x, hx⟩
    · intro hd hlt
      exact (accelerated_step_neg c a delta current T hne hlo hhi hd hT).2 hlt
    · intro hd hge
      obtain ⟨x, -, hx⟩ := (accelerated_step_neg c a delta current T hne hlo hhi hd hT).1 hge
      exact ⟨x, hx⟩

/-- The theorem `DoRelativeAction_acceleration_index_clamped` at the context built
for the stepped values `[0.0, 0.5, 1.0]` with no parsed tick value, acceleration
index 7 and delta 1: the tick table is `[10]`, index 7 is brought to 0, and the
threshold found there is 10. -/
theorem DoRelativeAction_acceleration_index_clamped_witness :
    risingSteps.acceleratedTickValues_ = [10] ∧
    clampedAccelerationIndex risingSteps.acceleratedTickValues_.length 7 = 0 ∧
    risingSteps.steppedValues_ ≠ [] ∧ risingSteps.acceleratedTickValues_ ≠ [] ∧
    0 ≤ risingSteps.steppedValuesIndex_ ∧
    risingSteps.steppedValuesIndex_ ≤ (risingSteps.steppedValues_.length : Int) - 1 ∧
    0 ≤ clampedAccelerationIndex risingSteps.acceleratedTickValues_.length 7 ∧
    clampedAccelerationIndex risingSteps.acceleratedTickValues_.length 7
      ≤ (risingSteps.acceleratedTickValues_.length : Int) - 1 :=
  have h := DoRelativeAction_acceleration_index_clamped.2 risingSteps 7 1 0
    (by simp [risingSteps, construct]) (by simp [risingSteps, construct])
    (by simp [risingSteps, construct]) (by simp [risingSteps, construct])
  ⟨(DoRelativeAction_acceleration_index_clamped.1 "FXParam" ⟨0, [], none, [0, 1/2, 1], []⟩).2.1
      rfl,
   by simp [risingSteps, construct, clampedAccelerationIndex],
   by simp [risingSteps, construct], by simp [risingSteps, construct],
   by simp [risingSteps, construct], by simp [risingSteps, construct], h.1, h.2.1⟩

/-! ### ActionContext: a zero delta -/

/-- C29: on a non-empty stepped table whose index lies inside the table,
`DoRelativeAction(delta)` with `delta = 0` sets the index to `max (index - 1) 0` and
calls `DoRangeBoundAction` with the table value at that index, as for a negative
delta; `DoRelativeAction(accelerationIndex, delta)` with `delta = 0` returns the
context as it was, both tick counters and the index included, and calls nothing. -/
theorem DoRelativeAction_zero_delta (c : ActionContext) (a : Int) (current : ℚ)
    (hne : c.steppedValues_ ≠ []) (hlo : 0 ≤ c.steppedValuesIndex_)
    (hhi : c.steppedValuesIndex_ ≤ (c.steppedValues_.length : Int) - 1) :
    (∃ x, vectorAt c.steppedValues_ (max (c.steppedValuesIndex_ - 1) 0) = some x ∧
      c.DoRelativeAction 0 current =
        some ({ c with steppedValuesIndex_ := max (c.steppedValuesIndex_ - 1) 0 },
              c.DoRangeBoundAction x) ∧
      c.DoRelativeAction 0 current = c.DoRelativeAction (-1) current) ∧
    c.DoRelativeActionAccelerated a 0 current = some (c, []) := by
  have hlen : 0 < c.steppedValues_.length := List.length_pos.mpr hne
  refine ⟨?_, accelerated_step_zero c a current hne⟩
  obtain ⟨x, hx⟩ := vectorAt_of_lt c.steppedValues_ (max (c.steppedValuesIndex_ - 1) 0)
    (by omega) (by omega)
  refine ⟨x, hx, ?_, ?_⟩
  · have hidx : (if c.steppedValuesIndex_ - 1 < 0 then 0 else c.steppedValuesIndex_ - 1)
        = max (c.steppedValuesIndex_ - 1) 0 := by
      split_ifs <;> omega
    simp only [DoRelativeAction, DoSteppedValueAction, gt_iff_lt, hlen, if_true, lt_irrefl,
      if_false]
    rw [hidx]
    simp [doCurrentSteppedValue, hx, DoRangeBoundAction]
  · have h1 : ¬ (0 : ℚ) < -1 := by norm_num
    simp only [DoRelativeAction, DoSteppedValueAction, gt_iff_lt, hlen, if_true, lt_irrefl,
      if_false, h1]

/-- The theorem `DoRelativeAction_zero_delta` at the table `[0.0, 0.5, 1.0]`, index 2
and acceleration index 0: the index becomes 1. -/
theorem DoRelativeAction_zero_delta_witness :
    lastStep.steppedValues_ ≠ [] ∧ 0 ≤ lastStep.steppedValuesIndex_ ∧
    lastStep.steppedValuesIndex_ ≤ (lastStep.steppedValues_.length : Int) - 1 ∧
    max (lastStep.steppedValuesIndex_ - 1) 0 = 1 ∧
    (∃ x, vectorAt lastStep.steppedValues_ (max (lastStep.steppedValuesIndex_ - 1) 0) = some x ∧
      lastStep.DoRelativeAction 0 0 =
        some ({ lastStep with steppedValuesIndex_ := max (lastStep.steppedValuesIndex_ - 1) 0 },
              lastStep.DoRangeBoundAction x) ∧
      lastStep.DoRelativeAction 0 0 = lastStep.DoRelativeAction (-1) 0) ∧
    lastStep.DoRelativeActionAccelerated 0 0 0 = some (lastStep, []) :=
  ⟨by simp [lastStep, risingSteps, construct], by simp [lastStep, risingSteps, construct],
   by simp [lastStep, risingSteps, construct], by simp [lastStep, risingSteps, construct],
   DoRelativeAction_zero_delta lastStep 0 0 (by simp [lastStep, risingSteps, construct])
      (by simp [lastStep, risingSteps, construct]) (by simp [lastStep, risingSteps, construct])⟩

end ActionContext

namespace Zone

open ZoneHeap

/-! ### A binding under a released modifier -/

theorem dictionaryEntry_dictionary (z : Zone) (widget w : Widget)
    (d : Int → Option (List ActionContextId)) (h : z.actionContextDictionary_ w = some d) :
    (z.dictionaryEntry widget).1.actionContextDictionary_ w = some d := by
  unfold dictionaryEntry
  cases hz : z.actionContextDictionary_ widget with
  | some d' => exact h
  | none =>
    have hw : w ≠ widget := by
      intro e
      rw [e, hz] at h
      cases h
    simp [Function.update, hw, h]

theorem updateModifierLoop_dictionary (widget w : Widget)
    (d : Int → Option (List ActionContextId)) :
    ∀ (mods : List Int) (z : Zone), z.actionContextDictionary_ w = some d →
      (updateModifierLoop widget mods z).actionContextDictionary_ w = some d := by
  intro mods
  induction mods with
  | nil => intro z h; exact h
  | cons m mods ih =>
    intro z h
    have h' := dictionaryEntry_dictionary z widget w d h
    simp only [updateModifierLoop]
    split_ifs
    · exact h'
    · exact ih _ h'

theorem boundOnlyUnder_hasBinding {z : Zone} {widget : Widget} {M : Int}
    {L : List ActionContextId} (hb : z.BoundOnlyUnder widget M L) (m : Int) :
    z.hasBinding widget m = true ↔ m = M := by
  obtain ⟨-, d, hd, hM, hother⟩ := hb
  simp only [hasBinding, hd]
  constructor
  · intro h
    by_contra hne
    rw [hother m hne] at h
    cases h
  · intro e
    rw [e, hM]
    rfl

theorem boundOnlyUnder_find_none {z : Zone} {widget : Widget} {M : Int}
    {L : List ActionContextId} (hb : z.BoundOnlyUnder widget M L) (mods : List Int)
    (hM : M ∉ mods) : mods.find? (fun m => z.hasBinding widget m) = none := by
  rw [List.find?_eq_none]
  intro m hm hbind
  rw [(boundOnlyUnder_hasBinding hb)] at hbind
  exact hM (hbind ▸ hm)

theorem boundOnlyUnder_updateWidgetModifier {widget : Widget} {M : Int}
    {L : List ActionContextId} (s : Surface) (hM : M ∉ s.modifiers)
    (acc : Zone × List ZoneEffect) (w : Widget) (hb : acc.1.BoundOnlyUnder widget M L) :
    (Zone.updateWidgetModifier s acc w).1.BoundOnlyUnder widget M L := by
  obtain ⟨-, h2, h3⟩ := updateModifierLoop_spec w s.modifiers acc.1
  have hb' := hb
  obtain ⟨hcache, d, hd, hdM, hother⟩ := hb
  refine ⟨?_, d, ?_, hdM, hother⟩
  · simp only [Zone.updateWidgetModifier, UpdateCurrentActionContextModifier]
    by_cases hw : widget = w
    · subst hw
      rw [Function.update_same, h3, boundOnlyUnder_find_none hb' s.modifiers hM, hcache]
      rfl
    · rw [Function.update_noteq hw, h2 widget hw, hcache]
  · exact updateModifierLoop_dictionary w widget d s.modifiers acc.1 hd

theorem boundOnlyUnder_foldl {widget : Widget} {M : Int}
    {L : List ActionContextId} (s : Surface) (hM : M ∉ s.modifiers) :
    ∀ (ws : List Widget) (acc : Zone × List ZoneEffect), acc.1.BoundOnlyUnder widget M L →
      (ws.foldl (Zone.updateWidgetModifier s) acc).1.BoundOnlyUnder widget M L := by
  intro ws
  induction ws with
  | nil => intro acc h; exact h
  | cons w ws ih =>
    intro acc h
    exact ih _ (boundOnlyUnder_updateWidgetModifier s hM acc w h)

theorem boundOnlyUnder_GetActionContexts {z : Zone} {widget : Widget} {M : Int}
    {L : List ActionContextId} (hb : z.BoundOnlyUnder widget M L) (s : Surface) :
    (z.GetActionContexts s widget).2 = L := by
  obtain ⟨hcache, d, hd, hdM, hother⟩ := hb
  have h1 : d (M + 1) = none := hother _ (by omega)
  have h2 : d (M + 2) = none := hother _ (by omega)
  have h3 : d (M + 3) = none := hother _ (by omega)
  simp [Zone.GetActionContexts, hcache, hd, hdM, h1, h2, h3]

theorem boundOnlyUnder_loop (s : Surface) (widget : Widget) (M : Int)
    (L : List ActionContextId) (id : ZoneId) (k : Nat)
    (ih : ∀ (root : ZoneId) (w w' : World),
      (∃ z, w.zones.zoneAt id = some z ∧ z.BoundOnlyUnder widget M L) →
      UpdateCurrentActionContextModifiers s k root w = some w' →
      ∃ z, w'.zones.zoneAt id = some z ∧ z.BoundOnlyUnder widget M L) :
    ∀ (cs : List ZoneId) (w w' : World),
      (∃ z, w.zones.zoneAt id = some z ∧ z.BoundOnlyUnder widget M L) →
      forEachZone (UpdateCurrentActionContextModifiers s k) cs w = some w' →
      ∃ z, w'.zones.zoneAt id = some z ∧ z.BoundOnlyUnder widget M L := by
  intro cs
  induction cs with
  | nil =>
    intro w w' h hrun
    simp only [forEachZone, Option.some.injEq] at hrun
    rw [← hrun]
    exact h
  | cons c cs ihc =>
    intro w w' h hrun
    simp only [forEachZone, Option.bind_eq_bind] at hrun
    cases hc : UpdateCurrentActionContextModifiers s k c w with
    | none => rw [hc] at hrun; cases hrun
    | some w1 =>
      rw [hc] at hrun
      exact ihc w1 w' (ih c w w1 h hc) hrun

/-- A zone that binds a widget under `M` alone and has cached `M` keeps both through
`UpdateCurrentActionContextModifiers` on any zone, when `M` is not in the modifier
list of the surface. -/
theorem UpdateCurrentActionContextModifiers_boundOnlyUnder (s : Surface) (widget : Widget)
    (M : Int) (L : List ActionContextId) (id : ZoneId) (hM : M ∉ s.modifiers) :
    ∀ (fuel : Nat) (root : ZoneId) (w w' : World),
      (∃ z, w.zones.zoneAt id = some z ∧ z.BoundOnlyUnder widget M L) →
      UpdateCurrentActionContextModifiers s fuel root w = some w' →
      ∃ z, w'.zones.zoneAt id = some z ∧ z.BoundOnlyUnder widget M L := by
  intro fuel
  induction fuel with
  | zero =>
    intro root w w' _ hrun
    simp [UpdateCurrentActionContextModifiers] at hrun
  | succ k ih =>
    intro root w w' h hrun
    simp only [UpdateCurrentActionContextModifiers, Option.bind_eq_bind] at hrun
    cases hz : w.zones.zoneAt root with
    | none => rw [hz] at hrun; cases hrun
    | some zr =>
      rw [hz] at hrun
      simp only [Option.some_bind] at hrun
      have h0 : ∃ z, (World.mk (w.zones.store root
            (zr.widgets_.foldl (updateWidgetModifier s) (zr, w.log)).1)
            (zr.widgets_.foldl (updateWidgetModifier s) (zr, w.log)).2).zones.zoneAt id = some z
          ∧ z.BoundOnlyUnder widget M L := by
        obtain ⟨z, hzid, hb⟩ := h
        by_cases hid : id = root
        · subst hid
          rw [hz] at hzid
          cases hzid
          refine ⟨_, zoneAt_store_self _ _ _ (zoneAt_lt hz), ?_⟩
          exact boundOnlyUnder_foldl s hM _ (zr, w.log) hb
        · refine ⟨z, ?_, hb⟩
          show (w.zones.store root _).zoneAt id = some z
          rw [zoneAt_store_ne _ _ _ _ hid]
          exact hzid
      generalize (World.mk (w.zones.store root
            (zr.widgets_.foldl (updateWidgetModifier s) (zr, w.log)).1)
            (zr.widgets_.foldl (updateWidgetModifier s) (zr, w.log)).2) = w0 at h0 hrun
      cases h1 : forEachZone (UpdateCurrentActionContextModifiers s k) zr.includedZones_ w0 with
      | none => rw [h1] at hrun; cases hrun
      | some w1 =>
        rw [h1] at hrun
        simp only [Option.some_bind] at hrun
        have hw1 := boundOnlyUnder_loop s widget M L id k ih _ w0 w1 h0 h1
        cases h2 : forEachZone (UpdateCurrentActionContextModifiers s k) zr.subZoneList w1 with
        | none => rw [h2] at hrun; cases hrun
        | some w2 =>
          rw [h2] at hrun
          simp only [Option.some_bind] at hrun
          have hw2 := boundOnlyUnder_loop s widget M L id k ih _ w1 w2 hw1 h2
          exact boundOnlyUnder_loop s widget M L id k ih _ w2 w' hw2 hrun

/-- C27: when no entry of the modifier list of the surface has a binding for the
widget, `UpdateCurrentActionContextModifier` leaves every cached modifier and every
binding as it was.  So for a zone that binds a widget under `M` alone and has cached
`M`, with `M` no longer in the modifier list: `UpdateCurrentActionContextModifiers`
run from any zone whose graph is acyclic returns, the zone still has `M` cached for
the widget, and `GetActionContexts` still returns the binding under `M`. -/
theorem UpdateCurrentActionContextModifier_keeps_unmatched :
    (∀ (z : Zone) (s : Surface) (widget : Widget),
      (∀ m ∈ s.modifiers, z.hasBinding widget m = false) →
      (z.UpdateCurrentActionContextModifier s widget).currentActionContextModifiers_
          = z.currentActionContextModifiers_ ∧
        ∀ w k, (z.UpdateCurrentActionContextModifier s widget).hasBinding w k
          = z.hasBinding w k) ∧
    (∀ (s : Surface) (rank : ZoneId → Nat) (fuel : Nat) (root id : ZoneId) (w : World)
      (z : Zone) (widget : Widget) (M : Int) (L : List ActionContextId),
      w.zones.Descends rank root → rank root < fuel →
      w.zones.zoneAt id = some z → z.BoundOnlyUnder widget M L → M ∉ s.modifiers →
      ∃ w' z', UpdateCurrentActionContextModifiers s fuel root w = some w' ∧
        w'.zones.zoneAt id = some z' ∧
        z'.currentActionContextModifiers_ widget = some M ∧
        (z'.GetActionContexts s widget).2 = L) := by
  constructor
  · intro z s widget hnone
    obtain ⟨h1, h2, h3⟩ := updateModifierLoop_spec widget s.modifiers z
    refine ⟨?_, h1⟩
    funext w
    by_cases hw : w = widget
    · subst hw
      unfold UpdateCurrentActionContextModifier
      rw [h3]
      have hfind : s.modifiers.find? (fun m => z.hasBinding w m) = none := by
        rw [List.find?_eq_none]
        intro m hm
        rw [hnone m hm]
        simp
      rw [hfind]
    · exact h2 w hw
  · intro s rank fuel root id w z widget M L hd hfuel hz hb hM
    obtain ⟨w', hrun, -, -⟩ := UpdateCurrentActionContextModifiers_spec s rank fuel root w hd hfuel
    obtain ⟨z', hz', hb'⟩ := UpdateCurrentActionContextModifiers_boundOnlyUnder s widget M L id hM
      fuel root w w' ⟨z, hz, hb⟩ hrun
    exact ⟨w', z', hrun, hz', hb'.1, boundOnlyUnder_GetActionContexts hb' s⟩

theorem shiftOnlyZone_boundOnlyUnder (shift : Int) :
    (shiftOnlyZone shift).BoundOnlyUnder fader1 shift [trackVolumeDBContext] := by
  refine ⟨by simp [shiftOnlyZone], _, by simp [shiftOnlyZone]; rfl, by simp, ?_⟩
  intro k hk
  simp [hk]

theorem shiftOnlyZone_descends (shift : Int) :
    ZoneHeap.Descends [some (shiftOnlyZone shift)] (fun _ => 0) 0 := by
  have hch : ∀ a, ZoneHeap.children [some (shiftOnlyZone shift)] a = [] := by
    intro a
    match a with
    | 0 => rfl
    | n + 1 => rfl
  refine ⟨?_, ?_⟩
  · intro n hn
    induction hn with
    | refl => rfl
    | tail _ hbc _ =>
      rw [hch] at hbc
      cases hbc
  · intro a c _ hc
    rw [hch] at hc
    cases hc

/-- The theorem `UpdateCurrentActionContextModifier_keeps_unmatched` at a zone that
binds `Fader1` under Shift (bit 4) alone and has cached it, after Shift was released
and the modifier list has become `[0]`: the recomputation returns and `Fader1` still
resolves to the binding under Shift. -/
theorem UpdateCurrentActionContextModifier_keeps_unmatched_witness :
    (∀ m ∈ (surfaceWith [0] false false).modifiers,
      (shiftOnlyZone 4).hasBinding fader1 m = false) ∧
    ((shiftOnlyZone 4).UpdateCurrentActionContextModifier (surfaceWith [0] false false)
        fader1).currentActionContextModifiers_ = (shiftOnlyZone 4).currentActionContextModifiers_ ∧
    ∃ w' z', UpdateCurrentActionContextModifiers (surfaceWith [0] false false) 1 0
        ⟨[some (shiftOnlyZone 4)], []⟩ = some w' ∧
      w'.zones.zoneAt 0 = some z' ∧
      z'.currentActionContextModifiers_ fader1 = some 4 ∧
      (z'.GetActionContexts (surfaceWith [0] false false) fader1).2 = [trackVolumeDBContext] :=
  ⟨by simp [surfaceWith, shiftOnlyZone, hasBinding],
   (UpdateCurrentActionContextModifier_keeps_unmatched.1 (shiftOnlyZone 4)
      (surfaceWith [0] false false) fader1
      (by simp [surfaceWith, shiftOnlyZone, hasBinding])).1,
   UpdateCurrentActionContextModifier_keeps_unmatched.2 (surfaceWith [0] false false)
      (fun _ => 0) 1 0 0 ⟨[some (shiftOnlyZone 4)], []⟩ (shiftOnlyZone 4) fader1 4
      [trackVolumeDBContext]
      (shiftOnlyZone_descends 4) (by decide) rfl (shiftOnlyZone_boundOnlyUnder 4) (by simp [surfaceWith])⟩

/-! ### A registered widget without a binding -/

/-- C28: for an active zone that has registered the widget and whose sub-zones and
associated zones all let the event pass, `DoAction` entered with `isUsed` unset
returns with `isUsed` set; when `GetActionContexts` returns the empty list for the
widget, no call is recorded, the zone objects differ from those before the call at
most in the zone itself (whose cached modifier `GetActionContexts` may have set), so
no included zone was asked, and every later `DoAction` on a live zone with the flag
as it now is returns without any change. -/
theorem DoAction_empty_binding_consumes (s : Surface) (widget : Widget) (value : ℚ)
    (rank : ZoneId → Nat) (fuel : Nat) (id : ZoneId) (w : World) (z : Zone)
    (hd : w.zones.Descends rank id) (hfuel : rank id < fuel)
    (hz : w.zones.zoneAt id = some z) (hact : z.isActive_ = true)
    (hgroups : ∀ c ∈ z.subZoneList ++ z.associatedZoneList, Declines w.zones widget c)
    (hmem : widget ∈ z.widgets_)
    (hempty : (z.GetActionContexts s widget).2 = []) :
    ∃ w', DoAction s widget value fuel id (w, false) = some (w', true) ∧
      w'.log = w.log ∧
      w'.zones = w.zones.store id (z.GetActionContexts s widget).1 ∧
      (∀ n, n ≠ id → w'.zones.zoneAt n = w.zones.zoneAt n) ∧
      (∀ (k : Nat) (n : ZoneId), 0 < k → w'.zones.isLive n = true →
        DoAction s widget value k n (w', true) = some (w', true)) := by
  obtain ⟨res, hrun, hres⟩ := DoAction_spec s widget value rank fuel id w hd hfuel
  have hown : TakenBy w.zones widget id id := TakenBy.own id z hz hact hgroups hmem
  rcases hres with ⟨-, hdecl⟩ | ⟨n, zn, ht, hzn, hfired⟩
  · exact absurd hdecl hown.taken_not_declines
  · have hn : id = n := hown.taken_unique n ht
    subst hn
    rw [hz] at hzn
    cases hzn
    rw [hfired] at hrun
    refine ⟨(fired s widget value id z w).1, hrun, ?_, rfl, ?_, ?_⟩
    · show w.log ++ ((z.GetActionContexts s widget).2.map fun c => ZoneEffect.doAction c value)
        = w.log
      rw [hempty]
      simp
    · intro n hn
      exact zoneAt_store_ne _ _ _ _ hn
    · intro k n hk hlive
      exact DoAction_used s widget value k n _ hk hlive

theorem unboundHeap_descends : unboundHeap.Descends dispatchRank 0 := by
  have hch : ∀ a, unboundHeap.children a = if a = 0 then [1] else [] := by
    intro a
    match a with
    | 0 => rfl
    | 1 => rfl
    | n + 2 => rfl
  have hreach : ∀ n, unboundHeap.Reaches 0 n → n ≤ 1 := by
    intro n hn
    induction hn with
    | refl => exact Nat.zero_le _
    | tail _ hbc _ =>
      rw [hch] at hbc
      split_ifs at hbc <;> simp at hbc
      rw [hbc]
  refine ⟨?_, ?_⟩
  · intro n hn
    have := hreach n hn
    interval_cases n <;> rfl
  · intro a c _ hc
    rw [hch] at hc
    split_ifs at hc with h0
    · simp at hc
      simp [dispatchRank, h0, hc]
    · simp at hc

/-- The theorem `DoAction_empty_binding_consumes` at the example heap: the Home zone
at 0 has registered `Fader1` without a binding, its included zone at 1 binds
`Fader1` to context 4; the event is consumed by the Home zone and nothing is
called. -/
theorem DoAction_empty_binding_consumes_witness :
    unboundHeap.Descends dispatchRank 0 ∧
    (∃ z, unboundHeap.zoneAt 0 = some z ∧ z.isActive_ = true ∧ fader1 ∈ z.widgets_ ∧
      (z.GetActionContexts (surfaceWith [0] false false) fader1).2 = []) ∧
    (∃ z, unboundHeap.zoneAt 1 = some z ∧ z.isActive_ = true ∧ fader1 ∈ z.widgets_ ∧
      (z.GetActionContexts (surfaceWith [0] false false) fader1).2 = [4]) ∧
    ∃ w', DoAction (surfaceWith [0] false false) fader1 1 2 0 (⟨unboundHeap, []⟩, false)
        = some (w', true) ∧ w'.log = [] :=
  ⟨unboundHeap_descends,
   ⟨_, rfl, rfl, by simp [faderZone], by simp [GetActionContexts, faderZone, defaultContexts_]⟩,
   ⟨_, rfl, rfl, by simp [faderZone], by simp [GetActionContexts, faderZone]⟩,
   (DoAction_empty_binding_consumes (surfaceWith [0] false false) fader1 1 dispatchRank 2 0
      ⟨unboundHeap, []⟩ _ unboundHeap_descends (by decide) rfl rfl
      (by intro c hc; simp [subZoneList, associatedZoneList, faderZone] at hc)
      (by simp [faderZone])
      (by simp [GetActionContexts, faderZone, defaultContexts_])).imp
    fun _ h => ⟨h.1, h.2.1⟩⟩

end Zone

namespace Zone

open ZoneHeap

/-! ### Associated-zone groups -/

theorem isActive_of_activatedTree {h : ZoneHeap} {c : ZoneId} (t : ActivatedTree h c) :
    h.isActive c = true := by
  cases t with
  | intro _ z hz hact _ _ =>
    simp [ZoneHeap.isActive, hz, hact]

/-- The zones of two entries of `associatedZones_` with different keys are different
zones when no zone occurs twice in the lists of the zone. -/
theorem associated_groups_disjoint (z : Zone) (hnodup : z.childList.Nodup)
    (e1 e2 : String × List ZoneId) (h1 : e1 ∈ z.associatedZones_)
    (h2 : e2 ∈ z.associatedZones_) (hne : e1.1 ≠ e2.1) (g c : ZoneId) (hg : g ∈ e1.2)
    (hc : c ∈ e2.2) : g ≠ c := by
  have hA : z.associatedZoneList.Nodup := by
    unfold childList at hnodup
    exact (List.Nodup.of_append_left (List.Nodup.of_append_left hnodup))
  unfold associatedZoneList at hA
  rw [List.nodup_flatten] at hA
  have hpair := List.pairwise_map.mp hA.2
  have hsymm : Symmetric (fun a b : String × List ZoneId => List.Disjoint a.2 b.2) := by
    intro a b hab
    exact hab.symm
  have hdis := hpair.forall hsymm h1 h2 (fun e => hne (by rw [e]))
  intro e
  exact hdis hg (e ▸ hc)

/-- C22: for a zone whose graph is a tree, `GoAssociatedZone(name)` with a name other
than `Track`, a group of that name, and the first zone of the group inactive
returns; afterwards every zone of the group is active and every zone of every other
associated-zone group is inactive.  `GoAssociatedZone("Track")` returns and
afterwards every associated zone is inactive.  After either call, two associated
zones that are both active lie in groups of the same name. -/
theorem GoAssociatedZone_one_group (s : Surface) (GoHome : World → Option World)
    (rank : ZoneId → Nat) (fuel : Nat) (id : ZoneId) (w : World) (z : Zone)
    (htree : w.zones.IsTreeFrom rank id) (hfuel : rank id ≤ fuel)
    (hz : w.zones.zoneAt id = some z) :
    (∀ (zoneName : String) (zones : List ZoneId), zoneName ≠ "Track" →
      (z.associatedZones_.find? fun e => e.1 = zoneName) = some (zoneName, zones) →
      (∀ first, zones.head? = some first → w.zones.isActive first = false) →
      ∃ w', GoAssociatedZone s GoHome fuel id zoneName w = some w' ∧
        (∀ c ∈ zones, w'.zones.isActive c = true) ∧
        (∀ e ∈ z.associatedZones_, e.1 ≠ zoneName →
          ∀ c ∈ e.2, w'.zones.isActive c = false) ∧
        (∀ e1 ∈ z.associatedZones_, ∀ e2 ∈ z.associatedZones_,
          (∃ c ∈ e1.2, w'.zones.isActive c = true) →
          (∃ c ∈ e2.2, w'.zones.isActive c = true) → e1.1 = e2.1)) ∧
    (∃ w', GoAssociatedZone s GoHome fuel id "Track" w = some w' ∧
      (∀ c ∈ z.associatedZoneList, w'.zones.isActive c = false) ∧
      (∀ e1 ∈ z.associatedZones_, ∀ e2 ∈ z.associatedZones_,
        (∃ c ∈ e1.2, w'.zones.isActive c = true) →
        (∃ c ∈ e2.2, w'.zones.isActive c = true) → e1.1 = e2.1)) := by
  have hdesc : w.zones.Descends rank id := ⟨htree.1, htree.2.1⟩
  have ht : w.zones.TreeBelow rank id := TreeBelow.of_isTreeFrom htree
  have hch : w.zones.children id = z.childList := by simp [ZoneHeap.children, hz]
  have hA : ∀ c ∈ z.associatedZoneList, c ∈ w.zones.children id := by
    intro c hc
    rw [hch]
    simp only [childList, List.mem_append]
    exact Or.inl (Or.inl hc)
  have hentry : ∀ e ∈ z.associatedZones_, ∀ c ∈ e.2, c ∈ z.associatedZoneList := by
    intro e he c hc
    unfold associatedZoneList
    exact List.mem_flatten.mpr ⟨e.2, List.mem_map_of_mem Prod.snd he, hc⟩
  have hpre : ∀ c ∈ z.associatedZoneList, w.zones.Descends rank c ∧ rank c < fuel := by
    intro c hc
    exact ⟨hdesc.descends_of_reaches (Relation.ReflTransGen.single (hA c hc)),
      lt_of_lt_of_le (hdesc.2 id c Relation.ReflTransGen.refl (hA c hc)) hfuel⟩
  obtain ⟨w1, hrun1, hs1, hoff1, -⟩ := deactivate_loop s rank fuel
    (fun id w hd hr => Deactivate_spec s rank fuel id w hd hr) z.associatedZoneList w hpre
  constructor
  · intro zoneName zones hname hgroup hfirst
    have hmem : (zoneName, zones) ∈ z.associatedZones_ := List.mem_of_find?_eq_some hgroup
    have hzones : ∀ c ∈ zones, c ∈ z.associatedZoneList :=
      fun c hc => hentry _ hmem c hc
    have hcheck : (match (some zones : Option (List ZoneId)) with
        | some (first :: _) => (w.zones.zoneAt first).map fun zone => zone.isActive_
        | _ => some false) = some false := by
      cases zones with
      | nil => rfl
      | cons first rest =>
        have hlive := htree.1 first (Relation.ReflTransGen.single
          (hA first (hzones first (List.mem_cons_self _ _))))
        have hoff := hfirst first rfl
        simp only [ZoneHeap.isLive] at hlive
        cases hzf : w.zones.zoneAt first with
        | none => rw [hzf] at hlive; cases hlive
        | some zf =>
          simp only [ZoneHeap.isActive, hzf] at hoff
          simp [hzf, hoff]
    have hpre2 : ∀ c ∈ zones, w1.zones.TreeBelow rank c ∧ rank c < fuel := by
      intro c hc
      have hcA := hzones c hc
      exact ⟨(ht.tree_of_reaches (Relation.ReflTransGen.single (hA c hcA))).tree_sameLinks hs1,
        (hpre c hcA).2⟩
    have hsub : List.Sublist zones (w.zones.children id) := by
      rw [hch]
      unfold childList
      refine List.Sublist.trans ?_ (List.sublist_append_left _ _)
      refine List.Sublist.trans ?_ (List.sublist_append_left _ _)
      unfold associatedZoneList
      exact List.sublist_flatten_of_mem (List.mem_map_of_mem Prod.snd hmem)
    have hpair2 : zones.Pairwise
        (fun c1 c2 => ∀ n, w1.zones.Reaches c1 n → ¬ w1.zones.Reaches c2 n) := by
      refine List.Pairwise.imp ?_ ((ht.2 id Relation.ReflTransGen.refl).sublist hsub)
      intro c1 c2 hdis n hn hn2
      exact hdis n ((hs1.links_reaches c1 n).mp hn) ((hs1.links_reaches c2 n).mp hn2)
    obtain ⟨w2, hrun2, -, hact2, hframe2⟩ := activate_loop s rank fuel
      (fun id w ht hr => Activate_spec s rank fuel id w ht hr) zones w1 hpre2 hpair2
    have hon : ∀ c ∈ zones, w2.zones.isActive c = true :=
      fun c hc => isActive_of_activatedTree (hact2 c hc)
    have hoff : ∀ e ∈ z.associatedZones_, e.1 ≠ zoneName →
        ∀ c ∈ e.2, w2.zones.isActive c = false := by
      intro e he hkey c hc
      have hcA := hentry e he c hc
      rw [hframe2 c ?_]
      · exact hoff1 c ⟨c, hcA, Relation.ReflTransGen.refl⟩
      · intro g hg hreach
        have hne : g ≠ c := associated_groups_disjoint z
          (hch ▸ htree.2.2.1 id Relation.ReflTransGen.refl) (zoneName, zones) e hmem he
          (fun e' => hkey e'.symm) g c hg hc
        exact disjoint_of_unique_parent hdesc htree.2.2.2 Relation.ReflTransGen.refl
          (hA g (hzones g hg)) (hA c hcA) hne c ((hs1.links_reaches g c).mp hreach)
          Relation.ReflTransGen.refl
    refine ⟨w2, ?_, hon, hoff, ?_⟩
    · simp only [GoAssociatedZone, hz, Option.bind_eq_bind, Option.some_bind, hname, if_false,
        hgroup, Option.map_some', hcheck, Bool.false_eq_true, Option.getD_some, hrun1, hrun2]
    · intro e1 he1 e2 he2 ⟨c1, hc1, ha1⟩ ⟨c2, hc2, ha2⟩
      have k1 : e1.1 = zoneName := by
        by_contra hk
        rw [hoff e1 he1 hk c1 hc1] at ha1
        cases ha1
      have k2 : e2.1 = zoneName := by
        by_contra hk
        rw [hoff e2 he2 hk c2 hc2] at ha2
        cases ha2
      rw [k1, k2]
  · have hoff : ∀ c ∈ z.associatedZoneList, w1.zones.isActive c = false :=
      fun c hc => hoff1 c ⟨c, hc, Relation.ReflTransGen.refl⟩
    refine ⟨w1, ?_, hoff, ?_⟩
    · simp only [GoAssociatedZone, hz, Option.bind_eq_bind, Option.some_bind, if_true, hrun1]
    · intro e1 he1 e2 he2 ⟨c1, hc1, ha1⟩ _
      rw [hoff c1 (hentry e1 he1 c1 hc1)] at ha1
      cases ha1

theorem associatedHeap_children (a : ZoneId) :
    associatedHeap.children a = if a = 0 then [1, 2] else [] := by
  match a with
  | 0 => rfl
  | 1 => rfl
  | 2 => rfl
  | n + 3 => rfl

theorem associatedHeap_isTree : associatedHeap.IsTreeFrom dispatchRank 0 := by
  have hreach : ∀ n, associatedHeap.Reaches 0 n → n ≤ 2 := by
    intro n hn
    induction hn with
    | refl => exact Nat.zero_le _
    | tail _ hbc _ =>
      rw [associatedHeap_children] at hbc
      split_ifs at hbc <;> simp at hbc
      rcases hbc with e | e <;> simp [e]
  refine ⟨?_, ?_, ?_, ?_⟩
  · intro n hn
    have := hreach n hn
    interval_cases n <;> rfl
  · intro a c _ hc
    rw [associatedHeap_children] at hc
    split_ifs at hc with h0
    · simp at hc
      rcases hc with e | e <;> simp [dispatchRank, h0, e]
    · simp at hc
  · intro a _
    rw [associatedHeap_children]
    split_ifs <;> decide
  · intro a b c _ _ hca hcb
    rw [associatedHeap_children] at hca hcb
    split_ifs at hca hcb <;> simp at hca hcb
    simp_all

/-- The theorem `GoAssociatedZone_one_group` at the example heap, where the group
`SelectedTrack` is active and the group `SelectedTrackFX` is not:
`GoAssociatedZone("SelectedTrackFX")` leaves the zone at 2 active and the zone at 1
inactive, and `GoAssociatedZone("Track")` leaves both inactive. -/
theorem GoAssociatedZone_one_group_witness :
    associatedHeap.IsTreeFrom dispatchRank 0 ∧
    (∃ w', GoAssociatedZone (surfaceWith [0] false false) some 1 0 "SelectedTrackFX"
        ⟨associatedHeap, []⟩ = some w' ∧
      (∀ c ∈ [2], w'.zones.isActive c = true) ∧
      (∀ e ∈ [("SelectedTrack", [1]), ("SelectedTrackFX", [2])], e.1 ≠ "SelectedTrackFX" →
          ∀ c ∈ e.2, w'.zones.isActive c = false)) ∧
    (GoAssociatedZone (surfaceWith [0] false false) some 1 0 "SelectedTrackFX"
        ⟨associatedHeap, []⟩).map (fun w => [0, 1, 2].map w.zones.isActive)
      = some [true, false, true] ∧
    (GoAssociatedZone (surfaceWith [0] false false) some 1 0 "Track"
        ⟨associatedHeap, []⟩).map (fun w => [0, 1, 2].map w.zones.isActive)
      = some [true, false, false] := by
  refine ⟨associatedHeap_isTree, ?_, by decide, by decide⟩
  obtain ⟨w', hrun, hon, hoff, -⟩ := (GoAssociatedZone_one_group (surfaceWith [0] false false)
    some dispatchRank 1 0 ⟨associatedHeap, []⟩ _ associatedHeap_isTree (by decide) rfl).1
    "SelectedTrackFX" [2] (by decide) (by decide) (by decide)
  exact ⟨w', hrun, hon, hoff⟩

end Zone

namespace Midi_ControlSurface

/-! ### Initialisation messages of a MIDI surface -/

/-- The inner loop with the condition on `j` copies the rest of the line and exits. -/
theorem copyLine_bounded (i : Nat) (bytes : List Int) :
    ∀ (fuel j : Nat) (message : List Int), j ≤ bytes.length → bytes.length - j < fuel →
      copyLine (fun j => decide (j < bytes.length)) i bytes fuel j message
        = Except.ok (message ++ bytes.drop j) := by
  intro fuel
  induction fuel with
  | zero => intro j message _ h; omega
  | succ k ih =>
    intro j message hj hfuel
    by_cases hlt : j < bytes.length
    · have hget : bytes[j]? = some bytes[j] := List.getElem?_eq_getElem hlt
      simp only [copyLine, hlt, decide_True, if_true, hget]
      rw [ih (j + 1) _ (by omega) (by omega), List.append_assoc]
      congr 1
      rw [List.singleton_append, ← List.drop_eq_getElem_cons hlt]
    · have hj' : j = bytes.length := by omega
      simp [copyLine, hlt, hj']

/-- The inner loop with a condition that always holds never exits: it stops at the
first read past the end of the line, or before that for lack of fuel. -/
theorem copyLine_unbounded (i : Nat) (bytes : List Int) :
    ∀ (fuel j : Nat) (message : List Int), j ≤ bytes.length →
      copyLine (fun _ => true) i bytes fuel j message
        = Except.error (if bytes.length - j < fuel then LoopStop.readPast i bytes.length
            else LoopStop.fuel) := by
  intro fuel
  induction fuel with
  | zero => intro j message _; simp [copyLine]
  | succ k ih =>
    intro j message hj
    by_cases hlt : j < bytes.length
    · have hget : bytes[j]? = some bytes[j] := List.getElem?_eq_getElem hlt
      simp only [copyLine, if_true, hget]
      rw [ih (j + 1) _ (by omega)]
      congr 1
      by_cases hk : bytes.length - (j + 1) < k
      · rw [if_pos hk, if_pos (by omega)]
      · rw [if_neg hk, if_neg (by omega)]
    · have hj' : j = bytes.length := by omega
      have hget : bytes[j]? = none := List.getElem?_eq_none (by omega)
      simp [copyLine, hget, hj']

theorem sendLines_bounded (fuel : Nat) :
    ∀ (lines : List (List Int)) (i : Nat) (sent : List (List Int)),
      (∀ bytes ∈ lines, bytes.length < fuel) →
      sendLines (fun i bytes => copyLine (fun j => decide (j < bytes.length)) i bytes fuel 0 [])
        i lines sent = Except.ok (sent ++ lines) := by
  intro lines
  induction lines with
  | nil => intro i sent _; simp [sendLines]
  | cons first rest ih =>
    intro i sent h
    have hline := copyLine_bounded i first fuel 0 [] (Nat.zero_le _)
      (by have := h first (List.mem_cons_self _ _); omega)
    simp only [sendLines, hline, List.nil_append, List.drop_zero]
    rw [ih (i + 1) _ (fun l hl => h l (List.mem_cons_of_mem _ hl)), List.append_assoc]
    rfl

/-- C26, as the source has it: `InitializeMCUXT` never reaches its first
`SendMidiSysExMessage`.  The condition of its inner loop compares `i` with the length
of the line, which holds for the first line (`0 < 6`) whatever `j` is, so after the
six bytes of the line the loop reads `sysExLines[0][6]`, past the end of the line;
with any fuel the function stops there or for lack of fuel and returns no list of
sent messages.  `InitializeMCU`, whose inner loop compares `j`, returns for every
fuel above 9 and has sent its eleven lines, byte for byte. -/
theorem InitializeMCUXT_reads_past_first_line :
    (∀ fuel, 7 ≤ fuel → InitializeMCUXT fuel = Except.error (LoopStop.readPast 0 6)) ∧
    (∀ fuel sent, InitializeMCUXT fuel ≠ Except.ok sent) ∧
    (∀ fuel, 10 ≤ fuel → InitializeMCU fuel = Except.ok sysExLinesMCU) ∧
    sysExLinesMCU.length = 11 ∧ sysExLinesMCUXT.length = 11 := by
  have hfirst : ∀ fuel, InitializeMCUXT fuel
      = Except.error (if 6 < fuel then LoopStop.readPast 0 6 else LoopStop.fuel) := by
    intro fuel
    have h := copyLine_unbounded 0 [0xF0, 0x7E, 0x00, 0x06, 0x01, 0xF7] fuel 0 []
      (Nat.zero_le _)
    simp only [InitializeMCUXT, sysExLinesMCUXT, sendLines, List.length_cons, List.length_nil,
      Nat.zero_lt_succ, decide_True]
    rw [h]
    rfl
  refine ⟨?_, ?_, ?_, rfl, rfl⟩
  · intro fuel hfuel
    rw [hfirst, if_pos (by omega)]
  · intro fuel sent h
    rw [hfirst] at h
    cases h
  · intro fuel hfuel
    have h := sendLines_bounded fuel sysExLinesMCU 0 [] (by
      intro line hline
      simp only [sysExLinesMCU, List.mem_cons, List.mem_singleton, List.not_mem_nil,
        or_false] at hline
      rcases hline with e | e | e | e | e | e | e | e | e | e | e <;>
        (rw [e]; simp only [List.length_cons, List.length_nil]; omega))
    simpa [InitializeMCU] using h

/-- The theorem `InitializeMCUXT_reads_past_first_line` at fuel 7 and at fuel 10. -/
theorem InitializeMCUXT_reads_past_first_line_witness :
    (7 ≤ 7 ∧ InitializeMCUXT 7 = Except.error (LoopStop.readPast 0 6)) ∧
    (10 ≤ 10 ∧ InitializeMCU 10 = Except.ok sysExLinesMCU) :=
  ⟨⟨le_refl 7, InitializeMCUXT_reads_past_first_line.1 7 (le_refl 7)⟩,
   ⟨le_refl 10, InitializeMCUXT_reads_past_first_line.2.2.1 10 (le_refl 10)⟩⟩

end Midi_ControlSurface

namespace ModifierManager

/-! ### ModifierManager: the list of combinations -/

theorem activeModifierIndices_nil :
    ∀ (states : List ModifierState) (i : Nat), (∀ st ∈ states, st.isEngaged = false) →
      activeModifierIndices i states = [] := by
  intro states
  induction states with
  | nil => intro i _; rfl
  | cons st rest ih =>
    intro i h
    have h0 := h st (List.mem_cons_self _ _)
    simp only [activeModifierIndices, h0, Bool.false_eq_true, if_false]
    exact ih (i + 1) (fun s hs => h s (List.mem_cons_of_mem _ hs))

theorem intcmp_rev_le (a b : Int) : intcmp_rev a b ≤ 0 ↔ b ≤ a := by
  unfold intcmp_rev
  split_ifs with h1 h2
  · constructor
    · intro _; omega
    · intro _; omega
  · constructor
    · intro h; omega
    · intro h; omega
  · constructor
    · intro _; omega
    · intro _; omega

/-- A list of non-negative integers in descending order that contains 0 ends
with 0. -/
theorem getLast_of_descending :
    ∀ l : List Int, l.Pairwise (fun a b => b ≤ a) → 0 ∈ l → (∀ x ∈ l, 0 ≤ x) →
      l.getLast? = some 0 := by
  intro l
  induction l with
  | nil => intro _ h _; simp at h
  | cons a t ih =>
    intro hp hmem hpos
    cases t with
    | nil =>
      simp only [List.mem_singleton] at hmem
      simp [hmem]
    | cons b t' =>
      rw [List.getLast?_cons_cons]
      obtain ⟨hhead, htail⟩ := List.pairwise_cons.mp hp
      refine ih htail ?_ (fun x hx => hpos x (List.mem_cons_of_mem _ hx))
      rcases List.mem_cons.mp hmem with e | h
      · have hb1 : b ≤ a := hhead b (List.mem_cons_self _ _)
        have hb2 : 0 ≤ b := hpos b (List.mem_cons_of_mem _ (List.mem_cons_self _ _))
        have hb : b = 0 := by omega
        rw [hb]
        exact List.mem_cons_self _ _
      · exact h

theorem qsort_intcmp_rev (entries : List Int) :
    (qsort intcmp_rev entries).Pairwise (fun a b => b ≤ a) ∧
      ∀ x, x ∈ qsort intcmp_rev entries ↔ x ∈ entries := by
  haveI : IsTotal Int (fun a b => decide (intcmp_rev a b ≤ 0) = true) :=
    ⟨fun a b => by
      simp only [decide_eq_true_eq, intcmp_rev_le]
      exact le_total b a⟩
  haveI : IsTrans Int (fun a b => decide (intcmp_rev a b ≤ 0) = true) :=
    ⟨fun a b c hab hbc => by
      simp only [decide_eq_true_eq, intcmp_rev_le] at hab hbc ⊢
      exact le_trans hbc hab⟩
  constructor
  · have hs := List.sorted_insertionSort (fun a b => decide (intcmp_rev a b ≤ 0) = true) entries
    refine List.Pairwise.imp ?_ hs
    intro a b h
    simpa only [decide_eq_true_eq, intcmp_rev_le] using h
  · intro x
    exact (List.perm_insertionSort _ entries).mem_iff

/-- C21: on a manager attached to a surface or a page, with no modifier engaged,
`RecalculateModifiers` leaves the combination list exactly `[0]`, whatever
`GetCombinations` and `intcmp_rev` do.  With `GetCombinations` adding the bitmask of
every non-empty subset of the engaged modifiers and `intcmp_rev` putting the larger
value first, the list after the call is in descending order, contains 0, and has 0
as its last entry. -/
theorem RecalculateModifiers_combinations :
    (∀ (combine : List Nat → List Int → List Int) (compare : Int → Int → Int)
      (m : ModifierManager), (m.surface_ ≠ none ∨ m.page_ ≠ none) →
      (∀ st ∈ m.modifiers_, st.isEngaged = false) →
      (RecalculateModifiers combine compare m).1.modifierCombinations_ = [0]) ∧
    (∀ (maskFromModifier : Nat → Nat) (m : ModifierManager),
      (m.surface_ ≠ none ∨ m.page_ ≠ none) →
      ((RecalculateModifiers (GetCombinations maskFromModifier) intcmp_rev
          m).1.modifierCombinations_).Pairwise (fun a b => b ≤ a) ∧
      (0 : Int) ∈ (RecalculateModifiers (GetCombinations maskFromModifier) intcmp_rev
          m).1.modifierCombinations_ ∧
      ((RecalculateModifiers (GetCombinations maskFromModifier) intcmp_rev
          m).1.modifierCombinations_).getLast? = some 0) := by
  constructor
  · intro combine compare m hatt hnone
    have hnot : ¬ (m.surface_ = none ∧ m.page_ = none) := by
      intro h
      rcases hatt with h1 | h1
      · exact h1 h.1
      · exact h1 h.2
    simp [RecalculateModifiers, hnot, activeModifierIndices_nil m.modifiers_ 0 hnone]
  · intro maskFromModifier m hatt
    have hnot : ¬ (m.surface_ = none ∧ m.page_ = none) := by
      intro h
      rcases hatt with h1 | h1
      · exact h1 h.1
      · exact h1 h.2
    have hlist : (RecalculateModifiers (GetCombinations maskFromModifier) intcmp_rev
        m).1.modifierCombinations_ =
        if (activeModifierIndices 0 m.modifiers_).length > 0
        then qsort intcmp_rev
          (GetCombinations maskFromModifier (activeModifierIndices 0 m.modifiers_) [0])
        else [0] := by
      simp only [RecalculateModifiers, hnot, if_false]
    rw [hlist]
    split_ifs with hactive
    · obtain ⟨hsorted, hmem⟩ := qsort_intcmp_rev
        (GetCombinations maskFromModifier (activeModifierIndices 0 m.modifiers_) [0])
      have hzero : (0 : Int) ∈ qsort intcmp_rev
          (GetCombinations maskFromModifier (activeModifierIndices 0 m.modifiers_) [0]) := by
        rw [hmem]
        simp [GetCombinations]
      have hpos : ∀ x ∈ qsort intcmp_rev
          (GetCombinations maskFromModifier (activeModifierIndices 0 m.modifiers_) [0]),
          0 ≤ x := by
        intro x hx
        rw [hmem] at hx
        simp only [GetCombinations, List.mem_append, List.mem_singleton, List.mem_map] at hx
        rcases hx with e | ⟨n, _, e⟩
        · omega
        · rw [← e]
          exact Int.ofNat_nonneg n
      exact ⟨hsorted, hzero, getLast_of_descending _ hsorted hzero hpos⟩
    · exact ⟨List.pairwise_singleton _ _, List.mem_singleton.mpr rfl, rfl⟩

/-- The theorem `RecalculateModifiers_combinations` at a manager with no modifier
engaged, whose list becomes `[0]`, and at a manager with the modifiers of the masks
4 and 16 engaged, whose list becomes `[20, 16, 4, 0]`. -/
theorem RecalculateModifiers_combinations_witness :
    (idleManager.surface_ ≠ none ∨ idleManager.page_ ≠ none) ∧
    (∀ st ∈ idleManager.modifiers_, st.isEngaged = false) ∧
    (RecalculateModifiers (GetCombinations sampleMask) intcmp_rev
        idleManager).1.modifierCombinations_ = [0] ∧
    (RecalculateModifiers (GetCombinations sampleMask) intcmp_rev
        sampleManager).1.modifierCombinations_ = [20, 16, 4, 0] ∧
    (sampleManager.surface_ ≠ none ∨ sampleManager.page_ ≠ none) ∧
    ((RecalculateModifiers (GetCombinations sampleMask) intcmp_rev
        sampleManager).1.modifierCombinations_).getLast? = some 0 :=
  ⟨Or.inl (by decide), by decide,
   RecalculateModifiers_combinations.1 (GetCombinations sampleMask) intcmp_rev idleManager
     (Or.inl (by decide)) (by decide),
   by decide, Or.inl (by decide),
   (RecalculateModifiers_combinations.2 sampleMask sampleManager (Or.inl (by decide))).2.2⟩

/-! ### ModifierManager: latching -/

theorem RecalculateModifiers_modifiers (combine : List Nat → List Int → List Int)
    (compare : Int → Int → Int) (m : ModifierManager) :
    (RecalculateModifiers combine compare m).1.modifiers_ = m.modifiers_ := by
  unfold RecalculateModifiers
  split_ifs <;> rfl

/-- C25: for every modifier of the array, `SetLatchModifier` returns.  A press
(`value = true`) on a disengaged modifier engages it and records the time of the
call as its press time.  On a modifier engaged at the time `pressed`, a release
(`value = false`) at a time `now` with `now - pressed <= latchTime` leaves the entry
as it is, engaged, and speaks `Lock`; a release with `now - pressed > latchTime`
disengages it, keeps the press time, and speaks `Unlock`. -/
theorem SetLatchModifier_latches (combine : List Nat → List Int → List Int)
    (compare : Int → Int → Int) (name : Nat → String) (m : ModifierManager)
    (modifier : Nat) (latchTime : Int) (now : ℚ) (state : ModifierState)
    (hstate : m.modifiers_[modifier]? = some state) :
    (state.isEngaged = false →
      ∃ m' e, SetLatchModifier combine compare name m true modifier latchTime now
          = some (m', e) ∧
        m'.modifiers_[modifier]? = some ⟨true, now⟩) ∧
    (state.isEngaged = true → now - state.pressedTime ≤ latchTime →
      ∃ m' e, SetLatchModifier combine compare name m false modifier latchTime now
          = some (m', e) ∧
        m'.modifiers_[modifier]? = some state ∧ m'.modifiers_ = m.modifiers_ ∧
        ModifierEffect.speak (name modifier ++ " Lock") ∈ e) ∧
    (state.isEngaged = true → now - state.pressedTime > latchTime →
      ∃ m' e, SetLatchModifier combine compare name m false modifier latchTime now
          = some (m', e) ∧
        m'.modifiers_[modifier]? = some ⟨false, state.pressedTime⟩ ∧
        ModifierEffect.speak (name modifier ++ " Unlock") ∈ e) := by
  have hlt : modifier < m.modifiers_.length := by
    by_contra h
    rw [List.getElem?_eq_none (by omega)] at hstate
    cases hstate
  refine ⟨?_, ?_, ?_⟩
  · intro hoff
    have hrun : SetLatchModifier combine compare name m true modifier latchTime now =
        some ((RecalculateModifiers combine compare
                { m with modifiers_ := m.modifiers_.set modifier ⟨true, now⟩ }).1,
              [] ++ (RecalculateModifiers combine compare
                { m with modifiers_ := m.modifiers_.set modifier ⟨true, now⟩ }).2) := by
      simp only [SetLatchModifier, hstate, Option.bind_eq_bind, Option.some_bind, hoff,
        and_self, if_true]
    refine ⟨_, _, hrun, ?_⟩
    rw [RecalculateModifiers_modifiers]
    simp [List.getElem?_set, hlt]
  · intro hon hshort
    have hnot : ¬ (now - state.pressedTime > latchTime) := not_lt.mpr hshort
    have hrun : SetLatchModifier combine compare name m false modifier latchTime now =
        some ((RecalculateModifiers combine compare m).1,
              [ModifierEffect.speak (name modifier ++ " Lock")]
                ++ (RecalculateModifiers combine compare m).2) := by
      simp only [SetLatchModifier, hstate, Option.bind_eq_bind, Option.some_bind,
        Bool.false_eq_true, false_and, if_false, hnot]
    refine ⟨_, _, hrun, ?_, ?_, ?_⟩
    · rw [RecalculateModifiers_modifiers]
      exact hstate
    · rw [RecalculateModifiers_modifiers]
    · simp
  · intro hon hlong
    have hrun : SetLatchModifier combine compare name m false modifier latchTime now =
        some ((RecalculateModifiers combine compare
                { m with modifiers_ :=
                    m.modifiers_.set modifier { state with isEngaged := false } }).1,
              [ModifierEffect.speak (name modifier ++ " Unlock")]
                ++ (RecalculateModifiers combine compare
                { m with modifiers_ :=
                    m.modifiers_.set modifier { state with isEngaged := false } }).2) := by
      simp only [SetLatchModifier, hstate, Option.bind_eq_bind, Option.some_bind, hon,
        Bool.false_eq_true, false_and, if_false, hlong, if_true, and_self]
    refine ⟨_, _, hrun, ?_, ?_⟩
    · rw [RecalculateModifiers_modifiers]
      simp [List.getElem?_set, hlt]
    · simp

/-- The theorem `SetLatchModifier_latches` with a latch time of 500: the first
modifier of a manager with no modifier engaged is pressed at time 1000; released at
time 1200 it stays engaged, released at time 1600 it is disengaged. -/
theorem SetLatchModifier_latches_witness :
    idleManager.modifiers_[0]? = some ⟨false, 0⟩ ∧
    (∃ m' e, SetLatchModifier (GetCombinations sampleMask) intcmp_rev (fun _ => "Shift")
        idleManager true 0 500 1000 = some (m', e) ∧
      m'.modifiers_[0]? = some ⟨true, 1000⟩) ∧
    pressedManager.modifiers_[0]? = some ⟨true, 1000⟩ ∧
    ((1200 : ℚ) - 1000 ≤ (500 : Int)) ∧
    (∃ m' e, SetLatchModifier (GetCombinations sampleMask) intcmp_rev (fun _ => "Shift")
        pressedManager false 0 500 1200 = some (m', e) ∧
      m'.modifiers_[0]? = some ⟨true, 1000⟩ ∧ m'.modifiers_ = pressedManager.modifiers_ ∧
      ModifierEffect.speak ("Shift" ++ " Lock") ∈ e) ∧
    ((1600 : ℚ) - 1000 > (500 : Int)) ∧
    (∃ m' e, SetLatchModifier (GetCombinations sampleMask) intcmp_rev (fun _ => "Shift")
        pressedManager false 0 500 1600 = some (m', e) ∧
      m'.modifiers_[0]? = some ⟨false, 1000⟩ ∧
      ModifierEffect.speak ("Shift" ++ " Unlock") ∈ e) :=
  ⟨rfl,
   (SetLatchModifier_latches (GetCombinations sampleMask) intcmp_rev (fun _ => "Shift")
      idleManager 0 500 1000 ⟨false, 0⟩ rfl).1 rfl,
   rfl, by norm_num,
   (SetLatchModifier_latches (GetCombinations sampleMask) intcmp_rev (fun _ => "Shift")
      pressedManager 0 500 1200 ⟨true, 1000⟩ rfl).2.1 rfl (by norm_num),
   by norm_num,
   (SetLatchModifier_latches (GetCombinations sampleMask) intcmp_rev (fun _ => "Shift")
      pressedManager 0 500 1600 ⟨true, 1000⟩ rfl).2.2 rfl (by norm_num)⟩

end ModifierManager

namespace ZoneManager

/-! ### Stepped values of an FX parameter -/

theorem foldl_sweepRound :
    ∀ (reported : List ℚ) (v : ℚ) (c : Int),
      (reported.foldl sweepRound (v, c)).2 = c + changes v reported := by
  intro reported
  induction reported with
  | nil => intro v c; simp [changes]
  | cons x rest ih =>
    intro v c
    by_cases h : v = x
    · subst h
      simp only [List.foldl_cons, sweepRound, ne_eq, not_true_eq_false, if_false, changes]
      rw [ih]
      simp
    · simp only [List.foldl_cons, sweepRound, ne_eq, h, not_false_eq_true, if_true, changes]
      rw [ih]
      push_cast
      ring

/-- In a non-decreasing list the number of changes after the first value is one less
than the number of distinct values. -/
theorem changes_sorted :
    ∀ (rest : List ℚ) (x : ℚ), (x :: rest).Pairwise (fun a b => a ≤ b) →
      changes x rest + 1 = (x :: rest).dedup.length := by
  intro rest
  induction rest with
  | nil => intro x _; simp [changes]
  | cons y rest' ih =>
    intro x hp
    obtain ⟨hhead, htail⟩ := List.pairwise_cons.mp hp
    have hih := ih y htail
    by_cases h : x = y
    · subst h
      rw [List.dedup_cons_of_mem (List.mem_cons_self _ _)]
      simp only [changes, ne_eq, not_true_eq_false, if_false]
      omega
    · have hnot : x ∉ y :: rest' := by
        intro hmem
        rcases List.mem_cons.mp hmem with e | hin
        · exact h e
        · have h1 : x ≤ y := hhead y (List.mem_cons_self _ _)
          have h2 : y ≤ x := (List.pairwise_cons.mp htail).1 x hin
          exact h (le_antisymm h1 h2)
      rw [List.dedup_cons_of_not_mem hnot]
      simp only [changes, ne_eq, h, not_false_eq_true, if_true, List.length_cons]
      omega

/-- The step count of a sweep over non-decreasing values: the number of distinct
values, and one more when the first value is not 0.0, the value `stepValue` starts
from. -/
theorem sweepStepCount_sorted (x : ℚ) (rest : List ℚ)
    (hp : (x :: rest).Pairwise (fun a b => a ≤ b)) :
    sweepStepCount (x :: rest)
      = ((x :: rest).dedup.length : Int) + (if x = 0 then 0 else 1) := by
  unfold sweepStepCount
  rw [foldl_sweepRound]
  have h := changes_sorted rest x hp
  have hc : changes 0 (x :: rest) = (if (0 : ℚ) ≠ x then 1 else 0) + changes x rest := rfl
  rw [hc]
  by_cases h0 : x = 0
  · subst h0
    simp only [ne_eq, not_true_eq_false, if_false, if_true]
    omega
  · have h0' : (0 : ℚ) ≠ x := fun e => h0 e.symm
    rw [if_pos h0', if_neg h0]
    push_cast
    omega

theorem dedup_replicate_succ (v : ℚ) : ∀ n : Nat, (List.replicate (n + 1) v).dedup = [v] := by
  intro n
  induction n with
  | zero => rfl
  | succ k ih =>
    rw [List.replicate_succ, List.dedup_cons_of_mem (by simp), ih]

theorem range_sweepRounds (f : Nat → ℚ) :
    (List.range sweepRounds).map f = f 0 :: (List.range 100).map (fun k => f (k + 1)) := by
  show (List.range (100 + 1)).map f = _
  rw [List.range_succ_eq_map]
  simp [Function.comp_def]

theorem sorted_sweep (f : Nat → ℚ)
    (hmono : ∀ j k, j ≤ k → k < sweepRounds → f j ≤ f k) :
    ((List.range sweepRounds).map f).Pairwise (fun a b => a ≤ b) := by
  rw [List.pairwise_map]
  refine List.Pairwise.imp_of_mem ?_ (List.pairwise_lt_range sweepRounds)
  intro j k _ hk hjk
  exact hmono j k (le_of_lt hjk) (List.mem_range.mp hk)

/-- C23, on the code: for an FX named `UAD Fairchild` and a parameter that reports 1/2
in every round of the sweep, the reported values are non-decreasing and one value is
reported, yet the step count of `CalculateSteppedValue` is 2, and 2 is what
`SetSteppedValueCount` is called with: the count starts at 1 for the value 0.0 that
`stepValue` starts from, whether or not that value is ever reported. -/
theorem CalculateSteppedValue_constant_report :
    ((List.range sweepRounds).map fun _ => (1 / 2 : ℚ)).Pairwise (fun a b => a ≤ b) ∧
    ((List.range sweepRounds).map fun _ => (1 / 2 : ℚ)).dedup.length = 1 ∧
    sweepStepCount ((List.range sweepRounds).map fun _ => (1 / 2 : ℚ)) = 2 ∧
    SweepEffect.setSteppedValueCount "UAD Fairchild" 3 2
      ∈ CalculateSteppedValue "UAD Fairchild" 3 true 0 (fun _ => 1 / 2) := by
  have hsorted := sorted_sweep (fun _ => (1 / 2 : ℚ)) (fun _ _ _ _ => le_refl _)
  have hdedup : ((List.range sweepRounds).map fun _ => (1 / 2 : ℚ)).dedup.length = 1 := by
    rw [List.map_const']
    show (List.replicate (100 + 1) (1 / 2 : ℚ)).dedup.length = 1
    rw [dedup_replicate_succ]
    rfl
  have hcount : sweepStepCount ((List.range sweepRounds).map fun _ => (1 / 2 : ℚ)) = 2 := by
    have h := sweepStepCount_sorted (1 / 2) ((List.range 100).map fun _ => (1 / 2 : ℚ))
      (by rw [← range_sweepRounds (fun _ => (1 / 2 : ℚ))]; exact hsorted)
    rw [← range_sweepRounds (fun _ => (1 / 2 : ℚ)), hdedup] at h
    rw [h]
    norm_num
  refine ⟨hsorted, hdedup, hcount, ?_⟩
  have hvendor : ¬ (containsText "UAD" "UAD Fairchild" = false
      ∧ containsText "Plugin Alliance" "UAD Fairchild" = false) := by decide
  simp only [CalculateSteppedValue, hvendor, if_false, hcount]
  simp

/-- For an FX whose name contains `UAD` or `Plugin Alliance` and a parameter whose
reported value is non-decreasing over the sweep and is 0.0 in its first round, the
value `stepValue` starts from, the step count of `CalculateSteppedValue` equals the number of distinct
values reported during the sweep, and `SetSteppedValueCount` is called, with that
number for the FX name and the parameter index, exactly when the number lies in
`[2, 30]`. -/
theorem CalculateSteppedValue_counts_distinct (fxName : String) (paramIndex : Int)
    (wasMuted : Bool) (currentValue : ℚ) (TrackFX_GetParam : Nat → ℚ)
    (hvendor : containsText "UAD" fxName = true ∨ containsText "Plugin Alliance" fxName = true)
    (hmono : ∀ j k, j ≤ k → k < sweepRounds → TrackFX_GetParam j ≤ TrackFX_GetParam k)
    (hzero : TrackFX_GetParam 0 = 0) :
    sweepStepCount ((List.range sweepRounds).map TrackFX_GetParam)
      = (((List.range sweepRounds).map TrackFX_GetParam).dedup.length : Int) ∧
    CalculateSteppedValue fxName paramIndex wasMuted currentValue TrackFX_GetParam =
      (if wasMuted = false then [SweepEffect.setSurfaceMute true] else [])
        ++ (List.range sweepRounds).map (fun round => SweepEffect.sweepParam paramIndex round)
        ++ (if 2 ≤ ((List.range sweepRounds).map TrackFX_GetParam).dedup.length
              ∧ ((List.range sweepRounds).map TrackFX_GetParam).dedup.length ≤ 30
            then [SweepEffect.setSteppedValueCount fxName paramIndex
              (((List.range sweepRounds).map TrackFX_GetParam).dedup.length : Int)] else [])
        ++ [SweepEffect.restoreParam paramIndex currentValue]
        ++ (if wasMuted = false then [SweepEffect.setSurfaceMute false] else []) := by
  have hsorted := sorted_sweep TrackFX_GetParam hmono
  have hcount : sweepStepCount ((List.range sweepRounds).map TrackFX_GetParam)
      = (((List.range sweepRounds).map TrackFX_GetParam).dedup.length : Int) := by
    have h := sweepStepCount_sorted (TrackFX_GetParam 0)
      ((List.range 100).map fun k => TrackFX_GetParam (k + 1))
      (by rw [← range_sweepRounds TrackFX_GetParam]; exact hsorted)
    rw [← range_sweepRounds TrackFX_GetParam] at h
    rw [h, if_pos hzero]
    simp
  refine ⟨hcount, ?_⟩
  have hv : ¬ (containsText "UAD" fxName = false
      ∧ containsText "Plugin Alliance" fxName = false) := by
    intro h
    rcases hvendor with h1 | h1
    · rw [h.1] at h1
      cases h1
    · rw [h.2] at h1
      cases h1
  have hiff : ((((List.range sweepRounds).map TrackFX_GetParam).dedup.length : Int) > 1
      ∧ (((List.range sweepRounds).map TrackFX_GetParam).dedup.length : Int) < 31)
      ↔ (2 ≤ ((List.range sweepRounds).map TrackFX_GetParam).dedup.length
        ∧ ((List.range sweepRounds).map TrackFX_GetParam).dedup.length ≤ 30) := by
    constructor
    · intro h
      omega
    · intro h
      omega
  simp only [CalculateSteppedValue, hv, if_false, hcount, hiff]

/-- The theorem `CalculateSteppedValue_counts_distinct` at an FX named `UAD Fairchild`
and a parameter that reports 0 in the first 51 rounds of the sweep and 1 after
them. -/
theorem CalculateSteppedValue_counts_distinct_witness :
    (containsText "UAD" "UAD Fairchild" = true
      ∨ containsText "Plugin Alliance" "UAD Fairchild" = true) ∧
    (∀ j k, j ≤ k → k < sweepRounds →
      (fun round : Nat => if round ≤ 50 then (0 : ℚ) else 1) j
        ≤ (fun round : Nat => if round ≤ 50 then (0 : ℚ) else 1) k) ∧
    (fun round : Nat => if round ≤ 50 then (0 : ℚ) else 1) 0 = 0 ∧
    sweepStepCount ((List.range sweepRounds).map
        fun round : Nat => if round ≤ 50 then (0 : ℚ) else 1)
      = (((List.range sweepRounds).map
        fun round : Nat => if round ≤ 50 then (0 : ℚ) else 1).dedup.length : Int) :=
  have hmono : ∀ j k, j ≤ k → k < sweepRounds →
      (fun round : Nat => if round ≤ 50 then (0 : ℚ) else 1) j
        ≤ (fun round : Nat => if round ≤ 50 then (0 : ℚ) else 1) k := by
    intro j k hjk _
    simp only
    split_ifs with h1 h2 h2
    · exact le_refl _
    · norm_num
    · omega
    · exact le_refl _
  ⟨Or.inl (by decide), hmono, by simp,
   (CalculateSteppedValue_counts_distinct "UAD Fairchild" 3 true 0
      (fun round : Nat => if round ≤ 50 then (0 : ℚ) else 1)
      (Or.inl (by decide)) hmono (by simp)).1⟩

end ZoneManager


namespace ZoneManager

/-! ### Reading a zone file -/

theorem some_getD_of_isSome {α : Type} (o : Option α) (d : α) (h : o.isSome = true) :
    o = some (o.getD d) := by
  cases o with
  | none => cases h
  | some x => rfl

theorem sectionLine_returns (gmv : List String → Int) (st : ZoneFileState)
    (first : String) (more : List String) (hfirst : first ≠ "") :
    ∃ st', sectionLine gmv st (first :: more) first = some st' ∧ st'.zoneName = st.zoneName := by
  unfold sectionLine
  by_cases h1 : first = "IncludedZones"
  · rw [if_pos h1]
    exact ⟨_, rfl, rfl⟩
  rw [if_neg h1]
  by_cases h2 : first = "IncludedZonesEnd"
  · rw [if_pos h2]
    exact ⟨_, rfl, rfl⟩
  rw [if_neg h2]
  by_cases h3 : st.isInIncludedZonesSection = true
  · rw [if_pos h3]
    exact ⟨_, rfl, rfl⟩
  rw [if_neg h3]
  by_cases h4 : first = "SubZones"
  · rw [if_pos h4]
    exact ⟨_, rfl, rfl⟩
  rw [if_neg h4]
  by_cases h5 : first = "SubZonesEnd"
  · rw [if_pos h5]
    exact ⟨_, rfl, rfl⟩
  rw [if_neg h5]
  by_cases h6 : st.isInSubZonesSection = true
  · rw [if_pos h6]
    exact ⟨_, rfl, rfl⟩
  rw [if_neg h6]
  by_cases h7 : first = "AssociatedZones"
  · rw [if_pos h7]
    exact ⟨_, rfl, rfl⟩
  rw [if_neg h7]
  by_cases h8 : first = "AssociatedZonesEnd"
  · rw [if_pos h8]
    exact ⟨_, rfl, rfl⟩
  rw [if_neg h8]
  by_cases h9 : st.isInAssociatedZonesSection = true
  · rw [if_pos h9]
    exact ⟨_, rfl, rfl⟩
  rw [if_neg h9]
  by_cases h10 : (first :: more).length > 1
  · rw [if_pos h10]
    obtain ⟨t, d1, hgroup, -, -, -, hd1, -⟩ := BuildActionTemplate_step gmv (first :: more)
      st.actionTemplatesDictionary h10
      (by simp only [List.getElem?_cons_zero, ne_eq, Option.some.injEq]; exact hfirst)
    rw [hd1, hgroup]
    exact ⟨_, rfl, rfl⟩
  · rw [if_neg h10]
    exact ⟨_, rfl, rfl⟩

/-- The body of the line loop on a line that does not close the zone: the loop goes
on, and the zone name it has then is the name on the last `Zone` line. -/
theorem lineStep_open (gmv : List String → Int) (b e : String) (st : ZoneFileState)
    (raw : String) (hkey : (lineTokens b e raw).head? ≠ some "")
    (hopen : ¬ ((lineTokens b e raw).head? = some "ZoneEnd" ∧ st.zoneName ≠ "")) :
    ∃ st1, lineStep gmv b e st raw = LineStep.next st1 ∧
      st1.zoneName = zoneNameAfter b e st.zoneName [raw] := by
  by_cases hskip1 : TrimLine raw = "" ∨ (TrimLine raw).data.head? = some '/'
  · refine ⟨st, ?_, ?_⟩
    · simp only [lineStep, hskip1, if_true]
    · have : lineTokens b e raw = [] := by
        unfold lineTokens
        rw [if_pos]
        tauto
      simp [zoneNameAfter, this]
  · by_cases hskip2 : TrimLine raw = b ∨ TrimLine raw = e
    · refine ⟨st, ?_, ?_⟩
      · simp only [lineStep, hskip1, hskip2, if_true, if_false]
      · have : lineTokens b e raw = [] := by
          unfold lineTokens
          rw [if_pos]
          tauto
        simp [zoneNameAfter, this]
    · have htok : lineTokens b e raw = GetTokens (TrimLine raw) := by
        unfold lineTokens
        rw [if_neg]
        tauto
      cases htokens : GetTokens (TrimLine raw) with
      | nil =>
        refine ⟨st, ?_, ?_⟩
        · simp only [lineStep, hskip1, hskip2, if_false, htokens]
        · simp [zoneNameAfter, htok, htokens]
      | cons first more =>
        by_cases hzone : first = "Zone"
        · refine ⟨{ st with zoneName := (first :: more)[1]?.getD ""
                            zoneAlias := (first :: more)[2]?.getD "" }, ?_, ?_⟩
          · simp only [lineStep, hskip1, hskip2, if_false, htokens, hzone, if_true]
          · cases more <;> simp [zoneNameAfter, htok, htokens, hzone]
        · have hnoclose : ¬ (first = "ZoneEnd" ∧ st.zoneName ≠ "") := by
            intro hc
            apply hopen
            refine ⟨?_, hc.2⟩
            rw [htok, htokens, hc.1]
            rfl
          have hne : first ≠ "" := by
            intro e0
            apply hkey
            rw [htok, htokens, e0]
            rfl
          obtain ⟨st1, hsec, hsame⟩ := sectionLine_returns gmv st first more hne
          refine ⟨st1, ?_, ?_⟩
          · simp only [lineStep, hskip1, hskip2, if_false, htokens, hzone, hnoclose, hsec]
          · rw [hsame]
            simp [zoneNameAfter, htok, htokens, hzone]

/-- The body of the line loop on a `ZoneEnd` line read while a zone name is in force:
it closes the zone. -/
theorem lineStep_close (gmv : List String → Int) (b e : String) (st : ZoneFileState)
    (raw : String) (hend : (lineTokens b e raw).head? = some "ZoneEnd")
    (hname : st.zoneName ≠ "") :
    lineStep gmv b e st raw = LineStep.close := by
  have hskip : ¬ (TrimLine raw = "" ∨ (TrimLine raw).data.head? = some '/'
      ∨ TrimLine raw = b ∨ TrimLine raw = e) := by
    intro h
    unfold lineTokens at hend
    rw [if_pos h] at hend
    cases hend
  have hskip1 : ¬ (TrimLine raw = "" ∨ (TrimLine raw).data.head? = some '/') := by tauto
  have hskip2 : ¬ (TrimLine raw = b ∨ TrimLine raw = e) := by tauto
  unfold lineTokens at hend
  rw [if_neg hskip] at hend
  cases htokens : GetTokens (TrimLine raw) with
  | nil =>
    rw [htokens] at hend
    cases hend
  | cons first more =>
    rw [htokens] at hend
    have hfirst : first = "ZoneEnd" := by
      simpa using hend
    subst hfirst
    have hzone : ¬ ("ZoneEnd" : String) = "Zone" := by decide
    simp only [lineStep, hskip1, hskip2, if_false, htokens, hzone, hname,
      ne_eq, not_false_eq_true, and_self, if_true]

/-- The line loop over lines none of which closes a zone: it reads them all, and the
zone name it has then is the name on the last `Zone` line. -/
theorem loadZoneFileLines_open (gmv : List String → Int) (b e : String)
    (rangeError : List Char → Bool) (GetWidgetByName : String → Option Widget)
    (GetChannelNumber : ZoneId → Int) (navigators : List Nat)
    (enclosingZone : Option ZoneId) :
    ∀ (pre : List String) (st : ZoneFileState) (zones : List LoadedZone),
      (∀ raw ∈ pre, (lineTokens b e raw).head? ≠ some "") →
      (∀ read raw post, pre = read ++ raw :: post → ¬ ClosesZone b e st.zoneName read raw) →
      ∃ st', stateAfter gmv b e st pre = some st' ∧
        st'.zoneName = zoneNameAfter b e st.zoneName pre ∧
        ∀ rest, loadZoneFileLines gmv b e rangeError GetWidgetByName GetChannelNumber
            navigators enclosingZone (pre ++ rest) st zones
          = loadZoneFileLines gmv b e rangeError GetWidgetByName GetChannelNumber
            navigators enclosingZone rest st' zones := by
  intro pre
  induction pre with
  | nil =>
    intro st zones _ _
    exact ⟨st, rfl, rfl, fun _ => rfl⟩
  | cons raw pre' ih =>
    intro st zones hkey hopen
    have hkey' : ∀ r ∈ pre', (lineTokens b e r).head? ≠ some "" :=
      fun r hr => hkey r (List.mem_cons_of_mem _ hr)
    obtain ⟨st1, hstep, hname⟩ := lineStep_open gmv b e st raw
      (hkey raw (List.mem_cons_self _ _)) (hopen [] raw pre' rfl)
    have hopen1 : ∀ read r post, pre' = read ++ r :: post →
        ¬ ClosesZone b e st1.zoneName read r := by
      intro read r post hsplit hclose
      apply hopen (raw :: read) r post (by rw [hsplit]; rfl)
      refine ⟨hclose.1, ?_⟩
      have h2 := hclose.2
      rw [hname] at h2
      exact h2
    obtain ⟨st', hstate, hst', hrest⟩ := ih st1 zones hkey' hopen1
    refine ⟨st', ?_, ?_, ?_⟩
    · simp only [stateAfter, hstep]
      exact hstate
    · rw [hst', hname]
      rfl
    · intro rest
      rw [List.cons_append]
      simp only [loadZoneFileLines, hstep]
      exact hrest rest

/-- The zone the body of the navigator loop adds bears the navigator, its position
and the zone name in force. -/
theorem buildZone_fields (rangeError : List Char → Bool)
    (GetWidgetByName : String → Option Widget) (GetChannelNumber : ZoneId → Int)
    (st : ZoneFileState) (n : Nat) (enclosingZone : Option ZoneId) (i nav : Nat)
    (z : LoadedZone) (threw : Bool)
    (h : buildZone rangeError GetWidgetByName GetChannelNumber st n enclosingZone i nav
      = some (z, threw)) :
    z.navigator = nav ∧ z.slotIndex = i ∧ z.name = st.zoneName := by
  unfold buildZone at h
  split at h
  · cases h
  · simp only [Option.some.injEq, Prod.mk.injEq] at h
    obtain ⟨hz, -⟩ := h
    subst hz
    exact ⟨rfl, rfl, rfl⟩

/-- The navigator loop when the body throws for no navigator: one zone is added for
each navigator, in order. -/
theorem addZones_all (build : Nat → Nat → Option (LoadedZone × Bool)) (name : String)
    (hfields : ∀ i nav z threw, build i nav = some (z, threw) →
      z.navigator = nav ∧ z.slotIndex = i ∧ z.name = name) :
    ∀ (navigators : List Nat) (i : Nat) (zones : List LoadedZone),
      (∀ j nav, navigators[j]? = some nav →
        (build (i + j) nav).map Prod.snd = some false) →
      ∃ added, addZones build i navigators zones = some (zones ++ added) ∧
        added.map (fun z => z.navigator) = navigators ∧
        added.map (fun z => z.slotIndex) = List.range' i navigators.length ∧
        ∀ z ∈ added, z.name = name := by
  intro navigators
  induction navigators with
  | nil =>
    intro i zones _
    exact ⟨[], by simp [addZones], rfl, rfl, by simp⟩
  | cons nav rest ih =>
    intro i zones hno
    have h0 := hno 0 nav (by simp)
    rw [Nat.add_zero] at h0
    cases hb : build i nav with
    | none =>
      rw [hb] at h0
      cases h0
    | some result =>
      obtain ⟨z, threw⟩ := result
      rw [hb] at h0
      simp only [Option.map_some', Option.some.injEq] at h0
      subst h0
      obtain ⟨hnav, hslot, hname⟩ := hfields i nav z false hb
      obtain ⟨added, hrun, hnavs, hslots, hnames⟩ := ih (i + 1) (zones ++ [z]) (by
        intro j nav' hj
        have := hno (j + 1) nav' (by simpa using hj)
        rw [show i + (j + 1) = i + 1 + j by omega] at this
        exact this)
      refine ⟨z :: added, ?_, ?_, ?_, ?_⟩
      · simp only [addZones, hb]
        rw [hrun, List.append_assoc]
        rfl
      · simp [hnav, hnavs]
      · simp [hslot, hslots, List.range'_succ]
      · intro z' hz'
        rcases List.mem_cons.mp hz' with e0 | hmem
        · rw [e0]
          exact hname
        · exact hnames z' hmem

/-- The navigator loop when the body first throws for the navigator at position `k`:
zones are added for the navigators up to that one, in order, and for no other. -/
theorem addZones_until (build : Nat → Nat → Option (LoadedZone × Bool)) (name : String)
    (hfields : ∀ i nav z threw, build i nav = some (z, threw) →
      z.navigator = nav ∧ z.slotIndex = i ∧ z.name = name) :
    ∀ (navigators : List Nat) (i : Nat) (zones : List LoadedZone) (k nav : Nat),
      navigators[k]? = some nav →
      (∀ j nav', j < k → navigators[j]? = some nav' →
        (build (i + j) nav').map Prod.snd = some false) →
      (build (i + k) nav).map Prod.snd = some true →
      ∃ added, addZones build i navigators zones = some (zones ++ added) ∧
        added.map (fun z => z.navigator) = navigators.take (k + 1) ∧
        added.map (fun z => z.slotIndex) = List.range' i (k + 1) ∧
        ∀ z ∈ added, z.name = name := by
  intro navigators
  induction navigators with
  | nil =>
    intro i zones k nav hk
    simp at hk
  | cons first rest ih =>
    intro i zones k nav hk hbefore hthrow
    cases k with
    | zero =>
      simp only [List.getElem?_cons_zero, Option.some.injEq] at hk
      subst hk
      rw [Nat.add_zero] at hthrow
      cases hb : build i first with
      | none =>
        rw [hb] at hthrow
        cases hthrow
      | some result =>
        obtain ⟨z, threw⟩ := result
        rw [hb] at hthrow
        simp only [Option.map_some', Option.some.injEq] at hthrow
        subst hthrow
        obtain ⟨hnav, hslot, hname⟩ := hfields i first z true hb
        refine ⟨[z], ?_, ?_, ?_, ?_⟩
        · simp only [addZones, hb]
        · simp [hnav]
        · simp [hslot]
        · intro z' hz'
          rw [List.mem_singleton.mp hz']
          exact hname
    | succ k =>
      have h0 := hbefore 0 first (Nat.succ_pos k) (by simp)
      rw [Nat.add_zero] at h0
      cases hb : build i first with
      | none =>
        rw [hb] at h0
        cases h0
      | some result =>
        obtain ⟨z, threw⟩ := result
        rw [hb] at h0
        simp only [Option.map_some', Option.some.injEq] at h0
        subst h0
        obtain ⟨hnav, hslot, hname⟩ := hfields i first z false hb
        obtain ⟨added, hrun, hnavs, hslots, hnames⟩ := ih (i + 1) (zones ++ [z]) k nav
          (by simpa using hk)
          (by
            intro j nav' hj hget
            have := hbefore (j + 1) nav' (Nat.succ_lt_succ hj) (by simpa using hget)
            rw [show i + (j + 1) = i + 1 + j by omega] at this
            exact this)
          (by
            rw [show i + 1 + k = i + (k + 1) by omega]
            exact hthrow)
        refine ⟨z :: added, ?_, ?_, ?_, ?_⟩
        · simp only [addZones, hb]
          rw [hrun, List.append_assoc]
          rfl
        · simp [hnav, hnavs]
        · rw [List.map_cons, hslot, hslots]
          simp [List.range'_succ]
        · intro z' hz'
          rcases List.mem_cons.mp hz' with e0 | hmem
          · rw [e0]
            exact hname
          · exact hnames z' hmem

/-- C30, amended: `LoadZoneFile` reads a file up to the first `ZoneEnd` line that is
read while a zone name is in force, and the result is the same whatever lines
follow, be they further `Zone ... ZoneEnd` blocks or none.  At that line the local
variables are `st`, and the zones of the navigators are built in navigator order.
When no body of the navigator loop throws, the call returns with one zone added to
the output list for each navigator, in navigator order and with the position of the
navigator as slot index, all bearing the name in force.  When the body first throws
for the navigator at position `k`, the handler of line 829 ends the call with the
zones of the navigators at the positions `0` to `k` added, and no other.  When the
file has no such `ZoneEnd` line, the call returns the output list as it was.  All
this holds for files in which no line starts with an empty quoted token. -/
theorem LoadZoneFile_first_zone_only (gmv : List String → Int) (b e : String)
    (rangeError : List Char → Bool) (GetWidgetByName : String → Option Widget)
    (GetChannelNumber : ZoneId → Int) (navigators : List Nat) (zones : List LoadedZone)
    (enclosingZone : Option ZoneId) :
    (∀ (pre : List String) (raw : String) (post : List String),
      (∀ r ∈ pre, (lineTokens b e r).head? ≠ some "") →
      ClosesZone b e "" pre raw →
      (∀ read r after, pre = read ++ r :: after → ¬ ClosesZone b e "" read r) →
      ∃ st, stateAfter gmv b e ZoneFileState.initial pre = some st ∧
        st.zoneName = zoneNameAfter b e "" pre ∧
        LoadZoneFile gmv b e rangeError GetWidgetByName GetChannelNumber
            (pre ++ raw :: post) navigators zones enclosingZone
          = LoadZoneFile gmv b e rangeError GetWidgetByName GetChannelNumber
            (pre ++ [raw]) navigators zones enclosingZone ∧
        ((∀ i nav, navigators[i]? = some nav →
            (buildZone rangeError GetWidgetByName GetChannelNumber st navigators.length
              enclosingZone i nav).map Prod.snd = some false) →
          ∃ added, LoadZoneFile gmv b e rangeError GetWidgetByName GetChannelNumber
              (pre ++ raw :: post) navigators zones enclosingZone = some (zones ++ added) ∧
            added.length = navigators.length ∧
            added.map (fun z => z.navigator) = navigators ∧
            added.map (fun z => z.slotIndex) = List.range navigators.length ∧
            ∀ z ∈ added, z.name = zoneNameAfter b e "" pre) ∧
        (∀ k nav, navigators[k]? = some nav →
          (∀ i nav', i < k → navigators[i]? = some nav' →
            (buildZone rangeError GetWidgetByName GetChannelNumber st navigators.length
              enclosingZone i nav').map Prod.snd = some false) →
          (buildZone rangeError GetWidgetByName GetChannelNumber st navigators.length
            enclosingZone k nav).map Prod.snd = some true →
          ∃ added, LoadZoneFile gmv b e rangeError GetWidgetByName GetChannelNumber
              (pre ++ raw :: post) navigators zones enclosingZone = some (zones ++ added) ∧
            added.length = k + 1 ∧
            added.map (fun z => z.navigator) = navigators.take (k + 1) ∧
            added.map (fun z => z.slotIndex) = List.range (k + 1) ∧
            ∀ z ∈ added, z.name = zoneNameAfter b e "" pre)) ∧
    (∀ (lines : List String),
      (∀ r ∈ lines, (lineTokens b e r).head? ≠ some "") →
      (∀ read r after, lines = read ++ r :: after → ¬ ClosesZone b e "" read r) →
      LoadZoneFile gmv b e rangeError GetWidgetByName GetChannelNumber lines navigators zones
        enclosingZone = some zones) := by
  constructor
  · intro pre raw post hkey hclose hopen
    obtain ⟨st, hstate, hname, hrun⟩ := loadZoneFileLines_open gmv b e rangeError
      GetWidgetByName GetChannelNumber navigators enclosingZone pre ZoneFileState.initial
      zones hkey hopen
    have hname0 : st.zoneName = zoneNameAfter b e "" pre := hname
    have hforce : st.zoneName ≠ "" := by
      rw [hname0]
      exact hclose.2
    have hstep := lineStep_close gmv b e st raw hclose.1 hforce
    have hall : ∀ after, LoadZoneFile gmv b e rangeError GetWidgetByName GetChannelNumber
        (pre ++ raw :: after) navigators zones enclosingZone
        = addZones (buildZone rangeError GetWidgetByName GetChannelNumber st
            navigators.length enclosingZone) 0 navigators zones := by
      intro after
      unfold LoadZoneFile
      rw [hrun]
      simp only [loadZoneFileLines, hstep]
    have hfields : ∀ i nav z threw,
        buildZone rangeError GetWidgetByName GetChannelNumber st navigators.length
          enclosingZone i nav = some (z, threw) →
        z.navigator = nav ∧ z.slotIndex = i ∧ z.name = st.zoneName :=
      fun i nav z threw h => buildZone_fields rangeError GetWidgetByName GetChannelNumber st
        navigators.length enclosingZone i nav z threw h
    refine ⟨st, hstate, hname0, ?_, ?_, ?_⟩
    · rw [hall post, hall []]
    · intro hno
      obtain ⟨added, hadd, hnavs, hslots, hnames⟩ := addZones_all _ st.zoneName hfields
        navigators 0 zones (by
          intro j nav hj
          rw [Nat.zero_add]
          exact hno j nav hj)
      refine ⟨added, ?_, ?_, hnavs, ?_, ?_⟩
      · rw [hall post, hadd]
      · have := congrArg List.length hnavs
        simpa using this
      · rw [hslots, List.range_eq_range']
      · intro z hz
        rw [hnames z hz, hname0]
    · intro k nav hk hbefore hthrow
      obtain ⟨added, hadd, hnavs, hslots, hnames⟩ := addZones_until _ st.zoneName hfields
        navigators 0 zones k nav hk
        (by
          intro j nav' hj hget
          rw [Nat.zero_add]
          exact hbefore j nav' hj hget)
        (by
          rw [Nat.zero_add]
          exact hthrow)
      have hlt : k < navigators.length := by
        by_contra hge
        rw [List.getElem?_eq_none (Nat.le_of_not_lt hge)] at hk
        cases hk
      refine ⟨added, ?_, ?_, hnavs, ?_, ?_⟩
      · rw [hall post, hadd]
      · have := congrArg List.length hnavs
        simp only [List.length_map, List.length_take] at this
        omega
      · rw [hslots, List.range_eq_range']
      · intro z hz
        rw [hnames z hz, hname0]
  · intro lines hkey hopen
    obtain ⟨st, -, -, hrun⟩ := loadZoneFileLines_open gmv b e rangeError
      GetWidgetByName GetChannelNumber navigators enclosingZone lines ZoneFileState.initial
      zones hkey hopen
    have := hrun []
    rw [List.append_nil] at this
    unfold LoadZoneFile
    rw [this]
    rfl

/-- The theorem `LoadZoneFile_first_zone_only` at two files.  For the file with the
zones `Home` and `Buttons` and three navigators no context constructor throws: three
zones named `Home` are added, one for each navigator, and none for `Buttons`.  For
the file whose binding carries the tick value `(99999999999)` and two navigators the
constructor throws for the first navigator: the zone of that navigator is added and
no other. -/
theorem LoadZoneFile_first_zone_only_witness :
    (∀ r ∈ ["Zone Home", "  Fader1 TrackVolume", "// a comment"],
      (lineTokens "#Begin" "#End" r).head? ≠ some "") ∧
    ClosesZone "#Begin" "#End" ""
      ["Zone Home", "  Fader1 TrackVolume", "// a comment"] "ZoneEnd" ∧
    (∃ added, LoadZoneFile (shiftOnlyModifierValue 4) "#Begin" "#End" overflowRangeError
        fader1Surface (fun _ => 0) twoZoneFile [10, 11, 12] [] none = some ([] ++ added) ∧
      added.length = [10, 11, 12].length ∧
      added.map (fun z => z.navigator) = [10, 11, 12] ∧
      added.map (fun z => z.slotIndex) = List.range [10, 11, 12].length ∧
      (∀ z ∈ added, z.name = "Home")) ∧
    ClosesZone "#Begin" "#End" ""
      ["Zone Home", "Fader1 FXParam 1 [ (99999999999) ]"] "ZoneEnd" ∧
    (∃ added, LoadZoneFile (shiftOnlyModifierValue 4) "#Begin" "#End" overflowRangeError
        fader1Surface (fun _ => 0) largeTickFile [10, 11] [] none = some ([] ++ added) ∧
      added.length = 0 + 1 ∧
      added.map (fun z => z.navigator) = [10] ∧
      added.map (fun z => z.slotIndex) = [0] ∧
      (∀ z ∈ added, z.name = "Home")) := by
  have hkey : ∀ r ∈ ["Zone Home", "  Fader1 TrackVolume", "// a comment"],
      (lineTokens "#Begin" "#End" r).head? ≠ some "" := by decide
  have hclose : ClosesZone "#Begin" "#End" ""
      ["Zone Home", "  Fader1 TrackVolume", "// a comment"] "ZoneEnd" := by
    unfold ClosesZone
    decide
  have hopen : ∀ read r after,
      ["Zone Home", "  Fader1 TrackVolume", "// a comment"] = read ++ r :: after →
      ¬ ClosesZone "#Begin" "#End" "" read r := by
    intro read r after hsplit hc
    have hr : r ∈ ["Zone Home", "  Fader1 TrackVolume", "// a comment"] := by
      rw [hsplit]
      simp
    have hno : ∀ x ∈ ["Zone Home", "  Fader1 TrackVolume", "// a comment"],
        (lineTokens "#Begin" "#End" x).head? ≠ some "ZoneEnd" := by decide
    exact hno r hr hc.1
  have hkey2 : ∀ r ∈ ["Zone Home", "Fader1 FXParam 1 [ (99999999999) ]"],
      (lineTokens "#Begin" "#End" r).head? ≠ some "" := by decide
  have hclose2 : ClosesZone "#Begin" "#End" ""
      ["Zone Home", "Fader1 FXParam 1 [ (99999999999) ]"] "ZoneEnd" := by
    unfold ClosesZone
    decide
  have hopen2 : ∀ read r after,
      ["Zone Home", "Fader1 FXParam 1 [ (99999999999) ]"] = read ++ r :: after →
      ¬ ClosesZone "#Begin" "#End" "" read r := by
    intro read r after hsplit hc
    have hr : r ∈ ["Zone Home", "Fader1 FXParam 1 [ (99999999999) ]"] := by
      rw [hsplit]
      simp
    have hno : ∀ x ∈ ["Zone Home", "Fader1 FXParam 1 [ (99999999999) ]"],
        (lineTokens "#Begin" "#End" x).head? ≠ some "ZoneEnd" := by decide
    exact hno r hr hc.1
  obtain ⟨st, hstate, -, -, hall, -⟩ :=
    (LoadZoneFile_first_zone_only (shiftOnlyModifierValue 4) "#Begin" "#End"
      overflowRangeError fader1Surface (fun _ => 0) [10, 11, 12] [] none).1
      ["Zone Home", "  Fader1 TrackVolume", "// a comment"] "ZoneEnd"
      ["Zone Buttons", "  Play Play", "ZoneEnd"] hkey hclose hopen
  have hhome : stateAfter (shiftOnlyModifierValue 4) "#Begin" "#End" ZoneFileState.initial
      ["Zone Home", "  Fader1 TrackVolume", "// a comment"] = some homeState :=
    some_getD_of_isSome _ _ (by decide)
  rw [hhome] at hstate
  obtain rfl := Option.some.inj hstate
  obtain ⟨added, hrun, hlen, hnav, hslot, hnames⟩ := hall (by
    intro i nav hi
    match i, hi with
    | 0, hi =>
      obtain rfl : 10 = nav := by simpa using hi
      decide
    | 1, hi =>
      obtain rfl : 11 = nav := by simpa using hi
      decide
    | 2, hi =>
      obtain rfl : 12 = nav := by simpa using hi
      decide
    | n + 3, hi => simp at hi)
  obtain ⟨st2, hstate2, -, -, -, huntil⟩ :=
    (LoadZoneFile_first_zone_only (shiftOnlyModifierValue 4) "#Begin" "#End"
      overflowRangeError fader1Surface (fun _ => 0) [10, 11] [] none).1
      ["Zone Home", "Fader1 FXParam 1 [ (99999999999) ]"] "ZoneEnd" [] hkey2 hclose2 hopen2
  have hlarge : stateAfter (shiftOnlyModifierValue 4) "#Begin" "#End" ZoneFileState.initial
      ["Zone Home", "Fader1 FXParam 1 [ (99999999999) ]"] = some largeTickState :=
    some_getD_of_isSome _ _ (by decide)
  rw [hlarge] at hstate2
  obtain rfl := Option.some.inj hstate2
  obtain ⟨added2, hrun2, hlen2, hnav2, hslot2, hnames2⟩ := huntil 0 10 rfl
    (fun i nav' hi _ => absurd hi (Nat.not_lt_zero i)) (by decide)
  refine ⟨hkey, hclose, ⟨added, hrun, hlen, hnav, hslot, ?_⟩, hclose2,
    ⟨added2, hrun2, hlen2, hnav2, hslot2, ?_⟩⟩
  · intro z hz
    rw [hnames z hz]
    decide
  · intro z hz
    rw [hnames2 z hz]
    decide

/-- C30, as stated, fails: the file `largeTickFile` has a `ZoneEnd` line
that follows the named `Zone` line, the surface has the widget `Fader1` and two
navigators are supplied, yet the call returns with one zone in the output list, the
zone of the first navigator, and not with one zone for each navigator.  The
constructor of the context of the binding throws in `stoi` (line 919) on the tick
value `(99999999999)`, after the zone of the first navigator was added (line 732),
and the handler of line 829 ends the call. -/
theorem LoadZoneFile_zone_per_navigator_fails :
    ClosesZone "#Begin" "#End" "" ["Zone Home", "Fader1 FXParam 1 [ (99999999999) ]"]
      "ZoneEnd" ∧
    (LoadZoneFile (shiftOnlyModifierValue 4) "#Begin" "#End" overflowRangeError
      fader1Surface (fun _ => 0) largeTickFile [10, 11] [] none).map
        (fun added => added.map fun z => z.navigator) = some [10] ∧
    ¬ ∃ added, LoadZoneFile (shiftOnlyModifierValue 4) "#Begin" "#End" overflowRangeError
        fader1Surface (fun _ => 0) largeTickFile [10, 11] [] none = some ([] ++ added) ∧
      added.length = [10, 11].length := by
  have hrun : (LoadZoneFile (shiftOnlyModifierValue 4) "#Begin" "#End" overflowRangeError
      fader1Surface (fun _ => 0) largeTickFile [10, 11] [] none).map
        (fun added => added.map fun z => z.navigator) = some [10] := by decide
  refine ⟨by unfold ClosesZone; decide, hrun, ?_⟩
  rintro ⟨added, hadd, hlen⟩
  rw [hadd] at hrun
  simp only [List.nil_append, Option.map_some', Option.some.injEq] at hrun
  have := congrArg List.length hrun
  simp only [List.length_map] at this
  rw [this] at hlen
  cases hlen

end ZoneManager

end CSI
